import Mathlib

/-!
# A shallow embedding of the `libcache` skeletal cache engine

This file embeds, in Lean 4, the core of the `libcache` Go library:

* the skeletal engine `internal.Cache` (`internal/cache.go`): the entry
  index, the pluggable ordering collection, the expiring min-heap with
  index back-pointers, lazy GC, events;
* the Go `container/heap` sift routines (`up`, `down`, `Push`, `Pop`,
  `Remove`) specialised to `expiringHeap`;
* the ARC meta policy (`arc/arc.go`) built from four LRU sub-caches.

Modelling conventions:

* Go `interface{}` keys and values become `Option Nat`; the untyped `nil`
  is `none` (so a miss returning `nil` and a stored `nil` value coincide
  exactly as they do in Go).
* `time.Time` becomes `Int`; the zero `time.Time` (entries without TTL)
  is `0`; `time.Duration` becomes `Int`.  Operations receive the current
  instant `now` explicitly where the Go code calls `time.Now()`.
* Go pointers `*Entry` become entry ids (`Nat`) allocated from a counter;
  the id-indexed store `estore` plays the role of the Go heap memory, so
  that mutation of an entry's `index` field through the expiring heap is
  visible through the entry index, exactly as pointer aliasing makes it
  in Go.  Allocation of `&Entry{...}` is an insertion into `estore`.
* `c.entries` (the Go map) is an association list key ↦ id; Go map
  iteration order is modelled by list order (all claims treated here are
  insensitive to that order).
* event fan-out: the `trace` field logs every `emit` call, and each
  subscriber (`Sub`) accumulates the events its mask selects in `inbox`
  (modelling the events offered to its channel; channel capacity and the
  non-blocking drop are outside this model).
* loops become fuel-based structural recursions so that every definition
  computes by kernel reduction; each caller passes fuel that provably
  dominates the Go loop's iteration count.
-/

set_option maxHeartbeats 4000000

namespace Libcache

/-- Go `interface{}` used as a key; `none` is the untyped `nil`. -/
abbrev GoKey := Option Nat

/-- Go `interface{}` used as a value; `none` is the untyped `nil`. -/
abbrev GoVal := Option Nat

/-- `internal.Op` (`Read Op = iota + 1`). -/
inductive Op where
  | Read
  | Write
  | Remove
deriving DecidableEq, Repr

/-- The numeric value of an `Op` constant: `Read = 1`, `Write = 2`, `Remove = 3`. -/
def Op.code : Op → Nat
  | .Read => 1
  | .Write => 2
  | .Remove => 3

/-- `internal.Event`. -/
structure Event where
  op : Op
  key : GoKey
  value : GoVal
  expiry : Int
  ok : Bool
deriving DecidableEq, Repr

/-- `internal.handler`: the one-byte operation mask (all op codes are `< 8`,
so the Go array `[((maxOp-1)+7)/8]uint8` has a single byte). -/
structure Handler where
  mask : Nat
deriving DecidableEq, Repr

/-- `handler.want`: `(h.mask[op/8] >> (op&7)) & 1 != 0`. -/
def Handler.want (h : Handler) (op : Op) : Bool :=
  (h.mask >>> op.code) &&& 1 ≠ 0

/-- `handler.set` for a raw op code: `h.mask[op/8] |= 1 << (op&7)`. -/
def Handler.setCode (h : Handler) (code : Nat) : Handler :=
  { mask := h.mask ||| (1 <<< code) }

/-- `handler.clear` for a raw op code: `h.mask[op/8] &^= 1 << (op&7)`
(`&^` on a `uint8` is conjunction with the complemented byte). -/
def Handler.clearCode (h : Handler) (code : Nat) : Handler :=
  { mask := h.mask &&& (255 ^^^ (1 <<< code)) }

/-- One registered subscriber: a channel (identified by `ch`), its handler
mask, and the events offered to the channel so far. -/
structure Sub where
  ch : Nat
  h : Handler
  inbox : List Event
deriving DecidableEq, Repr

/-- `internal.Entry`.  The collection back pointer `Element` is realised by
membership of the entry id in the collection list; `index` is the expiring
heap back pointer (zero-valued on creation, like the Go field). -/
structure Entry where
  key : GoKey
  value : GoVal
  exp : Int
  index : Nat
deriving DecidableEq, Repr

/-- Association-list lookup (first binding wins, like a Go map with unique
keys). -/
def alookup {α β : Type} [DecidableEq α] : List (α × β) → α → Option β
  | [], _ => none
  | p :: ps, k => if p.1 = k then some p.2 else alookup ps k

/-- Association-list insertion or replacement (`m[k] = v`). -/
def aset {α β : Type} [DecidableEq α] : List (α × β) → α → β → List (α × β)
  | [], k, v => [(k, v)]
  | p :: ps, k, v => if p.1 = k then (k, v) :: ps else p :: aset ps k v

/-- Association-list removal (`delete(m, k)`). -/
def aerase {α β : Type} [DecidableEq α] : List (α × β) → α → List (α × β)
  | [], _ => []
  | p :: ps, k => if p.1 = k then ps else p :: aerase ps k

/-- In-place update of the value bound to a key (a Go field assignment
through a pointer). -/
def aupd {α β : Type} [DecidableEq α] : List (α × β) → α → (β → β) → List (α × β)
  | [], _, _ => []
  | p :: ps, k, f => if p.1 = k then (p.1, f p.2) :: ps else p :: aupd ps k f

/-- `internal.Cache`. -/
structure Cache where
  coll : List Nat
  heap : List Nat
  entries : List (GoKey × Nat)
  estore : List (Nat × Entry)
  nextId : Nat
  subs : List Sub
  ttl : Int
  capacity : Int
  trace : List Event
deriving DecidableEq, Repr

/-- The default `Entry` an out-of-range access would denote; never reached
from states satisfying the engine invariant. -/
def dummyEntry : Entry := { key := none, value := none, exp := 0, index := 0 }

/-- Dereference an entry id (a Go pointer dereference). -/
def Cache.ent (c : Cache) (id : Nat) : Entry :=
  (alookup c.estore id).getD dummyEntry

/-- The id in heap slot `i` (`c.heap[i]`). -/
def Cache.hid (c : Cache) (i : Nat) : Nat :=
  c.heap.getD i 0

/-- The expiration instant in heap slot `i` (`c.heap[i].Exp`). -/
def Cache.expAt (c : Cache) (i : Nat) : Int :=
  (c.ent (c.hid i)).exp

/-- `internal.Collection`: the pluggable ordering policy.  All concrete
collections of the library keep their entries in a flat sequence (a linked
list or a slice), so the policy state is a list of entry ids; `Len` is its
length and `Init` resets it to nil. -/
structure Collection where
  Move : List Nat → Nat → List Nat
  Add : List Nat → Nat → List Nat
  Remove : List Nat → Nat → List Nat
  Discard : List Nat → Option Nat × List Nat
  Front : List Nat → Option Nat
  Back : List Nat → Option Nat

/-- `expiringHeap.Swap`: first the two entries' `index` fields are swapped
(`cq[i].index, cq[j].index = cq[j].index, cq[i].index`), then the slots. -/
def hSwap (c : Cache) (i j : Nat) : Cache :=
  let a := c.hid i
  let b := c.hid j
  let ia := (c.ent a).index
  let ib := (c.ent b).index
  { c with
    estore := aupd (aupd c.estore a (fun e => { e with index := ib })) b
        (fun e => { e with index := ia }),
    heap := (c.heap.set i b).set j a }

/-- `container/heap.up` specialised to `expiringHeap`
(`h.Less(j, i)` is `cq[j].Exp.Before(cq[i].Exp)`; the parent
`i := (j-1)/2` is written inline).  The loop strictly decreases `j`, so
any fuel `> j` runs it to completion. -/
def upFuel (c : Cache) (j : Nat) : Nat → Cache
  | 0 => c
  | fuel + 1 =>
    if (j - 1) / 2 = j ∨ ¬(c.expAt j < c.expAt ((j - 1) / 2)) then c
    else upFuel (hSwap c ((j - 1) / 2) j) ((j - 1) / 2) fuel

/-- `container/heap.up` with adequate fuel. -/
def upH (c : Cache) (j : Nat) : Cache := upFuel c j (j + 1)

/-- The child `down` steps to from position `i`: the left child
`j1 = 2*i+1`, or the right child `j2 = j1+1` when it is in range and
smaller. -/
def djSel (c : Cache) (i n : Nat) : Nat :=
  if 2 * i + 1 + 1 < n ∧ c.expAt (2 * i + 1 + 1) < c.expAt (2 * i + 1) then 2 * i + 1 + 1
  else 2 * i + 1

/-- `container/heap.down`, returning the final position of the sifted
element (the Go function returns `i > i0`).  The Go guard `j1 < 0` defends
against machine-int overflow and cannot fire on `Nat`.  The position
strictly increases while `2*i+1 < n`, so fuel `n` runs the loop to
completion. -/
def downFuel (c : Cache) (i n : Nat) : Nat → Cache × Nat
  | 0 => (c, i)
  | fuel + 1 =>
    if 2 * i + 1 ≥ n then (c, i)
    else if ¬(c.expAt (djSel c i n) < c.expAt i) then (c, i)
    else downFuel (hSwap c i (djSel c i n)) (djSel c i n) n fuel

/-- `container/heap.down` with adequate fuel. -/
def downH (c : Cache) (i n : Nat) : Cache × Nat := downFuel c i n n

/-- `heap.Push(&c.heap, e)`: `expiringHeap.Push` (set `index` to the length,
append) followed by `up` on the last slot. -/
def heapPushGo (c : Cache) (id : Nat) : Cache :=
  let c1 : Cache :=
    { c with
      estore := aupd c.estore id (fun e => { e with index := c.heap.length }),
      heap := c.heap ++ [id] }
  upH c1 (c1.heap.length - 1)

/-- `heap.Pop(&c.heap)`: swap the root with the last slot, `down` within the
shrunk range, then `expiringHeap.Pop` (return and drop the last slot).  The
engine only calls this on a non-empty heap (in Go an empty heap would
panic), so the `none` branch is unreachable there. -/
def heapPopGo (c : Cache) : Cache × Option Nat :=
  if c.heap.length = 0 then (c, none)
  else
    let n := c.heap.length - 1
    let c1 := hSwap c 0 n
    let c2 := (downH c1 0 n).1
    ({ c2 with heap := c2.heap.dropLast }, some (c2.hid n))

/-- The `n != i` body of `heap.Remove`: `h.Swap(i, n); if !down(h, i, n) { up(h, i) }`
(`down` returned the final position, so "`!down`" is "the position did not
move past `i`"). -/
def heapRemoveAux (c : Cache) (i n : Nat) : Cache :=
  if i < (downH (hSwap c i n) i n).2 then (downH (hSwap c i n) i n).1
  else upH (downH (hSwap c i n) i n).1 i

/-- `heap.Remove(&c.heap, i)`: if `i` is not the last slot, swap it with the
last slot and re-sift; then `h.Pop()` drops the last slot.  Callers guard
`i < len(c.heap)`; the outer emptiness test only totalises the model. -/
def heapRemoveGo (c : Cache) (i : Nat) : Cache :=
  if c.heap.length = 0 then c
  else if c.heap.length - 1 ≠ i then
    { heapRemoveAux c i (c.heap.length - 1) with
      heap := (heapRemoveAux c i (c.heap.length - 1)).heap.dropLast }
  else { c with heap := c.heap.dropLast }

/-- `Cache.emit`: log the event and offer it to every subscriber whose mask
wants the op. -/
def emit (c : Cache) (op : Op) (k : GoKey) (v : GoVal) (exp : Int) (ok : Bool) : Cache :=
  let ev : Event := { op := op, key := k, value := v, expiry := exp, ok := ok }
  { c with
    trace := c.trace ++ [ev],
    subs := c.subs.map fun s =>
      if s.h.want op then { s with inbox := s.inbox ++ [ev] } else s }

/-- The guard of `Cache.removeEntry`:
`len(c.heap) > 0 && e.index < len(c.heap) && e.Key == c.heap[e.index].Key`.
Its negation is how the code decides an entry is *not* in the heap. -/
def heapHasEntry (c : Cache) (e : Entry) : Prop :=
  0 < c.heap.length ∧ e.index < c.heap.length ∧ e.key = (c.ent (c.hid e.index)).key

instance (c : Cache) (e : Entry) : Decidable (heapHasEntry c e) := by
  unfold heapHasEntry; infer_instance

/-- `Cache.removeEntry`: remove from the collection, delete from the index,
and remove the heap slot `e.index` when that slot still holds an entry with
the same key. -/
def removeEntryC (L : Collection) (c : Cache) (id : Nat) : Cache :=
  let e := c.ent id
  let c1 :=
    { c with coll := L.Remove c.coll id, entries := aerase c.entries e.key }
  if heapHasEntry c1 e then heapRemoveGo c1 e.index
  else c1

/-- `Cache.evict`: remove the entry and emit `REMOVE`. -/
def evictC (L : Collection) (c : Cache) (id : Nat) : Cache :=
  let c1 := removeEntryC L c id
  let e := c1.ent id
  emit c1 .Remove e.key e.value e.exp false

/-- `Cache.Discard`: ask the collection for its next victim and evict it.
The collection's `Discard` already removed the victim from its internal
sequence, so the `Remove` issued by the subsequent `evict` is a no-op on
the collection, exactly as in Go where `list.Remove` on a detached element
does nothing. -/
def Cache.Discard (L : Collection) (c : Cache) : Cache × (GoKey × GoVal) :=
  match L.Discard c.coll with
  | (some id, s) =>
    let c1 : Cache := { c with coll := s }
    let c2 := evictC L c1 id
    (c2, ((c1.ent id).key, (c1.ent id).value))
  | (none, s) => ({ c with coll := s }, (none, none))

/-- The loop body of `Cache.GC` with fuel; every iteration pops the heap, so
the initial heap length is adequate fuel. -/
def gcFuel (L : Collection) (c : Cache) (now : Int) : Nat → Cache × Int
  | 0 => (c, 0)
  | fuel + 1 =>
    if c.heap.length = 0 then (c, 0)
    else if now < c.expAt 0 then (c, c.expAt 0 - now)
    else
      match heapPopGo c with
      | (c1, some id) => gcFuel L (evictC L c1 id) now fuel
      | (c1, none) => (c1, 0)

/-- `Cache.GC`: evict every expired root, then report the time to the next
expiration (`0` when the heap is empty). -/
def Cache.GC (L : Collection) (c : Cache) (now : Int) : Cache × Int :=
  gcFuel L c now c.heap.length

/-- `Cache.get`: lazy GC, then look up; misses emit a failed `READ`, hits
`Move` (unless peeking) and emit a successful `READ`. -/
def getC (L : Collection) (c : Cache) (now : Int) (key : GoKey) (peek : Bool) :
    Cache × (GoVal × Bool) :=
  let c := (Cache.GC L c now).1
  match alookup c.entries key with
  | none => (emit c .Read key none 0 false, (none, false))
  | some id =>
    let c := if ¬peek then { c with coll := L.Move c.coll id } else c
    let e := c.ent id
    (emit c .Read key e.value e.exp true, (e.value, true))

/-- `Cache.Load`. -/
def Cache.Load (L : Collection) (c : Cache) (now : Int) (key : GoKey) :
    Cache × (GoVal × Bool) :=
  getC L c now key false

/-- `Cache.Peek`. -/
def Cache.Peek (L : Collection) (c : Cache) (now : Int) (key : GoKey) :
    Cache × (GoVal × Bool) :=
  getC L c now key true

/-- `Cache.Contains`: `_, ok = c.Peek(key)`. -/
def Cache.Contains (L : Collection) (c : Cache) (now : Int) (key : GoKey) :
    Cache × Bool :=
  let r := Cache.Peek L c now key
  (r.1, r.2.2)

/-- `Cache.Expiry`: `ok = c.Contains(key)`; when present, the entry's `Exp`
(zero-valued for entries without TTL). -/
def Cache.Expiry (L : Collection) (c : Cache) (now : Int) (key : GoKey) :
    Cache × (Int × Bool) :=
  let r := Cache.Contains L c now key
  if r.2 then
    (r.1, (((alookup r.1.entries key).map fun id => (r.1.ent id).exp).getD 0, true))
  else (r.1, (0, false))

/-- The first half of `Cache.StoreWithTTL`, up to and including
`c.entries[key] = e` (the point right before the capacity admission check):
lazy GC; silent removal of an existing entry; allocation of
`e := &Entry{...}` (the insertion of a fresh id into `estore`); the TTL
branch with the heap push; the index insertion.  Returns the state and the
new entry's id. -/
def storeMid (L : Collection) (c : Cache) (now : Int) (key : GoKey)
    (value : GoVal) (ttl : Int) : Cache × Nat :=
  let c := (Cache.GC L c now).1
  let c := match alookup c.entries key with
           | some id => removeEntryC L c id
           | none => c
  let id := c.nextId
  let c : Cache :=
    { c with
      estore := c.estore ++ [(id, { key := key, value := value, exp := 0, index := 0 })],
      nextId := id + 1 }
  let c := if 0 < ttl then
             heapPushGo
               { c with estore := aupd c.estore id fun e => { e with exp := now + ttl } } id
           else c
  ({ c with entries := aset c.entries key id }, id)

/-- The capacity admission guard of `Cache.StoreWithTTL`:
`c.capacity != 0 && c.Len() >= c.capacity` (note `c.Len()` is the
*collection's* length, which does not yet include the new entry). -/
def storeAdmits (c : Cache) : Prop :=
  c.capacity ≠ 0 ∧ (c.coll.length : Int) ≥ c.capacity

instance (c : Cache) : Decidable (storeAdmits c) := by
  unfold storeAdmits; infer_instance

/-- `Cache.StoreWithTTL`: the mid stage, then the admission check (one
`Discard` when it fires), `coll.Add`, and the `WRITE` event. -/
def Cache.StoreWithTTL (L : Collection) (c : Cache) (now : Int) (key : GoKey)
    (value : GoVal) (ttl : Int) : Cache :=
  let m := storeMid L c now key value ttl
  let id := m.2
  let c := m.1
  let c := if storeAdmits c then (Cache.Discard L c).1 else c
  let c : Cache := { c with coll := L.Add c.coll id }
  emit c .Write key value (c.ent id).exp false

/-- `Cache.Store`: `StoreWithTTL` with the default TTL. -/
def Cache.Store (L : Collection) (c : Cache) (now : Int) (key : GoKey)
    (value : GoVal) : Cache :=
  Cache.StoreWithTTL L c now key value c.ttl

/-- `Cache.Update`: lazy GC, then — when `Contains` (which itself peeks and
emits a `READ`) succeeds — replace the value in place and emit `WRITE`. -/
def Cache.Update (L : Collection) (c : Cache) (now : Int) (key : GoKey)
    (value : GoVal) : Cache :=
  let c := (Cache.GC L c now).1
  let r := Cache.Contains L c now key
  if r.2 then
    match alookup r.1.entries key with
    | some id =>
      let c2 : Cache :=
        { r.1 with estore := aupd r.1.estore id fun e => { e with value := value } }
      emit c2 .Write key value (c2.ent id).exp false
    | none => r.1
  else r.1

/-- `Cache.Purge`: with no subscribers, reset the index and the heap;
otherwise evict (emitting `REMOVE`) every entry.  The deferred
`coll.Init()` empties the collection in both paths. -/
def Cache.Purge (L : Collection) (c : Cache) : Cache :=
  if c.subs.isEmpty then { c with entries := [], heap := [], coll := [] }
  else
    let c1 := c.entries.foldl (fun acc p => evictC L acc p.2) c
    { c1 with coll := [] }

/-- The `Resize` eviction loop. -/
def discardN (L : Collection) (c : Cache) : Nat → Cache
  | 0 => c
  | n + 1 => discardN L (Cache.Discard L c).1 n

/-- `Cache.Resize`: set the capacity and discard the overflow, returning the
number evicted. -/
def Cache.Resize (L : Collection) (c : Cache) (size : Int) : Cache × Int :=
  let c : Cache := { c with capacity := size }
  let diff := (c.coll.length : Int) - size
  let diff := if diff < 0 then 0 else diff
  (discardN L c diff.toNat, diff)

/-- `Cache.DelSilently`: remove without emitting. -/
def Cache.DelSilently (L : Collection) (c : Cache) (key : GoKey) : Cache :=
  match alookup c.entries key with
  | some id => removeEntryC L c id
  | none => c

/-- `Cache.Delete`: evict (emitting `REMOVE`) when present. -/
def Cache.Delete (L : Collection) (c : Cache) (key : GoKey) : Cache :=
  match alookup c.entries key with
  | some id => evictC L c id
  | none => c

/-- `Cache.Keys`: the keys of the entry index. -/
def Cache.Keys (c : Cache) : List GoKey :=
  c.entries.map Prod.fst

/-- `Cache.Len`: the collection's length. -/
def Cache.Len (c : Cache) : Nat :=
  c.coll.length

/-- `Cache.Front`: lazy GC, then the front entry's key (or `nil`). -/
def Cache.Front (L : Collection) (c : Cache) (now : Int) : Cache × GoKey :=
  let c := (Cache.GC L c now).1
  match L.Front c.coll with
  | some id => (c, (c.ent id).key)
  | none => (c, none)

/-- `Cache.Back`: lazy GC, then the back entry's key (or `nil`). -/
def Cache.Back (L : Collection) (c : Cache) (now : Int) : Cache × GoKey :=
  let c := (Cache.GC L c now).1
  match L.Back c.coll with
  | some id => (c, (c.ent id).key)
  | none => (c, none)

/-- `Cache.Cap`. -/
def Cache.Cap (c : Cache) : Int := c.capacity

/-- `Cache.TTL`. -/
def Cache.TTL (c : Cache) : Int := c.ttl

/-- `Cache.SetTTL`. -/
def Cache.SetTTL (c : Cache) (t : Int) : Cache := { c with ttl := t }

/-- `Cache.Notify`: register (or re-register) the channel with a fresh
handler whose mask covers the given ops, or every code `1..maxOp` when none
are given.  A re-registered channel keeps its already-offered events. -/
def Cache.Notify (c : Cache) (ch : Nat) (ops : List Op) : Cache :=
  let h :=
    if ops.isEmpty then
      (List.range 4).foldl (fun acc i => acc.setCode (i + 1)) { mask := 0 }
    else ops.foldl (fun acc op => acc.setCode op.code) { mask := 0 }
  if (c.subs.map Sub.ch).contains ch then
    { c with subs := c.subs.map fun s => if s.ch = ch then { s with h := h } else s }
  else { c with subs := c.subs ++ [{ ch := ch, h := h, inbox := [] }] }

/-- `Cache.Ignore`: clear the given op bits, or unregister the channel when
no ops are given. -/
def Cache.Ignore (c : Cache) (ch : Nat) (ops : List Op) : Cache :=
  if ops.isEmpty then { c with subs := c.subs.filter fun s => s.ch ≠ ch }
  else if (c.subs.map Sub.ch).contains ch then
    { c with subs := c.subs.map fun s =>
        if s.ch = ch then
          { s with h := ops.foldl (fun a op => a.clearCode op.code) s.h }
        else s }
  else c

/-- `internal.New`: a fresh engine over an empty collection. -/
def Cache.New (cap : Int) : Cache :=
  { coll := [], heap := [], entries := [], estore := [], nextId := 0,
    subs := [], ttl := 0, capacity := cap, trace := [] }

/-- Modelled from the spec: the current `lru` collection package (used by
the ARC cache) is not among the given sources — only the older `mru` and
`fifo` collection variants are.  Per the spec's collection table: a doubly
linked list; `Add` admits at the front; `Move` moves to the front;
`Discard` removes and returns the back (the least recently used);
`Front`/`Back` peek at the endpoints without mutation; `Remove` excises the
entry. -/
def lru : Collection where
  Move := fun s i => if i ∈ s then i :: s.erase i else s
  Add := fun s i => i :: s
  Remove := fun s i => s.erase i
  Discard := fun s =>
    match s.getLast? with
    | some i => (some i, s.dropLast)
    | none => (none, s)
  Front := fun s => s.head?
  Back := fun s => s.getLast?

/-- `arc.arc`: the adaptive target `p` and the four LRU sub-caches. -/
structure Arc where
  p : Int
  t1 : Cache
  t2 : Cache
  b1 : Cache
  b2 : Cache
deriving DecidableEq, Repr

/-- `arc.min`. -/
def goMin (x y : Int) : Int := if x < y then x else y

/-- `arc.max`. -/
def goMax (x y : Int) : Int := if x > y then x else y

/-- `arc.New`. -/
def Arc.New (cap : Int) : Arc :=
  { p := 0, t1 := Cache.New cap, t2 := Cache.New cap,
    b1 := Cache.New cap, b2 := Cache.New cap }

/-- `arc.Cap` (all sub-caches share one capacity). -/
def Arc.Cap (a : Arc) : Int := a.t1.capacity

/-- `arc.Len`. -/
def Arc.Len (a : Arc) : Nat := a.t1.Len + a.t2.Len

/-- `arc.TTL` (T1 and T2 share one TTL). -/
def Arc.TTL (a : Arc) : Int := a.t1.ttl

/-- `arc.Load`: a T1 hit is re-inserted into T2 with the remaining TTL
(`time.Until(exp)` is `exp − now`); otherwise delegate to T2. -/
def Arc.Load (a : Arc) (now : Int) (key : GoKey) : Arc × (GoVal × Bool) :=
  let r := Cache.Peek lru a.t1 now key
  if r.2.2 then
    let re := Cache.Expiry lru r.1 now key
    let t1b := Cache.DelSilently lru re.1 key
    let t2b := Cache.StoreWithTTL lru a.t2 now key r.2.1 (re.2.1 - now)
    ({ a with t1 := t1b, t2 := t2b }, (r.2.1, true))
  else
    let r2 := Cache.Load lru a.t2 now key
    ({ a with t1 := r.1, t2 := r2.1 }, r2.2)

/-- `arc.replace`.  The Go condition
`(a.t1.Len() > 0 && a.b2.Contains(key) && a.t1.Len() == a.p) || (a.t1.Len() > a.p)`
short-circuits, and `b2.Contains` mutates `b2` (lazy GC and a `READ`
event), so its evaluation is threaded explicitly. -/
def Arc.replace (a : Arc) (now : Int) (key : GoKey) : Arc :=
  let z :=
    if 0 < a.t1.Len then
      let rb := Cache.Contains lru a.b2 now key
      (rb.1, rb.2 && decide ((a.t1.Len : Int) = a.p))
    else (a.b2, false)
  let a : Arc := { a with b2 := z.1 }
  if z.2 || decide (a.p < (a.t1.Len : Int)) then
    let rd := Cache.Discard lru a.t1
    { a with t1 := rd.1, b1 := Cache.Store lru a.b1 now rd.2.1 none }
  else
    let rd := Cache.Discard lru a.t2
    { a with t2 := rd.1, b2 := Cache.Store lru a.b2 now rd.2.1 none }

/-- `arc.StoreWithTTL`: the case analysis on T1/T2/B1/B2 membership; the
deferred block then runs `replace` when the resident total exceeds the
capacity.  Each `Contains` mutates its sub-cache and is threaded. -/
def Arc.StoreWithTTL (a : Arc) (now : Int) (key : GoKey) (val : GoVal)
    (ttl : Int) : Arc :=
  let body :=
    let r1 := Cache.Contains lru a.t1 now key
    let a : Arc := { a with t1 := r1.1 }
    if r1.2 then
      let a : Arc := { a with t1 := Cache.DelSilently lru a.t1 key }
      { a with t2 := Cache.StoreWithTTL lru a.t2 now key val ttl }
    else
      let r2 := Cache.Contains lru a.t2 now key
      let a : Arc := { a with t2 := r2.1 }
      if r2.2 then { a with t2 := Cache.StoreWithTTL lru a.t2 now key val ttl }
      else
        let r3 := Cache.Contains lru a.b1 now key
        let a : Arc := { a with b1 := r3.1 }
        if r3.2 then
          let a : Arc :=
            { a with p := goMin a.Cap (a.p + goMax ((a.b2.Len / a.b1.Len : Nat) : Int) 1) }
          let a : Arc := { a with b1 := Cache.Delete lru a.b1 key }
          { a with t2 := Cache.StoreWithTTL lru a.t2 now key val ttl }
        else
          let r4 := Cache.Contains lru a.b2 now key
          let a : Arc := { a with b2 := r4.1 }
          if r4.2 then
            let a : Arc :=
              { a with p := goMax 0 (a.p - goMax ((a.b1.Len / a.b2.Len : Nat) : Int) 1) }
            let a : Arc := { a with b2 := Cache.Delete lru a.b2 key }
            { a with t2 := Cache.StoreWithTTL lru a.t2 now key val ttl }
          else
            let a : Arc :=
              if (a.b1.Len : Int) > a.Cap - a.p then
                { a with b1 := (Cache.Discard lru a.b1).1 }
              else a
            let a : Arc :=
              if (a.b2.Len : Int) > a.p then
                { a with b2 := (Cache.Discard lru a.b2).1 }
              else a
            { a with t1 := Cache.StoreWithTTL lru a.t1 now key val ttl }
  if body.Cap ≠ 0 ∧ (body.Len : Int) > body.Cap then Arc.replace body now key
  else body

/-- `arc.Store`. -/
def Arc.Store (a : Arc) (now : Int) (key : GoKey) (val : GoVal) : Arc :=
  Arc.StoreWithTTL a now key val a.TTL

/-- `arc.Delete`: issue the delete to all four sub-caches. -/
def Arc.Delete (a : Arc) (key : GoKey) : Arc :=
  { a with
    t1 := Cache.Delete lru a.t1 key, t2 := Cache.Delete lru a.t2 key,
    b1 := Cache.Delete lru a.b1 key, b2 := Cache.Delete lru a.b2 key }

/-- `arc.Update`: update T1 when it contains the key, and T2
unconditionally. -/
def Arc.Update (a : Arc) (now : Int) (key : GoKey) (value : GoVal) : Arc :=
  let r := Cache.Contains lru a.t1 now key
  let a : Arc := { a with t1 := r.1 }
  let a : Arc := if r.2 then { a with t1 := Cache.Update lru a.t1 now key value } else a
  { a with t2 := Cache.Update lru a.t2 now key value }

/-- `arc.Peek`: T1, else T2. -/
def Arc.Peek (a : Arc) (now : Int) (key : GoKey) : Arc × (GoVal × Bool) :=
  let r := Cache.Peek lru a.t1 now key
  if r.2.2 then ({ a with t1 := r.1 }, r.2)
  else
    let r2 := Cache.Peek lru a.t2 now key
    ({ a with t1 := r.1, t2 := r2.1 }, r2.2)

/-- `arc.Contains`: `a.t1.Contains(key) || a.t2.Contains(key)`
(short-circuiting). -/
def Arc.Contains (a : Arc) (now : Int) (key : GoKey) : Arc × Bool :=
  let r1 := Cache.Contains lru a.t1 now key
  if r1.2 then ({ a with t1 := r1.1 }, true)
  else
    let r2 := Cache.Contains lru a.t2 now key
    ({ a with t1 := r1.1, t2 := r2.1 }, r2.2)

/-- `arc.Purge`. -/
def Arc.Purge (a : Arc) : Arc :=
  { a with
    t1 := Cache.Purge lru a.t1, t2 := Cache.Purge lru a.t2,
    b1 := Cache.Purge lru a.b1, b2 := Cache.Purge lru a.b2 }

/-- `arc.Resize`: resize all four sub-caches; report T1's plus T2's
evictions. -/
def Arc.Resize (a : Arc) (size : Int) : Arc × Int :=
  let rb1 := Cache.Resize lru a.b1 size
  let rb2 := Cache.Resize lru a.b2 size
  let rt1 := Cache.Resize lru a.t1 size
  let rt2 := Cache.Resize lru a.t2 size
  ({ a with b1 := rb1.1, b2 := rb2.1, t1 := rt1.1, t2 := rt2.1 }, rt1.2 + rt2.2)

/-- `arc.Keys`: resident keys only. -/
def Arc.Keys (a : Arc) : List GoKey :=
  a.t1.Keys ++ a.t2.Keys

/-! ## Specification predicates -/

/-- The ids bound in the entry index. -/
def idsOf (c : Cache) : List Nat := c.entries.map Prod.snd

/-- The binary-min-heap order on the first `m` slots: every slot's
expiration is at least its parent's. -/
def HeapOrd (c : Cache) (m : Nat) : Prop :=
  ∀ k, 0 < k → k < m → c.expAt ((k - 1) / 2) ≤ c.expAt k

/-- The engine representation invariant (spec §3, invariants 1–3 plus the
bookkeeping the id-based model needs: distinct ids, the id store covering
the index, id freshness). -/
structure EngineInv (c : Cache) : Prop where
  keysND : c.Keys.Nodup
  idsND : (idsOf c).Nodup
  dom : ∀ p ∈ c.entries, (alookup c.estore p.2).map Entry.key = some p.1
  collP : List.Perm c.coll (idsOf c)
  heapND : c.heap.Nodup
  heapSub : ∀ id ∈ c.heap, id ∈ idsOf c
  heapIff : ∀ p ∈ c.entries, ((c.ent p.2).exp ≠ 0 ↔ p.2 ∈ c.heap)
  idx : ∀ t, t < c.heap.length → (c.ent (c.hid t)).index = t
  ord : HeapOrd c c.heap.length
  idsLt : ∀ p ∈ c.entries, p.2 < c.nextId
  esLt : ∀ q ∈ c.estore, q.1 < c.nextId
  esND : (c.estore.map Prod.fst).Nodup

/-- Spec invariant 5: with a positive capacity, the resident count is
bounded by it at rest. -/
def AtCap (c : Cache) : Prop :=
  0 < c.capacity → (c.Len : Int) ≤ c.capacity

/-- No resident entry has expired at instant `now`. -/
def noExpired (c : Cache) (now : Int) : Prop :=
  ∀ p ∈ c.entries, (c.ent p.2).exp = 0 ∨ now < (c.ent p.2).exp

/-- Everything the sift routines leave untouched or merely permute; the
transport of the slot/back-pointer coherence comes last. -/
structure SiftOK (c c' : Cache) : Prop where
  coll_eq : c'.coll = c.coll
  entries_eq : c'.entries = c.entries
  es_fst : c'.estore.map Prod.fst = c.estore.map Prod.fst
  subs_eq : c'.subs = c.subs
  trace_eq : c'.trace = c.trace
  cap_eq : c'.capacity = c.capacity
  next_eq : c'.nextId = c.nextId
  ttl_eq : c'.ttl = c.ttl
  heap_perm : List.Perm c'.heap c.heap
  len_eq : c'.heap.length = c.heap.length
  proj : ∀ id, (c'.ent id).key = (c.ent id).key ∧ (c'.ent id).value = (c.ent id).value ∧
    (c'.ent id).exp = (c.ent id).exp
  idx_tr : c.heap.Nodup → (∀ id ∈ c.heap, (alookup c.estore id).isSome) →
    (∀ t, t < c.heap.length → (c.ent (c.hid t)).index = t) →
    ∀ t, t < c'.heap.length → (c'.ent (c'.hid t)).index = t

/-- The lawfulness the engine needs from a collection: each operation's
effect on the underlying id sequence, up to order. -/
structure LawfulColl (L : Collection) : Prop where
  mov_perm : ∀ s i, List.Perm (L.Move s i) s
  add_perm : ∀ s i, List.Perm (L.Add s i) (i :: s)
  rem_perm : ∀ s i, List.Perm (L.Remove s i) (s.erase i)
  disc_none : ∀ s, (L.Discard s).1 = none → (L.Discard s).2 = s ∧ s = []
  disc_some : ∀ s i, (L.Discard s).1 = some i → i ∈ s ∧ List.Perm (L.Discard s).2 (s.erase i)
  disc_total : ∀ s, s ≠ [] → ∃ i, (L.Discard s).1 = some i
  front_mem : ∀ s i, L.Front s = some i → i ∈ s
  back_mem : ∀ s i, L.Back s = some i → i ∈ s

/-- The engine states reachable through the public operation surface
(instants are nonnegative, as Go's `time.Now()` always is). -/
inductive Reach (L : Collection) : Cache → Prop where
  | new : ∀ cap : Int, Reach L (Cache.New cap)
  | load : ∀ {c} (now : Int) key, 0 ≤ now → Reach L c → Reach L (Cache.Load L c now key).1
  | peek : ∀ {c} (now : Int) key, 0 ≤ now → Reach L c → Reach L (Cache.Peek L c now key).1
  | contains : ∀ {c} (now : Int) key, 0 ≤ now → Reach L c →
      Reach L (Cache.Contains L c now key).1
  | expiry : ∀ {c} (now : Int) key, 0 ≤ now → Reach L c →
      Reach L (Cache.Expiry L c now key).1
  | front : ∀ {c} (now : Int), 0 ≤ now → Reach L c → Reach L (Cache.Front L c now).1
  | back : ∀ {c} (now : Int), 0 ≤ now → Reach L c → Reach L (Cache.Back L c now).1
  | gc : ∀ {c} (now : Int), 0 ≤ now → Reach L c → Reach L (Cache.GC L c now).1
  | store : ∀ {c} (now : Int) key value, 0 ≤ now → Reach L c →
      Reach L (Cache.Store L c now key value)
  | storeTTL : ∀ {c} (now : Int) key value ttl, 0 ≤ now → Reach L c →
      Reach L (Cache.StoreWithTTL L c now key value ttl)
  | update : ∀ {c} (now : Int) key value, 0 ≤ now → Reach L c →
      Reach L (Cache.Update L c now key value)
  | del : ∀ {c} key, Reach L c → Reach L (Cache.Delete L c key)
  | delS : ∀ {c} key, Reach L c → Reach L (Cache.DelSilently L c key)
  | discard : ∀ {c}, Reach L c → Reach L (Cache.Discard L c).1
  | purge : ∀ {c}, Reach L c → Reach L (Cache.Purge L c)
  | resize : ∀ {c} (size : Int), Reach L c → Reach L (Cache.Resize L c size).1
  | setTTL : ∀ {c} (t : Int), Reach L c → Reach L (Cache.SetTTL c t)
  | notify : ∀ {c} ch ops, Reach L c → Reach L (Cache.Notify c ch ops)
  | ignore : ∀ {c} ch ops, Reach L c → Reach L (Cache.Ignore c ch ops)

/-- The keys returned by `n` successive `Discard` calls. -/
def discardKeys (L : Collection) (c : Cache) : Nat → List GoKey
  | 0 => []
  | n + 1 =>
    let r := Cache.Discard L c
    r.2.1 :: discardKeys L r.1 n

/-- The events offered so far to the subscriber registered under `ch`. -/
def inboxOf (c : Cache) (ch : Nat) : List Event :=
  ((c.subs.find? fun s => s.ch = ch).map Sub.inbox).getD []

/-- The ARC invariant (spec invariant 6 plus what sustains it: the shared
positive capacity, the per-sub-cache engine invariants and capacity bounds,
and the adaptive target staying within `[0, C]`). -/
structure ArcInv (a : Arc) : Prop where
  i1 : EngineInv a.t1
  i2 : EngineInv a.t2
  i3 : EngineInv a.b1
  i4 : EngineInv a.b2
  a1 : AtCap a.t1
  a2 : AtCap a.t2
  a3 : AtCap a.b1
  a4 : AtCap a.b2
  cpos : 0 < a.t1.capacity
  ceq2 : a.t2.capacity = a.t1.capacity
  ceq3 : a.b1.capacity = a.t1.capacity
  ceq4 : a.b2.capacity = a.t1.capacity
  ppos : 0 ≤ a.p
  ple : a.p ≤ a.t1.capacity
  sumle : (a.t1.Len : Int) + a.t2.Len ≤ a.t1.capacity
  d12 : ∀ k ∈ a.t1.Keys, k ∉ a.t2.Keys
  d13 : ∀ k ∈ a.t1.Keys, k ∉ a.b1.Keys
  d14 : ∀ k ∈ a.t1.Keys, k ∉ a.b2.Keys
  d23 : ∀ k ∈ a.t2.Keys, k ∉ a.b1.Keys
  d24 : ∀ k ∈ a.t2.Keys, k ∉ a.b2.Keys
  d34 : ∀ k ∈ a.b1.Keys, k ∉ a.b2.Keys
  s1 : a.t1.subs = []
  s2 : a.t2.subs = []
  s3 : a.b1.subs = []
  s4 : a.b2.subs = []

/-- The ARC states reachable through `Load`, `Store`, `StoreWithTTL`,
`Update`, `Delete` and `Purge` from a positive-capacity `New` (`Resize` is
deliberately excluded; see the C4 counterexample). -/
inductive ReachArc : Arc → Prop where
  | new : ∀ cap : Int, 0 < cap → ReachArc (Arc.New cap)
  | load : ∀ {a} (now : Int) key, 0 ≤ now → ReachArc a → ReachArc (Arc.Load a now key).1
  | store : ∀ {a} (now : Int) key value, 0 ≤ now → ReachArc a →
      ReachArc (Arc.Store a now key value)
  | storeTTL : ∀ {a} (now : Int) key value ttl, 0 ≤ now → ReachArc a →
      ReachArc (Arc.StoreWithTTL a now key value ttl)
  | update : ∀ {a} (now : Int) key value, 0 ≤ now → ReachArc a →
      ReachArc (Arc.Update a now key value)
  | del : ∀ {a} key, ReachArc a → ReachArc (Arc.Delete a key)
  | purge : ∀ {a}, ReachArc a → ReachArc (Arc.Purge a)

/-! ## Association-list lemmas -/

theorem alookup_eq_none {α β : Type} [DecidableEq α] {l : List (α × β)} {k : α}
    (h : k ∉ l.map Prod.fst) : alookup l k = none := by
  induction l with
  | nil => rfl
  | cons p ps ih =>
    simp only [List.map_cons, List.mem_cons, not_or] at h
    rw [alookup, if_neg fun hh => h.1 hh.symm]
    exact ih h.2

theorem alookup_mem {α β : Type} [DecidableEq α] {l : List (α × β)} {k : α} {v : β}
    (h : alookup l k = some v) : (k, v) ∈ l := by
  induction l with
  | nil => simp [alookup] at h
  | cons p ps ih =>
    simp only [alookup] at h
    by_cases hp : p.1 = k
    · rw [if_pos hp] at h
      obtain rfl : p.2 = v := Option.some.inj h
      have : ((k : α), p.2) = p := by rw [← hp]
      rw [this]
      exact List.mem_cons_self p ps
    · rw [if_neg hp] at h
      exact List.mem_cons_of_mem _ (ih h)

theorem mem_fst_of_alookup {α β : Type} [DecidableEq α] {l : List (α × β)} {k : α} {v : β}
    (h : alookup l k = some v) : k ∈ l.map Prod.fst := by
  exact List.mem_map.2 ⟨(k, v), alookup_mem h, rfl⟩

theorem alookup_isSome {α β : Type} [DecidableEq α] {l : List (α × β)} {k : α}
    (h : k ∈ l.map Prod.fst) : (alookup l k).isSome := by
  induction l with
  | nil => simp at h
  | cons p ps ih =>
    rw [alookup]
    by_cases hp : p.1 = k
    · rw [if_pos hp]; rfl
    · rw [if_neg hp]
      simp only [List.map_cons, List.mem_cons] at h
      exact ih (h.resolve_left fun hh => hp hh.symm)

theorem alookup_of_mem_nodup {α β : Type} [DecidableEq α] {l : List (α × β)} {k : α} {v : β}
    (hnd : (l.map Prod.fst).Nodup) (h : (k, v) ∈ l) : alookup l k = some v := by
  induction l with
  | nil => simp at h
  | cons p ps ih =>
    simp only [List.map_cons, List.nodup_cons] at hnd
    rcases List.mem_cons.1 h with h | h
    · rw [← h, alookup, if_pos rfl]
    · have hk : p.1 ≠ k := by
        intro he
        exact hnd.1 (he ▸ List.mem_map.2 ⟨(k, v), h, rfl⟩)
      rw [alookup, if_neg hk]
      exact ih hnd.2 h

theorem alookup_aupd_self {α β : Type} [DecidableEq α] (l : List (α × β)) (k : α)
    (f : β → β) : alookup (aupd l k f) k = (alookup l k).map f := by
  induction l with
  | nil => simp [aupd, alookup]
  | cons p ps ih =>
    simp only [aupd]
    by_cases hp : p.1 = k
    · rw [if_pos hp]
      simp [alookup, hp]
    · rw [if_neg hp]
      simp [alookup, hp, ih]

theorem alookup_aupd_ne {α β : Type} [DecidableEq α] (l : List (α × β)) (k : α)
    (f : β → β) (k' : α) (hk : k' ≠ k) :
    alookup (aupd l k f) k' = alookup l k' := by
  induction l with
  | nil => simp [aupd, alookup]
  | cons p ps ih =>
    simp only [aupd]
    by_cases hp : p.1 = k
    · rw [if_pos hp]
      have hp' : p.1 ≠ k' := fun hh => hk ((hh ▸ hp).symm ▸ hp.symm ▸ rfl)
      simp only [alookup]
      rw [if_neg (hp ▸ hp'), if_neg hp']
    · rw [if_neg hp]
      simp only [alookup]
      by_cases hpk : p.1 = k'
      · rw [if_pos hpk, if_pos hpk]
      · rw [if_neg hpk, if_neg hpk, ih]

theorem map_fst_aupd {α β : Type} [DecidableEq α] (l : List (α × β)) (k : α) (f : β → β) :
    (aupd l k f).map Prod.fst = l.map Prod.fst := by
  induction l with
  | nil => rfl
  | cons p ps ih =>
    rw [aupd]
    by_cases hp : p.1 = k
    · simp [hp]
    · simp [hp, ih]

theorem aupd_not_mem {α β : Type} [DecidableEq α] {l : List (α × β)} {k : α} (f : β → β)
    (h : k ∉ l.map Prod.fst) : aupd l k f = l := by
  induction l with
  | nil => rfl
  | cons p ps ih =>
    simp only [List.map_cons, List.mem_cons, not_or] at h
    rw [aupd, if_neg fun hh => h.1 hh.symm, ih h.2]

theorem aupd_fixed {α β : Type} [DecidableEq α] {l : List (α × β)} {k : α} {f : β → β}
    (h : ∀ v, alookup l k = some v → f v = v) : aupd l k f = l := by
  induction l with
  | nil => rfl
  | cons p ps ih =>
    simp only [aupd]
    by_cases hp : p.1 = k
    · rw [if_pos hp]
      have hfix : f p.2 = p.2 := h p.2 (by simp only [alookup]; rw [if_pos hp])
      rw [hfix]
    · rw [if_neg hp]
      congr 1
      apply ih
      intro v hv
      apply h
      simp only [alookup]
      rw [if_neg hp]
      exact hv

theorem aerase_not_mem {α β : Type} [DecidableEq α] {l : List (α × β)} {k : α}
    (h : k ∉ l.map Prod.fst) : aerase l k = l := by
  induction l with
  | nil => rfl
  | cons p ps ih =>
    simp only [List.map_cons, List.mem_cons, not_or] at h
    rw [aerase, if_neg fun hh => h.1 hh.symm, ih h.2]

theorem aerase_sublist {α β : Type} [DecidableEq α] (l : List (α × β)) (k : α) :
    (aerase l k).Sublist l := by
  induction l with
  | nil => exact List.Sublist.refl _
  | cons p ps ih =>
    rw [aerase]
    by_cases hp : p.1 = k
    · rw [if_pos hp]
      exact List.sublist_cons_self p ps
    · rw [if_neg hp]
      exact List.Sublist.cons₂ p ih

theorem aerase_decomp {α β : Type} [DecidableEq α] {l : List (α × β)} {k : α} {v : β}
    (h : alookup l k = some v) :
    ∃ l1 l2, l = l1 ++ (k, v) :: l2 ∧ aerase l k = l1 ++ l2 ∧ k ∉ l1.map Prod.fst := by
  induction l with
  | nil => simp [alookup] at h
  | cons p ps ih =>
    simp only [alookup] at h
    by_cases hp : p.1 = k
    · rw [if_pos hp] at h
      obtain rfl : p.2 = v := Option.some.inj h
      refine ⟨[], ps, ?_, ?_, ?_⟩
      · simp only [List.nil_append]
        rw [show ((k : α), p.2) = p from by rw [← hp]]
      · simp only [aerase]
        rw [if_pos hp]
        rfl
      · simp
    · rw [if_neg hp] at h
      obtain ⟨l1, l2, he, ha, hm⟩ := ih h
      refine ⟨p :: l1, l2, by rw [List.cons_append, ← he], ?_, ?_⟩
      · rw [aerase, if_neg hp, ha]
        rfl
      · simp only [List.map_cons, List.mem_cons, not_or]
        exact ⟨fun hh => hp hh.symm, hm⟩

theorem map_fst_aerase {α β : Type} [DecidableEq α] (l : List (α × β)) (k : α) :
    (aerase l k).map Prod.fst = (l.map Prod.fst).erase k := by
  induction l with
  | nil => rfl
  | cons p ps ih =>
    simp only [aerase, List.map_cons, List.erase_cons]
    by_cases hp : p.1 = k
    · simp [hp]
    · simp [hp, ih]

theorem aset_not_mem {α β : Type} [DecidableEq α] {l : List (α × β)} {k : α} (v : β)
    (h : k ∉ l.map Prod.fst) : aset l k v = l ++ [(k, v)] := by
  induction l with
  | nil => rfl
  | cons p ps ih =>
    simp only [List.map_cons, List.mem_cons, not_or] at h
    rw [aset, if_neg fun hh => h.1 hh.symm, ih h.2]
    rfl

/-! ## List auxiliaries for the slot swap -/

theorem getD_set' {α : Type} (l : List α) (i : Nat) (v : α) (k : Nat) (d : α) :
    (l.set i v).getD k d = if i = k ∧ i < l.length then v else l.getD k d := by
  rw [List.getD_eq_getElem?_getD, List.getD_eq_getElem?_getD, List.getElem?_set]
  by_cases hik : i = k
  · subst hik
    by_cases hl : i < l.length
    · simp [hl]
    · simp only [hl, if_true, if_false, and_true, and_false, if_neg hl]
      rw [List.getElem?_eq_none (by omega : l.length ≤ i)]
  · simp [hik]

theorem set_getD_self {α : Type} (l : List α) (i : Nat) (d : α) (hi : i < l.length) :
    l.set i (l.getD i d) = l := by
  apply List.ext_getElem?
  intro k
  rw [List.getElem?_set]
  by_cases hik : i = k
  · subst hik
    rw [if_pos rfl, if_pos hi, List.getD_eq_getElem?_getD]
    cases hx : l[i]? with
    | none => rw [List.getElem?_eq_none_iff] at hx; omega
    | some x => rfl
  · rw [if_neg hik]

theorem set_perm_cons_eraseIdx {α : Type} :
    ∀ (l : List α) (i : Nat) (v : α), i < l.length →
      List.Perm (l.set i v) (v :: l.eraseIdx i)
  | [], i, v, h => by simp at h
  | x :: t, 0, v, _ => by simp
  | x :: t, i + 1, v, h => by
    rw [List.set_cons_succ, List.eraseIdx_cons_succ]
    have ih := set_perm_cons_eraseIdx t i v (by simpa using h)
    exact ((ih.cons x).trans (List.Perm.swap v x _))

theorem perm_getD_cons_eraseIdx {α : Type} :
    ∀ (l : List α) (i : Nat) (d : α), i < l.length →
      List.Perm l (l.getD i d :: l.eraseIdx i)
  | [], i, d, h => by simp at h
  | x :: t, 0, d, _ => by simp
  | x :: t, i + 1, d, h => by
    rw [List.eraseIdx_cons_succ]
    have ih := perm_getD_cons_eraseIdx t i d (by simpa using h)
    have : (x :: t).getD (i + 1) d = t.getD i d := by
      rw [List.getD_eq_getElem?_getD, List.getD_eq_getElem?_getD,
        List.getElem?_cons_succ]
    rw [this]
    exact ((ih.cons x).trans (List.Perm.swap _ x _))

theorem swap_set_perm {α : Type} [DecidableEq α] (l : List α) (i j : Nat) (d : α)
    (hi : i < l.length) (hj : j < l.length) :
    List.Perm ((l.set i (l.getD j d)).set j (l.getD i d)) l := by
  by_cases hij : i = j
  · subst hij
    rw [List.set_set, set_getD_self _ _ _ hi]
  · rw [List.perm_iff_count]
    intro a
    have lenA : (l.set i (l.getD j d)).length = l.length := by simp
    have p1 := (set_perm_cons_eraseIdx l i (l.getD j d) hi).count_eq a
    have p2 := (perm_getD_cons_eraseIdx l i d hi).count_eq a
    have p3 := (set_perm_cons_eraseIdx (l.set i (l.getD j d)) j (l.getD i d)
      (by rw [lenA]; exact hj)).count_eq a
    have p4 := (perm_getD_cons_eraseIdx (l.set i (l.getD j d)) j d
      (by rw [lenA]; exact hj)).count_eq a
    have hgj : (l.set i (l.getD j d)).getD j d = l.getD j d := by
      rw [getD_set', if_neg]
      rintro ⟨h, _⟩
      exact hij h
    rw [hgj] at p4
    simp only [List.count_cons] at p1 p2 p3 p4
    split_ifs at p1 p2 p3 p4 <;> omega

theorem getD_mem' {α : Type} {l : List α} {i : Nat} (d : α) (h : i < l.length) :
    l.getD i d ∈ l := by
  rw [List.getD_eq_getElem l d h]
  exact List.getElem_mem h

theorem alookup_isSome_iff {α β : Type} [DecidableEq α] {l : List (α × β)} {k : α} :
    (alookup l k).isSome ↔ k ∈ l.map Prod.fst := by
  constructor
  · intro h
    cases hx : alookup l k with
    | none => rw [hx] at h; exact absurd h (by simp)
    | some v => exact mem_fst_of_alookup hx
  · exact alookup_isSome

/-! ## Slot-swap lemmas -/

theorem hSwap_heap (c : Cache) (i j : Nat) :
    (hSwap c i j).heap = (c.heap.set i (c.hid j)).set j (c.hid i) := rfl

theorem hSwap_estore (c : Cache) (i j : Nat) :
    (hSwap c i j).estore =
      aupd (aupd c.estore (c.hid i) (fun e => { e with index := (c.ent (c.hid j)).index }))
        (c.hid j) (fun e => { e with index := (c.ent (c.hid i)).index }) := rfl

theorem hSwap_len (c : Cache) (i j : Nat) :
    (hSwap c i j).heap.length = c.heap.length := by
  rw [hSwap_heap]
  simp

theorem hSwap_es_fst (c : Cache) (i j : Nat) :
    (hSwap c i j).estore.map Prod.fst = c.estore.map Prod.fst := by
  rw [hSwap_estore, map_fst_aupd, map_fst_aupd]

theorem hSwap_perm (c : Cache) {i j : Nat} (hi : i < c.heap.length)
    (hj : j < c.heap.length) : List.Perm (hSwap c i j).heap c.heap := by
  rw [hSwap_heap]
  exact swap_set_perm c.heap i j 0 hi hj

theorem ent_aupd_keep (es : List (Nat × Entry)) (k : Nat) (f : Entry → Entry)
    (hkey : ∀ e, (f e).key = e.key) (hval : ∀ e, (f e).value = e.value)
    (hexp : ∀ e, (f e).exp = e.exp) (id : Nat) :
    ((alookup (aupd es k f) id).getD dummyEntry).key = ((alookup es id).getD dummyEntry).key ∧
    ((alookup (aupd es k f) id).getD dummyEntry).value = ((alookup es id).getD dummyEntry).value ∧
    ((alookup (aupd es k f) id).getD dummyEntry).exp = ((alookup es id).getD dummyEntry).exp := by
  by_cases h : id = k
  · subst h
    rw [alookup_aupd_self]
    cases alookup es id with
    | none => exact ⟨rfl, rfl, rfl⟩
    | some e => exact ⟨hkey e, hval e, hexp e⟩
  · rw [alookup_aupd_ne _ _ _ _ h]
    exact ⟨rfl, rfl, rfl⟩

theorem ent_hSwap_proj (c : Cache) (i j id : Nat) :
    ((hSwap c i j).ent id).key = (c.ent id).key ∧
    ((hSwap c i j).ent id).value = (c.ent id).value ∧
    ((hSwap c i j).ent id).exp = (c.ent id).exp := by
  have he : (hSwap c i j).ent id =
      (alookup (aupd (aupd c.estore (c.hid i)
        (fun e => { e with index := (c.ent (c.hid j)).index }))
        (c.hid j) (fun e => { e with index := (c.ent (c.hid i)).index })) id).getD dummyEntry := rfl
  have h1 := ent_aupd_keep (aupd c.estore (c.hid i)
    (fun e => { e with index := (c.ent (c.hid j)).index })) (c.hid j)
    (fun e => { e with index := (c.ent (c.hid i)).index })
    (fun _ => rfl) (fun _ => rfl) (fun _ => rfl) id
  have h2 := ent_aupd_keep c.estore (c.hid i)
    (fun e => { e with index := (c.ent (c.hid j)).index })
    (fun _ => rfl) (fun _ => rfl) (fun _ => rfl) id
  rw [he]
  exact ⟨h1.1.trans h2.1, h1.2.1.trans h2.2.1, h1.2.2.trans h2.2.2⟩

theorem hSwap_hid (c : Cache) {i j : Nat} (hi : i < c.heap.length)
    (hj : j < c.heap.length) (k : Nat) :
    (hSwap c i j).hid k = if k = j then c.hid i else if k = i then c.hid j else c.hid k := by
  show ((c.heap.set i (c.hid j)).set j (c.hid i)).getD k 0 = _
  rw [getD_set', getD_set']
  by_cases hkj : k = j
  · rw [if_pos ⟨hkj.symm, by simpa using hj⟩, if_pos hkj]
  · rw [if_neg (fun h => hkj h.1.symm), if_neg hkj]
    by_cases hki : k = i
    · rw [if_pos ⟨hki.symm, hi⟩, if_pos hki]
    · rw [if_neg (fun h => hki h.1.symm), if_neg hki]
      rfl

theorem hSwap_ent_other (c : Cache) {i j : Nat} (id : Nat) (h1 : id ≠ c.hid i)
    (h2 : id ≠ c.hid j) : (hSwap c i j).ent id = c.ent id := by
  show (alookup (aupd (aupd c.estore (c.hid i) _) (c.hid j) _) id).getD dummyEntry = _
  rw [alookup_aupd_ne _ _ _ _ h2, alookup_aupd_ne _ _ _ _ h1]
  rfl

theorem hSwap_ent_i (c : Cache) {i j : Nat} (hab : c.hid i ≠ c.hid j)
    (hs : (alookup c.estore (c.hid i)).isSome) :
    (hSwap c i j).ent (c.hid i) =
      { c.ent (c.hid i) with index := (c.ent (c.hid j)).index } := by
  show (alookup (aupd (aupd c.estore (c.hid i) _) (c.hid j) _) (c.hid i)).getD dummyEntry = _
  rw [alookup_aupd_ne _ _ _ _ hab, alookup_aupd_self]
  cases hx : alookup c.estore (c.hid i) with
  | none => rw [hx] at hs; exact absurd hs (by simp)
  | some e =>
    show ((some e).map _).getD dummyEntry = _
    unfold Cache.ent
    rw [hx]
    rfl

theorem hSwap_ent_j (c : Cache) {i j : Nat} (hab : c.hid i ≠ c.hid j)
    (hs : (alookup c.estore (c.hid j)).isSome) :
    (hSwap c i j).ent (c.hid j) =
      { c.ent (c.hid j) with index := (c.ent (c.hid i)).index } := by
  show (alookup (aupd (aupd c.estore (c.hid i) _) (c.hid j) _) (c.hid j)).getD dummyEntry = _
  rw [alookup_aupd_self, alookup_aupd_ne _ _ _ _ (Ne.symm hab)]
  cases hx : alookup c.estore (c.hid j) with
  | none => rw [hx] at hs; exact absurd hs (by simp)
  | some e =>
    show ((some e).map _).getD dummyEntry = _
    unfold Cache.ent
    rw [hx]
    rfl

theorem hSwap_self (c : Cache) {k : Nat} (hk : k < c.heap.length) : hSwap c k k = c := by
  have hes : (hSwap c k k).estore = c.estore := by
    rw [hSwap_estore]
    have h1 : aupd c.estore (c.hid k)
        (fun e => { e with index := (c.ent (c.hid k)).index }) = c.estore := by
      apply aupd_fixed
      intro v hv
      unfold Cache.ent
      rw [hv]
      simp
    rw [h1]
    apply aupd_fixed
    intro v hv
    unfold Cache.ent
    rw [hv]
    simp
  have hheap : (hSwap c k k).heap = c.heap := by
    rw [hSwap_heap, List.set_set]
    show c.heap.set k (c.heap.getD k 0) = c.heap
    exact set_getD_self _ _ _ hk
  have : hSwap c k k =
      { c with estore := (hSwap c k k).estore, heap := (hSwap c k k).heap } := rfl
  rw [this, hes, hheap]

theorem hid_inj {c : Cache} (hnd : c.heap.Nodup) {i j : Nat} (hi : i < c.heap.length)
    (hj : j < c.heap.length) (h : c.hid i = c.hid j) : i = j := by
  unfold Cache.hid at h
  rw [List.getD_eq_getElem _ _ hi, List.getD_eq_getElem _ _ hj] at h
  exact (List.Nodup.getElem_inj_iff hnd).1 h

theorem hid_mem {c : Cache} {i : Nat} (hi : i < c.heap.length) : c.hid i ∈ c.heap :=
  getD_mem' 0 hi

theorem hSwap_idx (c : Cache) {i j : Nat} (hi : i < c.heap.length) (hj : j < c.heap.length)
    (hnd : c.heap.Nodup)
    (hdom : ∀ id ∈ c.heap, (alookup c.estore id).isSome)
    (hidx : ∀ t, t < c.heap.length → (c.ent (c.hid t)).index = t) :
    ∀ t, t < (hSwap c i j).heap.length → ((hSwap c i j).ent ((hSwap c i j).hid t)).index = t := by
  intro t ht
  rw [hSwap_len] at ht
  by_cases hij : i = j
  · subst hij
    rw [hSwap_self c hi]
    exact hidx t ht
  have hab : c.hid i ≠ c.hid j := fun h => hij (hid_inj hnd hi hj h)
  rw [hSwap_hid c hi hj]
  by_cases htj : t = j
  · rw [if_pos htj, hSwap_ent_i c hab (hdom _ (hid_mem hi)), htj]
    exact hidx j hj
  · rw [if_neg htj]
    by_cases hti : t = i
    · rw [if_pos hti, hSwap_ent_j c hab (hdom _ (hid_mem hj)), hti]
      exact hidx i hi
    · rw [if_neg hti]
      have h1 : c.hid t ≠ c.hid i := fun h => hti (hid_inj hnd ht hi h)
      have h2 : c.hid t ≠ c.hid j := fun h => htj (hid_inj hnd ht hj h)
      rw [hSwap_ent_other c _ h1 h2]
      exact hidx t ht

theorem hSwap_expAt (c : Cache) {i j : Nat} (hi : i < c.heap.length)
    (hj : j < c.heap.length) (k : Nat) :
    (hSwap c i j).expAt k =
      if k = j then c.expAt i else if k = i then c.expAt j else c.expAt k := by
  unfold Cache.expAt
  rw [hSwap_hid c hi hj, (ent_hSwap_proj c i j _).2.2]
  by_cases hkj : k = j
  · rw [if_pos hkj, if_pos hkj]
  · rw [if_neg hkj, if_neg hkj]
    by_cases hki : k = i
    · rw [if_pos hki, if_pos hki]
    · rw [if_neg hki, if_neg hki]

/-! ## Sift preservation -/

theorem siftOK_refl (c : Cache) : SiftOK c c :=
  ⟨rfl, rfl, rfl, rfl, rfl, rfl, rfl, rfl, List.Perm.refl _, rfl,
   fun _ => ⟨rfl, rfl, rfl⟩, fun _ _ h => h⟩

theorem siftOK_trans {c c' c'' : Cache} (h1 : SiftOK c c') (h2 : SiftOK c' c'') :
    SiftOK c c'' := by
  refine ⟨h2.coll_eq.trans h1.coll_eq, h2.entries_eq.trans h1.entries_eq,
    h2.es_fst.trans h1.es_fst, h2.subs_eq.trans h1.subs_eq,
    h2.trace_eq.trans h1.trace_eq, h2.cap_eq.trans h1.cap_eq,
    h2.next_eq.trans h1.next_eq, h2.ttl_eq.trans h1.ttl_eq,
    h2.heap_perm.trans h1.heap_perm, h2.len_eq.trans h1.len_eq,
    fun id => ⟨(h2.proj id).1.trans (h1.proj id).1,
      (h2.proj id).2.1.trans (h1.proj id).2.1,
      (h2.proj id).2.2.trans (h1.proj id).2.2⟩, ?_⟩
  intro hnd hdom hidx
  apply h2.idx_tr
  · exact h1.heap_perm.symm.nodup hnd
  · intro id hid
    rw [alookup_isSome_iff, h1.es_fst]
    rw [← alookup_isSome_iff]
    exact hdom id (h1.heap_perm.mem_iff.1 hid)
  · exact h1.idx_tr hnd hdom hidx

theorem siftOK_hSwap (c : Cache) {i j : Nat} (hi : i < c.heap.length)
    (hj : j < c.heap.length) : SiftOK c (hSwap c i j) :=
  ⟨rfl, rfl, hSwap_es_fst c i j, rfl, rfl, rfl, rfl, rfl, hSwap_perm c hi hj,
   hSwap_len c i j, ent_hSwap_proj c i j,
   fun hnd hdom hidx => hSwap_idx c hi hj hnd hdom hidx⟩

theorem upFuel_sift : ∀ (fuel : Nat) (c : Cache) (j : Nat), j < c.heap.length →
    c.heap.Nodup → SiftOK c (upFuel c j fuel) := by
  intro fuel
  induction fuel with
  | zero => intro c j _ _; exact siftOK_refl c
  | succ fuel ih =>
    intro c j hj hnd
    show SiftOK c (if (j - 1) / 2 = j ∨ ¬(c.expAt j < c.expAt ((j - 1) / 2)) then c
      else upFuel (hSwap c ((j - 1) / 2) j) ((j - 1) / 2) fuel)
    by_cases hc : (j - 1) / 2 = j ∨ ¬(c.expAt j < c.expAt ((j - 1) / 2))
    · rw [if_pos hc]
      exact siftOK_refl c
    · rw [if_neg hc]
      have hi : (j - 1) / 2 < c.heap.length :=
        lt_of_le_of_lt (le_trans (Nat.div_le_self _ 2) (Nat.sub_le j 1)) hj
      have hs := siftOK_hSwap c hi hj
      refine siftOK_trans hs (ih _ _ ?_ ?_)
      · rw [hSwap_len]
        exact hi
      · exact hs.heap_perm.symm.nodup hnd

theorem upFuel_outside : ∀ (fuel : Nat) (c : Cache) (j t : Nat), j < c.heap.length →
    t < c.heap.length → j < t → c.heap.Nodup →
    (upFuel c j fuel).hid t = c.hid t ∧ (upFuel c j fuel).ent (c.hid t) = c.ent (c.hid t) := by
  intro fuel
  induction fuel with
  | zero => intro c j t _ _ _ _; exact ⟨rfl, rfl⟩
  | succ fuel ih =>
    intro c j t hj ht hjt hnd
    show (if (j - 1) / 2 = j ∨ ¬(c.expAt j < c.expAt ((j - 1) / 2)) then c
      else upFuel (hSwap c ((j - 1) / 2) j) ((j - 1) / 2) fuel).hid t = _ ∧
      (if (j - 1) / 2 = j ∨ ¬(c.expAt j < c.expAt ((j - 1) / 2)) then c
      else upFuel (hSwap c ((j - 1) / 2) j) ((j - 1) / 2) fuel).ent (c.hid t) = _
    by_cases hc : (j - 1) / 2 = j ∨ ¬(c.expAt j < c.expAt ((j - 1) / 2))
    · rw [if_pos hc]
      exact ⟨rfl, rfl⟩
    · rw [if_neg hc]
      have hpar : (j - 1) / 2 ≤ j := le_trans (Nat.div_le_self _ 2) (Nat.sub_le j 1)
      have hi : (j - 1) / 2 < c.heap.length := lt_of_le_of_lt hpar hj
      have hit : (j - 1) / 2 ≠ t := by omega
      have hhid : (hSwap c ((j - 1) / 2) j).hid t = c.hid t := by
        rw [hSwap_hid c hi hj, if_neg (by omega : t ≠ j), if_neg (fun h => hit h.symm)]
      have hent : (hSwap c ((j - 1) / 2) j).ent (c.hid t) = c.ent (c.hid t) := by
        apply hSwap_ent_other
        · exact fun h => hit (hid_inj hnd ht hi h).symm
        · exact fun h => (by omega : t ≠ j) (hid_inj hnd ht hj h)
      have ihr := ih (hSwap c ((j - 1) / 2) j) ((j - 1) / 2) t
        (by rw [hSwap_len]; exact hi) (by rw [hSwap_len]; exact ht)
        (by omega) ((hSwap_perm c hi hj).symm.nodup hnd)
      refine ⟨by rw [ihr.1, hhid], ?_⟩
      have h3 := ihr.2
      rw [hhid] at h3
      exact h3.trans hent

theorem downFuel_sift : ∀ (fuel : Nat) (c : Cache) (i n : Nat), n ≤ c.heap.length →
    c.heap.Nodup → SiftOK c (downFuel c i n fuel).1 := by
  intro fuel
  induction fuel with
  | zero => intro c i n _ _; exact siftOK_refl c
  | succ fuel ih =>
    intro c i n hn hnd
    show SiftOK c (if 2 * i + 1 ≥ n then (c, i)
      else if ¬(c.expAt (djSel c i n) < c.expAt i) then (c, i)
      else downFuel (hSwap c i (djSel c i n)) (djSel c i n) n fuel).1
    by_cases h1 : 2 * i + 1 ≥ n
    · rw [if_pos h1]
      exact siftOK_refl c
    · rw [if_neg h1]
      by_cases h2 : ¬(c.expAt (djSel c i n) < c.expAt i)
      · rw [if_pos h2]
        exact siftOK_refl c
      · rw [if_neg h2]
        have hjn : djSel c i n < n := by
          unfold djSel
          split
          · omega
          · omega
        have hi : i < c.heap.length := lt_of_lt_of_le (by omega) hn
        have hj : djSel c i n < c.heap.length := lt_of_lt_of_le hjn hn
        have hs := siftOK_hSwap c hi hj
        refine siftOK_trans hs (ih _ _ n ?_ ?_)
        · rw [hSwap_len]
          exact hn
        · exact hs.heap_perm.symm.nodup hnd

theorem downFuel_mono : ∀ (fuel : Nat) (c : Cache) (i n : Nat),
    i ≤ (downFuel c i n fuel).2 := by
  intro fuel
  induction fuel with
  | zero => intro c i n; exact le_refl i
  | succ fuel ih =>
    intro c i n
    show i ≤ (if 2 * i + 1 ≥ n then (c, i)
      else if ¬(c.expAt (djSel c i n) < c.expAt i) then (c, i)
      else downFuel (hSwap c i (djSel c i n)) (djSel c i n) n fuel).2
    by_cases h1 : 2 * i + 1 ≥ n
    · rw [if_pos h1]
    · rw [if_neg h1]
      by_cases h2 : ¬(c.expAt (djSel c i n) < c.expAt i)
      · rw [if_pos h2]
      · rw [if_neg h2]
        refine le_trans ?_ (ih _ (djSel c i n) n)
        unfold djSel
        split
        · omega
        · omega

theorem downFuel_stay : ∀ (fuel : Nat) (c : Cache) (i n : Nat),
    (downFuel c i n fuel).2 = i → (downFuel c i n fuel).1 = c := by
  intro fuel
  induction fuel with
  | zero => intro c i n _; rfl
  | succ fuel ih =>
    intro c i n
    show (if 2 * i + 1 ≥ n then (c, i)
      else if ¬(c.expAt (djSel c i n) < c.expAt i) then (c, i)
      else downFuel (hSwap c i (djSel c i n)) (djSel c i n) n fuel).2 = i →
      (if 2 * i + 1 ≥ n then (c, i)
      else if ¬(c.expAt (djSel c i n) < c.expAt i) then (c, i)
      else downFuel (hSwap c i (djSel c i n)) (djSel c i n) n fuel).1 = c
    by_cases h1 : 2 * i + 1 ≥ n
    · rw [if_pos h1]
      intro _
      rfl
    · rw [if_neg h1]
      by_cases h2 : ¬(c.expAt (djSel c i n) < c.expAt i)
      · rw [if_pos h2]
        intro _
        rfl
      · rw [if_neg h2]
        intro hend
        exfalso
        have := downFuel_mono fuel (hSwap c i (djSel c i n)) (djSel c i n) n
        rw [hend] at this
        have : 2 * i + 1 ≤ i := by
          refine le_trans ?_ this
          unfold djSel
          split
          · omega
          · omega
        omega

theorem downFuel_outside : ∀ (fuel : Nat) (c : Cache) (i n t : Nat),
    n ≤ c.heap.length → t < c.heap.length → n ≤ t → c.heap.Nodup →
    (downFuel c i n fuel).1.hid t = c.hid t ∧
    (downFuel c i n fuel).1.ent (c.hid t) = c.ent (c.hid t) := by
  intro fuel
  induction fuel with
  | zero => intro c i n t _ _ _ _; exact ⟨rfl, rfl⟩
  | succ fuel ih =>
    intro c i n t hn ht hnt hnd
    show (if 2 * i + 1 ≥ n then (c, i)
      else if ¬(c.expAt (djSel c i n) < c.expAt i) then (c, i)
      else downFuel (hSwap c i (djSel c i n)) (djSel c i n) n fuel).1.hid t = _ ∧
      (if 2 * i + 1 ≥ n then (c, i)
      else if ¬(c.expAt (djSel c i n) < c.expAt i) then (c, i)
      else downFuel (hSwap c i (djSel c i n)) (djSel c i n) n fuel).1.ent (c.hid t) = _
    by_cases h1 : 2 * i + 1 ≥ n
    · rw [if_pos h1]
      exact ⟨rfl, rfl⟩
    · rw [if_neg h1]
      by_cases h2 : ¬(c.expAt (djSel c i n) < c.expAt i)
      · rw [if_pos h2]
        exact ⟨rfl, rfl⟩
      · rw [if_neg h2]
        have hjn : djSel c i n < n := by
          unfold djSel
          split
          · omega
          · omega
        have hi : i < c.heap.length := lt_of_lt_of_le (by omega) hn
        have hj : djSel c i n < c.heap.length := lt_of_lt_of_le hjn hn
        have hti : i ≠ t := by omega
        have htj : djSel c i n ≠ t := by omega
        have hhid : (hSwap c i (djSel c i n)).hid t = c.hid t := by
          rw [hSwap_hid c hi hj, if_neg (fun h => htj h.symm), if_neg (fun h => hti h.symm)]
        have hent : (hSwap c i (djSel c i n)).ent (c.hid t) = c.ent (c.hid t) := by
          apply hSwap_ent_other
          · exact fun h => hti (hid_inj hnd ht hi h).symm
          · exact fun h => htj (hid_inj hnd ht hj h).symm
        have ihr := ih (hSwap c i (djSel c i n)) (djSel c i n) n t
          (by rw [hSwap_len]; exact hn) (by rw [hSwap_len]; exact ht) hnt
          ((hSwap_perm c hi hj).symm.nodup hnd)
        refine ⟨by rw [ihr.1, hhid], ?_⟩
        have h3 := ihr.2
        rw [hhid] at h3
        exact h3.trans hent

/-! ## Heap order: `up` -/

theorem upFuel_ord : ∀ (fuel : Nat) (c : Cache) (j m : Nat), j < fuel → j < m →
    m ≤ c.heap.length → c.heap.Nodup →
    (∀ k, 0 < k → k < m → k ≠ j → c.expAt ((k - 1) / 2) ≤ c.expAt k) →
    (∀ k, 0 < k → k < m → (k - 1) / 2 = j → 0 < j → c.expAt ((j - 1) / 2) ≤ c.expAt k) →
    HeapOrd (upFuel c j fuel) m := by
  intro fuel
  induction fuel with
  | zero => intro c j m hf _ _ _ _ _; omega
  | succ fuel ih =>
    intro c j m hf hjm hm hnd hU1 hU2
    show HeapOrd (if (j - 1) / 2 = j ∨ ¬(c.expAt j < c.expAt ((j - 1) / 2)) then c
      else upFuel (hSwap c ((j - 1) / 2) j) ((j - 1) / 2) fuel) m
    by_cases hc : (j - 1) / 2 = j ∨ ¬(c.expAt j < c.expAt ((j - 1) / 2))
    · rw [if_pos hc]
      intro k hk hkm
      rcases hc with hc | hc
      · have hj0 : j = 0 := by omega
        exact hU1 k hk hkm (by omega)
      · by_cases hkj : k = j
        · subst hkj
          exact le_of_not_lt hc
        · exact hU1 k hk hkm hkj
    · rw [if_neg hc]
      push_neg at hc
      obtain ⟨hij, hlt⟩ := hc
      have hj0 : 0 < j := by
        rcases Nat.eq_zero_or_pos j with h | h
        · subst h; exact absurd rfl hij
        · exact h
      have hiltj : (j - 1) / 2 < j := by omega
      have hi : (j - 1) / 2 < c.heap.length :=
        lt_of_lt_of_le (lt_trans hiltj hjm) hm
      have hj : j < c.heap.length := lt_of_lt_of_le hjm hm
      have hje := hSwap_expAt c hi hj
      apply ih (hSwap c ((j - 1) / 2) j) ((j - 1) / 2) m (by omega) (by omega)
        (by rw [hSwap_len]; exact hm) ((hSwap_perm c hi hj).symm.nodup hnd)
      · -- U1 for the swapped state at the parent position
        intro k hk hkm hki
        rw [hje k, hje ((k - 1) / 2)]
        by_cases hkj : k = j
        · rw [if_pos hkj, if_neg (show (k - 1) / 2 ≠ j by omega),
            if_pos (show (k - 1) / 2 = (j - 1) / 2 by omega)]
          exact le_of_lt hlt
        · rw [if_neg hkj]
          by_cases hpki : (k - 1) / 2 = (j - 1) / 2
          · rw [if_neg hki, if_neg (show (k - 1) / 2 ≠ j by omega), if_pos hpki]
            have h1 := hU1 k hk hkm hkj
            rw [hpki] at h1
            exact le_of_lt (lt_of_lt_of_le hlt h1)
          · by_cases hpkj : (k - 1) / 2 = j
            · rw [if_neg hki, if_pos hpkj]
              exact hU2 k hk hkm hpkj hj0
            · rw [if_neg hki, if_neg hpkj, if_neg hpki]
              exact hU1 k hk hkm hkj
      · -- U2 for the swapped state at the parent position
        intro k hk hkm hpk hi0
        rw [hje k, hje (((j - 1) / 2 - 1) / 2)]
        have hppj : ((j - 1) / 2 - 1) / 2 ≠ j := by omega
        have hppi : ((j - 1) / 2 - 1) / 2 ≠ (j - 1) / 2 := by omega
        rw [if_neg hppj, if_neg hppi]
        by_cases hkj : k = j
        · rw [if_pos hkj]
          exact hU1 ((j - 1) / 2) hi0 (by omega) (by omega)
        · have hki : k ≠ (j - 1) / 2 := by omega
          rw [if_neg hkj, if_neg hki]
          have h1 : c.expAt (((j - 1) / 2 - 1) / 2) ≤ c.expAt ((j - 1) / 2) :=
            hU1 ((j - 1) / 2) hi0 (by omega) (by omega)
          have h2 : c.expAt ((j - 1) / 2) ≤ c.expAt k := by
            have h3 := hU1 k hk hkm hkj
            rw [hpk] at h3
            exact h3
          exact le_trans h1 h2

/-! ## Heap order: `down` -/

theorem djSel_range (c : Cache) (i n : Nat) :
    2 * i + 1 ≤ djSel c i n ∧ djSel c i n ≤ 2 * i + 1 + 1 := by
  unfold djSel
  split
  · omega
  · omega

theorem downFuel_ord : ∀ (fuel : Nat) (c : Cache) (i n : Nat), n - i ≤ fuel →
    n ≤ c.heap.length → c.heap.Nodup →
    (∀ k, 0 < k → k < n → k ≠ i → (k - 1) / 2 ≠ i → c.expAt ((k - 1) / 2) ≤ c.expAt k) →
    (∀ k, 0 < k → k < n → (k - 1) / 2 = i → 0 < i → c.expAt ((i - 1) / 2) ≤ c.expAt k) →
    ((∀ k, 0 < k → k < n → k ≠ (downFuel c i n fuel).2 →
        (k - 1) / 2 ≠ (downFuel c i n fuel).2 →
        (downFuel c i n fuel).1.expAt ((k - 1) / 2) ≤ (downFuel c i n fuel).1.expAt k) ∧
     (∀ k, 0 < k → k < n → (k - 1) / 2 = (downFuel c i n fuel).2 →
        (downFuel c i n fuel).1.expAt (downFuel c i n fuel).2 ≤
          (downFuel c i n fuel).1.expAt k) ∧
     (∀ k, 0 < k → k < n → (k - 1) / 2 = (downFuel c i n fuel).2 →
        0 < (downFuel c i n fuel).2 →
        (downFuel c i n fuel).1.expAt (((downFuel c i n fuel).2 - 1) / 2) ≤
          (downFuel c i n fuel).1.expAt k) ∧
     ((downFuel c i n fuel).2 ≠ i → 0 < (downFuel c i n fuel).2 →
        (downFuel c i n fuel).1.expAt (((downFuel c i n fuel).2 - 1) / 2) ≤
          (downFuel c i n fuel).1.expAt (downFuel c i n fuel).2)) := by
  intro fuel
  induction fuel with
  | zero =>
    intro c i n hfu _ _ hD1 hD2
    refine ⟨hD1, ?_, ?_, ?_⟩
    · intro k _ hkn hpk
      have hpk' : (k - 1) / 2 = i := hpk
      exact absurd hpk' (by omega)
    · intro k _ hkn hpk _
      have hpk' : (k - 1) / 2 = i := hpk
      exact absurd hpk' (by omega)
    · intro h _
      exact absurd rfl h
  | succ fuel ih =>
    intro c i n hfu hn hnd hD1 hD2
    have hcl : downFuel c i n (fuel + 1) =
        (if 2 * i + 1 ≥ n then ((c, i) : Cache × Nat)
         else if ¬(c.expAt (djSel c i n) < c.expAt i) then (c, i)
         else downFuel (hSwap c i (djSel c i n)) (djSel c i n) n fuel) := rfl
    rw [hcl]
    by_cases h1 : 2 * i + 1 ≥ n
    · rw [if_pos h1]
      refine ⟨hD1, ?_, ?_, fun h _ => absurd rfl h⟩
      · intro k _ hkn hpk
        exact absurd hpk (by omega)
      · intro k _ hkn hpk _
        exact absurd hpk (by omega)
    · rw [if_neg h1]
      by_cases h2 : ¬(c.expAt (djSel c i n) < c.expAt i)
      · rw [if_pos h2]
        have hile : c.expAt i ≤ c.expAt (djSel c i n) := le_of_not_lt h2
        refine ⟨hD1, ?_, hD2, fun h _ => absurd rfl h⟩
        intro k hk hkn hpk
        have hk12 : k = 2 * i + 1 ∨ k = 2 * i + 1 + 1 := by omega
        by_cases hsel : 2 * i + 1 + 1 < n ∧ c.expAt (2 * i + 1 + 1) < c.expAt (2 * i + 1)
        · have hds : djSel c i n = 2 * i + 1 + 1 := by unfold djSel; rw [if_pos hsel]
          rw [hds] at hile
          rcases hk12 with hk12 | hk12
          · rw [hk12]
            exact le_of_lt (lt_of_le_of_lt hile hsel.2)
          · rw [hk12]
            exact hile
        · have hds : djSel c i n = 2 * i + 1 := by unfold djSel; rw [if_neg hsel]
          rw [hds] at hile
          rcases hk12 with hk12 | hk12
          · rw [hk12]
            exact hile
          · rw [hk12]
            push_neg at hsel
            have h3 : c.expAt (2 * i + 1) ≤ c.expAt (2 * i + 1 + 1) :=
              hsel (by omega)
            exact le_trans hile h3
      · rw [if_neg h2]
        push_neg at h2
        have hjr := djSel_range c i n
        have hjn : djSel c i n < n := by
          unfold djSel
          split
          · omega
          · omega
        have hij : i ≠ djSel c i n := by omega
        have hi : i < c.heap.length := lt_of_lt_of_le (by omega) hn
        have hj : djSel c i n < c.heap.length := lt_of_lt_of_le hjn hn
        have hje := hSwap_expAt c hi hj
        have hpj : (djSel c i n - 1) / 2 = i := by omega
        have hD1' : ∀ k, 0 < k → k < n → k ≠ djSel c i n → (k - 1) / 2 ≠ djSel c i n →
            (hSwap c i (djSel c i n)).expAt ((k - 1) / 2) ≤
              (hSwap c i (djSel c i n)).expAt k := by
          intro k hk hkn hkj hpkj
          rw [hje k, hje ((k - 1) / 2)]
          by_cases hki : k = i
          · have hi0 : 0 < i := by omega
            rw [if_neg (by omega : ¬k = djSel c i n), if_pos hki,
              if_neg (by omega : ¬(k - 1) / 2 = djSel c i n),
              if_neg (by omega : ¬(k - 1) / 2 = i)]
            have h3 := hD2 (djSel c i n) (by omega) hjn hpj hi0
            have heq : (k - 1) / 2 = (i - 1) / 2 := by omega
            rw [heq]
            exact h3
          · by_cases hpki : (k - 1) / 2 = i
            · rw [if_neg hkj, if_neg hki, if_neg hpkj, if_pos hpki]
              have hk12 : k = 2 * i + 1 ∨ k = 2 * i + 1 + 1 := by omega
              by_cases hsel : 2 * i + 1 + 1 < n ∧ c.expAt (2 * i + 1 + 1) < c.expAt (2 * i + 1)
              · have hds : djSel c i n = 2 * i + 1 + 1 := by unfold djSel; rw [if_pos hsel]
                have hkk : k = 2 * i + 1 := by omega
                rw [hds, hkk]
                exact le_of_lt hsel.2
              · have hds : djSel c i n = 2 * i + 1 := by unfold djSel; rw [if_neg hsel]
                have hkk : k = 2 * i + 1 + 1 := by omega
                push_neg at hsel
                rw [hds, hkk]
                exact hsel (by omega)
            · rw [if_neg hkj, if_neg hki, if_neg hpkj, if_neg hpki]
              exact hD1 k hk hkn hki hpki
        have hD2' : ∀ k, 0 < k → k < n → (k - 1) / 2 = djSel c i n → 0 < djSel c i n →
            (hSwap c i (djSel c i n)).expAt ((djSel c i n - 1) / 2) ≤
              (hSwap c i (djSel c i n)).expAt k := by
          intro k hk hkn hpk _
          rw [hje k, hje ((djSel c i n - 1) / 2), hpj]
          rw [if_neg (by omega : ¬i = djSel c i n), if_pos rfl,
            if_neg (by omega : ¬k = djSel c i n), if_neg (by omega : ¬k = i)]
          have h3 := hD1 k hk hkn (by omega) (by omega)
          rw [hpk] at h3
          exact h3
        have ihr := ih (hSwap c i (djSel c i n)) (djSel c i n) n (by omega)
          (by rw [hSwap_len]; exact hn) ((hSwap_perm c hi hj).symm.nodup hnd) hD1' hD2'
        refine ⟨ihr.1, ihr.2.1, ihr.2.2.1, ?_⟩
        intro hri hr0
        by_cases hrj : (downFuel (hSwap c i (djSel c i n)) (djSel c i n) n fuel).2 =
            djSel c i n
        · rw [downFuel_stay fuel _ _ n hrj, hrj, hpj, hje (djSel c i n), hje i]
          rw [if_pos rfl, if_neg (by omega : ¬i = djSel c i n), if_pos rfl]
          exact le_of_lt h2
        · exact ihr.2.2.2 hrj hr0

/-! ## Heap operation outcomes -/

theorem ent_aupd_self {es : List (Nat × Entry)} {k : Nat} (f : Entry → Entry)
    (hs : (alookup es k).isSome) :
    (alookup (aupd es k f) k).getD dummyEntry = f ((alookup es k).getD dummyEntry) := by
  rw [alookup_aupd_self]
  cases hx : alookup es k with
  | none => rw [hx] at hs; exact absurd hs (by simp)
  | some e => rfl

theorem getD_append_lt {α : Type} {l : List α} (x d : α) {t : Nat} (h : t < l.length) :
    (l ++ [x]).getD t d = l.getD t d := by
  rw [List.getD_eq_getElem?_getD, List.getD_eq_getElem?_getD, List.getElem?_append,
    if_pos h]

theorem getD_append_len {α : Type} (l : List α) (x d : α) :
    (l ++ [x]).getD l.length d = x := by
  rw [List.getD_eq_getElem?_getD, List.getElem?_append, if_neg (lt_irrefl _)]
  simp

theorem getD_dropLast {α : Type} {l : List α} (d : α) {t : Nat} (h : t < l.length - 1) :
    l.dropLast.getD t d = l.getD t d := by
  rw [List.getD_eq_getElem?_getD, List.getD_eq_getElem?_getD, List.getElem?_dropLast,
    if_pos h]

/-- What every Go-heap mutation (`Push`, `Pop`, `Remove`) leaves intact or
re-establishes: the non-heap state, the entry projections, and the heap
well-formedness (distinct slots, covered ids, back pointers, order). -/
structure HeapOpOK (c c' : Cache) : Prop where
  coll_eq : c'.coll = c.coll
  entries_eq : c'.entries = c.entries
  es_fst : c'.estore.map Prod.fst = c.estore.map Prod.fst
  subs_eq : c'.subs = c.subs
  trace_eq : c'.trace = c.trace
  cap_eq : c'.capacity = c.capacity
  next_eq : c'.nextId = c.nextId
  ttl_eq : c'.ttl = c.ttl
  proj : ∀ x, (c'.ent x).key = (c.ent x).key ∧ (c'.ent x).value = (c.ent x).value ∧
    (c'.ent x).exp = (c.ent x).exp
  nd : c'.heap.Nodup
  dom : ∀ x ∈ c'.heap, (alookup c'.estore x).isSome
  idx : ∀ t, t < c'.heap.length → (c'.ent (c'.hid t)).index = t
  ord : HeapOrd c' c'.heap.length

theorem heapPushGo_ok (c : Cache) (id : Nat)
    (hnd : c.heap.Nodup) (hfresh : id ∉ c.heap)
    (hdom : ∀ x ∈ c.heap, (alookup c.estore x).isSome)
    (hsome : (alookup c.estore id).isSome)
    (hidx : ∀ t, t < c.heap.length → (c.ent (c.hid t)).index = t)
    (hord : HeapOrd c c.heap.length) :
    HeapOpOK c (heapPushGo c id) ∧
    List.Perm (heapPushGo c id).heap (id :: c.heap) ∧
    (heapPushGo c id).heap.length = c.heap.length + 1 := by
  set c1 : Cache :=
    { c with estore := aupd c.estore id fun e => { e with index := c.heap.length },
             heap := c.heap ++ [id] } with hc1
  have hlen1 : c1.heap.length = c.heap.length + 1 := by
    simp [hc1]
  have hperm1 : List.Perm c1.heap (id :: c.heap) := List.perm_append_singleton id c.heap
  have hnd1 : c1.heap.Nodup := hperm1.symm.nodup (List.nodup_cons.2 ⟨hfresh, hnd⟩)
  have hproj1 : ∀ x, (c1.ent x).key = (c.ent x).key ∧ (c1.ent x).value = (c.ent x).value ∧
      (c1.ent x).exp = (c.ent x).exp := by
    intro x
    exact ent_aupd_keep c.estore id (fun e => { e with index := c.heap.length })
      (fun _ => rfl) (fun _ => rfl) (fun _ => rfl) x
  have hfst1 : c1.estore.map Prod.fst = c.estore.map Prod.fst := map_fst_aupd _ _ _
  have hdom1 : ∀ x ∈ c1.heap, (alookup c1.estore x).isSome := by
    intro x hx
    rw [alookup_isSome_iff, hfst1, ← alookup_isSome_iff]
    rcases (List.mem_append.1 hx) with h | h
    · exact hdom x h
    · simp only [List.mem_singleton] at h
      exact h ▸ hsome
  have hhid_lt : ∀ t, t < c.heap.length → c1.hid t = c.hid t := by
    intro t ht
    exact getD_append_lt id 0 ht
  have hhid_len : c1.hid c.heap.length = id := getD_append_len c.heap id 0
  have hent_ne : ∀ x, x ≠ id → c1.ent x = c.ent x := by
    intro x hx
    show (alookup (aupd c.estore id _) x).getD dummyEntry = _
    rw [alookup_aupd_ne _ _ _ _ hx]
    rfl
  have hent_id : c1.ent id = { c.ent id with index := c.heap.length } := by
    show (alookup (aupd c.estore id _) id).getD dummyEntry = _
    rw [ent_aupd_self _ hsome]
    rfl
  have hidx1 : ∀ t, t < c1.heap.length → (c1.ent (c1.hid t)).index = t := by
    intro t ht
    rw [hlen1] at ht
    by_cases htl : t < c.heap.length
    · rw [hhid_lt t htl, hent_ne _ (fun h => hfresh (h ▸ hid_mem htl))]
      exact hidx t htl
    · have hte : t = c.heap.length := by omega
      rw [hte, hhid_len, hent_id]
  have hexp1 : ∀ t, t < c.heap.length → c1.expAt t = c.expAt t := by
    intro t ht
    unfold Cache.expAt
    rw [hhid_lt t ht, (hproj1 _).2.2]
  have hup : SiftOK c1 (upH c1 (c1.heap.length - 1)) :=
    upFuel_sift (c1.heap.length - 1 + 1) c1 (c1.heap.length - 1) (by omega) hnd1
  have hordup : HeapOrd (upH c1 (c1.heap.length - 1)) c1.heap.length := by
    apply upFuel_ord (c1.heap.length - 1 + 1) c1 (c1.heap.length - 1) c1.heap.length
      (by omega) (by omega) (le_refl _) hnd1
    · intro k hk hkm hkj
      rw [hlen1] at hkm
      have hkl : k < c.heap.length := by omega
      have hpl : (k - 1) / 2 < c.heap.length := by omega
      rw [hexp1 k hkl, hexp1 _ hpl]
      exact hord k hk hkl
    · intro k hk hkm hpk hj0
      rw [hlen1] at hkm hpk ⊢
      omega
  have hpush : heapPushGo c id = upH c1 (c1.heap.length - 1) := rfl
  rw [hpush]
  set c2 := upH c1 (c1.heap.length - 1) with hc2
  refine ⟨⟨?_, ?_, ?_, ?_, ?_, ?_, ?_, ?_, ?_, ?_, ?_, ?_, ?_⟩, ?_, ?_⟩
  · exact hup.coll_eq
  · exact hup.entries_eq
  · exact hup.es_fst.trans hfst1
  · exact hup.subs_eq
  · exact hup.trace_eq
  · exact hup.cap_eq
  · exact hup.next_eq
  · exact hup.ttl_eq
  · intro x
    exact ⟨(hup.proj x).1.trans (hproj1 x).1, (hup.proj x).2.1.trans (hproj1 x).2.1,
      (hup.proj x).2.2.trans (hproj1 x).2.2⟩
  · exact hup.heap_perm.symm.nodup hnd1
  · intro x hx
    rw [alookup_isSome_iff, hup.es_fst, ← alookup_isSome_iff]
    exact hdom1 x (hup.heap_perm.mem_iff.1 hx)
  · exact hup.idx_tr hnd1 hdom1 hidx1
  · rw [show c2.heap.length = c1.heap.length from hup.len_eq]
    exact hordup
  · exact hup.heap_perm.trans hperm1
  · rw [hup.len_eq, hlen1]

theorem last_decomp {l : List Nat} (hne : l ≠ []) :
    l = l.dropLast ++ [l.getD (l.length - 1) 0] := by
  have hlen : 0 < l.length := List.length_pos.2 hne
  have h2 : l.getD (l.length - 1) 0 = l.getLast hne := by
    rw [List.getD_eq_getElem l 0 (by omega)]
    exact (List.getLast_eq_getElem l hne).symm
  rw [h2]
  exact (List.dropLast_append_getLast hne).symm

theorem dropLast_perm_erase {l : List Nat} (hne : l ≠ []) :
    List.Perm l.dropLast (l.erase (l.getD (l.length - 1) 0)) := by
  have hp : l.getD (l.length - 1) 0 ∈ l := by
    apply getD_mem'
    cases l with
    | nil => exact absurd rfl hne
    | cons x t => simp
  have h1 : List.Perm l (l.getD (l.length - 1) 0 :: l.erase (l.getD (l.length - 1) 0)) :=
    List.perm_cons_erase hp
  have h2 : List.Perm (l.dropLast ++ [l.getD (l.length - 1) 0])
      (l.getD (l.length - 1) 0 :: l.dropLast) :=
    List.perm_append_singleton _ _
  have h3 : List.Perm (l.dropLast ++ [l.getD (l.length - 1) 0])
      (l.getD (l.length - 1) 0 :: l.erase (l.getD (l.length - 1) 0)) := by
    rw [← last_decomp hne]
    exact h1
  exact (List.perm_cons _).1 (h2.symm.trans h3)

theorem downFuel_exit_children : ∀ (fuel : Nat) (c : Cache) (i n : Nat), 0 < fuel →
    (downFuel c i n fuel).2 = i →
    ∀ k, 0 < k → k < n → (k - 1) / 2 = i → c.expAt i ≤ c.expAt k := by
  intro fuel c i n hf hstay k hk hkn hpk
  obtain ⟨fuel, rfl⟩ : ∃ f, fuel = f + 1 := ⟨fuel - 1, by omega⟩
  have hcl : downFuel c i n (fuel + 1) =
      (if 2 * i + 1 ≥ n then ((c, i) : Cache × Nat)
       else if ¬(c.expAt (djSel c i n) < c.expAt i) then (c, i)
       else downFuel (hSwap c i (djSel c i n)) (djSel c i n) n fuel) := rfl
  rw [hcl] at hstay
  by_cases h1 : 2 * i + 1 ≥ n
  · omega
  · rw [if_neg h1] at hstay
    by_cases h2 : ¬(c.expAt (djSel c i n) < c.expAt i)
    · have hile : c.expAt i ≤ c.expAt (djSel c i n) := le_of_not_lt h2
      have hk12 : k = 2 * i + 1 ∨ k = 2 * i + 1 + 1 := by omega
      by_cases hsel : 2 * i + 1 + 1 < n ∧ c.expAt (2 * i + 1 + 1) < c.expAt (2 * i + 1)
      · have hds : djSel c i n = 2 * i + 1 + 1 := by unfold djSel; rw [if_pos hsel]
        rw [hds] at hile
        rcases hk12 with hk12 | hk12
        · rw [hk12]
          exact le_of_lt (lt_of_le_of_lt hile hsel.2)
        · rw [hk12]
          exact hile
      · have hds : djSel c i n = 2 * i + 1 := by unfold djSel; rw [if_neg hsel]
        rw [hds] at hile
        rcases hk12 with hk12 | hk12
        · rw [hk12]
          exact hile
        · rw [hk12]
          push_neg at hsel
          exact le_trans hile (hsel (by omega))
    · rw [if_neg h2] at hstay
      exfalso
      have hmono := downFuel_mono fuel (hSwap c i (djSel c i n)) (djSel c i n) n
      have hjr := djSel_range c i n
      omega

theorem sift_dom {c c' : Cache} (hs : SiftOK c c')
    (hdom : ∀ x ∈ c.heap, (alookup c.estore x).isSome) :
    ∀ x ∈ c'.heap, (alookup c'.estore x).isSome := by
  intro x hx
  rw [alookup_isSome_iff, hs.es_fst, ← alookup_isSome_iff]
  exact hdom x (hs.heap_perm.mem_iff.1 hx)

theorem heapPopGo_ok (c : Cache)
    (hnd : c.heap.Nodup)
    (hdom : ∀ x ∈ c.heap, (alookup c.estore x).isSome)
    (hidx : ∀ t, t < c.heap.length → (c.ent (c.hid t)).index = t)
    (hord : HeapOrd c c.heap.length)
    (h0 : 0 < c.heap.length) :
    HeapOpOK c (heapPopGo c).1 ∧
    (heapPopGo c).2 = some (c.hid 0) ∧
    List.Perm (heapPopGo c).1.heap (c.heap.erase (c.hid 0)) ∧
    (heapPopGo c).1.heap.length = c.heap.length - 1 ∧
    ((heapPopGo c).1.ent (c.hid 0)).index = c.heap.length - 1 := by
  have hn : c.heap.length - 1 < c.heap.length := by omega
  set n := c.heap.length - 1 with hdefn
  set c1 := hSwap c 0 n with hdefc1
  set c2 := (downFuel c1 0 n n).1 with hdefc2
  have hcl : heapPopGo c = ({ c2 with heap := c2.heap.dropLast }, some (c2.hid n)) := by
    unfold heapPopGo
    rw [if_neg (by omega)]
    rfl
  rw [hcl]
  have hS : SiftOK c c1 := siftOK_hSwap c h0 hn
  have hnd1 : c1.heap.Nodup := hS.heap_perm.symm.nodup hnd
  have hlen1 : c1.heap.length = c.heap.length := hS.len_eq
  have hD : SiftOK c1 c2 := downFuel_sift n c1 0 n (by omega) hnd1
  have hSD : SiftOK c c2 := siftOK_trans hS hD
  have hout := downFuel_outside n c1 0 n n (by omega) (by omega) (le_refl n) hnd1
  have hc1n : c1.hid n = c.hid 0 := by
    rw [hdefc1, hSwap_hid c h0 hn n, if_pos rfl]
  have hlast : c2.hid n = c.hid 0 := hout.1.trans hc1n
  have hidx1 := hS.idx_tr hnd hdom hidx
  have hidx2 := hSD.idx_tr hnd hdom hidx
  have hinv : (c2.ent (c.hid 0)).index = n := by
    rw [← hc1n]
    have h2 := hout.2
    rw [h2]
    exact hidx1 n (by omega)
  have hord2 : HeapOrd c2 n := by
    have hD1 : ∀ k, 0 < k → k < n → k ≠ 0 → (k - 1) / 2 ≠ 0 →
        c1.expAt ((k - 1) / 2) ≤ c1.expAt k := by
      intro k hk hkn _ hpk
      rw [hdefc1, hSwap_expAt c h0 hn k, hSwap_expAt c h0 hn ((k - 1) / 2)]
      rw [if_neg (by omega : ¬k = n), if_neg (by omega : ¬k = 0),
        if_neg (by omega : ¬(k - 1) / 2 = n), if_neg hpk]
      exact hord k hk (by omega)
    have hD2 : ∀ k, 0 < k → k < n → (k - 1) / 2 = 0 → 0 < 0 →
        c1.expAt ((0 - 1) / 2) ≤ c1.expAt k := by
      intro k _ _ _ h
      omega
    have hodr := downFuel_ord n c1 0 n (by omega) (by omega) hnd1 hD1 hD2
    intro k hk hkn
    by_cases hkr : k = (downFuel c1 0 n n).2
    · have h3 := hodr.2.2.2 (by omega) (by omega)
      rw [← hkr] at h3
      exact h3
    · by_cases hpkr : (k - 1) / 2 = (downFuel c1 0 n n).2
      · have h3 := hodr.2.1 k hk hkn hpkr
        rw [← hpkr] at h3
        exact h3
      · exact hodr.1 k hk hkn hkr hpkr
  have hlen2 : c2.heap.length = c.heap.length := hSD.len_eq
  have hne2 : c2.heap ≠ [] := by
    intro h
    rw [h] at hlen2
    simp at hlen2
    omega
  have hnd2 : c2.heap.Nodup := hSD.heap_perm.symm.nodup hnd
  have hgd : c2.heap.getD (c2.heap.length - 1) 0 = c.hid 0 := by
    rw [show c2.heap.length - 1 = n by omega]
    exact hlast
  refine ⟨⟨hSD.coll_eq, hSD.entries_eq, hSD.es_fst, hSD.subs_eq, hSD.trace_eq,
    hSD.cap_eq, hSD.next_eq, hSD.ttl_eq, hSD.proj, ?_, ?_, ?_, ?_⟩, ?_, ?_, ?_, ?_⟩
  · exact (List.dropLast_sublist c2.heap).nodup hnd2
  · intro x hx
    exact sift_dom hSD hdom x ((List.dropLast_sublist c2.heap).subset hx)
  · intro t ht
    simp only [List.length_dropLast] at ht
    have hhid : (c2.heap.dropLast).getD t 0 = c2.hid t := getD_dropLast 0 ht
    show ((c2.ent ((c2.heap.dropLast).getD t 0))).index = t
    rw [hhid]
    exact hidx2 t (by omega)
  · intro k hk hkm
    simp only [List.length_dropLast] at hkm
    show (c2.ent ((c2.heap.dropLast).getD ((k - 1) / 2) 0)).exp ≤
      (c2.ent ((c2.heap.dropLast).getD k 0)).exp
    rw [getD_dropLast 0 hkm, getD_dropLast 0 (by omega : (k - 1) / 2 < c2.heap.length - 1)]
    exact hord2 k hk (by omega)
  · show some (c2.hid n) = some (c.hid 0)
    rw [hlast]
  · show List.Perm c2.heap.dropLast _
    have h4 := dropLast_perm_erase hne2
    rw [hgd] at h4
    exact h4.trans (hSD.heap_perm.erase (c.hid 0))
  · show c2.heap.dropLast.length = c.heap.length - 1
    rw [List.length_dropLast, hlen2]
  · exact hinv

theorem dropLast_pack (c cmid : Cache)
    (hS : SiftOK c cmid)
    (hnd : c.heap.Nodup)
    (hdom : ∀ x ∈ c.heap, (alookup c.estore x).isSome)
    (hidx : ∀ t, t < c.heap.length → (c.ent (c.hid t)).index = t)
    (h0 : 0 < c.heap.length)
    (p : Nat)
    (hlast : cmid.hid (c.heap.length - 1) = p)
    (hordm : HeapOrd cmid (c.heap.length - 1))
    (hpind : (cmid.ent p).index = c.heap.length - 1) :
    HeapOpOK c { cmid with heap := cmid.heap.dropLast } ∧
    List.Perm ({ cmid with heap := cmid.heap.dropLast }).heap (c.heap.erase p) ∧
    ({ cmid with heap := cmid.heap.dropLast }).heap.length = c.heap.length - 1 ∧
    (({ cmid with heap := cmid.heap.dropLast }).ent p).index = c.heap.length - 1 := by
  have hlen2 : cmid.heap.length = c.heap.length := hS.len_eq
  have hne2 : cmid.heap ≠ [] := by
    intro h
    rw [h] at hlen2
    simp at hlen2
    omega
  have hnd2 : cmid.heap.Nodup := hS.heap_perm.symm.nodup hnd
  have hidx2 := hS.idx_tr hnd hdom hidx
  have hgd : cmid.heap.getD (cmid.heap.length - 1) 0 = p := by
    rw [show cmid.heap.length - 1 = c.heap.length - 1 by omega]
    exact hlast
  refine ⟨⟨hS.coll_eq, hS.entries_eq, hS.es_fst, hS.subs_eq, hS.trace_eq,
    hS.cap_eq, hS.next_eq, hS.ttl_eq, hS.proj, ?_, ?_, ?_, ?_⟩, ?_, ?_, ?_⟩
  · exact (List.dropLast_sublist cmid.heap).nodup hnd2
  · intro x hx
    exact sift_dom hS hdom x ((List.dropLast_sublist cmid.heap).subset hx)
  · intro t ht
    simp only [List.length_dropLast] at ht
    show (cmid.ent ((cmid.heap.dropLast).getD t 0)).index = t
    rw [getD_dropLast 0 ht]
    exact hidx2 t (by omega)
  · intro k hk hkm
    simp only [List.length_dropLast] at hkm
    show (cmid.ent ((cmid.heap.dropLast).getD ((k - 1) / 2) 0)).exp ≤
      (cmid.ent ((cmid.heap.dropLast).getD k 0)).exp
    rw [getD_dropLast 0 hkm, getD_dropLast 0 (by omega : (k - 1) / 2 < cmid.heap.length - 1)]
    exact hordm k hk (by omega)
  · show List.Perm cmid.heap.dropLast _
    have h4 := dropLast_perm_erase hne2
    rw [hgd] at h4
    exact h4.trans (hS.heap_perm.erase p)
  · show cmid.heap.dropLast.length = c.heap.length - 1
    rw [List.length_dropLast, hlen2]
  · exact hpind

theorem heapRemoveGo_ok (c : Cache) (i : Nat)
    (hnd : c.heap.Nodup)
    (hdom : ∀ x ∈ c.heap, (alookup c.estore x).isSome)
    (hidx : ∀ t, t < c.heap.length → (c.ent (c.hid t)).index = t)
    (hord : HeapOrd c c.heap.length)
    (hi : i < c.heap.length) :
    HeapOpOK c (heapRemoveGo c i) ∧
    List.Perm (heapRemoveGo c i).heap (c.heap.erase (c.hid i)) ∧
    (heapRemoveGo c i).heap.length = c.heap.length - 1 ∧
    ((heapRemoveGo c i).ent (c.hid i)).index = c.heap.length - 1 := by
  have h0 : 0 < c.heap.length := by omega
  by_cases hin : c.heap.length - 1 ≠ i
  · -- interior slot: swap with the last slot, re-sift, then drop it
    have hilt : i < c.heap.length - 1 := by omega
    set n := c.heap.length - 1 with hdefn
    set cs := hSwap c i n with hdefcs
    set d := downFuel cs i n n with hdefd
    have hn : n < c.heap.length := by omega
    have hScs : SiftOK c cs := siftOK_hSwap c hi hn
    have hnds : cs.heap.Nodup := hScs.heap_perm.symm.nodup hnd
    have hlens : cs.heap.length = c.heap.length := hScs.len_eq
    have hcsn : cs.hid n = c.hid i := by
      rw [hdefcs, hSwap_hid c hi hn n, if_pos rfl]
    have hidxs := hScs.idx_tr hnd hdom hidx
    have hout := downFuel_outside n cs i n n (by omega) (by omega) (le_refl n) hnds
    have hupout : (upH cs i).hid n = cs.hid n ∧ (upH cs i).ent (cs.hid n) = cs.ent (cs.hid n) :=
      upFuel_outside (i + 1) cs i n (by omega) (by omega) (by omega) hnds
    have hpind_s : (cs.ent (c.hid i)).index = n := by
      rw [← hcsn]
      exact hidxs n (by omega)
    have hD1 : ∀ k, 0 < k → k < n → k ≠ i → (k - 1) / 2 ≠ i →
        cs.expAt ((k - 1) / 2) ≤ cs.expAt k := by
      intro k hk hkn hki hpki
      rw [hdefcs, hSwap_expAt c hi hn k, hSwap_expAt c hi hn ((k - 1) / 2)]
      rw [if_neg (by omega : ¬k = n), if_neg hki,
        if_neg (by omega : ¬(k - 1) / 2 = n), if_neg hpki]
      exact hord k hk (by omega)
    have hD2 : ∀ k, 0 < k → k < n → (k - 1) / 2 = i → 0 < i →
        cs.expAt ((i - 1) / 2) ≤ cs.expAt k := by
      intro k hk hkn hpk hi0
      rw [hdefcs, hSwap_expAt c hi hn k, hSwap_expAt c hi hn ((i - 1) / 2)]
      rw [if_neg (by omega : ¬k = n), if_neg (by omega : ¬k = i),
        if_neg (by omega : ¬(i - 1) / 2 = n), if_neg (by omega : ¬(i - 1) / 2 = i)]
      have h1 := hord i hi0 (by omega)
      have h2 := hord k hk (by omega)
      rw [hpk] at h2
      exact le_trans h1 h2
    have hdh : downH cs i n = d := rfl
    have hcl : heapRemoveGo c i =
        { heapRemoveAux c i n with heap := (heapRemoveAux c i n).heap.dropLast } := by
      unfold heapRemoveGo
      rw [if_neg (by omega : ¬c.heap.length = 0), if_pos (by omega : c.heap.length - 1 ≠ i)]
    rw [hcl]
    have haux : heapRemoveAux c i n =
        if i < d.2 then d.1 else upH d.1 i := by
      unfold heapRemoveAux
      rw [hdh]
    rw [haux]
    by_cases hmv : i < d.2
    · -- the sifted element moved down: the order is already restored
      rw [if_pos hmv]
      have hDs : SiftOK cs d.1 := downFuel_sift n cs i n (by omega) hnds
      have hS : SiftOK c d.1 := siftOK_trans hScs hDs
      have hodr := downFuel_ord n cs i n (by omega) (by omega) hnds hD1 hD2
      rw [← hdefd] at hodr
      have hordm : HeapOrd d.1 n := by
        intro k hk hkn
        by_cases hkr : k = d.2
        · have h3 := hodr.2.2.2 (by omega) (by omega)
          rw [← hkr] at h3
          exact h3
        · by_cases hpkr : (k - 1) / 2 = d.2
          · have h3 := hodr.2.1 k hk hkn hpkr
            rw [← hpkr] at h3
            exact h3
          · exact hodr.1 k hk hkn hkr hpkr
      have hlast : d.1.hid n = c.hid i := hout.1.trans hcsn
      have hpind : (d.1.ent (c.hid i)).index = n := by
        rw [← hcsn]
        have h2 := hout.2
        rw [h2]
        rw [hcsn]
        exact hpind_s
      exact dropLast_pack c d.1 hS hnd hdom hidx h0 (c.hid i) hlast hordm hpind
    · -- the sifted element stayed: `up` restores the order towards the root
      rw [if_neg hmv]
      have hstay2 : d.2 = i := by
        have hmono : i ≤ d.2 := downFuel_mono n cs i n
        omega
      have hstay1 : d.1 = cs := downFuel_stay n cs i n hstay2
      rw [hstay1]
      have hup : SiftOK cs (upH cs i) := upFuel_sift (i + 1) cs i (by omega) hnds
      have hS : SiftOK c (upH cs i) := siftOK_trans hScs hup
      have hordm : HeapOrd (upH cs i) n := by
        apply upFuel_ord (i + 1) cs i n (by omega) (by omega) (by omega) hnds
        · intro k hk hkn hki
          by_cases hpki : (k - 1) / 2 = i
          · have h3 := downFuel_exit_children n cs i n (by omega) hstay2 k hk hkn hpki
            rw [hpki]
            exact h3
          · exact hD1 k hk hkn hki hpki
        · intro k hk hkn hpk hi0
          exact hD2 k hk hkn hpk hi0
      have hlast : (upH cs i).hid n = c.hid i := hupout.1.trans hcsn
      have hpind : ((upH cs i).ent (c.hid i)).index = n := by
        rw [← hcsn]
        have h2 := hupout.2
        rw [h2]
        rw [hcsn]
        exact hpind_s
      exact dropLast_pack c (upH cs i) hS hnd hdom hidx h0 (c.hid i) hlast hordm hpind
  · -- removing the last slot: no swap, just drop it
    push_neg at hin
    have hcl : heapRemoveGo c i = { c with heap := c.heap.dropLast } := by
      unfold heapRemoveGo
      rw [if_neg (by omega : ¬c.heap.length = 0),
        if_neg (show ¬c.heap.length - 1 ≠ i by omega)]
    rw [hcl]
    have hordm : HeapOrd c (c.heap.length - 1) := by
      intro k hk hkn
      exact hord k hk (by omega)
    exact dropLast_pack c c (siftOK_refl c) hnd hdom hidx h0 (c.hid i)
      (by rw [hin]) hordm (by rw [hin]; exact hidx i hi)

/-! ## Further association-list lemmas -/

theorem alookup_append {α β : Type} [DecidableEq α] (l1 l2 : List (α × β)) (k : α) :
    alookup (l1 ++ l2) k =
      match alookup l1 k with
      | some v => some v
      | none => alookup l2 k := by
  induction l1 with
  | nil => rfl
  | cons p ps ih =>
    simp only [List.cons_append, alookup]
    by_cases hp : p.1 = k
    · rw [if_pos hp, if_pos hp]
    · rw [if_neg hp, if_neg hp]
      exact ih

theorem alookup_aerase_ne {α β : Type} [DecidableEq α] (l : List (α × β)) (k k' : α)
    (h : k' ≠ k) : alookup (aerase l k) k' = alookup l k' := by
  induction l with
  | nil => rfl
  | cons p ps ih =>
    simp only [aerase]
    by_cases hp : p.1 = k
    · rw [if_pos hp]
      show _ = alookup (p :: ps) k'
      rw [alookup, if_neg (show p.1 ≠ k' from fun hh => h (by rw [← hh, hp]))]
    · rw [if_neg hp]
      simp only [alookup]
      by_cases hpk : p.1 = k'
      · rw [if_pos hpk, if_pos hpk]
      · rw [if_neg hpk, if_neg hpk, ih]

theorem mem_aerase_of_ne {α β : Type} [DecidableEq α] {l : List (α × β)} {k : α}
    {p : α × β} (hp : p ∈ l) (hne : p.1 ≠ k) : p ∈ aerase l k := by
  induction l with
  | nil => simp at hp
  | cons q qs ih =>
    rw [aerase]
    by_cases hq : q.1 = k
    · rw [if_pos hq]
      rcases List.mem_cons.1 hp with h | h
      · exact absurd (h ▸ hq) hne
      · exact h
    · rw [if_neg hq]
      rcases List.mem_cons.1 hp with h | h
      · exact h ▸ List.mem_cons_self q _
      · exact List.mem_cons_of_mem _ (ih h)

theorem alookup_aset_self {α β : Type} [DecidableEq α] (l : List (α × β)) (k : α)
    (v : β) : alookup (aset l k v) k = some v := by
  induction l with
  | nil => simp [aset, alookup]
  | cons p ps ih =>
    rw [aset]
    by_cases hp : p.1 = k
    · rw [if_pos hp, alookup, if_pos rfl]
    · rw [if_neg hp, alookup, if_neg hp]
      exact ih

theorem alookup_aset_ne {α β : Type} [DecidableEq α] (l : List (α × β)) (k : α)
    (v : β) (k' : α) (h : k' ≠ k) : alookup (aset l k v) k' = alookup l k' := by
  induction l with
  | nil =>
    show alookup [(k, v)] k' = none
    rw [alookup, if_neg fun hh => h hh.symm]
    rfl
  | cons p ps ih =>
    rw [aset]
    by_cases hp : p.1 = k
    · rw [if_pos hp]
      have h1 : ((k, v) : α × β).1 ≠ k' := fun hh => h hh.symm
      have h2 : p.1 ≠ k' := fun hh => h (by rw [← hh, hp])
      simp only [alookup]
      rw [if_neg h1, if_neg h2]
    · rw [if_neg hp]
      simp only [alookup]
      by_cases hpk : p.1 = k'
      · rw [if_pos hpk, if_pos hpk]
      · rw [if_neg hpk, if_neg hpk, ih]

theorem map_snd_aerase {α β : Type} [DecidableEq α] [DecidableEq β]
    {l : List (α × β)} {k : α} {v : β}
    (hnd : (l.map Prod.snd).Nodup) (h : alookup l k = some v) :
    (aerase l k).map Prod.snd = (l.map Prod.snd).erase v := by
  obtain ⟨l1, l2, he, ha, -⟩ := aerase_decomp h
  have hml : l.map Prod.snd = l1.map Prod.snd ++ v :: l2.map Prod.snd := by
    rw [he]; simp
  have hvnm : v ∉ l1.map Prod.snd := by
    intro hv
    rw [hml] at hnd
    exact (List.disjoint_of_nodup_append hnd) hv (List.mem_cons_self v _)
  rw [ha, hml, List.erase_append_right _ hvnm, List.erase_cons_head]
  exact List.map_append _ _ _

/-! ## Consequences of the engine invariant -/

theorem inv_ent_key {c : Cache} (hdom : ∀ p ∈ c.entries,
    (alookup c.estore p.2).map Entry.key = some p.1) {p : GoKey × Nat}
    (hp : p ∈ c.entries) : (c.ent p.2).key = p.1 := by
  have h := hdom p hp
  cases hx : alookup c.estore p.2 with
  | none => rw [hx] at h; exact absurd h (by simp)
  | some e =>
    rw [hx] at h
    have he : c.ent p.2 = e := by unfold Cache.ent; rw [hx]; rfl
    rw [he]
    simpa using h

theorem inv_ent_isSome {c : Cache} (hdom : ∀ p ∈ c.entries,
    (alookup c.estore p.2).map Entry.key = some p.1) {p : GoKey × Nat}
    (hp : p ∈ c.entries) : (alookup c.estore p.2).isSome := by
  have h := hdom p hp
  cases hx : alookup c.estore p.2 with
  | none => rw [hx] at h; exact absurd h (by simp)
  | some e => rfl

theorem heap_entry_of_mem {c : Cache}
    (hsub : ∀ id ∈ c.heap, id ∈ idsOf c) {x : Nat} (hx : x ∈ c.heap) :
    ∃ p ∈ c.entries, p.2 = x := by
  have := hsub x hx
  exact List.mem_map.1 this

theorem inv_heap_dom {c : Cache}
    (hdom : ∀ p ∈ c.entries, (alookup c.estore p.2).map Entry.key = some p.1)
    (hsub : ∀ id ∈ c.heap, id ∈ idsOf c) :
    ∀ x ∈ c.heap, (alookup c.estore x).isSome := by
  intro x hx
  obtain ⟨p, hp, hps⟩ := heap_entry_of_mem hsub hx
  exact hps ▸ inv_ent_isSome hdom hp

theorem pair_unique {c : Cache} (hknd : c.Keys.Nodup) {k : GoKey} {a b : Nat}
    (ha : (k, a) ∈ c.entries) (hb : (k, b) ∈ c.entries) : a = b := by
  have h1 : alookup c.entries k = some a := alookup_of_mem_nodup hknd ha
  have h2 : alookup c.entries k = some b := alookup_of_mem_nodup hknd hb
  exact Option.some.inj (h1.symm.trans h2)

theorem id_unique {c : Cache} (hind : (idsOf c).Nodup) {p q : GoKey × Nat}
    (hp : p ∈ c.entries) (hq : q ∈ c.entries) (h : p.2 = q.2) : p = q :=
  List.inj_on_of_nodup_map hind hp hq h

theorem inv_len_eq {c : Cache} (hperm : List.Perm c.coll (idsOf c)) :
    c.coll.length = c.entries.length := by
  rw [hperm.length_eq]
  simp [idsOf]

theorem inv_coll_nodup {c : Cache} (hind : (idsOf c).Nodup)
    (hperm : List.Perm c.coll (idsOf c)) : c.coll.Nodup :=
  hperm.symm.nodup hind

theorem heap_root_min {c : Cache} (hord : HeapOrd c c.heap.length) :
    ∀ t, t < c.heap.length → c.expAt 0 ≤ c.expAt t := by
  intro t
  induction t using Nat.strong_induction_on with
  | _ t ih =>
    intro ht
    rcases Nat.eq_zero_or_pos t with h0 | h0
    · rw [h0]
    · have hpar : (t - 1) / 2 < t := by omega
      exact le_trans (ih _ hpar (by omega)) (hord t h0 ht)

/-- The engine invariant with the heap-membership characterisation possibly
broken at one id (`bad`): the state right after `heap.Pop` dislodged an
entry that is still in the index.  `CoreInvAt c c.nextId` is the full core
invariant, since no resident id equals `nextId`. -/
structure CoreInvAt (c : Cache) (bad : Nat) : Prop where
  keysND : c.Keys.Nodup
  idsND : (idsOf c).Nodup
  dom : ∀ p ∈ c.entries, (alookup c.estore p.2).map Entry.key = some p.1
  heapND : c.heap.Nodup
  heapSub : ∀ id ∈ c.heap, id ∈ idsOf c
  heapIffW : ∀ p ∈ c.entries, p.2 ≠ bad → ((c.ent p.2).exp ≠ 0 ↔ p.2 ∈ c.heap)
  idx : ∀ t, t < c.heap.length → (c.ent (c.hid t)).index = t
  ord : HeapOrd c c.heap.length
  idsLt : ∀ p ∈ c.entries, p.2 < c.nextId
  esLt : ∀ q ∈ c.estore, q.1 < c.nextId
  esND : (c.estore.map Prod.fst).Nodup

theorem engineInv_core {c : Cache} (hc : EngineInv c) (bad : Nat) :
    CoreInvAt c bad :=
  ⟨hc.keysND, hc.idsND, hc.dom, hc.heapND, hc.heapSub,
    fun p hp _ => hc.heapIff p hp, hc.idx, hc.ord, hc.idsLt, hc.esLt, hc.esND⟩

theorem core_engineInv {c : Cache} (hc : CoreInvAt c c.nextId)
    (hperm : List.Perm c.coll (idsOf c)) : EngineInv c :=
  ⟨hc.keysND, hc.idsND, hc.dom, hperm, hc.heapND, hc.heapSub,
    fun p hp => hc.heapIffW p hp (by have := hc.idsLt p hp; omega),
    hc.idx, hc.ord, hc.idsLt, hc.esLt, hc.esND⟩

theorem ent_map_key {es : List (Nat × Entry)} {x : Nat} (h : (alookup es x).isSome) :
    (alookup es x).map Entry.key = some (((alookup es x).getD dummyEntry).key) := by
  cases hx : alookup es x with
  | none => rw [hx] at h; exact absurd h (by simp)
  | some e => rfl

theorem esLt_of_fst {c r : Cache} (hfst : r.estore.map Prod.fst = c.estore.map Prod.fst)
    (hlt : ∀ q ∈ c.estore, q.1 < c.nextId) (hnext : r.nextId = c.nextId) :
    ∀ q ∈ r.estore, q.1 < r.nextId := by
  intro q hq
  have hm : q.1 ∈ r.estore.map Prod.fst := List.mem_map.2 ⟨q, hq, rfl⟩
  rw [hfst] at hm
  obtain ⟨q', hq', hf⟩ := List.mem_map.1 hm
  rw [hnext, ← hf]
  exact hlt q' hq'

theorem subs_map_ch (l : List Sub) (f : Sub → Sub) (h : ∀ s, (f s).ch = s.ch) :
    (l.map f).map Sub.ch = l.map Sub.ch := by
  induction l with
  | nil => rfl
  | cons s t ih => simp [h, ih]

/-! ## The `emit` frame -/

theorem emit_core {c : Cache} {bad : Nat} (hc : CoreInvAt c bad)
    (op : Op) (k : GoKey) (v : GoVal) (ex : Int) (ok : Bool) :
    CoreInvAt (emit c op k v ex ok) bad :=
  ⟨hc.keysND, hc.idsND, hc.dom, hc.heapND, hc.heapSub, hc.heapIffW, hc.idx,
    hc.ord, hc.idsLt, hc.esLt, hc.esND⟩

theorem emit_inv {c : Cache} (hc : EngineInv c)
    (op : Op) (k : GoKey) (v : GoVal) (ex : Int) (ok : Bool) :
    EngineInv (emit c op k v ex ok) :=
  ⟨hc.keysND, hc.idsND, hc.dom, hc.collP, hc.heapND, hc.heapSub, hc.heapIff,
    hc.idx, hc.ord, hc.idsLt, hc.esLt, hc.esND⟩

theorem emit_subsCh (c : Cache) (op : Op) (k : GoKey) (v : GoVal) (ex : Int)
    (ok : Bool) : (emit c op k v ex ok).subs.map Sub.ch = c.subs.map Sub.ch := by
  apply subs_map_ch
  intro s
  by_cases h : s.h.want op
  · rw [if_pos h]
  · rw [if_neg h]

/-! ## `removeEntry` -/

/-- What `Cache.removeEntry` guarantees when `key ↦ id` is a binding of the
index: the binding is erased, the collection is handed to `Remove`, the heap
loses exactly the slot holding `id`, everything else is framed, and the core
invariant is restored (the caller re-establishes the collection clause). -/
structure RemOK (L : Collection) (c r : Cache) (key : GoKey) (id : Nat) : Prop where
  core : CoreInvAt r r.nextId
  entries_eq : r.entries = aerase c.entries key
  ids_eq : idsOf r = (idsOf c).erase id
  coll_eq : r.coll = L.Remove c.coll id
  heap_perm : List.Perm r.heap (c.heap.erase id)
  es_fst : r.estore.map Prod.fst = c.estore.map Prod.fst
  proj : ∀ x, (r.ent x).key = (c.ent x).key ∧ (r.ent x).value = (c.ent x).value ∧
    (r.ent x).exp = (c.ent x).exp
  cap_eq : r.capacity = c.capacity
  next_eq : r.nextId = c.nextId
  subs_eq : r.subs = c.subs
  trace_eq : r.trace = c.trace
  ttl_eq : r.ttl = c.ttl

theorem removeEntryC_ok (L : Collection) (c : Cache) (key : GoKey) (id : Nat)
    (hc : CoreInvAt c id) (hlook : alookup c.entries key = some id) :
    RemOK L c (removeEntryC L c id) key id := by
  have hpmem : (key, id) ∈ c.entries := alookup_mem hlook
  have hek : (c.ent id).key = key := inv_ent_key hc.dom hpmem
  have hcl : removeEntryC L c id =
      if heapHasEntry
          { c with coll := L.Remove c.coll id,
                   entries := aerase c.entries (c.ent id).key }
          (c.ent id)
      then heapRemoveGo
          { c with coll := L.Remove c.coll id,
                   entries := aerase c.entries (c.ent id).key }
          (c.ent id).index
      else { c with coll := L.Remove c.coll id,
                    entries := aerase c.entries (c.ent id).key } :=
    rfl
  rw [hek] at hcl
  set e := c.ent id with hdefe
  set c1 : Cache :=
    { c with coll := L.Remove c.coll id, entries := aerase c.entries key } with hdefc1
  have hc1heap : c1.heap = c.heap := by rw [hdefc1]
  have hc1es : c1.estore = c.estore := by rw [hdefc1]
  have hc1entries : c1.entries = aerase c.entries key := by rw [hdefc1]
  have hc1coll : c1.coll = L.Remove c.coll id := by rw [hdefc1]
  have hc1next : c1.nextId = c.nextId := by rw [hdefc1]
  have hc1cap : c1.capacity = c.capacity := by rw [hdefc1]
  have hc1subs : c1.subs = c.subs := by rw [hdefc1]
  have hc1trace : c1.trace = c.trace := by rw [hdefc1]
  have hc1ttl : c1.ttl = c.ttl := by rw [hdefc1]
  have hc1ent : ∀ x, c1.ent x = c.ent x := by
    intro x
    unfold Cache.ent
    rw [hc1es]
  have hc1hid : ∀ t, c1.hid t = c.hid t := by
    intro t
    unfold Cache.hid
    rw [hc1heap]
  have hc1exp : ∀ t, c1.expAt t = c.expAt t := by
    intro t
    unfold Cache.expAt
    rw [hc1ent, hc1hid]
  -- the pair erased from the index was the only one carrying `id`
  obtain ⟨l1, l2, hdec, haer, hm1⟩ := aerase_decomp hlook
  have hknd' : (l1.map Prod.fst ++ key :: l2.map Prod.fst).Nodup := by
    have h := hc.keysND
    show ((l1.map Prod.fst ++ key :: l2.map Prod.fst) : List GoKey).Nodup
    have he : c.Keys = l1.map Prod.fst ++ key :: l2.map Prod.fst := by
      show c.entries.map Prod.fst = _
      rw [hdec]
      simp
    rw [← he]
    exact h
  have hm2 : key ∉ l2.map Prod.fst := by
    have h2 := (List.nodup_cons.1 (hknd'.of_append_right)).1
    exact h2
  have hnotid : ∀ p ∈ aerase c.entries key, p.2 ≠ id := by
    intro p hp hpid
    have hpc : p ∈ c.entries := (aerase_sublist c.entries key).subset hp
    have hpe : p = (key, id) := id_unique hc.idsND hpc hpmem hpid
    rw [haer] at hp
    rcases List.mem_append.1 hp with h | h
    · exact hm1 (List.mem_map.2 ⟨p, h, by rw [hpe]⟩)
    · exact hm2 (List.mem_map.2 ⟨p, h, by rw [hpe]⟩)
  -- where `id` sits in the heap, when it does
  have hslot : id ∈ c.heap → e.index < c.heap.length ∧ c.hid e.index = id := by
    intro hid
    obtain ⟨t, ht, hget⟩ := List.mem_iff_getElem.1 hid
    have hhidt : c.hid t = id := by
      show c.heap.getD t 0 = id
      rw [List.getD_eq_getElem c.heap 0 ht]
      exact hget
    have hidx : e.index = t := by
      rw [hdefe, ← hhidt]
      exact hc.idx t ht
    exact ⟨hidx ▸ ht, by rw [hidx, hhidt]⟩
  have hguard : heapHasEntry c1 e ↔ id ∈ c.heap := by
    constructor
    · rintro ⟨h0, hlt, hkey⟩
      rw [hc1heap] at hlt
      rw [hc1ent, hc1hid] at hkey
      have hxmem : c.hid e.index ∈ c.heap := hid_mem hlt
      obtain ⟨q, hq, hqx⟩ := heap_entry_of_mem hc.heapSub hxmem
      have hqk : (c.ent (c.hid e.index)).key = q.1 := by
        rw [← hqx]
        exact inv_ent_key hc.dom hq
      have hq1 : q.1 = key := by
        rw [← hqk, ← hkey, hdefe, hek]
      have hq' : (key, q.2) ∈ c.entries := by
        rw [← hq1]
        exact hq
      have hq2 : q.2 = id := pair_unique hc.keysND hq' hpmem
      rw [← hq2, hqx]
      exact hxmem
    · intro hid
      obtain ⟨hlt, hhide⟩ := hslot hid
      refine ⟨?_, ?_, ?_⟩
      · rw [hc1heap]
        omega
      · rw [hc1heap]
        exact hlt
      · rw [hc1ent, hc1hid, hhide, ← hdefe]
  by_cases hin : heapHasEntry c1 e
  · rw [hcl, if_pos hin]
    have hidmem : id ∈ c.heap := hguard.1 hin
    obtain ⟨hilt, hhide⟩ := hslot hidmem
    have hnd1 : c1.heap.Nodup := by rw [hc1heap]; exact hc.heapND
    have hdom1 : ∀ x ∈ c1.heap, (alookup c1.estore x).isSome := by
      intro x hx
      rw [hc1es]
      rw [hc1heap] at hx
      exact inv_heap_dom hc.dom hc.heapSub x hx
    have hidx1 : ∀ t, t < c1.heap.length → (c1.ent (c1.hid t)).index = t := by
      intro t ht
      rw [hc1heap] at ht
      rw [hc1ent, hc1hid]
      exact hc.idx t ht
    have hord1 : HeapOrd c1 c1.heap.length := by
      intro k hk hkm
      rw [hc1heap] at hkm
      rw [hc1exp, hc1exp]
      exact hc.ord k hk hkm
    have hilt1 : e.index < c1.heap.length := by
      rw [hc1heap]
      exact hilt
    obtain ⟨hop, hperm, hlen, hinv⟩ :=
      heapRemoveGo_ok c1 e.index hnd1 hdom1 hidx1 hord1 hilt1
    set r := heapRemoveGo c1 e.index with hdefr
    have hentr : r.entries = aerase c.entries key := by
      rw [hop.entries_eq, hc1entries]
    have hperm' : List.Perm r.heap (c.heap.erase id) := by
      have hh : c1.hid e.index = id := by rw [hc1hid]; exact hhide
      rw [← hh]
      rw [← hc1heap]
      exact hperm
    have hfst' : r.estore.map Prod.fst = c.estore.map Prod.fst := by
      rw [hop.es_fst, hc1es]
    have hproj' : ∀ x, (r.ent x).key = (c.ent x).key ∧
        (r.ent x).value = (c.ent x).value ∧ (r.ent x).exp = (c.ent x).exp := by
      intro x
      obtain ⟨h1, h2, h3⟩ := hop.proj x
      rw [hc1ent] at h1 h2 h3
      exact ⟨h1, h2, h3⟩
    have hids : idsOf r = (idsOf c).erase id := by
      show r.entries.map Prod.snd = _
      rw [hentr]
      exact map_snd_aerase hc.idsND hlook
    have hnext' : r.nextId = c.nextId := by rw [hop.next_eq, hc1next]
    refine ⟨?_, hentr, hids, by rw [hop.coll_eq, hc1coll], hperm', hfst', hproj',
      by rw [hop.cap_eq, hc1cap], hnext', by rw [hop.subs_eq, hc1subs],
      by rw [hop.trace_eq, hc1trace], by rw [hop.ttl_eq, hc1ttl]⟩
    refine ⟨?_, ?_, ?_, hop.nd, ?_, ?_, hop.idx, hop.ord, ?_, ?_, ?_⟩
    · show (r.entries.map Prod.fst).Nodup
      rw [hentr]
      exact ((aerase_sublist c.entries key).map Prod.fst).nodup hc.keysND
    · show (r.entries.map Prod.snd).Nodup
      rw [hentr]
      exact ((aerase_sublist c.entries key).map Prod.snd).nodup hc.idsND
    · intro p hp
      have hpc : p ∈ c.entries := by
        rw [hentr] at hp
        exact (aerase_sublist c.entries key).subset hp
      have hs : (alookup c.estore p.2).isSome := inv_ent_isSome hc.dom hpc
      have hs' : (alookup r.estore p.2).isSome := by
        rw [alookup_isSome_iff, hfst', ← alookup_isSome_iff]
        exact hs
      rw [ent_map_key hs']
      show some ((r.ent p.2).key) = some p.1
      rw [(hproj' p.2).1, inv_ent_key hc.dom hpc]
    · intro x hx
      have hxe : x ∈ c.heap.erase id := hperm'.subset hx
      have hxc := (List.Nodup.mem_erase_iff hc.heapND).1 hxe
      have hxi : x ∈ idsOf c := hc.heapSub x hxc.2
      rw [hids]
      exact (List.mem_erase_of_ne hxc.1).2 hxi
    · intro p hp _
      have hpid : p.2 ≠ id := by
        apply hnotid
        rw [← hentr]
        exact hp
      have hpc : p ∈ c.entries := by
        rw [hentr] at hp
        exact (aerase_sublist c.entries key).subset hp
      have hmem : p.2 ∈ r.heap ↔ p.2 ∈ c.heap := by
        rw [hperm'.mem_iff, List.Nodup.mem_erase_iff hc.heapND]
        exact ⟨fun h => h.2, fun h => ⟨hpid, h⟩⟩
      rw [(hproj' p.2).2.2, hmem]
      exact hc.heapIffW p hpc hpid
    · intro p hp
      have hpc : p ∈ c.entries := by
        rw [hentr] at hp
        exact (aerase_sublist c.entries key).subset hp
      rw [hnext']
      exact hc.idsLt p hpc
    · exact esLt_of_fst hfst' hc.esLt hnext'
    · rw [hfst']
      exact hc.esND
  · rw [hcl, if_neg hin]
    have hidnm : id ∉ c.heap := fun h => hin (hguard.2 h)
    have hids : idsOf c1 = (idsOf c).erase id := by
      show c1.entries.map Prod.snd = _
      rw [hc1entries]
      exact map_snd_aerase hc.idsND hlook
    have hperm' : List.Perm c1.heap (c.heap.erase id) := by
      rw [hc1heap, List.erase_of_not_mem hidnm]
    refine ⟨?_, hc1entries, hids, hc1coll, hperm',
      by rw [hc1es], fun x => by rw [hc1ent x]; exact ⟨rfl, rfl, rfl⟩,
      hc1cap, hc1next, hc1subs, hc1trace, hc1ttl⟩
    refine ⟨?_, ?_, ?_, by rw [hc1heap]; exact hc.heapND, ?_, ?_,
      (by
        intro t ht
        rw [hc1heap] at ht
        rw [hc1ent, hc1hid]
        exact hc.idx t ht), ?_, ?_, ?_, ?_⟩
    · show (c1.entries.map Prod.fst).Nodup
      rw [hc1entries]
      exact ((aerase_sublist c.entries key).map Prod.fst).nodup hc.keysND
    · show (c1.entries.map Prod.snd).Nodup
      rw [hc1entries]
      exact ((aerase_sublist c.entries key).map Prod.snd).nodup hc.idsND
    · intro p hp
      rw [hc1entries] at hp
      rw [hc1es]
      exact hc.dom p ((aerase_sublist c.entries key).subset hp)
    · intro x hx
      rw [hc1heap] at hx
      have hxne : x ≠ id := fun h => hidnm (h ▸ hx)
      rw [hids]
      exact (List.mem_erase_of_ne hxne).2 (hc.heapSub x hx)
    · intro p hp _
      rw [hc1entries] at hp
      have hpid : p.2 ≠ id := hnotid p hp
      rw [hc1ent, hc1heap]
      exact hc.heapIffW p ((aerase_sublist c.entries key).subset hp) hpid
    · intro k hk hkm
      rw [hc1heap] at hkm
      rw [hc1exp, hc1exp]
      exact hc.ord k hk hkm
    · intro p hp
      rw [hc1entries] at hp
      rw [hc1next]
      exact hc.idsLt p ((aerase_sublist c.entries key).subset hp)
    · intro q hq
      rw [hc1es] at hq
      rw [hc1next]
      exact hc.esLt q hq
    · rw [hc1es]
      exact hc.esND

theorem aerase_length {α β : Type} [DecidableEq α] {l : List (α × β)} {k : α} {v : β}
    (h : alookup l k = some v) : (aerase l k).length + 1 = l.length := by
  obtain ⟨l1, l2, he, ha, -⟩ := aerase_decomp h
  rw [ha, he]
  simp [List.length_append]
  omega

theorem noExpired_of_root {c : Cache} (hc : EngineInv c) {now : Int}
    (h : c.heap = [] ∨ now < c.expAt 0) : noExpired c now := by
  intro p hp
  by_cases he : (c.ent p.2).exp = 0
  · exact Or.inl he
  · right
    have hmem : p.2 ∈ c.heap := (hc.heapIff p hp).1 he
    rcases h with h | h
    · rw [h] at hmem
      simp at hmem
    · obtain ⟨t, ht, hget⟩ := List.mem_iff_getElem.1 hmem
      have hhid : c.hid t = p.2 := by
        show c.heap.getD t 0 = p.2
        rw [List.getD_eq_getElem c.heap 0 ht]
        exact hget
      have hroot := heap_root_min hc.ord t ht
      have hexp : c.expAt t = (c.ent p.2).exp := by
        unfold Cache.expAt
        rw [hhid]
      omega

/-! ## `evict` -/

/-- What `Cache.evict` guarantees: `removeEntry` plus one `REMOVE` event. -/
structure EvictOK (L : Collection) (c r : Cache) (key : GoKey) (id : Nat) : Prop where
  core : CoreInvAt r r.nextId
  entries_eq : r.entries = aerase c.entries key
  ids_eq : idsOf r = (idsOf c).erase id
  coll_eq : r.coll = L.Remove c.coll id
  heap_perm : List.Perm r.heap (c.heap.erase id)
  es_fst : r.estore.map Prod.fst = c.estore.map Prod.fst
  proj : ∀ x, (r.ent x).key = (c.ent x).key ∧ (r.ent x).value = (c.ent x).value ∧
    (r.ent x).exp = (c.ent x).exp
  cap_eq : r.capacity = c.capacity
  next_eq : r.nextId = c.nextId
  ttl_eq : r.ttl = c.ttl
  subsCh : r.subs.map Sub.ch = c.subs.map Sub.ch
  trace_ext : ∃ ev, r.trace = c.trace ++ [ev] ∧ ev.op = Op.Remove

theorem evictC_ok (L : Collection) (c : Cache) (key : GoKey) (id : Nat)
    (hc : CoreInvAt c id) (hlook : alookup c.entries key = some id) :
    EvictOK L c (evictC L c id) key id := by
  have hrem := removeEntryC_ok L c key id hc hlook
  have hcl : evictC L c id =
      emit (removeEntryC L c id) .Remove ((removeEntryC L c id).ent id).key
        ((removeEntryC L c id).ent id).value ((removeEntryC L c id).ent id).exp
        false := rfl
  rw [hcl]
  set r0 := removeEntryC L c id with hdefr0
  refine ⟨emit_core hrem.core _ _ _ _ _, hrem.entries_eq, hrem.ids_eq,
    hrem.coll_eq, hrem.heap_perm, hrem.es_fst, hrem.proj, hrem.cap_eq,
    hrem.next_eq, hrem.ttl_eq, ?_, ?_⟩
  · rw [emit_subsCh, hrem.subs_eq]
  · refine ⟨⟨.Remove, (r0.ent id).key, (r0.ent id).value, (r0.ent id).exp, false⟩,
      ?_, rfl⟩
    show r0.trace ++ [_] = c.trace ++ [_]
    rw [hrem.trace_eq]

/-! ## `GC` -/

/-- What the garbage-collection loop guarantees: the invariant is preserved,
no expired entry survives, exactly the expired entries were evicted (one
`REMOVE` event each), and the returned duration describes the heap root. -/
structure GcOK (L : Collection) (c r : Cache) (now ret : Int) : Prop where
  inv : EngineInv r
  ne : noExpired r now
  cap_eq : r.capacity = c.capacity
  next_eq : r.nextId = c.nextId
  ttl_eq : r.ttl = c.ttl
  subsCh : r.subs.map Sub.ch = c.subs.map Sub.ch
  entries_sub : ∀ p ∈ r.entries, p ∈ c.entries
  keep : ∀ p ∈ c.entries, (c.ent p.2).exp = 0 ∨ now < (c.ent p.2).exp →
    p ∈ r.entries
  proj : ∀ x, (r.ent x).key = (c.ent x).key ∧ (r.ent x).value = (c.ent x).value ∧
    (r.ent x).exp = (c.ent x).exp
  es_fst : r.estore.map Prod.fst = c.estore.map Prod.fst
  len_le : r.coll.length ≤ c.coll.length
  trace_ext : ∃ t, r.trace = c.trace ++ t ∧ (∀ ev ∈ t, ev.op = Op.Remove) ∧
    t.length + r.entries.length = c.entries.length
  ret_empty : ret = 0 → r.heap = []
  empty_ret : r.heap = [] → ret = 0
  ret_pos : r.heap ≠ [] → ret = r.expAt 0 - now ∧ now < r.expAt 0
  id_noexp : noExpired c now → r = c

theorem gcFuel_ok (L : Collection) (now : Int) (hL : LawfulColl L) :
    ∀ (fuel : Nat) (c : Cache), EngineInv c → c.heap.length ≤ fuel →
      GcOK L c (gcFuel L c now fuel).1 now (gcFuel L c now fuel).2 := by
  intro fuel
  induction fuel with
  | zero =>
    intro c hc hfuel
    have hnil : c.heap = [] := List.length_eq_zero.1 (by omega)
    have hcl : gcFuel L c now 0 = (c, 0) := rfl
    rw [hcl]
    exact ⟨hc, noExpired_of_root hc (Or.inl hnil), rfl, rfl, rfl, rfl,
      fun p hp => hp, fun p hp _ => hp, fun x => ⟨rfl, rfl, rfl⟩, rfl, le_refl _,
      ⟨[], by simp, by simp, by simp⟩, fun _ => hnil, fun _ => rfl,
      fun h => absurd hnil h, fun _ => rfl⟩
  | succ fuel ih =>
    intro c hc hfuel
    have hcl : gcFuel L c now (fuel + 1) =
        (if c.heap.length = 0 then (c, 0)
         else if now < c.expAt 0 then (c, c.expAt 0 - now)
         else
           match heapPopGo c with
           | (c1, some id) => gcFuel L (evictC L c1 id) now fuel
           | (c1, none) => (c1, 0)) := rfl
    by_cases h0 : c.heap.length = 0
    · rw [hcl, if_pos h0]
      have hnil : c.heap = [] := List.length_eq_zero.1 h0
      exact ⟨hc, noExpired_of_root hc (Or.inl hnil), rfl, rfl, rfl, rfl,
        fun p hp => hp, fun p hp _ => hp, fun x => ⟨rfl, rfl, rfl⟩, rfl, le_refl _,
        ⟨[], by simp, by simp, by simp⟩, fun _ => hnil, fun _ => rfl,
        fun h => absurd hnil h, fun _ => rfl⟩
    · by_cases hroot : now < c.expAt 0
      · rw [hcl, if_neg h0, if_pos hroot]
        have hne : c.heap ≠ [] := fun h => h0 (by rw [h]; rfl)
        refine ⟨hc, noExpired_of_root hc (Or.inr hroot), rfl, rfl, rfl, rfl,
          fun p hp => hp, fun p hp _ => hp, fun x => ⟨rfl, rfl, rfl⟩, rfl,
          le_refl _, ⟨[], by simp, by simp, by simp⟩, ?_, ?_, ?_, fun _ => rfl⟩
        · intro h
          exfalso
          have : (0 : Int) < c.expAt 0 - now := by omega
          omega
        · intro h
          exact absurd h hne
        · intro _
          exact ⟨rfl, hroot⟩
      · -- the root has expired: pop it, evict it, recurse
        have hpos : 0 < c.heap.length := by omega
        obtain ⟨hop, hsnd, hperm, hlen, hinv⟩ :=
          heapPopGo_ok c hc.heapND (inv_heap_dom hc.dom hc.heapSub) hc.idx
            hc.ord hpos
        have hpair : heapPopGo c = ((heapPopGo c).1, some (c.hid 0)) := by
          rw [← hsnd]
        have hstep : gcFuel L c now (fuel + 1) =
            gcFuel L (evictC L (heapPopGo c).1 (c.hid 0)) now fuel := by
          rw [hcl, if_neg h0, if_neg hroot, hpair]
        rw [hstep]
        clear hstep
        set c1 := (heapPopGo c).1 with hdefc1
        set id0 := c.hid 0 with hdefid0
        -- the popped id carries an entry of the index
        have hid0mem : id0 ∈ c.heap := hid_mem hpos
        obtain ⟨p0, hp0, hp0id⟩ := heap_entry_of_mem hc.heapSub hid0mem
        have hk0 : alookup c.entries p0.1 = some id0 := by
          have := alookup_of_mem_nodup hc.keysND
            (show (p0.1, p0.2) ∈ c.entries from hp0)
          rw [hp0id] at this
          exact this
        have hexp0ne : (c.ent id0).exp ≠ 0 := by
          have := (hc.heapIff p0 hp0).2 (hp0id ▸ hid0mem)
          rw [hp0id] at this
          exact this
        have hexp0le : (c.ent id0).exp ≤ now := by
          have : c.expAt 0 = (c.ent id0).exp := rfl
          omega
        -- the core invariant of the popped state, weak at the popped id
        have hents1 : c1.entries = c.entries := hop.entries_eq
        have hids1 : idsOf c1 = idsOf c := by
          show c1.entries.map Prod.snd = c.entries.map Prod.snd
          rw [hents1]
        have hid0nm : id0 ∉ c1.heap := by
          intro hmem
          have := hperm.subset hmem
          exact absurd ((List.Nodup.mem_erase_iff hc.heapND).1 this).1 (by simp)
        have hcore1 : CoreInvAt c1 id0 := by
          refine ⟨?_, ?_, ?_, hop.nd, ?_, ?_, hop.idx, hop.ord, ?_, ?_, ?_⟩
          · show (c1.entries.map Prod.fst).Nodup
            rw [hents1]
            exact hc.keysND
          · rw [hids1]
            exact hc.idsND
          · intro p hp
            rw [hents1] at hp
            have hs : (alookup c1.estore p.2).isSome := by
              rw [alookup_isSome_iff, hop.es_fst, ← alookup_isSome_iff]
              exact inv_ent_isSome hc.dom hp
            rw [ent_map_key hs]
            show some ((c1.ent p.2).key) = some p.1
            rw [(hop.proj p.2).1, inv_ent_key hc.dom hp]
          · intro x hx
            rw [hids1]
            exact hc.heapSub x ((List.Nodup.mem_erase_iff hc.heapND).1
              (hperm.subset hx)).2
          · intro p hp hpne
            rw [hents1] at hp
            have hiff := hc.heapIff p hp
            have hexp : (c1.ent p.2).exp = (c.ent p.2).exp := (hop.proj p.2).2.2
            have hmem : p.2 ∈ c1.heap ↔ p.2 ∈ c.heap := by
              rw [hperm.mem_iff, List.Nodup.mem_erase_iff hc.heapND]
              exact ⟨fun h => h.2, fun h => ⟨hpne, h⟩⟩
            rw [hexp, hmem]
            exact hiff
          · intro p hp
            rw [hents1] at hp
            rw [hop.next_eq]
            exact hc.idsLt p hp
          · exact esLt_of_fst hop.es_fst hc.esLt hop.next_eq
          · rw [hop.es_fst]
            exact hc.esND
        have hk01 : alookup c1.entries p0.1 = some id0 := by
          rw [hents1]
          exact hk0
        have hev := evictC_ok L c1 p0.1 id0 hcore1 hk01
        set c2 := evictC L c1 id0 with hdefc2
        -- the evicted entry was gone from the heap already, so the heap kept
        -- its popped form
        have hheap2 : List.Perm c2.heap c1.heap := by
          have := hev.heap_perm
          rw [List.erase_of_not_mem hid0nm] at this
          exact this
        have hlen2 : c2.heap.length = c.heap.length - 1 := by
          rw [hheap2.length_eq, hlen]
        -- the collection clause survives
        have hinv2 : EngineInv c2 := by
          apply core_engineInv hev.core
          have h1 : List.Perm c2.coll (c.coll.erase id0) := by
            rw [hev.coll_eq, hop.coll_eq]
            exact hL.rem_perm c.coll id0
          have h2 : List.Perm (c.coll.erase id0) ((idsOf c).erase id0) :=
            hc.collP.erase id0
          have h3 : idsOf c2 = (idsOf c).erase id0 := by
            rw [hev.ids_eq, hids1]
          rw [h3]
          exact h1.trans h2
        have hih := ih c2 hinv2 (by omega)
        -- compose the step with the recursive call
        have hproj2 : ∀ x, (c2.ent x).key = (c.ent x).key ∧
            (c2.ent x).value = (c.ent x).value ∧
            (c2.ent x).exp = (c.ent x).exp := by
          intro x
          obtain ⟨a1, a2, a3⟩ := hev.proj x
          obtain ⟨b1, b2, b3⟩ := hop.proj x
          exact ⟨a1.trans b1, a2.trans b2, a3.trans b3⟩
        have hents2 : c2.entries = aerase c.entries p0.1 := by
          rw [hev.entries_eq, hents1]
        refine ⟨hih.inv, hih.ne, ?_, ?_, ?_, ?_, ?_, ?_, ?_, ?_, ?_, ?_,
          hih.ret_empty, hih.empty_ret, hih.ret_pos, ?_⟩
        · rw [hih.cap_eq, hev.cap_eq, hop.cap_eq]
        · rw [hih.next_eq, hev.next_eq, hop.next_eq]
        · rw [hih.ttl_eq, hev.ttl_eq, hop.ttl_eq]
        · rw [hih.subsCh, hev.subsCh, hop.subs_eq]
        · intro p hp
          have := hih.entries_sub p hp
          rw [hents2] at this
          exact (aerase_sublist c.entries p0.1).subset this
        · intro p hp hune
          have hpne : p ≠ (p0.1, id0) := by
            intro he
            rw [he] at hune
            rcases (show (c.ent id0).exp = 0 ∨ now < (c.ent id0).exp from hune)
              with h | h
            · exact hexp0ne h
            · omega
          have hne1 : p.1 ≠ p0.1 := by
            intro he
            have hpu : (p0.1, p.2) ∈ c.entries := by
              rw [← he]
              exact hp
            have := pair_unique hc.keysND hpu (alookup_mem hk0)
            exact hpne (by
              have hx : p = (p.1, p.2) := rfl
              rw [hx, he, this])
          apply hih.keep
          · rw [hents2]
            exact mem_aerase_of_ne hp hne1
          · obtain ⟨-, -, h3⟩ := hproj2 p.2
            rw [h3]
            exact hune
        · intro x
          obtain ⟨a1, a2, a3⟩ := hih.proj x
          obtain ⟨b1, b2, b3⟩ := hproj2 x
          exact ⟨a1.trans b1, a2.trans b2, a3.trans b3⟩
        · rw [hih.es_fst, hev.es_fst, hop.es_fst]
        · have h1 : c2.coll.length ≤ c.coll.length := by
            have hp2 : List.Perm c2.coll (c.coll.erase id0) := by
              rw [hev.coll_eq, hop.coll_eq]
              exact hL.rem_perm c.coll id0
            rw [hp2.length_eq]
            exact (List.erase_sublist id0 c.coll).length_le
          exact le_trans hih.len_le h1
        · obtain ⟨t, ht1, ht2, ht3⟩ := hih.trace_ext
          obtain ⟨ev, hev1, hev2⟩ := hev.trace_ext
          refine ⟨ev :: t, ?_, ?_, ?_⟩
          · rw [ht1, hev1, hop.trace_eq]
            simp
          · intro e he
            rcases List.mem_cons.1 he with h | h
            · rw [h, hev2]
            · exact ht2 e h
          · have hlen3 : c2.entries.length + 1 = c.entries.length := by
              rw [hents2]
              exact aerase_length hk0
            simp only [List.length_cons]
            omega
        · intro hnex
          exfalso
          rcases hnex p0 hp0 with h | h
          · rw [hp0id] at h
            exact hexp0ne h
          · rw [hp0id] at h
            omega

/-- `Cache.GC` meets the garbage-collection contract. -/
theorem gc_ok (L : Collection) (c : Cache) (now : Int) (hL : LawfulColl L)
    (hc : EngineInv c) :
    GcOK L c (Cache.GC L c now).1 now (Cache.GC L c now).2 :=
  gcFuel_ok L now hL c.heap.length c hc (le_refl _)

/-! ## Common operation frame -/

/-- What every non-admitting operation guarantees: the invariant is kept, no
key appears from nowhere, the resident count does not grow, and the scalar
configuration survives. -/
structure ROk (c r : Cache) : Prop where
  inv : EngineInv r
  keys_sub : ∀ k ∈ r.Keys, k ∈ c.Keys
  len_le : r.Len ≤ c.Len
  cap_eq : r.capacity = c.capacity
  ttl_eq : r.ttl = c.ttl
  next_eq : r.nextId = c.nextId
  subsCh : r.subs.map Sub.ch = c.subs.map Sub.ch

theorem keys_sub_of_entries {c r : Cache} (h : ∀ p ∈ r.entries, p ∈ c.entries) :
    ∀ k ∈ r.Keys, k ∈ c.Keys := by
  intro k hk
  obtain ⟨p, hp, hpk⟩ := List.mem_map.1 hk
  exact List.mem_map.2 ⟨p, h p hp, hpk⟩

theorem noExpired_transfer {a b : Cache} (h1 : b.entries = a.entries)
    (h2 : b.estore = a.estore) {now : Int} (h : noExpired a now) :
    noExpired b now := by
  intro p hp
  have he : b.ent p.2 = a.ent p.2 := by
    unfold Cache.ent
    rw [h2]
  rw [he]
  exact h p (h1 ▸ hp)

theorem atcap_of {c r : Cache} (hlen : r.Len ≤ c.Len)
    (hcap : r.capacity = c.capacity) (h : AtCap c) : AtCap r := by
  intro hpos
  rw [hcap] at hpos ⊢
  have h1 := h hpos
  have h2 : (r.Len : Int) ≤ c.Len := by exact_mod_cast hlen
  omega

theorem alookup_aerase_self {α β : Type} [DecidableEq α] {l : List (α × β)}
    {k : α} {v : β} (hnd : (l.map Prod.fst).Nodup) (h : alookup l k = some v) :
    alookup (aerase l k) k = none := by
  obtain ⟨l1, l2, he, ha, hm1⟩ := aerase_decomp h
  have hknd : (l1.map Prod.fst ++ k :: l2.map Prod.fst).Nodup := by
    rw [he] at hnd
    simpa using hnd
  have hm2 : k ∉ l2.map Prod.fst := (List.nodup_cons.1 hknd.of_append_right).1
  rw [ha]
  apply alookup_eq_none
  rw [List.map_append, List.mem_append]
  rintro (h | h)
  · exact hm1 h
  · exact hm2 h

/-! ## The read path: `get` and its public faces -/

/-- The optional `Move` of `Cache.get` on a hit. -/
def getMoved (L : Collection) (g : Cache) (id : Nat) (peek : Bool) : Cache :=
  if ¬peek then { g with coll := L.Move g.coll id } else g

theorem getC_split (L : Collection) (c : Cache) (now : Int) (key : GoKey)
    (peek : Bool) :
    getC L c now key peek =
      match alookup (Cache.GC L c now).1.entries key with
      | none => (emit (Cache.GC L c now).1 .Read key none 0 false, (none, false))
      | some id =>
        (emit (getMoved L (Cache.GC L c now).1 id peek) .Read key
           ((getMoved L (Cache.GC L c now).1 id peek).ent id).value
           ((getMoved L (Cache.GC L c now).1 id peek).ent id).exp true,
         (((getMoved L (Cache.GC L c now).1 id peek).ent id).value, true)) := rfl

theorem getC_none (L : Collection) (c : Cache) (now : Int) (key : GoKey)
    (peek : Bool) (hlook : alookup (Cache.GC L c now).1.entries key = none) :
    getC L c now key peek =
      (emit (Cache.GC L c now).1 .Read key none 0 false, (none, false)) := by
  rw [getC_split, hlook]

theorem getC_some (L : Collection) (c : Cache) (now : Int) (key : GoKey)
    (peek : Bool) (id : Nat)
    (hlook : alookup (Cache.GC L c now).1.entries key = some id) :
    getC L c now key peek =
      (emit (getMoved L (Cache.GC L c now).1 id peek) .Read key
         ((getMoved L (Cache.GC L c now).1 id peek).ent id).value
         ((getMoved L (Cache.GC L c now).1 id peek).ent id).exp true,
       (((getMoved L (Cache.GC L c now).1 id peek).ent id).value, true)) := by
  rw [getC_split, hlook]

theorem getMoved_proj (L : Collection) (g : Cache) (id : Nat) (peek : Bool) :
    (getMoved L g id peek).entries = g.entries ∧
    (getMoved L g id peek).estore = g.estore ∧
    (getMoved L g id peek).heap = g.heap ∧
    (getMoved L g id peek).capacity = g.capacity ∧
    (getMoved L g id peek).ttl = g.ttl ∧
    (getMoved L g id peek).nextId = g.nextId ∧
    (getMoved L g id peek).subs = g.subs ∧
    (getMoved L g id peek).trace = g.trace := by
  unfold getMoved
  split
  · exact ⟨rfl, rfl, rfl, rfl, rfl, rfl, rfl, rfl⟩
  · exact ⟨rfl, rfl, rfl, rfl, rfl, rfl, rfl, rfl⟩

theorem getMoved_coll (L : Collection) (g : Cache) (id : Nat) (peek : Bool)
    (hL : LawfulColl L) : List.Perm (getMoved L g id peek).coll g.coll := by
  unfold getMoved
  split
  · exact hL.mov_perm g.coll id
  · exact List.Perm.refl _

theorem getMoved_inv (L : Collection) (g : Cache) (id : Nat) (peek : Bool)
    (hL : LawfulColl L) (hg : EngineInv g) : EngineInv (getMoved L g id peek) := by
  unfold getMoved
  split
  · exact ⟨hg.keysND, hg.idsND, hg.dom, (hL.mov_perm g.coll id).trans hg.collP,
      hg.heapND, hg.heapSub, hg.heapIff, hg.idx, hg.ord, hg.idsLt, hg.esLt,
      hg.esND⟩
  · exact hg

theorem getC_ok (L : Collection) (c : Cache) (now : Int) (key : GoKey)
    (peek : Bool) (hL : LawfulColl L) (hc : EngineInv c) :
    ROk c (getC L c now key peek).1 ∧
    noExpired (getC L c now key peek).1 now ∧
    (getC L c now key peek).1.entries = (Cache.GC L c now).1.entries ∧
    (getC L c now key peek).1.estore = (Cache.GC L c now).1.estore ∧
    (getC L c now key peek).1.heap = (Cache.GC L c now).1.heap ∧
    ((getC L c now key peek).2.2 = true ↔
      (alookup (Cache.GC L c now).1.entries key).isSome) ∧
    (∀ id, alookup (Cache.GC L c now).1.entries key = some id →
      (getC L c now key peek).2.1 = ((Cache.GC L c now).1.ent id).value) ∧
    (peek = true → (getC L c now key peek).1.coll = (Cache.GC L c now).1.coll) := by
  have hg := gc_ok L c now hL hc
  cases hlook : alookup (Cache.GC L c now).1.entries key with
  | none =>
    rw [getC_none L c now key peek hlook]
    refine ⟨⟨emit_inv hg.inv _ _ _ _ _, ?_, ?_, hg.cap_eq, hg.ttl_eq, hg.next_eq,
      ?_⟩, ?_, rfl, rfl, rfl, ?_, ?_, fun _ => rfl⟩
    · exact keys_sub_of_entries hg.entries_sub
    · exact hg.len_le
    · rw [emit_subsCh]
      exact hg.subsCh
    · exact noExpired_transfer rfl rfl hg.ne
    · constructor
      · intro h
        exact absurd h (by simp)
      · intro h
        exact absurd h (by simp)
    · intro id h
      exact absurd h (by simp)
  | some id =>
    rw [getC_some L c now key peek id hlook]
    obtain ⟨hm1, hm2, hm3, hm4, hm5, hm6, hm7, hm8⟩ :=
      getMoved_proj L (Cache.GC L c now).1 id peek
    have hinv := getMoved_inv L (Cache.GC L c now).1 id peek hL hg.inv
    refine ⟨⟨emit_inv hinv _ _ _ _ _, ?_, ?_, ?_, ?_, ?_, ?_⟩, ?_, ?_, ?_, ?_,
      ?_, ?_, ?_⟩
    · apply keys_sub_of_entries
      intro p hp
      show p ∈ c.entries
      apply hg.entries_sub
      rw [← hm1]
      exact hp
    · show (getMoved L (Cache.GC L c now).1 id peek).coll.length ≤ c.coll.length
      rw [(getMoved_coll L _ id peek hL).length_eq]
      exact hg.len_le
    · show (getMoved L (Cache.GC L c now).1 id peek).capacity = c.capacity
      rw [hm4, hg.cap_eq]
    · show (getMoved L (Cache.GC L c now).1 id peek).ttl = c.ttl
      rw [hm5, hg.ttl_eq]
    · show (getMoved L (Cache.GC L c now).1 id peek).nextId = c.nextId
      rw [hm6, hg.next_eq]
    · rw [emit_subsCh]
      show (getMoved L (Cache.GC L c now).1 id peek).subs.map Sub.ch = _
      rw [hm7, hg.subsCh]
    · exact noExpired_transfer hm1 hm2 hg.ne
    · exact hm1
    · exact hm2
    · exact hm3
    · simp
    · intro id' h
      obtain rfl : id = id' := Option.some.inj h
      show ((getMoved L (Cache.GC L c now).1 id peek).ent id).value = _
      have : (getMoved L (Cache.GC L c now).1 id peek).ent id =
          (Cache.GC L c now).1.ent id := by
        unfold Cache.ent
        rw [hm2]
      rw [this]
    · intro hp
      show (getMoved L (Cache.GC L c now).1 id peek).coll = _
      unfold getMoved
      rw [hp]
      simp

theorem contains_state (L : Collection) (c : Cache) (now : Int) (key : GoKey) :
    (Cache.Contains L c now key).1 = (getC L c now key true).1 ∧
    (Cache.Contains L c now key).2 = (getC L c now key true).2.2 :=
  ⟨rfl, rfl⟩

theorem expiry_state (L : Collection) (c : Cache) (now : Int) (key : GoKey) :
    (Cache.Expiry L c now key).1 = (Cache.Contains L c now key).1 := by
  unfold Cache.Expiry
  by_cases h : (Cache.Contains L c now key).2
  · simp [h]
  · simp [h]

/-! ## `Front` and `Back` -/

theorem front_ok (L : Collection) (c : Cache) (now : Int) (hL : LawfulColl L)
    (hc : EngineInv c) :
    ROk c (Cache.Front L c now).1 ∧ noExpired (Cache.Front L c now).1 now := by
  have hg := gc_ok L c now hL hc
  have hcl : Cache.Front L c now =
      (match L.Front (Cache.GC L c now).1.coll with
       | some id => ((Cache.GC L c now).1, ((Cache.GC L c now).1.ent id).key)
       | none => ((Cache.GC L c now).1, none)) := rfl
  have hst : (Cache.Front L c now).1 = (Cache.GC L c now).1 := by
    rw [hcl]
    cases L.Front (Cache.GC L c now).1.coll with
    | none => rfl
    | some id => rfl
  rw [hst]
  exact ⟨⟨hg.inv, keys_sub_of_entries hg.entries_sub, hg.len_le, hg.cap_eq,
    hg.ttl_eq, hg.next_eq, hg.subsCh⟩, hg.ne⟩

theorem back_ok (L : Collection) (c : Cache) (now : Int) (hL : LawfulColl L)
    (hc : EngineInv c) :
    ROk c (Cache.Back L c now).1 ∧ noExpired (Cache.Back L c now).1 now := by
  have hg := gc_ok L c now hL hc
  have hcl : Cache.Back L c now =
      (match L.Back (Cache.GC L c now).1.coll with
       | some id => ((Cache.GC L c now).1, ((Cache.GC L c now).1.ent id).key)
       | none => ((Cache.GC L c now).1, none)) := rfl
  have hst : (Cache.Back L c now).1 = (Cache.GC L c now).1 := by
    rw [hcl]
    cases L.Back (Cache.GC L c now).1.coll with
    | none => rfl
    | some id => rfl
  rw [hst]
  exact ⟨⟨hg.inv, keys_sub_of_entries hg.entries_sub, hg.len_le, hg.cap_eq,
    hg.ttl_eq, hg.next_eq, hg.subsCh⟩, hg.ne⟩

theorem rok_refl {c : Cache} (hc : EngineInv c) : ROk c c :=
  ⟨hc, fun _ hk => hk, le_refl _, rfl, rfl, rfl, rfl⟩

theorem rok_trans {a b c : Cache} (h1 : ROk a b) (h2 : ROk b c) : ROk a c :=
  ⟨h2.inv, fun k hk => h1.keys_sub k (h2.keys_sub k hk),
    le_trans h2.len_le h1.len_le, h2.cap_eq.trans h1.cap_eq,
    h2.ttl_eq.trans h1.ttl_eq, h2.next_eq.trans h1.next_eq,
    h2.subsCh.trans h1.subsCh⟩

theorem gc_rok {L : Collection} {c r : Cache} {now ret : Int}
    (h : GcOK L c r now ret) : ROk c r :=
  ⟨h.inv, keys_sub_of_entries h.entries_sub, h.len_le, h.cap_eq, h.ttl_eq,
    h.next_eq, h.subsCh⟩

theorem coreInv_coll {c : Cache} {bad : Nat} (hc : CoreInvAt c bad)
    (s : List Nat) : CoreInvAt { c with coll := s } bad :=
  ⟨hc.keysND, hc.idsND, hc.dom, hc.heapND, hc.heapSub, hc.heapIffW, hc.idx,
    hc.ord, hc.idsLt, hc.esLt, hc.esND⟩

theorem not_mem_keys_of_none {c : Cache} {key : GoKey}
    (h : alookup c.entries key = none) : key ∉ c.Keys := by
  intro hmem
  have := alookup_isSome (show key ∈ c.entries.map Prod.fst from hmem)
  rw [h] at this
  exact absurd this (by simp)

/-! ## `DelSilently` and `Delete` -/

theorem delS_ok (L : Collection) (c : Cache) (key : GoKey) (hL : LawfulColl L)
    (hc : EngineInv c) :
    ROk c (Cache.DelSilently L c key) ∧
    alookup (Cache.DelSilently L c key).entries key = none ∧
    (∀ id, alookup c.entries key = some id →
      (Cache.DelSilently L c key).entries = aerase c.entries key ∧
      (Cache.DelSilently L c key).Len + 1 = c.Len) ∧
    (alookup c.entries key = none → Cache.DelSilently L c key = c) ∧
    (Cache.DelSilently L c key).trace = c.trace ∧
    (∀ now, noExpired c now → noExpired (Cache.DelSilently L c key) now) := by
  have hcl : Cache.DelSilently L c key =
      (match alookup c.entries key with
       | some id => removeEntryC L c id
       | none => c) := rfl
  cases hlook : alookup c.entries key with
  | none =>
    rw [hcl, hlook]
    exact ⟨rok_refl hc, hlook, fun id h => absurd h (by simp),
      fun _ => rfl, rfl, fun _ h => h⟩
  | some id =>
    rw [hcl, hlook]
    have hrem := removeEntryC_ok L c key id (engineInv_core hc id) hlook
    have hidm : id ∈ c.coll := by
      rw [hc.collP.mem_iff]
      exact List.mem_map.2 ⟨(key, id), alookup_mem hlook, rfl⟩
    have hpos : 0 < c.coll.length := List.length_pos.2 (fun h => by
      rw [h] at hidm
      simp at hidm)
    have hinv : EngineInv (removeEntryC L c id) := by
      apply core_engineInv hrem.core
      rw [hrem.ids_eq]
      have h1 : List.Perm (removeEntryC L c id).coll (c.coll.erase id) := by
        rw [hrem.coll_eq]
        exact hL.rem_perm c.coll id
      exact h1.trans (hc.collP.erase id)
    have hlen : (removeEntryC L c id).Len + 1 = c.Len := by
      show (removeEntryC L c id).coll.length + 1 = c.coll.length
      have h1 : (removeEntryC L c id).coll.length = (c.coll.erase id).length := by
        rw [hrem.coll_eq]
        exact (hL.rem_perm c.coll id).length_eq
      rw [h1, List.length_erase_of_mem hidm]
      omega
    refine ⟨⟨hinv, ?_, ?_, hrem.cap_eq, hrem.ttl_eq, hrem.next_eq,
      by rw [hrem.subs_eq]⟩, ?_, fun id' h => ?_, fun h => absurd h (by simp),
      hrem.trace_eq, ?_⟩
    · apply keys_sub_of_entries
      intro p hp
      rw [hrem.entries_eq] at hp
      exact (aerase_sublist c.entries key).subset hp
    · show (removeEntryC L c id).Len ≤ c.Len
      omega
    · rw [hrem.entries_eq]
      exact alookup_aerase_self hc.keysND hlook
    · exact ⟨hrem.entries_eq, hlen⟩
    · intro now hne p hp
      rw [(hrem.proj p.2).2.2]
      apply hne
      rw [hrem.entries_eq] at hp
      exact (aerase_sublist c.entries key).subset hp

theorem delete_ok (L : Collection) (c : Cache) (key : GoKey) (hL : LawfulColl L)
    (hc : EngineInv c) :
    ROk c (Cache.Delete L c key) ∧
    alookup (Cache.Delete L c key).entries key = none ∧
    (∀ id, alookup c.entries key = some id →
      (Cache.Delete L c key).entries = aerase c.entries key ∧
      (Cache.Delete L c key).Len + 1 = c.Len) ∧
    (alookup c.entries key = none → Cache.Delete L c key = c) ∧
    (∃ t, (Cache.Delete L c key).trace = c.trace ++ t ∧
      ∀ ev ∈ t, ev.op = Op.Remove) ∧
    (∀ now, noExpired c now → noExpired (Cache.Delete L c key) now) := by
  have hcl : Cache.Delete L c key =
      (match alookup c.entries key with
       | some id => evictC L c id
       | none => c) := rfl
  cases hlook : alookup c.entries key with
  | none =>
    rw [hcl, hlook]
    exact ⟨rok_refl hc, hlook, fun id h => absurd h (by simp),
      fun _ => rfl, ⟨[], by simp, by simp⟩, fun _ h => h⟩
  | some id =>
    rw [hcl, hlook]
    have hev := evictC_ok L c key id (engineInv_core hc id) hlook
    have hidm : id ∈ c.coll := by
      rw [hc.collP.mem_iff]
      exact List.mem_map.2 ⟨(key, id), alookup_mem hlook, rfl⟩
    have hinv : EngineInv (evictC L c id) := by
      apply core_engineInv hev.core
      rw [hev.ids_eq]
      have h1 : List.Perm (evictC L c id).coll (c.coll.erase id) := by
        rw [hev.coll_eq]
        exact hL.rem_perm c.coll id
      exact h1.trans (hc.collP.erase id)
    have hlen : (evictC L c id).Len + 1 = c.Len := by
      show (evictC L c id).coll.length + 1 = c.coll.length
      have h1 : (evictC L c id).coll.length = (c.coll.erase id).length := by
        rw [hev.coll_eq]
        exact (hL.rem_perm c.coll id).length_eq
      rw [h1, List.length_erase_of_mem hidm]
      have : 0 < c.coll.length := List.length_pos.2 (fun h => by
        rw [h] at hidm
        simp at hidm)
      omega
    refine ⟨⟨hinv, ?_, ?_, hev.cap_eq, hev.ttl_eq, hev.next_eq, hev.subsCh⟩,
      ?_, fun id' h => ⟨hev.entries_eq, hlen⟩, fun h => absurd h (by simp),
      ?_, ?_⟩
    · apply keys_sub_of_entries
      intro p hp
      rw [hev.entries_eq] at hp
      exact (aerase_sublist c.entries key).subset hp
    · show (evictC L c id).Len ≤ c.Len
      omega
    · rw [hev.entries_eq]
      exact alookup_aerase_self hc.keysND hlook
    · obtain ⟨ev, h1, h2⟩ := hev.trace_ext
      exact ⟨[ev], h1, by
        intro e he
        rw [List.mem_singleton.1 he, h2]⟩
    · intro now hne p hp
      rw [(hev.proj p.2).2.2]
      apply hne
      rw [hev.entries_eq] at hp
      exact (aerase_sublist c.entries key).subset hp

/-! ## `Discard` -/

theorem discard_ok (L : Collection) (c : Cache) (hL : LawfulColl L)
    (hc : EngineInv c) :
    ROk c (Cache.Discard L c).1 ∧
    (c.coll = [] → (Cache.Discard L c).1 = c) ∧
    (c.coll ≠ [] →
      (Cache.Discard L c).2.1 ∈ c.Keys ∧
      (Cache.Discard L c).2.1 ∉ (Cache.Discard L c).1.Keys ∧
      (Cache.Discard L c).1.Len + 1 = c.Len) ∧
    (∀ k' j, alookup c.entries k' = some j → j ∉ c.coll →
      alookup (Cache.Discard L c).1.entries k' = some j) ∧
    (∀ now, noExpired c now → noExpired (Cache.Discard L c).1 now) ∧
    (∃ t, (Cache.Discard L c).1.trace = c.trace ++ t ∧
      ∀ ev ∈ t, ev.op = Op.Remove) := by
  have hcl : Cache.Discard L c =
      (match L.Discard c.coll with
       | (some id, s) =>
         (evictC L { c with coll := s } id,
          (({ c with coll := s } : Cache).ent id).key,
          (({ c with coll := s } : Cache).ent id).value)
       | (none, s) => ({ c with coll := s }, (none, none))) := rfl
  have hpair : L.Discard c.coll =
      ((L.Discard c.coll).1, (L.Discard c.coll).2) := rfl
  cases ho : (L.Discard c.coll).1 with
  | none =>
    obtain ⟨h2eq, hnil⟩ := hL.disc_none c.coll ho
    have hbr : Cache.Discard L c = ({ c with coll := (L.Discard c.coll).2 },
        (none, none)) := by
      rw [hcl, hpair, ho]
    have hstate : (Cache.Discard L c).1 = c := by
      rw [hbr, h2eq]
    rw [hstate]
    exact ⟨rok_refl hc, fun _ => rfl, fun h => absurd hnil h,
      fun k' j h _ => h, fun _ h => h, ⟨[], by simp, by simp⟩⟩
  | some id =>
    obtain ⟨hidm, hsperm⟩ := hL.disc_some c.coll id ho
    have hbr : Cache.Discard L c =
        (evictC L { c with coll := (L.Discard c.coll).2 } id,
         (({ c with coll := (L.Discard c.coll).2 } : Cache).ent id).key,
         (({ c with coll := (L.Discard c.coll).2 } : Cache).ent id).value) := by
      rw [hcl, hpair, ho]
    -- the victim is a resident entry
    have hidi : id ∈ idsOf c := by
      rw [← hc.collP.mem_iff]
      exact hidm
    obtain ⟨p0, hp0, hp0id⟩ := List.mem_map.1 hidi
    have hlook : alookup c.entries p0.1 = some id := by
      have := alookup_of_mem_nodup hc.keysND
        (show (p0.1, p0.2) ∈ c.entries from hp0)
      rw [hp0id] at this
      exact this
    have hek : (c.ent id).key = p0.1 := by
      rw [← hp0id]
      exact inv_ent_key hc.dom hp0
    have hcore1 : CoreInvAt ({ c with coll := (L.Discard c.coll).2 } : Cache) id :=
      coreInv_coll (engineInv_core hc id) _
    have hlook1 : alookup ({ c with coll := (L.Discard c.coll).2 } : Cache).entries
        p0.1 = some id := hlook
    have hev := evictC_ok L _ p0.1 id hcore1 hlook1
    have hnd : c.coll.Nodup := inv_coll_nodup hc.idsND hc.collP
    have hids : id ∉ (L.Discard c.coll).2 := by
      intro hmem
      have := hsperm.subset hmem
      exact absurd ((List.Nodup.mem_erase_iff hnd).1 this).1 (by simp)
    have hcoll2 : List.Perm (evictC L { c with coll := (L.Discard c.coll).2 } id).coll
        (c.coll.erase id) := by
      rw [hev.coll_eq]
      have h1 : List.Perm (L.Remove (L.Discard c.coll).2 id)
          ((L.Discard c.coll).2.erase id) := hL.rem_perm _ id
      rw [List.erase_of_not_mem hids] at h1
      exact h1.trans hsperm
    have hinv : EngineInv (evictC L { c with coll := (L.Discard c.coll).2 } id) := by
      apply core_engineInv hev.core
      rw [hev.ids_eq]
      exact hcoll2.trans (hc.collP.erase id)
    have hlen : (evictC L { c with coll := (L.Discard c.coll).2 } id).Len + 1 =
        c.Len := by
      show (evictC L { c with coll := (L.Discard c.coll).2 } id).coll.length + 1 =
        c.coll.length
      rw [hcoll2.length_eq, List.length_erase_of_mem hidm]
      have : 0 < c.coll.length := List.length_pos.2 (fun h => by
        rw [h] at hidm
        simp at hidm)
      omega
    have hentr : (evictC L { c with coll := (L.Discard c.coll).2 } id).entries =
        aerase c.entries p0.1 := hev.entries_eq
    rw [hbr]
    refine ⟨⟨hinv, ?_, ?_, hev.cap_eq, hev.ttl_eq, hev.next_eq, hev.subsCh⟩,
      fun h => absurd h (by
        intro hx
        rw [hx] at hidm
        simp at hidm), fun _ => ⟨?_, ?_, hlen⟩, ?_, ?_, ?_⟩
    · apply keys_sub_of_entries
      intro p hp
      rw [hentr] at hp
      exact (aerase_sublist c.entries p0.1).subset hp
    · show (evictC L { c with coll := (L.Discard c.coll).2 } id).Len ≤ c.Len
      omega
    · show (({ c with coll := (L.Discard c.coll).2 } : Cache).ent id).key ∈ c.Keys
      have : ({ c with coll := (L.Discard c.coll).2 } : Cache).ent id = c.ent id :=
        rfl
      rw [this, hek]
      exact List.mem_map.2 ⟨p0, hp0, rfl⟩
    · show (({ c with coll := (L.Discard c.coll).2 } : Cache).ent id).key ∉ _
      have h1 : ({ c with coll := (L.Discard c.coll).2 } : Cache).ent id =
          c.ent id := rfl
      rw [h1, hek]
      apply not_mem_keys_of_none
      rw [hentr]
      exact alookup_aerase_self hc.keysND hlook
    · intro k' j h hj
      have hne : k' ≠ p0.1 := by
        intro he
        rw [he, hlook] at h
        obtain rfl : id = j := Option.some.inj h
        exact hj hidm
      rw [hentr, alookup_aerase_ne _ _ _ hne]
      exact h
    · intro now hne p hp
      rw [(hev.proj p.2).2.2]
      show (c.ent p.2).exp = 0 ∨ now < (c.ent p.2).exp
      apply hne
      rw [hentr] at hp
      exact (aerase_sublist c.entries p0.1).subset hp
    · obtain ⟨ev, h1, h2⟩ := hev.trace_ext
      refine ⟨[ev], ?_, by
        intro e he
        rw [List.mem_singleton.1 he, h2]⟩
      rw [h1]

/-! ## `Purge` -/

theorem purge_fold (L : Collection) (hL : LawfulColl L) :
    ∀ (l : List (GoKey × Nat)) (acc : Cache), EngineInv acc → acc.entries = l →
      EngineInv (l.foldl (fun a p => evictC L a p.2) acc) ∧
      (l.foldl (fun a p => evictC L a p.2) acc).entries = [] ∧
      (l.foldl (fun a p => evictC L a p.2) acc).capacity = acc.capacity ∧
      (l.foldl (fun a p => evictC L a p.2) acc).ttl = acc.ttl ∧
      (l.foldl (fun a p => evictC L a p.2) acc).nextId = acc.nextId ∧
      (l.foldl (fun a p => evictC L a p.2) acc).subs.map Sub.ch =
        acc.subs.map Sub.ch := by
  intro l
  induction l with
  | nil =>
    intro acc hacc hent
    exact ⟨hacc, hent, rfl, rfl, rfl, rfl⟩
  | cons p rest ih =>
    intro acc hacc hent
    have hlook : alookup acc.entries p.1 = some p.2 := by
      rw [hent]
      show (if p.1 = p.1 then some p.2 else alookup rest p.1) = some p.2
      rw [if_pos rfl]
    have hev := evictC_ok L acc p.1 p.2 (engineInv_core hacc p.2) hlook
    have hent2 : (evictC L acc p.2).entries = rest := by
      rw [hev.entries_eq, hent]
      show (if p.1 = p.1 then rest else p :: aerase rest p.1) = rest
      rw [if_pos rfl]
    have hinv2 : EngineInv (evictC L acc p.2) := by
      apply core_engineInv hev.core
      rw [hev.ids_eq]
      have h1 : List.Perm (evictC L acc p.2).coll (acc.coll.erase p.2) := by
        rw [hev.coll_eq]
        exact hL.rem_perm acc.coll p.2
      exact h1.trans (hacc.collP.erase p.2)
    have hfold : (p :: rest).foldl (fun a q => evictC L a q.2) acc =
        rest.foldl (fun a q => evictC L a q.2) (evictC L acc p.2) := rfl
    rw [hfold]
    obtain ⟨k1, k2, k3, k4, k5, k6⟩ := ih (evictC L acc p.2) hinv2 hent2
    exact ⟨k1, k2, k3.trans hev.cap_eq, k4.trans hev.ttl_eq,
      k5.trans hev.next_eq, k6.trans hev.subsCh⟩

theorem purge_ok (L : Collection) (c : Cache) (hL : LawfulColl L)
    (hc : EngineInv c) :
    ROk c (Cache.Purge L c) ∧ (Cache.Purge L c).entries = [] ∧
    (Cache.Purge L c).Len = 0 ∧
    (∀ now, noExpired (Cache.Purge L c) now) := by
  have hcl : Cache.Purge L c =
      (if c.subs.isEmpty then { c with entries := [], heap := [], coll := [] }
       else
         { c.entries.foldl (fun acc p => evictC L acc p.2) c with coll := [] }) :=
    rfl
  by_cases hs : c.subs.isEmpty
  · rw [hcl, if_pos hs]
    refine ⟨⟨?_, ?_, ?_, rfl, rfl, rfl, rfl⟩, rfl, ?_, ?_⟩
    · refine ⟨?_, ?_, ?_, ?_, ?_, ?_, ?_, ?_, ?_, ?_, hc.esLt, hc.esND⟩
      · show (([] : List (GoKey × Nat)).map Prod.fst).Nodup
        simp
      · show (([] : List (GoKey × Nat)).map Prod.snd).Nodup
        simp
      · intro p hp
        simp at hp
      · exact List.Perm.refl _
      · simp
      · intro id hid
        simp at hid
      · intro p hp
        simp at hp
      · intro t ht
        simp at ht
      · intro k hk hkm
        simp at hkm
      · intro p hp
        simp at hp
    · intro k hk
      simp [Cache.Keys] at hk
    · exact Nat.zero_le _
    · rfl
    · intro now p hp
      simp at hp
  · rw [hcl, if_neg hs]
    obtain ⟨k1, k2, k3, k4, k5, k6⟩ :=
      purge_fold L hL c.entries c hc rfl
    set c1 := c.entries.foldl (fun acc p => evictC L acc p.2) c with hdefc1
    refine ⟨⟨?_, ?_, ?_, k3, k4, k5, k6⟩, k2, rfl, ?_⟩
    · refine ⟨?_, ?_, ?_, ?_, k1.heapND, ?_, ?_, k1.idx, k1.ord, ?_, k1.esLt,
        k1.esND⟩
      · show (c1.entries.map Prod.fst).Nodup
        rw [k2]
        simp
      · show (c1.entries.map Prod.snd).Nodup
        rw [k2]
        simp
      · intro p hp
        rw [k2] at hp
        simp at hp
      · show List.Perm ([] : List Nat) (idsOf { c1 with coll := ([] : List Nat) })
        show List.Perm ([] : List Nat) (c1.entries.map Prod.snd)
        rw [k2]
        exact List.Perm.refl _
      · intro id hid
        have h1 := k1.heapSub id hid
        show id ∈ idsOf { c1 with coll := ([] : List Nat) }
        exact h1
      · intro p hp
        rw [k2] at hp
        simp at hp
      · intro p hp
        rw [k2] at hp
        simp at hp
    · intro k hk
      have : k ∈ c1.entries.map Prod.fst := hk
      rw [k2] at this
      simp at this
    · exact Nat.zero_le _
    · intro now p hp
      rw [k2] at hp
      simp at hp

/-! ## `Update` -/

theorem ent_aupd_keep_ki (es : List (Nat × Entry)) (k : Nat) (f : Entry → Entry)
    (hk : ∀ e, (f e).key = e.key) (he : ∀ e, (f e).exp = e.exp)
    (hi : ∀ e, (f e).index = e.index) (x : Nat) :
    ((alookup (aupd es k f) x).getD dummyEntry).key =
      ((alookup es x).getD dummyEntry).key ∧
    ((alookup (aupd es k f) x).getD dummyEntry).exp =
      ((alookup es x).getD dummyEntry).exp ∧
    ((alookup (aupd es k f) x).getD dummyEntry).index =
      ((alookup es x).getD dummyEntry).index := by
  by_cases hx : x = k
  · subst hx
    rw [alookup_aupd_self]
    cases alookup es x with
    | none => exact ⟨rfl, rfl, rfl⟩
    | some e => exact ⟨hk e, he e, hi e⟩
  · rw [alookup_aupd_ne _ _ _ _ hx]
    exact ⟨rfl, rfl, rfl⟩

/-- In-place value replacement preserves the engine invariant. -/
theorem upd_value_inv {c : Cache} (hc : EngineInv c) (id : Nat) (value : GoVal) :
    EngineInv { c with estore := aupd c.estore id fun e => { e with value := value } } := by
  set c2 : Cache :=
    { c with estore := aupd c.estore id fun e => { e with value := value } }
    with hdefc2
  have hes2 : c2.estore = aupd c.estore id fun e => { e with value := value } := by
    rw [hdefc2]
  have hent2 : ∀ x, (c2.ent x).key = (c.ent x).key ∧ (c2.ent x).exp = (c.ent x).exp ∧
      (c2.ent x).index = (c.ent x).index := by
    intro x
    show ((alookup c2.estore x).getD dummyEntry).key = _ ∧ _ ∧ _
    rw [hes2]
    exact ent_aupd_keep_ki c.estore id (fun e => { e with value := value })
      (fun e => rfl) (fun e => rfl) (fun e => rfl) x
  have hfst2 : c2.estore.map Prod.fst = c.estore.map Prod.fst := by
    rw [hes2]
    exact map_fst_aupd _ _ _
  have hsame : ∀ t : Nat, c2.expAt t = c.expAt t := by
    intro t
    unfold Cache.expAt
    have hh : c2.hid t = c.hid t := by
      rw [hdefc2]
      rfl
    rw [hh, (hent2 (c.hid t)).2.1]
  refine ⟨hc.keysND, hc.idsND, ?_, hc.collP, hc.heapND, hc.heapSub, ?_, ?_, ?_,
    hc.idsLt, ?_, ?_⟩
  · intro p hp
    have hs : (alookup c.estore p.2).isSome := inv_ent_isSome hc.dom hp
    have hs2 : (alookup c2.estore p.2).isSome := by
      rw [alookup_isSome_iff, hfst2, ← alookup_isSome_iff]
      exact hs
    rw [ent_map_key hs2]
    show some ((c2.ent p.2).key) = some p.1
    rw [(hent2 p.2).1, inv_ent_key hc.dom hp]
  · intro p hp
    rw [(hent2 p.2).2.1]
    exact hc.heapIff p hp
  · intro t ht
    have hh : c2.hid t = c.hid t := by
      rw [hdefc2]
      rfl
    rw [hh, (hent2 (c.hid t)).2.2]
    exact hc.idx t ht
  · intro k hk hkm
    rw [hsame, hsame]
    exact hc.ord k hk hkm
  · exact esLt_of_fst hfst2 hc.esLt rfl
  · rw [hfst2]
    exact hc.esND

theorem update_ok (L : Collection) (c : Cache) (now : Int) (key : GoKey)
    (value : GoVal) (hL : LawfulColl L) (hc : EngineInv c) :
    ROk c (Cache.Update L c now key value) ∧
    noExpired (Cache.Update L c now key value) now := by
  have hg := gc_ok L c now hL hc
  have hcon := getC_ok L (Cache.GC L c now).1 now key true hL hg.inv
  obtain ⟨hr1, hne1, hent1, hes1, -, -, -, -⟩ := hcon
  have hrok1 : ROk c (Cache.Contains L (Cache.GC L c now).1 now key).1 :=
    rok_trans (gc_rok hg) hr1
  have hcl : Cache.Update L c now key value =
      (if (Cache.Contains L (Cache.GC L c now).1 now key).2 then
        match alookup (Cache.Contains L (Cache.GC L c now).1 now key).1.entries
            key with
        | some id =>
          emit { (Cache.Contains L (Cache.GC L c now).1 now key).1 with
                 estore := aupd
                   (Cache.Contains L (Cache.GC L c now).1 now key).1.estore id
                   fun e => { e with value := value } }
            .Write key value
            (({ (Cache.Contains L (Cache.GC L c now).1 now key).1 with
                estore := aupd
                  (Cache.Contains L (Cache.GC L c now).1 now key).1.estore id
                  fun e => { e with value := value } } : Cache).ent id).exp false
        | none => (Cache.Contains L (Cache.GC L c now).1 now key).1
       else (Cache.Contains L (Cache.GC L c now).1 now key).1) := rfl
  by_cases hb : (Cache.Contains L (Cache.GC L c now).1 now key).2
  · rw [hcl, if_pos hb]
    cases hlook : alookup (Cache.Contains L (Cache.GC L c now).1 now key).1.entries
        key with
    | none =>
      exact ⟨hrok1, hne1⟩
    | some id =>
      have hinv2 := upd_value_inv hr1.inv id value
      set c2 : Cache :=
        { (Cache.Contains L (Cache.GC L c now).1 now key).1 with
          estore := aupd (Cache.Contains L (Cache.GC L c now).1 now key).1.estore
            id fun e => { e with value := value } } with hdefc2
      refine ⟨⟨emit_inv hinv2 _ _ _ _ _, ?_, ?_, ?_, ?_, ?_, ?_⟩, ?_⟩
      · intro k hk
        exact hrok1.keys_sub k hk
      · exact hrok1.len_le
      · exact hrok1.cap_eq
      · exact hrok1.ttl_eq
      · exact hrok1.next_eq
      · rw [emit_subsCh]
        exact hrok1.subsCh
      · intro p hp
        have hp2 : p ∈ (Cache.Contains L (Cache.GC L c now).1 now key).1.entries :=
          hp
        have hexp : (c2.ent p.2).exp =
            ((Cache.Contains L (Cache.GC L c now).1 now key).1.ent p.2).exp := by
          show ((alookup c2.estore p.2).getD dummyEntry).exp = _
          have hes2 : c2.estore = aupd
              (Cache.Contains L (Cache.GC L c now).1 now key).1.estore id
              fun e => { e with value := value } := by rw [hdefc2]
          rw [hes2]
          exact (ent_aupd_keep_ki _ id (fun e => { e with value := value })
            (fun e => rfl) (fun e => rfl) (fun e => rfl) p.2).2.1
        show (c2.ent p.2).exp = 0 ∨ now < (c2.ent p.2).exp
        rw [hexp]
        exact hne1 p hp2
  · rw [hcl, if_neg hb]
    exact ⟨hrok1, hne1⟩

/-! ## `StoreWithTTL` -/

theorem alookup_append_some {α β : Type} [DecidableEq α] {l1 : List (α × β)}
    (l2 : List (α × β)) {k : α} {v : β} (h : alookup l1 k = some v) :
    alookup (l1 ++ l2) k = some v := by
  rw [alookup_append, h]

theorem alookup_append_none {α β : Type} [DecidableEq α] {l1 : List (α × β)}
    (l2 : List (α × β)) {k : α} (h : alookup l1 k = none) :
    alookup (l1 ++ l2) k = alookup l2 k := by
  rw [alookup_append, h]

/-- The allocation / TTL / index-insertion tail of `Cache.StoreWithTTL`
(everything after the lazy GC and the silent removal). -/
def storeTail (now : Int) (key : GoKey) (value : GoVal) (ttl : Int)
    (c : Cache) : Cache × Nat :=
  let id := c.nextId
  let c : Cache :=
    { c with
      estore := c.estore ++ [(id, { key := key, value := value, exp := 0, index := 0 })],
      nextId := id + 1 }
  let c := if 0 < ttl then
             heapPushGo
               { c with estore := aupd c.estore id fun e => { e with exp := now + ttl } } id
           else c
  ({ c with entries := aset c.entries key id }, id)

/-- The state right after `c.entries[key] = e` in `StoreWithTTL`, compared
against the state the tail started from: the invariant holds except that the
fresh id is not yet in the collection. -/
structure MidOK (c m : Cache) (id : Nat) (now : Int) (key : GoKey)
    (value : GoVal) (ttl : Int) : Prop where
  core : CoreInvAt m m.nextId
  collP : List.Perm (id :: m.coll) (idsOf m)
  look : alookup m.entries key = some id
  entk : (m.ent id).key = key
  entv : (m.ent id).value = value
  exp_pos : 0 < ttl → (m.ent id).exp = now + ttl
  exp_zero : ttl ≤ 0 → (m.ent id).exp = 0
  len_coll : m.entries.length = m.coll.length + 1
  len_le : m.coll.length ≤ c.Len
  id_coll : id ∉ m.coll
  keys : ∀ k' ∈ m.Keys, k' = key ∨ k' ∈ c.Keys
  ne : noExpired m now
  cap_eq : m.capacity = c.capacity
  ttl_eq : m.ttl = c.ttl
  subsCh : m.subs.map Sub.ch = c.subs.map Sub.ch
  trace_ext : ∃ t, m.trace = c.trace ++ t ∧ ∀ ev ∈ t, ev.op = Op.Remove

theorem storeTail_ok (now : Int) (key : GoKey) (value : GoVal) (ttl : Int)
    (c1 : Cache) (hc1 : EngineInv c1) (hnow : 0 ≤ now)
    (hnokey : alookup c1.entries key = none) (hne1 : noExpired c1 now) :
    MidOK c1 (storeTail now key value ttl c1).1
      (storeTail now key value ttl c1).2 now key value ttl := by
  have hkeyout : key ∉ c1.entries.map Prod.fst := by
    intro hmem
    have := alookup_isSome hmem
    rw [hnokey] at this
    exact absurd this (by simp)
  have hfresh : alookup c1.estore c1.nextId = none := by
    apply alookup_eq_none
    intro hmem
    obtain ⟨q, hq, hqf⟩ := List.mem_map.1 hmem
    have := hc1.esLt q hq
    omega
  have hidfree : ∀ x ∈ idsOf c1, x ≠ c1.nextId := by
    intro x hx
    obtain ⟨p, hp, hpx⟩ := List.mem_map.1 hx
    have := hc1.idsLt p hp
    omega
  have hheapfree : c1.nextId ∉ c1.heap := by
    intro hmem
    exact hidfree _ (hc1.heapSub _ hmem) rfl
  have hcl : storeTail now key value ttl c1 =
      ((fun c3 : Cache =>
          ({ c3 with entries := aset c3.entries key c1.nextId }, c1.nextId))
        (if 0 < ttl then
          heapPushGo
            { c1 with
              estore := aupd (c1.estore ++
                  [(c1.nextId,
                    { key := key, value := value, exp := 0, index := 0 })])
                c1.nextId (fun e => { e with exp := now + ttl }),
              nextId := c1.nextId + 1 }
            c1.nextId
         else
          { c1 with
            estore := c1.estore ++
              [(c1.nextId, { key := key, value := value, exp := 0, index := 0 })],
            nextId := c1.nextId + 1 })) := rfl
  by_cases httl : 0 < ttl
  · rw [hcl, if_pos httl]
    set A : Cache :=
      { c1 with
        estore := aupd (c1.estore ++
            [(c1.nextId, { key := key, value := value, exp := 0, index := 0 })])
          c1.nextId (fun e => { e with exp := now + ttl }),
        nextId := c1.nextId + 1 } with hdefA
    have hAes : A.estore = aupd (c1.estore ++
        [(c1.nextId, { key := key, value := value, exp := 0, index := 0 })])
        c1.nextId (fun e => { e with exp := now + ttl }) := by rw [hdefA]
    have hAheap : A.heap = c1.heap := by rw [hdefA]
    have hAcoll : A.coll = c1.coll := by rw [hdefA]
    have hAentries : A.entries = c1.entries := by rw [hdefA]
    have hAnext : A.nextId = c1.nextId + 1 := by rw [hdefA]
    have hAcap : A.capacity = c1.capacity := by rw [hdefA]
    have hAttl : A.ttl = c1.ttl := by rw [hdefA]
    have hAsubs : A.subs = c1.subs := by rw [hdefA]
    have hAtrace : A.trace = c1.trace := by rw [hdefA]
    have hAfst : A.estore.map Prod.fst = c1.estore.map Prod.fst ++ [c1.nextId] := by
      rw [hAes, map_fst_aupd]
      simp
    have hAent_ne : ∀ x, x ≠ c1.nextId → A.ent x = c1.ent x := by
      intro x hx
      have hsingle : alookup [(c1.nextId,
          ({ key := key, value := value, exp := 0, index := 0 } : Entry))] x =
          none := by
        apply alookup_eq_none
        intro hmem
        simp at hmem
        omega
      show (alookup A.estore x).getD dummyEntry =
        (alookup c1.estore x).getD dummyEntry
      rw [hAes, alookup_aupd_ne _ _ _ _ hx, alookup_append]
      cases h : alookup c1.estore x with
      | none =>
        show (alookup [(c1.nextId,
          ({ key := key, value := value, exp := 0, index := 0 } : Entry))] x).getD
            dummyEntry = (none : Option Entry).getD dummyEntry
        rw [hsingle]
      | some v => rfl
    have hAsome : (alookup A.estore c1.nextId).isSome := by
      rw [alookup_isSome_iff, hAfst]
      simp
    have hAent_id : A.ent c1.nextId =
        { key := key, value := value, exp := now + ttl, index := 0 } := by
      show (alookup A.estore c1.nextId).getD dummyEntry = _
      rw [hAes]
      have hb : alookup (c1.estore ++
          [(c1.nextId, { key := key, value := value, exp := 0, index := 0 })])
          c1.nextId = some { key := key, value := value, exp := 0, index := 0 } := by
        rw [alookup_append_none _ hfresh]
        show (if c1.nextId = c1.nextId then _ else _) = _
        rw [if_pos rfl]
      rw [show (alookup (aupd (c1.estore ++
          [(c1.nextId, { key := key, value := value, exp := 0, index := 0 })])
          c1.nextId fun e => { e with exp := now + ttl }) c1.nextId) =
          some { key := key, value := value, exp := now + ttl, index := 0 } from by
        rw [alookup_aupd_self, hb]
        rfl]
      rfl
    have hAdom : ∀ x ∈ A.heap, (alookup A.estore x).isSome := by
      intro x hx
      rw [hAheap] at hx
      rw [alookup_isSome_iff, hAfst]
      rw [List.mem_append]
      left
      rw [← alookup_isSome_iff]
      exact inv_heap_dom hc1.dom hc1.heapSub x hx
    have hAidx : ∀ t, t < A.heap.length → (A.ent (A.hid t)).index = t := by
      intro t ht
      rw [hAheap] at ht
      have hh : A.hid t = c1.hid t := by
        show A.heap.getD t 0 = c1.heap.getD t 0
        rw [hAheap]
      rw [hh, hAent_ne _ (hidfree _ (hc1.heapSub _ (hid_mem ht)))]
      exact hc1.idx t ht
    have hAord : HeapOrd A A.heap.length := by
      intro k hk hkm
      rw [hAheap] at hkm
      have he : ∀ t, t < c1.heap.length → A.expAt t = c1.expAt t := by
        intro t ht
        unfold Cache.expAt
        have hh : A.hid t = c1.hid t := by
          show A.heap.getD t 0 = c1.heap.getD t 0
          rw [hAheap]
        rw [hh, hAent_ne _ (hidfree _ (hc1.heapSub _ (hid_mem ht)))]
      rw [he k hkm, he ((k - 1) / 2) (by omega)]
      exact hc1.ord k hk hkm
    have hAnd : A.heap.Nodup := by
      rw [hAheap]
      exact hc1.heapND
    have hAfreshheap : c1.nextId ∉ A.heap := by
      rw [hAheap]
      exact hheapfree
    obtain ⟨hop, hperm, hlen⟩ :=
      heapPushGo_ok A c1.nextId hAnd hAfreshheap hAdom hAsome hAidx hAord
    set c3 := heapPushGo A c1.nextId with hdefc3
    have hperm' : List.Perm c3.heap (c1.nextId :: c1.heap) := by
      rw [← hAheap]
      exact hperm
    have hent3 : ∀ x, (c3.ent x).key = (A.ent x).key ∧
        (c3.ent x).value = (A.ent x).value ∧ (c3.ent x).exp = (A.ent x).exp :=
      hop.proj
    have hents3 : c3.entries = c1.entries := by
      rw [hop.entries_eq, hAentries]
    have haset : aset c3.entries key c1.nextId =
        c1.entries ++ [(key, c1.nextId)] := by
      rw [hents3]
      exact aset_not_mem _ hkeyout
    show MidOK c1
      ({ c3 with entries := aset c3.entries key c1.nextId }, c1.nextId).1
      ({ c3 with entries := aset c3.entries key c1.nextId }, c1.nextId).2
      now key value ttl
    set m : Cache := { c3 with entries := aset c3.entries key c1.nextId }
      with hdefm
    have hments : m.entries = c1.entries ++ [(key, c1.nextId)] := by
      rw [hdefm, haset]
    have hmest : m.estore = c3.estore := by rw [hdefm]
    have hmheap : m.heap = c3.heap := by rw [hdefm]
    have hmcoll : m.coll = c1.coll := by
      rw [hdefm, hop.coll_eq, hAcoll]
    have hmnext : m.nextId = c1.nextId + 1 := by
      rw [hdefm, hop.next_eq, hAnext]
    have hment : ∀ x, m.ent x = c3.ent x := by
      intro x
      unfold Cache.ent
      rw [hmest]
    have hmhid : ∀ t, m.hid t = c3.hid t := by
      intro t
      unfold Cache.hid
      rw [hmheap]
    have hmids : idsOf m = idsOf c1 ++ [c1.nextId] := by
      show m.entries.map Prod.snd = idsOf c1 ++ [c1.nextId]
      rw [hments, List.map_append]
      rfl
    have hmkeys : m.Keys = c1.Keys ++ [key] := by
      show m.entries.map Prod.fst = c1.Keys ++ [key]
      rw [hments, List.map_append]
      rfl
    have hmfst : m.estore.map Prod.fst = c1.estore.map Prod.fst ++ [c1.nextId] := by
      rw [hmest, hop.es_fst, hAfst]
    have hment_old : ∀ x, x ≠ c1.nextId →
        (m.ent x).key = (c1.ent x).key ∧ (m.ent x).value = (c1.ent x).value ∧
        (m.ent x).exp = (c1.ent x).exp := by
      intro x hx
      rw [hment, (hent3 x).1, (hent3 x).2.1, (hent3 x).2.2, hAent_ne x hx]
      exact ⟨rfl, rfl, rfl⟩
    have hment_id : (m.ent c1.nextId).key = key ∧
        (m.ent c1.nextId).value = value ∧ (m.ent c1.nextId).exp = now + ttl := by
      rw [hment, (hent3 _).1, (hent3 _).2.1, (hent3 _).2.2, hAent_id]
      exact ⟨rfl, rfl, rfl⟩
    refine ⟨⟨?_, ?_, ?_, ?_, ?_, ?_, ?_, ?_, ?_, ?_, ?_⟩, ?_, ?_, hment_id.1,
      hment_id.2.1, fun _ => hment_id.2.2, fun h => absurd httl (by omega), ?_,
      ?_, ?_, ?_, ?_, ?_, ?_, ?_, ?_⟩
    · rw [show m.Keys = c1.Keys ++ [key] from hmkeys]
      have hp : List.Perm (c1.Keys ++ [key]) (key :: c1.Keys) :=
        List.perm_append_singleton _ _
      exact hp.symm.nodup (List.nodup_cons.2 ⟨hkeyout, hc1.keysND⟩)
    · rw [hmids]
      have hp : List.Perm (idsOf c1 ++ [c1.nextId]) (c1.nextId :: idsOf c1) :=
        List.perm_append_singleton _ _
      exact hp.symm.nodup (List.nodup_cons.2
        ⟨fun h => hidfree _ h rfl, hc1.idsND⟩)
    · intro p hp
      rw [hments] at hp
      rcases List.mem_append.1 hp with h | h
      · have hx : p.2 ≠ c1.nextId := hidfree _ (List.mem_map.2 ⟨p, h, rfl⟩)
        have hs : (alookup m.estore p.2).isSome := by
          rw [alookup_isSome_iff, hmfst, List.mem_append]
          left
          rw [← alookup_isSome_iff]
          exact inv_ent_isSome hc1.dom h
        rw [ent_map_key hs]
        show some ((m.ent p.2).key) = some p.1
        rw [(hment_old p.2 hx).1, inv_ent_key hc1.dom h]
      · simp only [List.mem_singleton] at h
        rw [h]
        have hs : (alookup m.estore c1.nextId).isSome := by
          rw [alookup_isSome_iff, hmfst, List.mem_append]
          right
          simp
        rw [ent_map_key hs]
        show some ((m.ent c1.nextId).key) = some key
        rw [hment_id.1]
    · rw [hmheap]
      exact hop.nd
    · intro x hx
      rw [hmheap] at hx
      have := hperm'.subset hx
      rw [hmids]
      rcases List.mem_cons.1 this with h | h
      · rw [h]
        simp
      · rw [List.mem_append]
        left
        exact hc1.heapSub x h
    · intro p hp _
      rw [hments] at hp
      have hmem : p.2 ∈ m.heap ↔ p.2 = c1.nextId ∨ p.2 ∈ c1.heap := by
        rw [hmheap, hperm'.mem_iff, List.mem_cons]
      rcases List.mem_append.1 hp with h | h
      · have hx : p.2 ≠ c1.nextId := hidfree _ (List.mem_map.2 ⟨p, h, rfl⟩)
        rw [(hment_old p.2 hx).2.2, hmem]
        constructor
        · intro he
          exact Or.inr ((hc1.heapIff p h).1 he)
        · intro hor
          rcases hor with hbad | hm
          · exact absurd hbad hx
          · exact (hc1.heapIff p h).2 hm
      · simp only [List.mem_singleton] at h
        rw [h]
        constructor
        · intro _
          show c1.nextId ∈ m.heap
          rw [hmheap]
          exact hperm'.mem_iff.2 (List.mem_cons_self _ _)
        · intro _
          show (m.ent c1.nextId).exp ≠ 0
          rw [hment_id.2.2]
          omega
    · intro t ht
      rw [hmheap] at ht
      rw [hment, hmhid]
      exact hop.idx t ht
    · intro k hk hkm
      rw [hmheap] at hkm
      have he : ∀ t, m.expAt t = c3.expAt t := by
        intro t
        unfold Cache.expAt
        rw [hment, hmhid]
      rw [he, he]
      exact hop.ord k hk hkm
    · intro p hp
      rw [hments] at hp
      rw [hmnext]
      rcases List.mem_append.1 hp with h | h
      · have := hc1.idsLt p h
        omega
      · simp only [List.mem_singleton] at h
        rw [h]
        omega
    · intro q hq
      have hqf : q.1 ∈ m.estore.map Prod.fst := List.mem_map.2 ⟨q, hq, rfl⟩
      rw [hmfst, List.mem_append] at hqf
      rw [hmnext]
      rcases hqf with h | h
      · obtain ⟨q', hq', hqe⟩ := List.mem_map.1 h
        have := hc1.esLt q' hq'
        omega
      · simp only [List.mem_singleton] at h
        omega
    · rw [hmfst]
      have hp : List.Perm (c1.estore.map Prod.fst ++ [c1.nextId])
          (c1.nextId :: c1.estore.map Prod.fst) :=
        List.perm_append_singleton _ _
      refine hp.symm.nodup (List.nodup_cons.2 ⟨?_, hc1.esND⟩)
      intro hmem
      obtain ⟨q, hq, hqe⟩ := List.mem_map.1 hmem
      have := hc1.esLt q hq
      omega
    · rw [hmcoll, hmids]
      have h1 : List.Perm (idsOf c1 ++ [c1.nextId]) (c1.nextId :: idsOf c1) :=
        List.perm_append_singleton _ _
      exact (((hc1.collP).cons c1.nextId).trans h1.symm)
    · rw [hments]
      rw [alookup_append_none _ hnokey]
      show (if key = key then _ else _) = _
      rw [if_pos rfl]
    · rw [hments]
      simp [List.length_append]
      rw [hmcoll, ← inv_len_eq hc1.collP]
    · rw [hmcoll]
      exact le_refl _
    · rw [hmcoll]
      intro hmem
      have : c1.nextId ∈ idsOf c1 := hc1.collP.subset hmem
      exact hidfree _ this rfl
    · intro k' hk'
      rw [hmkeys] at hk'
      rcases List.mem_append.1 hk' with h | h
      · exact Or.inr h
      · simp only [List.mem_singleton] at h
        exact Or.inl h
    · intro p hp
      rw [hments] at hp
      rcases List.mem_append.1 hp with h | h
      · have hx : p.2 ≠ c1.nextId := hidfree _ (List.mem_map.2 ⟨p, h, rfl⟩)
        rw [(hment_old p.2 hx).2.2]
        exact hne1 p h
      · simp only [List.mem_singleton] at h
        rw [h]
        right
        show now < (m.ent c1.nextId).exp
        rw [hment_id.2.2]
        omega
    · rw [hdefm, hop.cap_eq, hAcap]
    · rw [hdefm, hop.ttl_eq, hAttl]
    · show m.subs.map Sub.ch = c1.subs.map Sub.ch
      rw [hdefm, hop.subs_eq, hAsubs]
    · refine ⟨[], ?_, by simp⟩
      rw [hdefm, hop.trace_eq, hAtrace]
      simp
  · rw [hcl, if_neg httl]
    set B : Cache :=
      { c1 with
        estore := c1.estore ++
          [(c1.nextId, { key := key, value := value, exp := 0, index := 0 })],
        nextId := c1.nextId + 1 } with hdefB
    have hBes : B.estore = c1.estore ++
        [(c1.nextId, { key := key, value := value, exp := 0, index := 0 })] := by
      rw [hdefB]
    have hBheap : B.heap = c1.heap := by rw [hdefB]
    have hBent_ne : ∀ x, x ≠ c1.nextId → B.ent x = c1.ent x := by
      intro x hx
      have hsingle : alookup [(c1.nextId,
          ({ key := key, value := value, exp := 0, index := 0 } : Entry))] x =
          none := by
        apply alookup_eq_none
        intro hmem
        simp at hmem
        omega
      show (alookup B.estore x).getD dummyEntry =
        (alookup c1.estore x).getD dummyEntry
      rw [hBes, alookup_append]
      cases h : alookup c1.estore x with
      | none =>
        show (alookup [(c1.nextId,
          ({ key := key, value := value, exp := 0, index := 0 } : Entry))] x).getD
            dummyEntry = (none : Option Entry).getD dummyEntry
        rw [hsingle]
      | some v => rfl
    have hBent_id : B.ent c1.nextId =
        { key := key, value := value, exp := 0, index := 0 } := by
      show (alookup B.estore c1.nextId).getD dummyEntry = _
      rw [hBes, alookup_append_none _ hfresh]
      show (if c1.nextId = c1.nextId then some _ else _).getD dummyEntry = _
      rw [if_pos rfl]
      rfl
    have hBfst : B.estore.map Prod.fst = c1.estore.map Prod.fst ++ [c1.nextId] := by
      rw [hBes]
      simp
    have haset : aset B.entries key c1.nextId =
        c1.entries ++ [(key, c1.nextId)] := by
      have : B.entries = c1.entries := by rw [hdefB]
      rw [this]
      exact aset_not_mem _ hkeyout
    show MidOK c1
      ({ B with entries := aset B.entries key c1.nextId }, c1.nextId).1
      ({ B with entries := aset B.entries key c1.nextId }, c1.nextId).2
      now key value ttl
    set m : Cache := { B with entries := aset B.entries key c1.nextId }
      with hdefm
    have hments : m.entries = c1.entries ++ [(key, c1.nextId)] := by
      rw [hdefm, haset]
    have hmest : m.estore = B.estore := by rw [hdefm]
    have hmheap : m.heap = c1.heap := by
      rw [hdefm, hBheap]
    have hmcoll : m.coll = c1.coll := by rw [hdefm, hdefB]
    have hmnext : m.nextId = c1.nextId + 1 := by rw [hdefm, hdefB]
    have hment : ∀ x, m.ent x = B.ent x := by
      intro x
      unfold Cache.ent
      rw [hmest]
    have hmids : idsOf m = idsOf c1 ++ [c1.nextId] := by
      show m.entries.map Prod.snd = idsOf c1 ++ [c1.nextId]
      rw [hments, List.map_append]
      rfl
    have hmkeys : m.Keys = c1.Keys ++ [key] := by
      show m.entries.map Prod.fst = c1.Keys ++ [key]
      rw [hments, List.map_append]
      rfl
    have hmfst : m.estore.map Prod.fst = c1.estore.map Prod.fst ++ [c1.nextId] := by
      rw [hmest, hBfst]
    have hment_old : ∀ x, x ≠ c1.nextId → m.ent x = c1.ent x := by
      intro x hx
      rw [hment, hBent_ne x hx]
    have hment_id : m.ent c1.nextId =
        { key := key, value := value, exp := 0, index := 0 } := by
      rw [hment, hBent_id]
    refine ⟨⟨?_, ?_, ?_, ?_, ?_, ?_, ?_, ?_, ?_, ?_, ?_⟩, ?_, ?_,
      by rw [hment_id], by rw [hment_id], fun h => absurd h httl,
      fun _ => by rw [hment_id], ?_, ?_, ?_, ?_, ?_, ?_, ?_, ?_, ?_⟩
    · rw [show m.Keys = c1.Keys ++ [key] from hmkeys]
      have hp : List.Perm (c1.Keys ++ [key]) (key :: c1.Keys) :=
        List.perm_append_singleton _ _
      exact hp.symm.nodup (List.nodup_cons.2 ⟨hkeyout, hc1.keysND⟩)
    · rw [hmids]
      have hp : List.Perm (idsOf c1 ++ [c1.nextId]) (c1.nextId :: idsOf c1) :=
        List.perm_append_singleton _ _
      exact hp.symm.nodup (List.nodup_cons.2
        ⟨fun h => hidfree _ h rfl, hc1.idsND⟩)
    · intro p hp
      rw [hments] at hp
      rcases List.mem_append.1 hp with h | h
      · have hx : p.2 ≠ c1.nextId := hidfree _ (List.mem_map.2 ⟨p, h, rfl⟩)
        have hs : (alookup m.estore p.2).isSome := by
          rw [alookup_isSome_iff, hmfst, List.mem_append]
          left
          rw [← alookup_isSome_iff]
          exact inv_ent_isSome hc1.dom h
        rw [ent_map_key hs]
        show some ((m.ent p.2).key) = some p.1
        rw [hment_old p.2 hx, inv_ent_key hc1.dom h]
      · simp only [List.mem_singleton] at h
        rw [h]
        have hs : (alookup m.estore c1.nextId).isSome := by
          rw [alookup_isSome_iff, hmfst, List.mem_append]
          right
          simp
        rw [ent_map_key hs]
        show some ((m.ent c1.nextId).key) = some key
        rw [hment_id]
    · rw [hmheap]
      exact hc1.heapND
    · intro x hx
      rw [hmheap] at hx
      rw [hmids, List.mem_append]
      left
      exact hc1.heapSub x hx
    · intro p hp _
      rw [hments] at hp
      rcases List.mem_append.1 hp with h | h
      · have hx : p.2 ≠ c1.nextId := hidfree _ (List.mem_map.2 ⟨p, h, rfl⟩)
        rw [hment_old p.2 hx]
        have hmem : p.2 ∈ m.heap ↔ p.2 ∈ c1.heap := by rw [hmheap]
        rw [hmem]
        exact hc1.heapIff p h
      · simp only [List.mem_singleton] at h
        rw [h]
        constructor
        · intro he
          exact absurd (by rw [hment_id]) he
        · intro hmem
          rw [hmheap] at hmem
          exact absurd hmem hheapfree
    · intro t ht
      rw [hmheap] at ht
      have hh : m.hid t = c1.hid t := by
        show m.heap.getD t 0 = c1.heap.getD t 0
        rw [hmheap]
      rw [hh, hment_old _ (hidfree _ (hc1.heapSub _ (hid_mem ht)))]
      exact hc1.idx t ht
    · intro k hk hkm
      rw [hmheap] at hkm
      have he : ∀ t, t < c1.heap.length → m.expAt t = c1.expAt t := by
        intro t ht
        unfold Cache.expAt
        have hh : m.hid t = c1.hid t := by
          show m.heap.getD t 0 = c1.heap.getD t 0
          rw [hmheap]
        rw [hh, hment_old _ (hidfree _ (hc1.heapSub _ (hid_mem ht)))]
      rw [he k hkm, he ((k - 1) / 2) (by omega)]
      exact hc1.ord k hk hkm
    · intro p hp
      rw [hments] at hp
      rw [hmnext]
      rcases List.mem_append.1 hp with h | h
      · have := hc1.idsLt p h
        omega
      · simp only [List.mem_singleton] at h
        rw [h]
        omega
    · intro q hq
      have hqf : q.1 ∈ m.estore.map Prod.fst := List.mem_map.2 ⟨q, hq, rfl⟩
      rw [hmfst, List.mem_append] at hqf
      rw [hmnext]
      rcases hqf with h | h
      · obtain ⟨q', hq', hqe⟩ := List.mem_map.1 h
        have := hc1.esLt q' hq'
        omega
      · simp only [List.mem_singleton] at h
        omega
    · rw [hmfst]
      have hp : List.Perm (c1.estore.map Prod.fst ++ [c1.nextId])
          (c1.nextId :: c1.estore.map Prod.fst) :=
        List.perm_append_singleton _ _
      refine hp.symm.nodup (List.nodup_cons.2 ⟨?_, hc1.esND⟩)
      intro hmem
      obtain ⟨q, hq, hqe⟩ := List.mem_map.1 hmem
      have := hc1.esLt q hq
      omega
    · rw [hmcoll, hmids]
      have h1 : List.Perm (idsOf c1 ++ [c1.nextId]) (c1.nextId :: idsOf c1) :=
        List.perm_append_singleton _ _
      exact (((hc1.collP).cons c1.nextId).trans h1.symm)
    · rw [hments]
      rw [alookup_append_none _ hnokey]
      show (if key = key then _ else _) = _
      rw [if_pos rfl]
    · rw [hments]
      simp [List.length_append]
      rw [hmcoll, ← inv_len_eq hc1.collP]
    · rw [hmcoll]
      exact le_refl _
    · rw [hmcoll]
      intro hmem
      have : c1.nextId ∈ idsOf c1 := hc1.collP.subset hmem
      exact hidfree _ this rfl
    · intro k' hk'
      rw [hmkeys] at hk'
      rcases List.mem_append.1 hk' with h | h
      · exact Or.inr h
      · simp only [List.mem_singleton] at h
        exact Or.inl h
    · intro p hp
      rw [hments] at hp
      rcases List.mem_append.1 hp with h | h
      · have hx : p.2 ≠ c1.nextId := hidfree _ (List.mem_map.2 ⟨p, h, rfl⟩)
        rw [hment_old p.2 hx]
        exact hne1 p h
      · simp only [List.mem_singleton] at h
        rw [h]
        left
        show (m.ent c1.nextId).exp = 0
        rw [hment_id]
    · rw [hdefm, hdefB]
    · rw [hdefm, hdefB]
    · show m.subs.map Sub.ch = c1.subs.map Sub.ch
      rw [hdefm, hdefB]
    · refine ⟨[], ?_, by simp⟩
      rw [hdefm, hdefB]
      simp

theorem hSwap_frame (c : Cache) (i j : Nat) :
    (hSwap c i j).coll = c.coll ∧ (hSwap c i j).trace = c.trace :=
  ⟨rfl, rfl⟩

theorem upFuel_frame : ∀ (fuel : Nat) (c : Cache) (j : Nat),
    (upFuel c j fuel).coll = c.coll ∧ (upFuel c j fuel).trace = c.trace := by
  intro fuel
  induction fuel with
  | zero => exact fun c j => ⟨rfl, rfl⟩
  | succ fuel ih =>
    intro c j
    have hcl : upFuel c j (fuel + 1) =
        (if (j - 1) / 2 = j ∨ ¬(c.expAt j < c.expAt ((j - 1) / 2)) then c
         else upFuel (hSwap c ((j - 1) / 2) j) ((j - 1) / 2) fuel) := rfl
    rw [hcl]
    by_cases h : (j - 1) / 2 = j ∨ ¬(c.expAt j < c.expAt ((j - 1) / 2))
    · rw [if_pos h]
      exact ⟨rfl, rfl⟩
    · rw [if_neg h]
      exact ih (hSwap c ((j - 1) / 2) j) ((j - 1) / 2)

theorem downFuel_frame : ∀ (fuel : Nat) (c : Cache) (i n : Nat),
    (downFuel c i n fuel).1.coll = c.coll ∧
    (downFuel c i n fuel).1.trace = c.trace := by
  intro fuel
  induction fuel with
  | zero => exact fun c i n => ⟨rfl, rfl⟩
  | succ fuel ih =>
    intro c i n
    have hcl : downFuel c i n (fuel + 1) =
        (if 2 * i + 1 ≥ n then ((c, i) : Cache × Nat)
         else if ¬(c.expAt (djSel c i n) < c.expAt i) then (c, i)
         else downFuel (hSwap c i (djSel c i n)) (djSel c i n) n fuel) := rfl
    rw [hcl]
    by_cases h1 : 2 * i + 1 ≥ n
    · rw [if_pos h1]
      exact ⟨rfl, rfl⟩
    · rw [if_neg h1]
      by_cases h2 : ¬(c.expAt (djSel c i n) < c.expAt i)
      · rw [if_pos h2]
        exact ⟨rfl, rfl⟩
      · rw [if_neg h2]
        exact ih (hSwap c i (djSel c i n)) (djSel c i n) n

theorem heapPushGo_frame (c : Cache) (id : Nat) :
    (heapPushGo c id).coll = c.coll ∧ (heapPushGo c id).trace = c.trace := by
  have h := upFuel_frame
    (({ c with
        estore := aupd c.estore id fun e => { e with index := c.heap.length },
        heap := c.heap ++ [id] } : Cache).heap.length - 1 + 1)
    { c with
      estore := aupd c.estore id fun e => { e with index := c.heap.length },
      heap := c.heap ++ [id] }
    (({ c with
        estore := aupd c.estore id fun e => { e with index := c.heap.length },
        heap := c.heap ++ [id] } : Cache).heap.length - 1)
  exact h

theorem storeTail_frame (now : Int) (key : GoKey) (value : GoVal) (ttl : Int)
    (c1 : Cache) :
    (storeTail now key value ttl c1).1.trace = c1.trace ∧
    (storeTail now key value ttl c1).1.coll = c1.coll := by
  have hcl : storeTail now key value ttl c1 =
      ((fun c3 : Cache =>
          ({ c3 with entries := aset c3.entries key c1.nextId }, c1.nextId))
        (if 0 < ttl then
          heapPushGo
            { c1 with
              estore := aupd (c1.estore ++
                  [(c1.nextId,
                    { key := key, value := value, exp := 0, index := 0 })])
                c1.nextId (fun e => { e with exp := now + ttl }),
              nextId := c1.nextId + 1 }
            c1.nextId
         else
          { c1 with
            estore := c1.estore ++
              [(c1.nextId, { key := key, value := value, exp := 0, index := 0 })],
            nextId := c1.nextId + 1 })) := rfl
  rw [hcl]
  by_cases httl : 0 < ttl
  · rw [if_pos httl]
    obtain ⟨h1, h2⟩ := heapPushGo_frame
      { c1 with
        estore := aupd (c1.estore ++
            [(c1.nextId, { key := key, value := value, exp := 0, index := 0 })])
          c1.nextId (fun e => { e with exp := now + ttl }),
        nextId := c1.nextId + 1 }
      c1.nextId
    exact ⟨h2, h1⟩
  · rw [if_neg httl]
    exact ⟨rfl, rfl⟩

theorem midOK_compose {c c1 m : Cache} {id : Nat} {now : Int} {key : GoKey}
    {value : GoVal} {ttl : Int}
    (h : MidOK c1 m id now key value ttl)
    (hkeys : ∀ k' ∈ c1.Keys, k' ∈ c.Keys)
    (hlen : c1.Len ≤ c.Len)
    (hcap : c1.capacity = c.capacity) (httl : c1.ttl = c.ttl)
    (hsubs : c1.subs.map Sub.ch = c.subs.map Sub.ch)
    (htrace : ∃ t, c1.trace = c.trace ++ t ∧ ∀ ev ∈ t, ev.op = Op.Remove) :
    MidOK c m id now key value ttl := by
  obtain ⟨t1, ht1, ht1r⟩ := h.trace_ext
  obtain ⟨t0, ht0, ht0r⟩ := htrace
  refine ⟨h.core, h.collP, h.look, h.entk, h.entv, h.exp_pos, h.exp_zero,
    h.len_coll, le_trans h.len_le hlen, h.id_coll, ?_, h.ne,
    h.cap_eq.trans hcap, h.ttl_eq.trans httl, h.subsCh.trans hsubs,
    ⟨t0 ++ t1, ?_, ?_⟩⟩
  · intro k' hk'
    rcases h.keys k' hk' with hx | hx
    · exact Or.inl hx
    · exact Or.inr (hkeys k' hx)
  · rw [ht1, ht0, List.append_assoc]
  · intro ev hev
    rcases List.mem_append.1 hev with hx | hx
    · exact ht0r ev hx
    · exact ht1r ev hx

theorem storeMid_ok (L : Collection) (c : Cache) (now : Int) (key : GoKey)
    (value : GoVal) (ttl : Int) (hL : LawfulColl L) (hc : EngineInv c)
    (hnow : 0 ≤ now) :
    MidOK c (storeMid L c now key value ttl).1 (storeMid L c now key value ttl).2
      now key value ttl := by
  have hg := gc_ok L c now hL hc
  obtain ⟨hrok, hnone, hsome, hid, htr, hnexp⟩ :=
    delS_ok L (Cache.GC L c now).1 key hL hg.inv
  have hsplit : storeMid L c now key value ttl =
      storeTail now key value ttl (Cache.DelSilently L (Cache.GC L c now).1 key) :=
    rfl
  rw [hsplit]
  have htail := storeTail_ok now key value ttl _ hrok.inv hnow hnone
    (hnexp now hg.ne)
  apply midOK_compose htail
  · intro k' hk'
    exact keys_sub_of_entries hg.entries_sub k' (hrok.keys_sub k' hk')
  · exact le_trans hrok.len_le hg.len_le
  · exact hrok.cap_eq.trans hg.cap_eq
  · exact hrok.ttl_eq.trans hg.ttl_eq
  · exact hrok.subsCh.trans hg.subsCh
  · obtain ⟨t, ht1, ht2, -⟩ := hg.trace_ext
    exact ⟨t, by rw [htr, ht1], ht2⟩

/-- With nothing expired, the first half of a store does not emit and, when
the key was already present, shrinks the collection by exactly one. -/
theorem storeMid_extra (L : Collection) (c : Cache) (now : Int) (key : GoKey)
    (value : GoVal) (ttl : Int) (hL : LawfulColl L) (hc : EngineInv c)
    (hnex : noExpired c now) :
    (storeMid L c now key value ttl).1.trace = c.trace ∧
    ((alookup c.entries key).isSome →
      (storeMid L c now key value ttl).1.coll.length + 1 = c.Len) := by
  have hg := gc_ok L c now hL hc
  have hgid : (Cache.GC L c now).1 = c := hg.id_noexp hnex
  have hsplit : storeMid L c now key value ttl =
      storeTail now key value ttl (Cache.DelSilently L (Cache.GC L c now).1 key) :=
    rfl
  rw [hsplit, hgid]
  obtain ⟨hrok, hnone, hsome, hid, htr, hnexp⟩ := delS_ok L c key hL hc
  obtain ⟨hf1, hf2⟩ := storeTail_frame now key value ttl
    (Cache.DelSilently L c key)
  constructor
  · rw [hf1, htr]
  · intro hs
    cases hlook : alookup c.entries key with
    | none =>
      rw [hlook] at hs
      exact absurd hs (by simp)
    | some j =>
      obtain ⟨-, hlen⟩ := hsome j hlook
      rw [hf2]
      exact hlen

theorem coreAt_any {c : Cache} (hc : CoreInvAt c c.nextId) (b : Nat) :
    CoreInvAt c b :=
  ⟨hc.keysND, hc.idsND, hc.dom, hc.heapND, hc.heapSub,
    fun p hp _ => hc.heapIffW p hp (by have := hc.idsLt p hp; omega),
    hc.idx, hc.ord, hc.idsLt, hc.esLt, hc.esND⟩

/-- `Discard` on the mid-store state: the fresh binding survives (the victim
comes from the collection, which does not hold the fresh id), and the
collection shrinks by one when it was non-empty. -/
theorem discard_mid (L : Collection) (c m : Cache) (id : Nat) {now : Int}
    {key : GoKey} {value : GoVal} {ttl : Int} (hL : LawfulColl L)
    (hm : MidOK c m id now key value ttl) :
    MidOK c (Cache.Discard L m).1 id now key value ttl ∧
    (m.coll ≠ [] → (Cache.Discard L m).1.coll.length + 1 = m.coll.length) ∧
    (m.coll = [] → (Cache.Discard L m).1 = m) := by
  have hcl : Cache.Discard L m =
      (match L.Discard m.coll with
       | (some v, s) =>
         (evictC L { m with coll := s } v,
          (({ m with coll := s } : Cache).ent v).key,
          (({ m with coll := s } : Cache).ent v).value)
       | (none, s) => ({ m with coll := s }, (none, none))) := rfl
  have hpair : L.Discard m.coll = ((L.Discard m.coll).1, (L.Discard m.coll).2) :=
    rfl
  have hcollnd : m.coll.Nodup := by
    have h1 : (id :: m.coll).Nodup := hm.collP.symm.nodup hm.core.idsND
    exact (List.nodup_cons.1 h1).2
  cases ho : (L.Discard m.coll).1 with
  | none =>
    obtain ⟨h2eq, hnil⟩ := hL.disc_none m.coll ho
    have hbr : Cache.Discard L m =
        ({ m with coll := (L.Discard m.coll).2 }, (none, none)) := by
      rw [hcl, hpair, ho]
    have hstate : (Cache.Discard L m).1 = m := by
      rw [hbr, h2eq]
    rw [hstate]
    exact ⟨hm, fun h => absurd hnil h, fun _ => rfl⟩
  | some v =>
    obtain ⟨hvm, hsperm⟩ := hL.disc_some m.coll v ho
    have hbr : Cache.Discard L m =
        (evictC L { m with coll := (L.Discard m.coll).2 } v,
         (({ m with coll := (L.Discard m.coll).2 } : Cache).ent v).key,
         (({ m with coll := (L.Discard m.coll).2 } : Cache).ent v).value) := by
      rw [hcl, hpair, ho]
    have hvne : v ≠ id := by
      intro he
      exact hm.id_coll (he ▸ hvm)
    have hvi : v ∈ idsOf m :=
      hm.collP.subset (List.mem_cons_of_mem id hvm)
    obtain ⟨pv, hpv, hpvv⟩ := List.mem_map.1 hvi
    have hlookv : alookup m.entries pv.1 = some v := by
      have := alookup_of_mem_nodup hm.core.keysND
        (show (pv.1, pv.2) ∈ m.entries from hpv)
      rw [hpvv] at this
      exact this
    have hkvne : pv.1 ≠ key := by
      intro he
      rw [he, hm.look] at hlookv
      exact hvne (Option.some.inj hlookv).symm
    have hcore1 : CoreInvAt ({ m with coll := (L.Discard m.coll).2 } : Cache) v :=
      coreInv_coll (coreAt_any hm.core v) _
    have hlook1 : alookup ({ m with coll := (L.Discard m.coll).2 } : Cache).entries
        pv.1 = some v := hlookv
    have hev := evictC_ok L _ pv.1 v hcore1 hlook1
    have hvnos : v ∉ (L.Discard m.coll).2 := by
      intro hmem
      have := hsperm.subset hmem
      exact absurd ((List.Nodup.mem_erase_iff hcollnd).1 this).1 (by simp)
    have hcoll2 : List.Perm (evictC L { m with coll := (L.Discard m.coll).2 } v).coll
        (m.coll.erase v) := by
      rw [hev.coll_eq]
      have h1 : List.Perm (L.Remove (L.Discard m.coll).2 v)
          ((L.Discard m.coll).2.erase v) := hL.rem_perm _ v
      rw [List.erase_of_not_mem hvnos] at h1
      exact h1.trans hsperm
    have hmpos : 0 < m.coll.length := List.length_pos.2 (fun h => by
      rw [h] at hvm
      simp at hvm)
    have hentr : (evictC L { m with coll := (L.Discard m.coll).2 } v).entries =
        aerase m.entries pv.1 := hev.entries_eq
    have hlenc : (evictC L { m with coll := (L.Discard m.coll).2 } v).coll.length
        + 1 = m.coll.length := by
      rw [hcoll2.length_eq, List.length_erase_of_mem hvm]
      omega
    have hbr1 : (Cache.Discard L m).1 =
        evictC L { m with coll := (L.Discard m.coll).2 } v := by rw [hbr]
    rw [hbr1]
    obtain ⟨t0, ht0, ht0r⟩ := hm.trace_ext
    obtain ⟨ev, hev1, hev2⟩ := hev.trace_ext
    refine ⟨⟨hev.core, ?_, ?_, ?_, ?_, ?_, ?_, ?_, ?_, ?_, ?_, ?_, ?_, ?_, ?_,
      ?_⟩, fun _ => hlenc, fun h => by rw [h] at hvm; simp at hvm⟩
    · have h1 : List.Perm
          (id :: (evictC L { m with coll := (L.Discard m.coll).2 } v).coll)
          (id :: m.coll.erase v) := hcoll2.cons id
      have h2 : (id :: m.coll).erase v = id :: m.coll.erase v :=
        List.erase_cons_tail (by simp [hvne.symm])
      have h3 : List.Perm ((id :: m.coll).erase v) ((idsOf m).erase v) :=
        hm.collP.erase v
      rw [hev.ids_eq]
      rw [h2] at h3
      exact h1.trans h3
    · rw [hentr, alookup_aerase_ne _ _ _ (Ne.symm hkvne)]
      exact hm.look
    · rw [(hev.proj id).1]
      exact hm.entk
    · rw [(hev.proj id).2.1]
      exact hm.entv
    · intro h
      rw [(hev.proj id).2.2]
      exact hm.exp_pos h
    · intro h
      rw [(hev.proj id).2.2]
      exact hm.exp_zero h
    · have h1 : (evictC L { m with coll := (L.Discard m.coll).2 } v).entries.length
          + 1 = m.entries.length := by
        rw [hentr]
        exact aerase_length hlookv
      have h2 := hm.len_coll
      omega
    · have := hm.len_le
      omega
    · intro hmem
      have := hcoll2.subset hmem
      exact hm.id_coll (((List.Nodup.mem_erase_iff hcollnd).1 this).2)
    · intro k' hk'
      apply hm.keys
      obtain ⟨p, hp, hpk⟩ := List.mem_map.1 hk'
      rw [hentr] at hp
      exact List.mem_map.2 ⟨p, (aerase_sublist m.entries pv.1).subset hp, hpk⟩
    · intro p hp
      rw [(hev.proj p.2).2.2]
      show (m.ent p.2).exp = 0 ∨ now < (m.ent p.2).exp
      apply hm.ne
      rw [hentr] at hp
      exact (aerase_sublist m.entries pv.1).subset hp
    · rw [hev.cap_eq]
      exact hm.cap_eq
    · rw [hev.ttl_eq]
      exact hm.ttl_eq
    · rw [hev.subsCh]
      exact hm.subsCh
    · refine ⟨t0 ++ [ev], ?_, ?_⟩
      · rw [hev1]
        show m.trace ++ [ev] = c.trace ++ (t0 ++ [ev])
        rw [ht0, List.append_assoc]
      · intro e he
        rcases List.mem_append.1 he with hx | hx
        · exact ht0r e hx
        · rw [List.mem_singleton.1 hx, hev2]

/-- The second half of `Cache.StoreWithTTL`: the admission check, the
`Add`, and the `WRITE` event. -/
def storeFinish (L : Collection) (key : GoKey) (value : GoVal) (m : Cache)
    (id : Nat) : Cache :=
  let c := if storeAdmits m then (Cache.Discard L m).1 else m
  let c : Cache := { c with coll := L.Add c.coll id }
  emit c .Write key value (c.ent id).exp false

theorem storeWithTTL_split (L : Collection) (c : Cache) (now : Int)
    (key : GoKey) (value : GoVal) (ttl : Int) :
    Cache.StoreWithTTL L c now key value ttl =
      storeFinish L key value (storeMid L c now key value ttl).1
        (storeMid L c now key value ttl).2 := rfl

theorem storeAdd_ok (L : Collection) (key : GoKey) (value : GoVal)
    (c s1 : Cache) (id : Nat) (now ttl : Int) (hL : LawfulColl L)
    (hs1 : MidOK c s1 id now key value ttl) :
    EngineInv (emit { s1 with coll := L.Add s1.coll id } .Write key value
      (({ s1 with coll := L.Add s1.coll id } : Cache).ent id).exp false) ∧
    noExpired (emit { s1 with coll := L.Add s1.coll id } .Write key value
      (({ s1 with coll := L.Add s1.coll id } : Cache).ent id).exp false) now ∧
    (emit { s1 with coll := L.Add s1.coll id } .Write key value
      (({ s1 with coll := L.Add s1.coll id } : Cache).ent id).exp false).entries =
      s1.entries ∧
    (emit { s1 with coll := L.Add s1.coll id } .Write key value
      (({ s1 with coll := L.Add s1.coll id } : Cache).ent id).exp false).Len =
      s1.coll.length + 1 ∧
    (∀ x, (emit { s1 with coll := L.Add s1.coll id } .Write key value
      (({ s1 with coll := L.Add s1.coll id } : Cache).ent id).exp false).ent x =
      s1.ent x) ∧
    (∃ ev, (emit { s1 with coll := L.Add s1.coll id } .Write key value
      (({ s1 with coll := L.Add s1.coll id } : Cache).ent id).exp false).trace =
      s1.trace ++ [ev] ∧ ev.op = Op.Write) ∧
    (emit { s1 with coll := L.Add s1.coll id } .Write key value
      (({ s1 with coll := L.Add s1.coll id } : Cache).ent id).exp false).capacity =
      s1.capacity ∧
    (emit { s1 with coll := L.Add s1.coll id } .Write key value
      (({ s1 with coll := L.Add s1.coll id } : Cache).ent id).exp false).ttl =
      s1.ttl ∧
    (emit { s1 with coll := L.Add s1.coll id } .Write key value
      (({ s1 with coll := L.Add s1.coll id } : Cache).ent id).exp false).subs.map
      Sub.ch = s1.subs.map Sub.ch ∧
    (emit { s1 with coll := L.Add s1.coll id } .Write key value
      (({ s1 with coll := L.Add s1.coll id } : Cache).ent id).exp false).nextId =
      s1.nextId := by
  have hinv2 : EngineInv ({ s1 with coll := L.Add s1.coll id } : Cache) := by
    apply core_engineInv (coreInv_coll hs1.core (L.Add s1.coll id))
    show List.Perm (L.Add s1.coll id) (idsOf s1)
    exact (hL.add_perm _ _).trans hs1.collP
  refine ⟨emit_inv hinv2 _ _ _ _ _, ?_, rfl, ?_, fun x => rfl, ?_, rfl, rfl,
    ?_, rfl⟩
  · intro p hp
    exact hs1.ne p hp
  · show (L.Add s1.coll id).length = s1.coll.length + 1
    rw [(hL.add_perm s1.coll id).length_eq]
    rfl
  · exact ⟨_, rfl, rfl⟩
  · rw [emit_subsCh]

theorem store_ok (L : Collection) (c : Cache) (now : Int) (key : GoKey)
    (value : GoVal) (ttl : Int) (hL : LawfulColl L) (hc : EngineInv c)
    (hnow : 0 ≤ now) :
    EngineInv (Cache.StoreWithTTL L c now key value ttl) ∧
    noExpired (Cache.StoreWithTTL L c now key value ttl) now ∧
    (∃ id, alookup (Cache.StoreWithTTL L c now key value ttl).entries key =
        some id ∧
      ((Cache.StoreWithTTL L c now key value ttl).ent id).value = value ∧
      (0 < ttl →
        ((Cache.StoreWithTTL L c now key value ttl).ent id).exp = now + ttl) ∧
      (ttl ≤ 0 → ((Cache.StoreWithTTL L c now key value ttl).ent id).exp = 0)) ∧
    key ∈ (Cache.StoreWithTTL L c now key value ttl).Keys ∧
    (∀ k' ∈ (Cache.StoreWithTTL L c now key value ttl).Keys,
      k' = key ∨ k' ∈ c.Keys) ∧
    (Cache.StoreWithTTL L c now key value ttl).Len ≤ c.Len + 1 ∧
    (Cache.StoreWithTTL L c now key value ttl).capacity = c.capacity ∧
    (Cache.StoreWithTTL L c now key value ttl).ttl = c.ttl ∧
    (Cache.StoreWithTTL L c now key value ttl).subs.map Sub.ch =
      c.subs.map Sub.ch ∧
    (AtCap c → AtCap (Cache.StoreWithTTL L c now key value ttl)) ∧
    (∃ t ev, (Cache.StoreWithTTL L c now key value ttl).trace =
        c.trace ++ t ++ [ev] ∧
      (∀ e ∈ t, e.op = Op.Remove) ∧ ev.op = Op.Write) ∧
    (noExpired c now → AtCap c → 0 ≤ c.capacity →
      (alookup c.entries key).isSome →
      (∃ ev, (Cache.StoreWithTTL L c now key value ttl).trace =
          c.trace ++ [ev] ∧ ev.op = Op.Write) ∧
      (Cache.StoreWithTTL L c now key value ttl).Len = c.Len) := by
  have hm := storeMid_ok L c now key value ttl hL hc hnow
  rw [storeWithTTL_split]
  set m : Cache := (storeMid L c now key value ttl).1 with hdefm
  set id : Nat := (storeMid L c now key value ttl).2 with hdefid
  have hcl : storeFinish L key value m id =
      emit { (if storeAdmits m then (Cache.Discard L m).1 else m) with
             coll := L.Add
               (if storeAdmits m then (Cache.Discard L m).1 else m).coll id }
        .Write key value
        (({ (if storeAdmits m then (Cache.Discard L m).1 else m) with
            coll := L.Add
              (if storeAdmits m then (Cache.Discard L m).1 else m).coll id } :
          Cache).ent id).exp false := rfl
  by_cases hadm : storeAdmits m
  · -- the admission check fired: one Discard, then Add
    rw [hcl, if_pos hadm]
    obtain ⟨hs1, hlen1, hemp1⟩ := discard_mid L c m id hL hm
    obtain ⟨hinv, hne, hents, hlen, hent, htr, hcap, httl2, hsubs, hnext⟩ :=
      storeAdd_ok L key value c (Cache.Discard L m).1 id now ttl hL hs1
    obtain ⟨t1, hev1, hev2⟩ := htr
    obtain ⟨t0, ht0, ht0r⟩ := hs1.trace_ext
    refine ⟨hinv, hne, ⟨id, ?_, ?_, ?_, ?_⟩, ?_, ?_, ?_, ?_, ?_, ?_, ?_, ?_, ?_⟩
    · rw [hents]
      exact hs1.look
    · rw [hent]
      exact hs1.entv
    · intro h
      rw [hent]
      exact hs1.exp_pos h
    · intro h
      rw [hent]
      exact hs1.exp_zero h
    · show key ∈ Cache.Keys _
      have h1 : (key, id) ∈ (Cache.Discard L m).1.entries :=
        alookup_mem hs1.look
      apply List.mem_map.2
      refine ⟨(key, id), ?_, rfl⟩
      show (key, id) ∈ (emit _ _ _ _ _ _).entries
      rw [hents]
      exact h1
    · intro k' hk'
      apply hs1.keys
      obtain ⟨p, hp, hpk⟩ := List.mem_map.1 hk'
      apply List.mem_map.2
      refine ⟨p, ?_, hpk⟩
      show p ∈ (Cache.Discard L m).1.entries
      rw [← hents]
      exact hp
    · show Cache.Len _ ≤ c.Len + 1
      rw [show Cache.Len _ = (Cache.Discard L m).1.coll.length + 1 from hlen]
      have h1 := hs1.len_le
      omega
    · rw [hcap]
      exact hs1.cap_eq
    · rw [httl2]
      exact hs1.ttl_eq
    · rw [hsubs]
      exact hs1.subsCh
    · intro hAc hpos
      show (Cache.Len _ : Int) ≤ _
      rw [show Cache.Len _ = (Cache.Discard L m).1.coll.length + 1 from hlen]
      have hcapm : m.capacity = c.capacity := hm.cap_eq
      have hcolle : m.coll ≠ [] := by
        intro hnil
        obtain ⟨hne0, hge⟩ := hadm
        rw [hnil] at hge
        simp at hge
        rw [hcapm] at hge
        have hcc := hcapm
        rw [show (emit _ _ _ _ _ _).capacity = c.capacity from
          hcap.trans hs1.cap_eq] at hpos
        omega
      have h2 := hlen1 hcolle
      have h3 := hm.len_le
      have h4 := hAc (by
        rw [show (emit _ _ _ _ _ _).capacity = c.capacity from
          hcap.trans hs1.cap_eq] at hpos
        exact hpos)
      rw [show (emit _ _ _ _ _ _).capacity = c.capacity from
        hcap.trans hs1.cap_eq]
      have h5 : (Cache.Len c : Int) ≤ c.capacity := h4
      have h6 : (Cache.Discard L m).1.coll.length + 1 = m.coll.length := h2
      have h7 : m.coll.length ≤ Cache.Len c := h3
      omega
    · refine ⟨t0, t1, ?_, ht0r, hev2⟩
      rw [hev1, ht0, List.append_assoc]
    · intro hnex hAc hcap0 hsome
      exfalso
      obtain ⟨hmtr, hmlen⟩ :=
        storeMid_extra L c now key value ttl hL hc hnex
      have h1 : m.coll.length + 1 = c.Len := hmlen hsome
      obtain ⟨hne0, hge⟩ := hadm
      have h2 : m.capacity = c.capacity := hm.cap_eq
      by_cases hcp : 0 < c.capacity
      · have h3 : (c.Len : Int) ≤ c.capacity := hAc hcp
        rw [h2] at hge
        omega
      · have : c.capacity = 0 := by omega
        rw [h2, this] at hne0
        exact hne0 rfl
  · -- no admission: just Add and emit
    rw [hcl, if_neg hadm]
    obtain ⟨hinv, hne, hents, hlen, hent, htr, hcap, httl2, hsubs, hnext⟩ :=
      storeAdd_ok L key value c m id now ttl hL hm
    obtain ⟨t1, hev1, hev2⟩ := htr
    obtain ⟨t0, ht0, ht0r⟩ := hm.trace_ext
    refine ⟨hinv, hne, ⟨id, ?_, ?_, ?_, ?_⟩, ?_, ?_, ?_, ?_, ?_, ?_, ?_, ?_, ?_⟩
    · rw [hents]
      exact hm.look
    · rw [hent]
      exact hm.entv
    · intro h
      rw [hent]
      exact hm.exp_pos h
    · intro h
      rw [hent]
      exact hm.exp_zero h
    · show key ∈ Cache.Keys _
      have h1 : (key, id) ∈ m.entries := alookup_mem hm.look
      apply List.mem_map.2
      refine ⟨(key, id), ?_, rfl⟩
      show (key, id) ∈ (emit _ _ _ _ _ _).entries
      rw [hents]
      exact h1
    · intro k' hk'
      apply hm.keys
      obtain ⟨p, hp, hpk⟩ := List.mem_map.1 hk'
      apply List.mem_map.2
      refine ⟨p, ?_, hpk⟩
      show p ∈ m.entries
      rw [← hents]
      exact hp
    · show Cache.Len _ ≤ c.Len + 1
      rw [show Cache.Len _ = m.coll.length + 1 from hlen]
      have h1 := hm.len_le
      omega
    · rw [hcap]
      exact hm.cap_eq
    · rw [httl2]
      exact hm.ttl_eq
    · rw [hsubs]
      exact hm.subsCh
    · intro hAc hpos
      show (Cache.Len _ : Int) ≤ _
      rw [show Cache.Len _ = m.coll.length + 1 from hlen]
      rw [show (emit _ _ _ _ _ _).capacity = c.capacity from
        hcap.trans hm.cap_eq]
      have h2 : m.capacity = c.capacity := hm.cap_eq
      rw [show (emit _ _ _ _ _ _).capacity = c.capacity from
        hcap.trans hm.cap_eq] at hpos
      have h3 : ¬(m.capacity ≠ 0 ∧ (m.coll.length : Int) ≥ m.capacity) := hadm
      push_neg at h3
      have h4 : (m.coll.length : Int) < m.capacity := by
        apply h3
        rw [h2]
        omega
      rw [h2] at h4
      push_cast
      omega
    · refine ⟨t0, t1, ?_, ht0r, hev2⟩
      rw [hev1, ht0, List.append_assoc]
    · intro hnex hAc hcap0 hsome
      obtain ⟨hmtr, hmlen⟩ :=
        storeMid_extra L c now key value ttl hL hc hnex
      constructor
      · refine ⟨t1, ?_, hev2⟩
        rw [hev1, hmtr]
      · rw [show Cache.Len _ = m.coll.length + 1 from hlen]
        exact hmlen hsome

/-! ## `Resize` and the trivial mutators -/

theorem discardN_ok (L : Collection) (hL : LawfulColl L) :
    ∀ (n : Nat) (c : Cache), EngineInv c →
      EngineInv (discardN L c n) ∧
      (discardN L c n).Len = c.Len - n ∧
      (discardN L c n).capacity = c.capacity := by
  intro n
  induction n with
  | zero => exact fun c hc => ⟨hc, rfl, rfl⟩
  | succ n ih =>
    intro c hc
    obtain ⟨hrok, hempty, hfull, -, -, -⟩ := discard_ok L c hL hc
    have hstep : discardN L c (n + 1) = discardN L (Cache.Discard L c).1 n := rfl
    have hlen1 : (Cache.Discard L c).1.Len = c.Len - 1 := by
      by_cases hcol : c.coll = []
      · rw [hempty hcol]
        show c.coll.length = c.coll.length - 1
        rw [hcol]
        rfl
      · obtain ⟨-, -, h⟩ := hfull hcol
        omega
    obtain ⟨k1, k2, k3⟩ := ih (Cache.Discard L c).1 hrok.inv
    rw [hstep]
    refine ⟨k1, ?_, k3.trans hrok.cap_eq⟩
    rw [k2, hlen1]
    omega

theorem resize_ok (L : Collection) (c : Cache) (size : Int) (hL : LawfulColl L)
    (hc : EngineInv c) :
    EngineInv (Cache.Resize L c size).1 ∧ AtCap (Cache.Resize L c size).1 ∧
    (Cache.Resize L c size).1.capacity = size := by
  have hcl : Cache.Resize L c size =
      (discardN L { c with capacity := size }
        (if ((c.coll.length : Int) - size) < 0 then 0
         else (c.coll.length : Int) - size).toNat,
       if ((c.coll.length : Int) - size) < 0 then 0
       else (c.coll.length : Int) - size) := rfl
  have hinv0 : EngineInv ({ c with capacity := size } : Cache) :=
    ⟨hc.keysND, hc.idsND, hc.dom, hc.collP, hc.heapND, hc.heapSub, hc.heapIff,
      hc.idx, hc.ord, hc.idsLt, hc.esLt, hc.esND⟩
  obtain ⟨k1, k2, k3⟩ := discardN_ok L hL
    (if ((c.coll.length : Int) - size) < 0 then 0
     else (c.coll.length : Int) - size).toNat
    ({ c with capacity := size } : Cache) hinv0
  rw [hcl]
  refine ⟨k1, ?_, k3⟩
  intro hpos
  rw [k3] at hpos ⊢
  have hcaps : ({ c with capacity := size } : Cache).capacity = size := rfl
  rw [hcaps] at hpos ⊢
  have hlen0 : ({ c with capacity := size } : Cache).Len = c.coll.length := rfl
  rw [k2, hlen0]
  by_cases hd : ((c.coll.length : Int) - size) < 0
  · rw [if_pos hd]
    simp only [Int.toNat_zero]
    omega
  · rw [if_neg hd]
    have h1 : ((c.coll.length : Int) - size).toNat = c.coll.length - size.toNat := by
      omega
    rw [h1]
    omega

theorem setTTL_inv (c : Cache) (t : Int) (hc : EngineInv c) :
    EngineInv (Cache.SetTTL c t) ∧ Cache.Len (Cache.SetTTL c t) = c.Len ∧
    (Cache.SetTTL c t).capacity = c.capacity :=
  ⟨⟨hc.keysND, hc.idsND, hc.dom, hc.collP, hc.heapND, hc.heapSub, hc.heapIff,
    hc.idx, hc.ord, hc.idsLt, hc.esLt, hc.esND⟩, rfl, rfl⟩

theorem notify_inv (c : Cache) (ch : Nat) (ops : List Op) (hc : EngineInv c) :
    EngineInv (Cache.Notify c ch ops) ∧
    Cache.Len (Cache.Notify c ch ops) = c.Len ∧
    (Cache.Notify c ch ops).capacity = c.capacity := by
  have hcl : Cache.Notify c ch ops =
      (let h :=
        if ops.isEmpty then
          (List.range 4).foldl (fun acc i => acc.setCode (i + 1)) { mask := 0 }
        else ops.foldl (fun acc op => acc.setCode op.code) { mask := 0 }
       if (c.subs.map Sub.ch).contains ch then
         { c with subs := c.subs.map fun s =>
             if s.ch = ch then { s with h := h } else s }
       else { c with subs := c.subs ++ [{ ch := ch, h := h, inbox := [] }] }) := rfl
  rw [hcl]
  show EngineInv (if (c.subs.map Sub.ch).contains ch then _ else _) ∧ _ ∧ _
  by_cases hmem : (c.subs.map Sub.ch).contains ch
  · rw [if_pos hmem]
    exact ⟨⟨hc.keysND, hc.idsND, hc.dom, hc.collP, hc.heapND, hc.heapSub,
      hc.heapIff, hc.idx, hc.ord, hc.idsLt, hc.esLt, hc.esND⟩, rfl, rfl⟩
  · rw [if_neg hmem]
    exact ⟨⟨hc.keysND, hc.idsND, hc.dom, hc.collP, hc.heapND, hc.heapSub,
      hc.heapIff, hc.idx, hc.ord, hc.idsLt, hc.esLt, hc.esND⟩, rfl, rfl⟩

theorem ignore_inv (c : Cache) (ch : Nat) (ops : List Op) (hc : EngineInv c) :
    EngineInv (Cache.Ignore c ch ops) ∧
    Cache.Len (Cache.Ignore c ch ops) = c.Len ∧
    (Cache.Ignore c ch ops).capacity = c.capacity := by
  have hcl : Cache.Ignore c ch ops =
      (if ops.isEmpty then { c with subs := c.subs.filter fun s => s.ch ≠ ch }
       else if (c.subs.map Sub.ch).contains ch then
         { c with subs := c.subs.map fun s =>
             if s.ch = ch then
               { s with h := ops.foldl (fun a op => a.clearCode op.code) s.h }
             else s }
       else c) := rfl
  rw [hcl]
  by_cases h1 : ops.isEmpty
  · rw [if_pos h1]
    exact ⟨⟨hc.keysND, hc.idsND, hc.dom, hc.collP, hc.heapND, hc.heapSub,
      hc.heapIff, hc.idx, hc.ord, hc.idsLt, hc.esLt, hc.esND⟩, rfl, rfl⟩
  · rw [if_neg h1]
    by_cases h2 : (c.subs.map Sub.ch).contains ch
    · rw [if_pos h2]
      exact ⟨⟨hc.keysND, hc.idsND, hc.dom, hc.collP, hc.heapND, hc.heapSub,
        hc.heapIff, hc.idx, hc.ord, hc.idsLt, hc.esLt, hc.esND⟩, rfl, rfl⟩
    · rw [if_neg h2]
      exact ⟨hc, rfl, rfl⟩

/-! ## Lawfulness of the LRU collection -/

theorem lru_lawful : LawfulColl lru := by
  refine ⟨?_, ?_, ?_, ?_, ?_, ?_, ?_, ?_⟩
  · intro s i
    show List.Perm (if i ∈ s then i :: s.erase i else s) s
    by_cases h : i ∈ s
    · rw [if_pos h]
      exact (List.perm_cons_erase h).symm
    · rw [if_neg h]
  · intro s i
    exact List.Perm.refl _
  · intro s i
    exact List.Perm.refl _
  · intro s h
    cases hg : s.getLast? with
    | none =>
      refine ⟨?_, List.getLast?_eq_none_iff.1 hg⟩
      show ((match s.getLast? with
             | some i => ((some i : Option Nat), s.dropLast)
             | none => (none, s)) : Option Nat × List Nat).2 = s
      rw [hg]
    | some a =>
      exfalso
      have : (lru.Discard s).1 = some a := by
        show ((match s.getLast? with
               | some i => ((some i : Option Nat), s.dropLast)
               | none => (none, s)) : Option Nat × List Nat).1 = some a
        rw [hg]
      rw [h] at this
      exact absurd this (by simp)
  · intro s i h
    cases hg : s.getLast? with
    | none =>
      exfalso
      have : (lru.Discard s).1 = none := by
        show ((match s.getLast? with
               | some j => ((some j : Option Nat), s.dropLast)
               | none => (none, s)) : Option Nat × List Nat).1 = none
        rw [hg]
      rw [h] at this
      exact absurd this (by simp)
    | some a =>
      have hsome : (lru.Discard s).1 = some a := by
        show ((match s.getLast? with
               | some j => ((some j : Option Nat), s.dropLast)
               | none => (none, s)) : Option Nat × List Nat).1 = some a
        rw [hg]
      have hia : a = i := by
        rw [h] at hsome
        exact (Option.some.inj hsome).symm
      have hne : s ≠ [] := by
        intro hx
        rw [hx] at hg
        exact absurd hg (by simp)
      have hlast : s.getLast hne = a := by
        rw [List.getLast?_eq_getLast s hne] at hg
        exact Option.some.inj hg
      constructor
      · rw [← hia, ← hlast]
        exact List.getLast_mem hne
      · have h2 : (lru.Discard s).2 = s.dropLast := by
          show ((match s.getLast? with
                 | some j => ((some j : Option Nat), s.dropLast)
                 | none => (none, s)) : Option Nat × List Nat).2 = s.dropLast
          rw [hg]
        rw [h2]
        have hgd : s.getD (s.length - 1) 0 = s.getLast hne := by
          rw [List.getD_eq_getElem s 0 (by
            have := List.length_pos.2 hne
            omega)]
          exact (List.getLast_eq_getElem s hne).symm
        have hp := dropLast_perm_erase hne
        rw [hgd, hlast, hia] at hp
        exact hp
  · intro s h
    cases hg : s.getLast? with
    | none => exact absurd (List.getLast?_eq_none_iff.1 hg) h
    | some a =>
      refine ⟨a, ?_⟩
      show ((match s.getLast? with
             | some j => ((some j : Option Nat), s.dropLast)
             | none => (none, s)) : Option Nat × List Nat).1 = some a
      rw [hg]
  · intro s i h
    have h2 : s.head? = some i := h
    exact List.mem_of_mem_head? (Option.mem_def.2 h2)
  · intro s i h
    have h2 : s.getLast? = some i := h
    have hne : s ≠ [] := by
      intro hx
      rw [hx] at h2
      exact absurd h2 (by simp)
    rw [List.getLast?_eq_getLast s hne] at h2
    rw [← Option.some.inj h2]
    exact List.getLast_mem hne

/-! ## Reachable states satisfy the invariant -/

theorem reach_inv (L : Collection) (hL : LawfulColl L) :
    ∀ {c : Cache}, Reach L c → EngineInv c ∧ AtCap c := by
  intro c h
  induction h with
  | new cap =>
    have hcl : Cache.New cap =
        ({ coll := [], heap := [], entries := [], estore := [], nextId := 0,
           subs := [], ttl := 0, capacity := cap, trace := [] } : Cache) := rfl
    rw [hcl]
    refine ⟨⟨?_, ?_, ?_, ?_, ?_, ?_, ?_, ?_, ?_, ?_, ?_, ?_⟩, ?_⟩
    · show (([] : List (GoKey × Nat)).map Prod.fst).Nodup
      simp
    · show (([] : List (GoKey × Nat)).map Prod.snd).Nodup
      simp
    · intro p hp
      simp at hp
    · exact List.Perm.refl _
    · simp
    · intro id hid
      simp at hid
    · intro p hp
      simp at hp
    · intro t ht
      simp at ht
    · intro k hk hkm
      simp at hkm
    · intro p hp
      simp at hp
    · intro q hq
      simp at hq
    · show (([] : List (Nat × Entry)).map Prod.fst).Nodup
      simp
    · intro hpos
      have hp : (0 : Int) < cap := hpos
      show ((([] : List Nat).length : Nat) : Int) ≤ cap
      simp
      omega
  | load now key hnow hr ih =>
    obtain ⟨hc, hac⟩ := ih
    obtain ⟨hrok, -⟩ := getC_ok L _ now key false hL hc
    exact ⟨hrok.inv, atcap_of hrok.len_le hrok.cap_eq hac⟩
  | peek now key hnow hr ih =>
    obtain ⟨hc, hac⟩ := ih
    obtain ⟨hrok, -⟩ := getC_ok L _ now key true hL hc
    exact ⟨hrok.inv, atcap_of hrok.len_le hrok.cap_eq hac⟩
  | contains now key hnow hr ih =>
    obtain ⟨hc, hac⟩ := ih
    obtain ⟨hrok, -⟩ := getC_ok L _ now key true hL hc
    exact ⟨hrok.inv, atcap_of hrok.len_le hrok.cap_eq hac⟩
  | expiry now key hnow hr ih =>
    obtain ⟨hc, hac⟩ := ih
    obtain ⟨hrok, -⟩ := getC_ok L _ now key true hL hc
    rw [expiry_state]
    exact ⟨hrok.inv, atcap_of hrok.len_le hrok.cap_eq hac⟩
  | front now hnow hr ih =>
    obtain ⟨hc, hac⟩ := ih
    obtain ⟨hrok, -⟩ := front_ok L _ now hL hc
    exact ⟨hrok.inv, atcap_of hrok.len_le hrok.cap_eq hac⟩
  | back now hnow hr ih =>
    obtain ⟨hc, hac⟩ := ih
    obtain ⟨hrok, -⟩ := back_ok L _ now hL hc
    exact ⟨hrok.inv, atcap_of hrok.len_le hrok.cap_eq hac⟩
  | gc now hnow hr ih =>
    obtain ⟨hc, hac⟩ := ih
    have hg := gc_ok L _ now hL hc
    exact ⟨hg.inv, atcap_of hg.len_le hg.cap_eq hac⟩
  | store now key value hnow hr ih =>
    obtain ⟨hc, hac⟩ := ih
    obtain ⟨h1, -, -, -, -, -, -, -, -, h11, -, -⟩ :=
      store_ok L _ now key value _ hL hc hnow
    exact ⟨h1, h11 hac⟩
  | storeTTL now key value ttl hnow hr ih =>
    obtain ⟨hc, hac⟩ := ih
    obtain ⟨h1, -, -, -, -, -, -, -, -, h11, -, -⟩ :=
      store_ok L _ now key value ttl hL hc hnow
    exact ⟨h1, h11 hac⟩
  | update now key value hnow hr ih =>
    obtain ⟨hc, hac⟩ := ih
    obtain ⟨hrok, -⟩ := update_ok L _ now key value hL hc
    exact ⟨hrok.inv, atcap_of hrok.len_le hrok.cap_eq hac⟩
  | del key hr ih =>
    obtain ⟨hc, hac⟩ := ih
    obtain ⟨hrok, -⟩ := delete_ok L _ key hL hc
    exact ⟨hrok.inv, atcap_of hrok.len_le hrok.cap_eq hac⟩
  | delS key hr ih =>
    obtain ⟨hc, hac⟩ := ih
    obtain ⟨hrok, -⟩ := delS_ok L _ key hL hc
    exact ⟨hrok.inv, atcap_of hrok.len_le hrok.cap_eq hac⟩
  | discard hr ih =>
    obtain ⟨hc, hac⟩ := ih
    obtain ⟨hrok, -⟩ := discard_ok L _ hL hc
    exact ⟨hrok.inv, atcap_of hrok.len_le hrok.cap_eq hac⟩
  | purge hr ih =>
    obtain ⟨hc, hac⟩ := ih
    obtain ⟨hrok, -⟩ := purge_ok L _ hL hc
    exact ⟨hrok.inv, atcap_of hrok.len_le hrok.cap_eq hac⟩
  | resize size hr ih =>
    obtain ⟨hc, hac⟩ := ih
    obtain ⟨h1, h2, -⟩ := resize_ok L _ size hL hc
    exact ⟨h1, h2⟩
  | setTTL t hr ih =>
    obtain ⟨hc, hac⟩ := ih
    obtain ⟨h1, h2, h3⟩ := setTTL_inv _ t hc
    exact ⟨h1, atcap_of (le_of_eq h2) h3 hac⟩
  | notify ch ops hr ih =>
    obtain ⟨hc, hac⟩ := ih
    obtain ⟨h1, h2, h3⟩ := notify_inv _ ch ops hc
    exact ⟨h1, atcap_of (le_of_eq h2) h3 hac⟩
  | ignore ch ops hr ih =>
    obtain ⟨hc, hac⟩ := ih
    obtain ⟨h1, h2, h3⟩ := ignore_inv _ ch ops hc
    exact ⟨h1, atcap_of (le_of_eq h2) h3 hac⟩


/-! ## ARC-layer helpers -/

theorem subs_nil_of_ch {c r : Cache} (h : r.subs.map Sub.ch = c.subs.map Sub.ch)
    (hc : c.subs = []) : r.subs = [] := by
  rw [hc] at h
  simpa using h

theorem mem_keys_of_isSome {c : Cache} {key : GoKey}
    (h : (alookup c.entries key).isSome) : key ∈ c.Keys :=
  alookup_isSome_iff.1 h

theorem goMin_le (x y : Int) : goMin x y ≤ x ∧ goMin x y ≤ y ∧
    (goMin x y = x ∨ goMin x y = y) := by
  unfold goMin
  split <;> omega

theorem goMax_ge (x y : Int) : x ≤ goMax x y ∧ y ≤ goMax x y ∧
    (goMax x y = x ∨ goMax x y = y) := by
  unfold goMax
  split <;> omega

/-- The behaviour of `Cache.Contains` an ARC sub-cache relies on: the common
frame, freedom from expired entries, and the meaning of the returned flag. -/
theorem contains_ok (L : Collection) (c : Cache) (now : Int) (key : GoKey)
    (hL : LawfulColl L) (hc : EngineInv c) :
    ROk c (Cache.Contains L c now key).1 ∧
    noExpired (Cache.Contains L c now key).1 now ∧
    ((Cache.Contains L c now key).2 = true →
      (alookup (Cache.Contains L c now key).1.entries key).isSome) ∧
    ((Cache.Contains L c now key).2 = false →
      key ∉ (Cache.Contains L c now key).1.Keys) ∧
    (noExpired c now → (Cache.Contains L c now key).1.entries = c.entries ∧
      (Cache.Contains L c now key).1.coll = c.coll) := by
  obtain ⟨hrok, hne, hent, -, -, hiff, -, hcoll⟩ := getC_ok L c now key true hL hc
  have h1 : (Cache.Contains L c now key).1 = (getC L c now key true).1 := rfl
  have h2 : (Cache.Contains L c now key).2 = (getC L c now key true).2.2 := rfl
  rw [h1, h2]
  refine ⟨hrok, hne, ?_, ?_, ?_⟩
  · intro hb
    rw [hent]
    exact hiff.1 hb
  · intro hb
    apply not_mem_keys_of_none
    rw [hent]
    cases hx : alookup (Cache.GC L c now).1.entries key with
    | none => rfl
    | some id =>
      have := hiff.2 (by rw [hx]; rfl)
      rw [this] at hb
      exact absurd hb (by simp)
  · intro hnoe
    have hid : (Cache.GC L c now).1 = c := (gc_ok L c now hL hc).id_noexp hnoe
    exact ⟨by rw [hent, hid], by rw [hcoll rfl, hid]⟩

/-- Likewise for `Cache.Peek`. -/
theorem peek_ok (L : Collection) (c : Cache) (now : Int) (key : GoKey)
    (hL : LawfulColl L) (hc : EngineInv c) :
    ROk c (Cache.Peek L c now key).1 ∧
    noExpired (Cache.Peek L c now key).1 now ∧
    ((Cache.Peek L c now key).2.2 = true →
      (alookup (Cache.Peek L c now key).1.entries key).isSome) ∧
    ((Cache.Peek L c now key).2.2 = false →
      key ∉ (Cache.Peek L c now key).1.Keys) ∧
    (noExpired c now → (Cache.Peek L c now key).1.entries = c.entries ∧
      (Cache.Peek L c now key).1.coll = c.coll) := by
  obtain ⟨hrok, hne, hent, -, -, hiff, -, hcoll⟩ := getC_ok L c now key true hL hc
  refine ⟨hrok, hne, ?_, ?_, ?_⟩
  · intro hb
    rw [show (Cache.Peek L c now key).1.entries = (Cache.GC L c now).1.entries
      from hent]
    exact hiff.1 hb
  · intro hb
    apply not_mem_keys_of_none
    rw [show (Cache.Peek L c now key).1.entries = (Cache.GC L c now).1.entries
      from hent]
    cases hx : alookup (Cache.GC L c now).1.entries key with
    | none => rfl
    | some id =>
      have := hiff.2 (by rw [hx]; rfl)
      rw [show (Cache.Peek L c now key).2.2 = (getC L c now key true).2.2
        from rfl, this] at hb
      exact absurd hb (by simp)
  · intro hnoe
    have hid : (Cache.GC L c now).1 = c := (gc_ok L c now hL hc).id_noexp hnoe
    constructor
    · rw [show (Cache.Peek L c now key).1.entries = (Cache.GC L c now).1.entries
        from hent, hid]
    · rw [show (Cache.Peek L c now key).1.coll = (Cache.GC L c now).1.coll
        from hcoll rfl, hid]

/-- Four sub-cache transitions within the common frame preserve the ARC
invariant (the target `p` and the four key-set inclusions survive). -/
theorem arcInv_of_rok (a : Arc) (t1' t2' b1' b2' : Cache) (h : ArcInv a)
    (h1 : ROk a.t1 t1') (h2 : ROk a.t2 t2') (h3 : ROk a.b1 b1')
    (h4 : ROk a.b2 b2') :
    ArcInv { p := a.p, t1 := t1', t2 := t2', b1 := b1', b2 := b2' } := by
  refine ⟨h1.inv, h2.inv, h3.inv, h4.inv,
    atcap_of h1.len_le h1.cap_eq h.a1, atcap_of h2.len_le h2.cap_eq h.a2,
    atcap_of h3.len_le h3.cap_eq h.a3, atcap_of h4.len_le h4.cap_eq h.a4,
    ?_, ?_, ?_, ?_, h.ppos, ?_, ?_, ?_, ?_, ?_, ?_, ?_, ?_,
    subs_nil_of_ch h1.subsCh h.s1, subs_nil_of_ch h2.subsCh h.s2,
    subs_nil_of_ch h3.subsCh h.s3, subs_nil_of_ch h4.subsCh h.s4⟩
  · show 0 < t1'.capacity
    rw [h1.cap_eq]
    exact h.cpos
  · show t2'.capacity = t1'.capacity
    rw [h2.cap_eq, h1.cap_eq]
    exact h.ceq2
  · show b1'.capacity = t1'.capacity
    rw [h3.cap_eq, h1.cap_eq]
    exact h.ceq3
  · show b2'.capacity = t1'.capacity
    rw [h4.cap_eq, h1.cap_eq]
    exact h.ceq4
  · show a.p ≤ t1'.capacity
    rw [h1.cap_eq]
    exact h.ple
  · show (t1'.Len : Int) + t2'.Len ≤ t1'.capacity
    have l1 : (t1'.Len : Int) ≤ a.t1.Len := by exact_mod_cast h1.len_le
    have l2 : (t2'.Len : Int) ≤ a.t2.Len := by exact_mod_cast h2.len_le
    have hs := h.sumle
    rw [h1.cap_eq]
    omega
  · intro k hk1 hk2
    exact h.d12 k (h1.keys_sub k hk1) (h2.keys_sub k hk2)
  · intro k hk1 hk2
    exact h.d13 k (h1.keys_sub k hk1) (h3.keys_sub k hk2)
  · intro k hk1 hk2
    exact h.d14 k (h1.keys_sub k hk1) (h4.keys_sub k hk2)
  · intro k hk1 hk2
    exact h.d23 k (h2.keys_sub k hk1) (h3.keys_sub k hk2)
  · intro k hk1 hk2
    exact h.d24 k (h2.keys_sub k hk1) (h4.keys_sub k hk2)
  · intro k hk1 hk2
    exact h.d34 k (h3.keys_sub k hk1) (h4.keys_sub k hk2)

/-! ## The simple ARC operations -/

theorem arc_new (cap : Int) (hcap : 0 < cap) : ArcInv (Arc.New cap) := by
  obtain ⟨hinv, hat⟩ := reach_inv lru lru_lawful (Reach.new cap)
  have hkeys : (Cache.New cap).Keys = [] := rfl
  have hcapeq : (Cache.New cap).capacity = cap := rfl
  have hcl : Arc.New cap =
      { p := 0, t1 := Cache.New cap, t2 := Cache.New cap,
        b1 := Cache.New cap, b2 := Cache.New cap } := rfl
  rw [hcl]
  refine ⟨hinv, hinv, hinv, hinv, hat, hat, hat, hat, ?_, rfl, rfl, rfl,
    le_refl 0, ?_, ?_, ?_, ?_, ?_, ?_, ?_, ?_, rfl, rfl, rfl, rfl⟩
  · show 0 < (Cache.New cap).capacity
    rw [hcapeq]
    exact hcap
  · show (0 : Int) ≤ (Cache.New cap).capacity
    rw [hcapeq]
    omega
  · show ((Cache.New cap).Len : Int) + (Cache.New cap).Len ≤
      (Cache.New cap).capacity
    rw [show (Cache.New cap).Len = 0 from rfl, hcapeq]
    push_cast
    omega
  all_goals
    intro k hk hk'
    exact absurd (hkeys ▸ (show k ∈ (Cache.New cap).Keys from hk))
      (List.not_mem_nil k)

theorem arc_delete (a : Arc) (key : GoKey) (h : ArcInv a) :
    ArcInv (Arc.Delete a key) := by
  obtain ⟨hd1, -, -, -, -, -⟩ := delete_ok lru a.t1 key lru_lawful h.i1
  obtain ⟨hd2, -, -, -, -, -⟩ := delete_ok lru a.t2 key lru_lawful h.i2
  obtain ⟨hd3, -, -, -, -, -⟩ := delete_ok lru a.b1 key lru_lawful h.i3
  obtain ⟨hd4, -, -, -, -, -⟩ := delete_ok lru a.b2 key lru_lawful h.i4
  have hcl : Arc.Delete a key =
      { p := a.p, t1 := Cache.Delete lru a.t1 key,
        t2 := Cache.Delete lru a.t2 key, b1 := Cache.Delete lru a.b1 key,
        b2 := Cache.Delete lru a.b2 key } := rfl
  rw [hcl]
  exact arcInv_of_rok a _ _ _ _ h hd1 hd2 hd3 hd4

theorem arc_purge (a : Arc) (h : ArcInv a) : ArcInv (Arc.Purge a) := by
  obtain ⟨hp1, -, -, -⟩ := purge_ok lru a.t1 lru_lawful h.i1
  obtain ⟨hp2, -, -, -⟩ := purge_ok lru a.t2 lru_lawful h.i2
  obtain ⟨hp3, -, -, -⟩ := purge_ok lru a.b1 lru_lawful h.i3
  obtain ⟨hp4, -, -, -⟩ := purge_ok lru a.b2 lru_lawful h.i4
  have hcl : Arc.Purge a =
      { p := a.p, t1 := Cache.Purge lru a.t1, t2 := Cache.Purge lru a.t2,
        b1 := Cache.Purge lru a.b1, b2 := Cache.Purge lru a.b2 } := rfl
  rw [hcl]
  exact arcInv_of_rok a _ _ _ _ h hp1 hp2 hp3 hp4

theorem arc_update (a : Arc) (now : Int) (key : GoKey) (value : GoVal)
    (h : ArcInv a) : ArcInv (Arc.Update a now key value) := by
  obtain ⟨hr1, -, -, -, -⟩ := contains_ok lru a.t1 now key lru_lawful h.i1
  obtain ⟨hu2, -⟩ := update_ok lru a.t2 now key value lru_lawful h.i2
  have h0 : Arc.Update a now key value =
      { p := (if (Cache.Contains lru a.t1 now key).2 = true then
          ({ a with t1 := (Cache.Update lru
                (Cache.Contains lru a.t1 now key).1 now key value) } : Arc)
         else { a with t1 := (Cache.Contains lru a.t1 now key).1 }).p,
        t1 := (if (Cache.Contains lru a.t1 now key).2 = true then
          ({ a with t1 := (Cache.Update lru
                (Cache.Contains lru a.t1 now key).1 now key value) } : Arc)
         else { a with t1 := (Cache.Contains lru a.t1 now key).1 }).t1,
        t2 := (Cache.Update lru
          (if (Cache.Contains lru a.t1 now key).2 = true then
            ({ a with t1 := (Cache.Update lru
                (Cache.Contains lru a.t1 now key).1 now key value) } : Arc)
           else { a with t1 := (Cache.Contains lru a.t1 now key).1 }).t2
          now key value),
        b1 := (if (Cache.Contains lru a.t1 now key).2 = true then
          ({ a with t1 := (Cache.Update lru
                (Cache.Contains lru a.t1 now key).1 now key value) } : Arc)
         else { a with t1 := (Cache.Contains lru a.t1 now key).1 }).b1,
        b2 := (if (Cache.Contains lru a.t1 now key).2 = true then
          ({ a with t1 := (Cache.Update lru
                (Cache.Contains lru a.t1 now key).1 now key value) } : Arc)
         else { a with t1 := (Cache.Contains lru a.t1 now key).1 }).b2 } := rfl
  by_cases hb : (Cache.Contains lru a.t1 now key).2 = true
  · rw [if_pos hb] at h0
    have hcl : Arc.Update a now key value =
        { p := a.p,
          t1 := Cache.Update lru (Cache.Contains lru a.t1 now key).1 now key
            value,
          t2 := Cache.Update lru a.t2 now key value, b1 := a.b1,
          b2 := a.b2 } := h0
    obtain ⟨hu1, -⟩ :=
      update_ok lru (Cache.Contains lru a.t1 now key).1 now key value
        lru_lawful hr1.inv
    rw [hcl]
    exact arcInv_of_rok a _ _ _ _ h (rok_trans hr1 hu1) hu2 (rok_refl h.i3)
      (rok_refl h.i4)
  · rw [if_neg hb] at h0
    have hcl : Arc.Update a now key value =
        { p := a.p, t1 := (Cache.Contains lru a.t1 now key).1,
          t2 := Cache.Update lru a.t2 now key value, b1 := a.b1,
          b2 := a.b2 } := h0
    rw [hcl]
    exact arcInv_of_rok a _ _ _ _ h hr1 hu2 (rok_refl h.i3) (rok_refl h.i4)

theorem arc_load (a : Arc) (now : Int) (key : GoKey) (h : ArcInv a)
    (hnow : 0 ≤ now) : ArcInv (Arc.Load a now key).1 := by
  obtain ⟨hr1, hne1, hsome1, hnone1, -⟩ :=
    peek_ok lru a.t1 now key lru_lawful h.i1
  have h0 : Arc.Load a now key =
      (if (Cache.Peek lru a.t1 now key).2.2 = true then
        (({ a with
            t1 := (Cache.DelSilently lru
              (Cache.Expiry lru (Cache.Peek lru a.t1 now key).1 now key).1 key),
            t2 := (Cache.StoreWithTTL lru a.t2 now key
              (Cache.Peek lru a.t1 now key).2.1
              ((Cache.Expiry lru (Cache.Peek lru a.t1 now key).1 now
                key).2.1 - now)) } : Arc),
         ((Cache.Peek lru a.t1 now key).2.1, true))
       else
        (({ a with
            t1 := (Cache.Peek lru a.t1 now key).1,
            t2 := (Cache.Load lru a.t2 now key).1 } : Arc),
         (Cache.Load lru a.t2 now key).2)) := rfl
  by_cases hb : (Cache.Peek lru a.t1 now key).2.2 = true
  · have h1 : (Arc.Load a now key).1 =
        { a with
          t1 := (Cache.DelSilently lru
            (Cache.Expiry lru (Cache.Peek lru a.t1 now key).1 now key).1 key),
          t2 := (Cache.StoreWithTTL lru a.t2 now key
            (Cache.Peek lru a.t1 now key).2.1
            ((Cache.Expiry lru (Cache.Peek lru a.t1 now key).1 now
              key).2.1 - now)) } := by
      rw [h0, if_pos hb]
    rw [h1]
    obtain ⟨hrZ, -, -, -, hidZ⟩ :=
      contains_ok lru (Cache.Peek lru a.t1 now key).1 now key lru_lawful
        hr1.inv
    obtain ⟨hentC, hcollC⟩ := hidZ hne1
    have hEC : (Cache.Expiry lru (Cache.Peek lru a.t1 now key).1 now key).1 =
        (Cache.Contains lru (Cache.Peek lru a.t1 now key).1 now key).1 :=
      expiry_state lru (Cache.Peek lru a.t1 now key).1 now key
    have hrE : ROk (Cache.Peek lru a.t1 now key).1
        (Cache.Expiry lru (Cache.Peek lru a.t1 now key).1 now key).1 := by
      rw [hEC]
      exact hrZ
    have hentE : (Cache.Expiry lru (Cache.Peek lru a.t1 now key).1 now
        key).1.entries = (Cache.Peek lru a.t1 now key).1.entries := by
      rw [hEC]
      exact hentC
    have hcollE : (Cache.Expiry lru (Cache.Peek lru a.t1 now key).1 now
        key).1.coll = (Cache.Peek lru a.t1 now key).1.coll := by
      rw [hEC]
      exact hcollC
    have hlenE : (Cache.Expiry lru (Cache.Peek lru a.t1 now key).1 now
        key).1.Len = (Cache.Peek lru a.t1 now key).1.Len := by
      unfold Cache.Len
      rw [hcollE]
    have hlookZ : (alookup (Cache.Peek lru a.t1 now key).1.entries key).isSome :=
      hsome1 hb
    have hlookE : (alookup (Cache.Expiry lru (Cache.Peek lru a.t1 now key).1
        now key).1.entries key).isSome := by
      rw [hentE]
      exact hlookZ
    have hkt1 : key ∈ a.t1.Keys :=
      hr1.keys_sub key (mem_keys_of_isSome hlookZ)
    obtain ⟨hrds, hdsnone, hdspres, -, -, -⟩ :=
      delS_ok lru (Cache.Expiry lru (Cache.Peek lru a.t1 now key).1 now key).1
        key lru_lawful hrE.inv
    obtain ⟨hinv2, -, -, -, hkeys2, hlen2, hcap2, -, hsubs2, hat2, -, -⟩ :=
      store_ok lru a.t2 now key (Cache.Peek lru a.t1 now key).2.1
        ((Cache.Expiry lru (Cache.Peek lru a.t1 now key).1 now key).2.1 - now)
        lru_lawful h.i2 hnow
    have hrt1 : ROk a.t1 (Cache.DelSilently lru
        (Cache.Expiry lru (Cache.Peek lru a.t1 now key).1 now key).1 key) :=
      rok_trans hr1 (rok_trans hrE hrds)
    have hlen1 : (Cache.DelSilently lru
        (Cache.Expiry lru (Cache.Peek lru a.t1 now key).1 now key).1 key).Len
        + 1 = (Cache.Expiry lru (Cache.Peek lru a.t1 now key).1 now
          key).1.Len := by
      cases hx : alookup (Cache.Expiry lru (Cache.Peek lru a.t1 now key).1 now
          key).1.entries key with
      | none =>
        rw [hx] at hlookE
        exact absurd hlookE (by simp)
      | some id =>
        exact (hdspres id hx).2
    refine ⟨hrt1.inv, hinv2, h.i3, h.i4,
      atcap_of hrt1.len_le hrt1.cap_eq h.a1, hat2 h.a2, h.a3, h.a4,
      ?_, ?_, ?_, ?_, h.ppos, ?_, ?_, ?_, ?_, ?_, ?_, ?_, ?_,
      subs_nil_of_ch hrt1.subsCh h.s1, subs_nil_of_ch hsubs2 h.s2,
      h.s3, h.s4⟩
    · show 0 < (Cache.DelSilently lru
        (Cache.Expiry lru (Cache.Peek lru a.t1 now key).1 now key).1
        key).capacity
      rw [hrt1.cap_eq]
      exact h.cpos
    · exact hcap2.trans (h.ceq2.trans hrt1.cap_eq.symm)
    · exact h.ceq3.trans hrt1.cap_eq.symm
    · exact h.ceq4.trans hrt1.cap_eq.symm
    · show a.p ≤ (Cache.DelSilently lru
        (Cache.Expiry lru (Cache.Peek lru a.t1 now key).1 now key).1
        key).capacity
      rw [hrt1.cap_eq]
      exact h.ple
    · show ((Cache.DelSilently lru
        (Cache.Expiry lru (Cache.Peek lru a.t1 now key).1 now key).1
        key).Len : Int) + (Cache.StoreWithTTL lru a.t2 now key
          (Cache.Peek lru a.t1 now key).2.1
          ((Cache.Expiry lru (Cache.Peek lru a.t1 now key).1 now
            key).2.1 - now)).Len ≤ (Cache.DelSilently lru
        (Cache.Expiry lru (Cache.Peek lru a.t1 now key).1 now key).1
        key).capacity
      rw [hrt1.cap_eq]
      have l1 := hr1.len_le
      have hs := h.sumle
      omega
    · intro k hk1 hk2
      rcases hkeys2 k hk2 with hkk | hk2'
      · rw [hkk] at hk1
        exact (not_mem_keys_of_none hdsnone) hk1
      · exact h.d12 k (hrt1.keys_sub k hk1) hk2'
    · intro k hk1 hk2
      exact h.d13 k (hrt1.keys_sub k hk1) hk2
    · intro k hk1 hk2
      exact h.d14 k (hrt1.keys_sub k hk1) hk2
    · intro k hk1 hk2
      rcases hkeys2 k hk1 with hkk | hk1'
      · rw [hkk] at hk2
        exact h.d13 key hkt1 hk2
      · exact h.d23 k hk1' hk2
    · intro k hk1 hk2
      rcases hkeys2 k hk1 with hkk | hk1'
      · rw [hkk] at hk2
        exact h.d14 key hkt1 hk2
      · exact h.d24 k hk1' hk2
    · exact h.d34
  · have h1 : (Arc.Load a now key).1 =
        { a with
          t1 := (Cache.Peek lru a.t1 now key).1,
          t2 := (Cache.Load lru a.t2 now key).1 } := by
      rw [h0, if_neg hb]
    rw [h1]
    obtain ⟨hr2, -⟩ := getC_ok lru a.t2 now key false lru_lawful h.i2
    exact arcInv_of_rok a _ _ _ _ h hr1 hr2 (rok_refl h.i3) (rok_refl h.i4)

/-- The relaxation of `ArcInv` that holds after the body of `arc.Set` and
before the deferred `replace`: the resident total may exceed the capacity by
one. -/
structure ArcPre (a : Arc) : Prop where
  i1 : EngineInv a.t1
  i2 : EngineInv a.t2
  i3 : EngineInv a.b1
  i4 : EngineInv a.b2
  a1 : AtCap a.t1
  a2 : AtCap a.t2
  a3 : AtCap a.b1
  a4 : AtCap a.b2
  cpos : 0 < a.t1.capacity
  ceq2 : a.t2.capacity = a.t1.capacity
  ceq3 : a.b1.capacity = a.t1.capacity
  ceq4 : a.b2.capacity = a.t1.capacity
  ppos : 0 ≤ a.p
  ple : a.p ≤ a.t1.capacity
  sumle1 : (a.t1.Len : Int) + a.t2.Len ≤ a.t1.capacity + 1
  d12 : ∀ k ∈ a.t1.Keys, k ∉ a.t2.Keys
  d13 : ∀ k ∈ a.t1.Keys, k ∉ a.b1.Keys
  d14 : ∀ k ∈ a.t1.Keys, k ∉ a.b2.Keys
  d23 : ∀ k ∈ a.t2.Keys, k ∉ a.b1.Keys
  d24 : ∀ k ∈ a.t2.Keys, k ∉ a.b2.Keys
  d34 : ∀ k ∈ a.b1.Keys, k ∉ a.b2.Keys
  s1 : a.t1.subs = []
  s2 : a.t2.subs = []
  s3 : a.b1.subs = []
  s4 : a.b2.subs = []

theorem arcPre_of_inv {a : Arc} (h : ArcInv a) : ArcPre a :=
  ⟨h.i1, h.i2, h.i3, h.i4, h.a1, h.a2, h.a3, h.a4, h.cpos, h.ceq2, h.ceq3,
   h.ceq4, h.ppos, h.ple, by have := h.sumle; omega, h.d12, h.d13, h.d14,
   h.d23, h.d24, h.d34, h.s1, h.s2, h.s3, h.s4⟩

theorem arcInv_of_pre {a : Arc} (h : ArcPre a)
    (hs : (a.t1.Len : Int) + a.t2.Len ≤ a.t1.capacity) : ArcInv a :=
  ⟨h.i1, h.i2, h.i3, h.i4, h.a1, h.a2, h.a3, h.a4, h.cpos, h.ceq2, h.ceq3,
   h.ceq4, h.ppos, h.ple, hs, h.d12, h.d13, h.d14, h.d23, h.d24, h.d34,
   h.s1, h.s2, h.s3, h.s4⟩

/-- The T2-eviction branch of `arc.replace` (with `Z` the possibly
`Contains`-mutated B2). -/
theorem replace_t2_branch (a : Arc) (now : Int) (Z : Cache) (h : ArcPre a)
    (hnow : 0 ≤ now) (hZ : ROk a.b2 Z) (ht2 : 0 < a.t2.Len) :
    ArcInv { a with
             t2 := (Cache.Discard lru a.t2).1,
             b2 := (Cache.Store lru Z now
               (Cache.Discard lru a.t2).2.1 none) } := by
  have hne2 : a.t2.coll ≠ [] := by
    intro hx
    have hz : a.t2.Len = 0 := by
      unfold Cache.Len
      rw [hx]
      rfl
    omega
  obtain ⟨hrd, -, hvic, -, -, -⟩ := discard_ok lru a.t2 lru_lawful h.i2
  obtain ⟨hvk_mem, hvk_not, hvlen⟩ := hvic hne2
  have hZat : AtCap Z := atcap_of hZ.len_le hZ.cap_eq h.a4
  have hSeq : Cache.Store lru Z now (Cache.Discard lru a.t2).2.1 none =
      Cache.StoreWithTTL lru Z now (Cache.Discard lru a.t2).2.1 none Z.ttl :=
    rfl
  obtain ⟨hinv4, -, -, -, hkeys4, -, hcap4, -, hsubs4, hat4, -, -⟩ :=
    store_ok lru Z now (Cache.Discard lru a.t2).2.1 none Z.ttl lru_lawful
      hZ.inv hnow
  rw [hSeq]
  refine ⟨h.i1, hrd.inv, h.i3, hinv4, h.a1,
    atcap_of hrd.len_le hrd.cap_eq h.a2, h.a3, hat4 hZat, h.cpos, ?_, h.ceq3,
    ?_, h.ppos, h.ple, ?_, ?_, h.d13, ?_, ?_, ?_, ?_, h.s1,
    subs_nil_of_ch hrd.subsCh h.s2, h.s3,
    subs_nil_of_ch (hsubs4.trans hZ.subsCh) h.s4⟩
  · exact hrd.cap_eq.trans h.ceq2
  · exact hcap4.trans (hZ.cap_eq.trans h.ceq4)
  · show (a.t1.Len : Int) + (Cache.Discard lru a.t2).1.Len ≤ a.t1.capacity
    have hs := h.sumle1
    omega
  · intro k hk1 hk2
    exact h.d12 k hk1 (hrd.keys_sub k hk2)
  · intro k hk1 hk2
    rcases hkeys4 k hk2 with hkk | hk2'
    · rw [hkk] at hk1
      exact h.d12 (Cache.Discard lru a.t2).2.1 hk1 hvk_mem
    · exact h.d14 k hk1 (hZ.keys_sub k hk2')
  · intro k hk1 hk2
    exact h.d23 k (hrd.keys_sub k hk1) hk2
  · intro k hk1 hk2
    rcases hkeys4 k hk2 with hkk | hk2'
    · rw [hkk] at hk1
      exact hvk_not hk1
    · exact h.d24 k (hrd.keys_sub k hk1) (hZ.keys_sub k hk2')
  · intro k hk1 hk2
    rcases hkeys4 k hk2 with hkk | hk2'
    · rw [hkk] at hk1
      exact h.d23 (Cache.Discard lru a.t2).2.1 hvk_mem hk1
    · exact h.d34 k hk1 (hZ.keys_sub k hk2')

/-- `arc.replace` restores the ARC invariant whenever the resident total has
overflowed. -/
theorem replace_ok (a : Arc) (now : Int) (key : GoKey) (h : ArcPre a)
    (hnow : 0 ≤ now)
    (hsum : a.t1.capacity < (a.t1.Len : Int) + a.t2.Len) :
    ArcInv (Arc.replace a now key) := by
  have h0 : Arc.replace a now key =
      (if ((if 0 < a.t1.Len then
              ((Cache.Contains lru a.b2 now key).1,
               (Cache.Contains lru a.b2 now key).2 &&
                 decide ((a.t1.Len : Int) = a.p))
            else (a.b2, false)).2 ||
           decide (a.p < (a.t1.Len : Int))) = true then
        { a with
          b2 := (if 0 < a.t1.Len then
              ((Cache.Contains lru a.b2 now key).1,
               (Cache.Contains lru a.b2 now key).2 &&
                 decide ((a.t1.Len : Int) = a.p))
            else (a.b2, false)).1,
          t1 := (Cache.Discard lru a.t1).1,
          b1 := (Cache.Store lru a.b1 now (Cache.Discard lru a.t1).2.1 none) }
       else
        { a with
          b2 := (Cache.Store lru (if 0 < a.t1.Len then
              ((Cache.Contains lru a.b2 now key).1,
               (Cache.Contains lru a.b2 now key).2 &&
                 decide ((a.t1.Len : Int) = a.p))
            else (a.b2, false)).1 now (Cache.Discard lru a.t2).2.1 none),
          t2 := (Cache.Discard lru a.t2).1 }) := rfl
  by_cases hpos : 0 < a.t1.Len
  · rw [if_pos hpos] at h0
    have h1 : Arc.replace a now key =
        (if (((Cache.Contains lru a.b2 now key).2 &&
              decide ((a.t1.Len : Int) = a.p)) ||
             decide (a.p < (a.t1.Len : Int))) = true then
          { a with
            b2 := (Cache.Contains lru a.b2 now key).1,
            t1 := (Cache.Discard lru a.t1).1,
            b1 := (Cache.Store lru a.b1 now (Cache.Discard lru a.t1).2.1
              none) }
         else
          { a with
            b2 := (Cache.Store lru (Cache.Contains lru a.b2 now key).1 now
              (Cache.Discard lru a.t2).2.1 none),
            t2 := (Cache.Discard lru a.t2).1 }) := h0
    obtain ⟨hrb2, -, -, -, -⟩ := contains_ok lru a.b2 now key lru_lawful h.i4
    by_cases hg : (((Cache.Contains lru a.b2 now key).2 &&
        decide ((a.t1.Len : Int) = a.p)) ||
        decide (a.p < (a.t1.Len : Int))) = true
    · rw [h1, if_pos hg]
      have hne1 : a.t1.coll ≠ [] := by
        intro hx
        have hz : a.t1.Len = 0 := by
          unfold Cache.Len
          rw [hx]
          rfl
        omega
      obtain ⟨hrd, -, hvic, -, -, -⟩ := discard_ok lru a.t1 lru_lawful h.i1
      obtain ⟨hvk_mem, hvk_not, hvlen⟩ := hvic hne1
      have hSeq : Cache.Store lru a.b1 now (Cache.Discard lru a.t1).2.1 none =
          Cache.StoreWithTTL lru a.b1 now (Cache.Discard lru a.t1).2.1 none
            a.b1.ttl := rfl
      obtain ⟨hinv3, -, -, -, hkeys3, -, hcap3, -, hsubs3, hat3, -, -⟩ :=
        store_ok lru a.b1 now (Cache.Discard lru a.t1).2.1 none a.b1.ttl
          lru_lawful h.i3 hnow
      rw [hSeq]
      refine ⟨hrd.inv, h.i2, hinv3, hrb2.inv,
        atcap_of hrd.len_le hrd.cap_eq h.a1, h.a2, hat3 h.a3,
        atcap_of hrb2.len_le hrb2.cap_eq h.a4, ?_, ?_, ?_, ?_, h.ppos, ?_,
        ?_, ?_, ?_, ?_, ?_, ?_, ?_, subs_nil_of_ch hrd.subsCh h.s1, h.s2,
        subs_nil_of_ch hsubs3 h.s3, subs_nil_of_ch hrb2.subsCh h.s4⟩
      · show 0 < (Cache.Discard lru a.t1).1.capacity
        rw [hrd.cap_eq]
        exact h.cpos
      · exact h.ceq2.trans hrd.cap_eq.symm
      · exact hcap3.trans (h.ceq3.trans hrd.cap_eq.symm)
      · exact hrb2.cap_eq.trans (h.ceq4.trans hrd.cap_eq.symm)
      · show a.p ≤ (Cache.Discard lru a.t1).1.capacity
        rw [hrd.cap_eq]
        exact h.ple
      · show ((Cache.Discard lru a.t1).1.Len : Int) + a.t2.Len ≤
          (Cache.Discard lru a.t1).1.capacity
        rw [hrd.cap_eq]
        have hs := h.sumle1
        omega
      · intro k hk1 hk2
        exact h.d12 k (hrd.keys_sub k hk1) hk2
      · intro k hk1 hk2
        rcases hkeys3 k hk2 with hkk | hk2'
        · rw [hkk] at hk1
          exact hvk_not hk1
        · exact h.d13 k (hrd.keys_sub k hk1) hk2'
      · intro k hk1 hk2
        exact h.d14 k (hrd.keys_sub k hk1) (hrb2.keys_sub k hk2)
      · intro k hk1 hk2
        rcases hkeys3 k hk2 with hkk | hk2'
        · rw [hkk] at hk1
          exact h.d12 (Cache.Discard lru a.t1).2.1 hvk_mem hk1
        · exact h.d23 k hk1 hk2'
      · intro k hk1 hk2
        exact h.d24 k hk1 (hrb2.keys_sub k hk2)
      · intro k hk1 hk2
        rcases hkeys3 k hk1 with hkk | hk1'
        · rw [hkk] at hk2
          exact h.d14 (Cache.Discard lru a.t1).2.1 hvk_mem
            (hrb2.keys_sub _ hk2)
        · exact h.d34 k hk1' (hrb2.keys_sub k hk2)
    · rw [h1, if_neg hg]
      have hg' : ¬(a.p < (a.t1.Len : Int)) := by
        intro hx
        apply hg
        simp [hx]
      have ht2 : 0 < a.t2.Len := by
        have h1l := h.ple
        have h2l := h.cpos
        omega
      exact replace_t2_branch a now _ h hnow hrb2 ht2
  · rw [if_neg hpos] at h0
    have hl0 : a.t1.Len = 0 := Nat.eq_zero_of_not_pos hpos
    have h1 : Arc.replace a now key =
        (if ((false || decide (a.p < (a.t1.Len : Int)))) = true then
          { a with
            b2 := a.b2,
            t1 := (Cache.Discard lru a.t1).1,
            b1 := (Cache.Store lru a.b1 now (Cache.Discard lru a.t1).2.1
              none) }
         else
          { a with
            b2 := (Cache.Store lru a.b2 now (Cache.Discard lru a.t2).2.1
              none),
            t2 := (Cache.Discard lru a.t2).1 }) := h0
    have hg : ¬((false || decide (a.p < (a.t1.Len : Int))) = true) := by
      simp only [Bool.false_or, decide_eq_true_eq]
      have := h.ppos
      omega
    rw [h1, if_neg hg]
    have ht2 : 0 < a.t2.Len := by
      have := h.cpos
      omega
    exact replace_t2_branch a now a.b2 h hnow (rok_refl h.i4) ht2

/-- The membership case analysis of `arc.Set` (the deferred `replace` call is
split off; compare `Arc.StoreWithTTL`). -/
def arcStoreBody (a : Arc) (now : Int) (key : GoKey) (val : GoVal)
    (ttl : Int) : Arc :=
  let r1 := Cache.Contains lru a.t1 now key
  let a : Arc := { a with t1 := r1.1 }
  if r1.2 then
    let a : Arc := { a with t1 := Cache.DelSilently lru a.t1 key }
    { a with t2 := Cache.StoreWithTTL lru a.t2 now key val ttl }
  else
    let r2 := Cache.Contains lru a.t2 now key
    let a : Arc := { a with t2 := r2.1 }
    if r2.2 then { a with t2 := Cache.StoreWithTTL lru a.t2 now key val ttl }
    else
      let r3 := Cache.Contains lru a.b1 now key
      let a : Arc := { a with b1 := r3.1 }
      if r3.2 then
        let a : Arc :=
          { a with p := goMin a.Cap (a.p + goMax ((a.b2.Len / a.b1.Len : Nat) : Int) 1) }
        let a : Arc := { a with b1 := Cache.Delete lru a.b1 key }
        { a with t2 := Cache.StoreWithTTL lru a.t2 now key val ttl }
      else
        let r4 := Cache.Contains lru a.b2 now key
        let a : Arc := { a with b2 := r4.1 }
        if r4.2 then
          let a : Arc :=
            { a with p := goMax 0 (a.p - goMax ((a.b1.Len / a.b2.Len : Nat) : Int) 1) }
          let a : Arc := { a with b2 := Cache.Delete lru a.b2 key }
          { a with t2 := Cache.StoreWithTTL lru a.t2 now key val ttl }
        else
          let a : Arc :=
            if (a.b1.Len : Int) > a.Cap - a.p then
              { a with b1 := (Cache.Discard lru a.b1).1 }
            else a
          let a : Arc :=
            if (a.b2.Len : Int) > a.p then
              { a with b2 := (Cache.Discard lru a.b2).1 }
            else a
          { a with t1 := Cache.StoreWithTTL lru a.t1 now key val ttl }

theorem arcStore_split (a : Arc) (now : Int) (key : GoKey) (val : GoVal)
    (ttl : Int) :
    Arc.StoreWithTTL a now key val ttl =
    (if (arcStoreBody a now key val ttl).Cap ≠ 0 ∧
        ((arcStoreBody a now key val ttl).Len : Int) >
          (arcStoreBody a now key val ttl).Cap then
      Arc.replace (arcStoreBody a now key val ttl) now key
     else arcStoreBody a now key val ttl) := rfl

/-- The common shape of the four hit branches of the `arc.Set` body: the key
is (re-)stored into T2, and the other three sub-caches have only shrunk. -/
theorem storeBody_t2Arc (a : Arc) (now : Int) (key : GoKey) (val : GoVal)
    (ttl : Int) (h : ArcInv a) (hnow : 0 ≤ now) (T1 T2 B1 B2 : Cache)
    (p' : Int) (h1 : ROk a.t1 T1) (h2 : ROk a.t2 T2) (h3 : ROk a.b1 B1)
    (h4 : ROk a.b2 B2) (hk1 : key ∉ T1.Keys) (hkb1 : key ∉ B1.Keys)
    (hkb2 : key ∉ B2.Keys) (hp0 : 0 ≤ p') (hpc : p' ≤ a.t1.capacity) :
    ArcPre { p := p', t1 := T1,
             t2 := (Cache.StoreWithTTL lru T2 now key val ttl),
             b1 := B1, b2 := B2 } := by
  obtain ⟨hinv2, -, -, -, hkeys2, hlen2, hcap2, -, hsubs2, hat2, -, -⟩ :=
    store_ok lru T2 now key val ttl lru_lawful h2.inv hnow
  refine ⟨h1.inv, hinv2, h3.inv, h4.inv,
    atcap_of h1.len_le h1.cap_eq h.a1,
    hat2 (atcap_of h2.len_le h2.cap_eq h.a2),
    atcap_of h3.len_le h3.cap_eq h.a3, atcap_of h4.len_le h4.cap_eq h.a4,
    ?_, ?_, ?_, ?_, hp0, ?_, ?_, ?_, ?_, ?_, ?_, ?_, ?_,
    subs_nil_of_ch h1.subsCh h.s1,
    subs_nil_of_ch (hsubs2.trans h2.subsCh) h.s2,
    subs_nil_of_ch h3.subsCh h.s3, subs_nil_of_ch h4.subsCh h.s4⟩
  · show 0 < T1.capacity
    rw [h1.cap_eq]
    exact h.cpos
  · show (Cache.StoreWithTTL lru T2 now key val ttl).capacity = T1.capacity
    rw [hcap2, h2.cap_eq, h1.cap_eq]
    exact h.ceq2
  · show B1.capacity = T1.capacity
    rw [h3.cap_eq, h1.cap_eq]
    exact h.ceq3
  · show B2.capacity = T1.capacity
    rw [h4.cap_eq, h1.cap_eq]
    exact h.ceq4
  · show p' ≤ T1.capacity
    rw [h1.cap_eq]
    exact hpc
  · show (T1.Len : Int) + (Cache.StoreWithTTL lru T2 now key val ttl).Len ≤
      T1.capacity + 1
    rw [h1.cap_eq]
    have l1 := h1.len_le
    have l2 := h2.len_le
    have hs := h.sumle
    omega
  · intro k hk hk2
    rcases hkeys2 k hk2 with hkk | hk2c
    · rw [hkk] at hk
      exact hk1 hk
    · exact h.d12 k (h1.keys_sub k hk) (h2.keys_sub k hk2c)
  · intro k hk hk2
    exact h.d13 k (h1.keys_sub k hk) (h3.keys_sub k hk2)
  · intro k hk hk2
    exact h.d14 k (h1.keys_sub k hk) (h4.keys_sub k hk2)
  · intro k hk hk2
    rcases hkeys2 k hk with hkk | hkc
    · rw [hkk] at hk2
      exact hkb1 hk2
    · exact h.d23 k (h2.keys_sub k hkc) (h3.keys_sub k hk2)
  · intro k hk hk2
    rcases hkeys2 k hk with hkk | hkc
    · rw [hkk] at hk2
      exact hkb2 hk2
    · exact h.d24 k (h2.keys_sub k hkc) (h4.keys_sub k hk2)
  · intro k hk hk2
    exact h.d34 k (h3.keys_sub k hk) (h4.keys_sub k hk2)

/-- The default branch of the `arc.Set` body: the fresh key goes to T1,
optionally after trimming the ghost lists. -/
theorem storeBody_defaultArc (a : Arc) (now : Int) (key : GoKey) (val : GoVal)
    (ttl : Int) (h : ArcInv a) (hnow : 0 ≤ now) (T1 T2 B1 B2 : Cache)
    (h1 : ROk a.t1 T1) (h2 : ROk a.t2 T2) (h3 : ROk a.b1 B1)
    (h4 : ROk a.b2 B2) (hk2x : key ∉ T2.Keys) (hkb1 : key ∉ B1.Keys)
    (hkb2 : key ∉ B2.Keys) :
    ArcPre { p := a.p, t1 := (Cache.StoreWithTTL lru T1 now key val ttl),
             t2 := T2, b1 := B1, b2 := B2 } := by
  obtain ⟨hinv1, -, -, -, hkeys1, hlen1, hcap1, -, hsubs1, hat1, -, -⟩ :=
    store_ok lru T1 now key val ttl lru_lawful h1.inv hnow
  refine ⟨hinv1, h2.inv, h3.inv, h4.inv,
    hat1 (atcap_of h1.len_le h1.cap_eq h.a1),
    atcap_of h2.len_le h2.cap_eq h.a2,
    atcap_of h3.len_le h3.cap_eq h.a3, atcap_of h4.len_le h4.cap_eq h.a4,
    ?_, ?_, ?_, ?_, h.ppos, ?_, ?_, ?_, ?_, ?_, ?_, ?_, ?_,
    subs_nil_of_ch (hsubs1.trans h1.subsCh) h.s1,
    subs_nil_of_ch h2.subsCh h.s2,
    subs_nil_of_ch h3.subsCh h.s3, subs_nil_of_ch h4.subsCh h.s4⟩
  · show 0 < (Cache.StoreWithTTL lru T1 now key val ttl).capacity
    rw [hcap1, h1.cap_eq]
    exact h.cpos
  · show T2.capacity = (Cache.StoreWithTTL lru T1 now key val ttl).capacity
    rw [hcap1, h2.cap_eq, h1.cap_eq]
    exact h.ceq2
  · show B1.capacity = (Cache.StoreWithTTL lru T1 now key val ttl).capacity
    rw [hcap1, h3.cap_eq, h1.cap_eq]
    exact h.ceq3
  · show B2.capacity = (Cache.StoreWithTTL lru T1 now key val ttl).capacity
    rw [hcap1, h4.cap_eq, h1.cap_eq]
    exact h.ceq4
  · show a.p ≤ (Cache.StoreWithTTL lru T1 now key val ttl).capacity
    rw [hcap1, h1.cap_eq]
    exact h.ple
  · show ((Cache.StoreWithTTL lru T1 now key val ttl).Len : Int) + T2.Len ≤
      (Cache.StoreWithTTL lru T1 now key val ttl).capacity + 1
    rw [hcap1, h1.cap_eq]
    have l1 := h1.len_le
    have l2 := h2.len_le
    have hs := h.sumle
    omega
  · intro k hk hk2
    rcases hkeys1 k hk with hkk | hkc
    · rw [hkk] at hk2
      exact hk2x hk2
    · exact h.d12 k (h1.keys_sub k hkc) (h2.keys_sub k hk2)
  · intro k hk hk2
    rcases hkeys1 k hk with hkk | hkc
    · rw [hkk] at hk2
      exact hkb1 hk2
    · exact h.d13 k (h1.keys_sub k hkc) (h3.keys_sub k hk2)
  · intro k hk hk2
    rcases hkeys1 k hk with hkk | hkc
    · rw [hkk] at hk2
      exact hkb2 hk2
    · exact h.d14 k (h1.keys_sub k hkc) (h4.keys_sub k hk2)
  · intro k hk hk2
    exact h.d23 k (h2.keys_sub k hk) (h3.keys_sub k hk2)
  · intro k hk hk2
    exact h.d24 k (h2.keys_sub k hk) (h4.keys_sub k hk2)
  · intro k hk hk2
    exact h.d34 k (h3.keys_sub k hk) (h4.keys_sub k hk2)

/-- The body of `arc.Set` establishes the relaxed ARC invariant. -/
theorem storeBody_pre (a : Arc) (now : Int) (key : GoKey) (val : GoVal)
    (ttl : Int) (h : ArcInv a) (hnow : 0 ≤ now) :
    ArcPre (arcStoreBody a now key val ttl) := by
  obtain ⟨hr1, -, hsome1, hnone1, -⟩ :=
    contains_ok lru a.t1 now key lru_lawful h.i1
  obtain ⟨hr2, -, hsome2, hnone2, -⟩ :=
    contains_ok lru a.t2 now key lru_lawful h.i2
  obtain ⟨hr3, -, hsome3, hnone3, -⟩ :=
    contains_ok lru a.b1 now key lru_lawful h.i3
  obtain ⟨hr4, -, hsome4, hnone4, -⟩ :=
    contains_ok lru a.b2 now key lru_lawful h.i4
  simp only [arcStoreBody, Arc.Cap]
  split
  · rename_i hb1
    have hkt1 : key ∈ a.t1.Keys :=
      hr1.keys_sub key (mem_keys_of_isSome (hsome1 hb1))
    obtain ⟨hds, hdsnone, -, -, -, -⟩ :=
      delS_ok lru (Cache.Contains lru a.t1 now key).1 key lru_lawful hr1.inv
    exact storeBody_t2Arc a now key val ttl h hnow _ _ _ _ a.p
      (rok_trans hr1 hds) (rok_refl h.i2) (rok_refl h.i3) (rok_refl h.i4)
      (not_mem_keys_of_none hdsnone) (h.d13 key hkt1) (h.d14 key hkt1)
      h.ppos h.ple
  · rename_i hb1f
    simp only [Bool.not_eq_true] at hb1f
    split
    · rename_i hb2
      have hkt2 : key ∈ a.t2.Keys :=
        hr2.keys_sub key (mem_keys_of_isSome (hsome2 hb2))
      exact storeBody_t2Arc a now key val ttl h hnow _ _ _ _ a.p
        hr1 hr2 (rok_refl h.i3) (rok_refl h.i4)
        (hnone1 hb1f) (h.d23 key hkt2) (h.d24 key hkt2) h.ppos h.ple
    · rename_i hb2f
      simp only [Bool.not_eq_true] at hb2f
      split
      · rename_i hb3
        have hkb1m : key ∈ a.b1.Keys :=
          hr3.keys_sub key (mem_keys_of_isSome (hsome3 hb3))
        obtain ⟨hdel, hdelnone, -, -, -, -⟩ :=
          delete_ok lru (Cache.Contains lru a.b1 now key).1 key lru_lawful
            hr3.inv
        have hcapeq : (Cache.Contains lru a.t1 now key).1.capacity =
            a.t1.capacity := hr1.cap_eq
        have hgm := goMax_ge ((a.b2.Len /
          (Cache.Contains lru a.b1 now key).1.Len : Nat) : Int) 1
        have hgmn := goMin_le (Cache.Contains lru a.t1 now key).1.capacity
          (a.p + goMax ((a.b2.Len /
            (Cache.Contains lru a.b1 now key).1.Len : Nat) : Int) 1)
        exact storeBody_t2Arc a now key val ttl h hnow _ _ _ _ _
          hr1 hr2 (rok_trans hr3 hdel) (rok_refl h.i4)
          (hnone1 hb1f) (not_mem_keys_of_none hdelnone)
          (h.d34 key hkb1m)
          (by
            have hp := h.ppos
            have hc := h.cpos
            omega)
          (by
            have hc := h.cpos
            omega)
      · rename_i hb3f
        simp only [Bool.not_eq_true] at hb3f
        split
        · rename_i hb4
          have hkb2m : key ∈ a.b2.Keys :=
            hr4.keys_sub key (mem_keys_of_isSome (hsome4 hb4))
          obtain ⟨hdel, hdelnone, -, -, -, -⟩ :=
            delete_ok lru (Cache.Contains lru a.b2 now key).1 key lru_lawful
              hr4.inv
          have hgm := goMax_ge (((Cache.Contains lru a.b1 now key).1.Len /
            (Cache.Contains lru a.b2 now key).1.Len : Nat) : Int) 1
          have hgx := goMax_ge 0 (a.p -
            goMax (((Cache.Contains lru a.b1 now key).1.Len /
              (Cache.Contains lru a.b2 now key).1.Len : Nat) : Int) 1)
          exact storeBody_t2Arc a now key val ttl h hnow _ _ _ _ _
            hr1 hr2 hr3 (rok_trans hr4 hdel)
            (hnone1 hb1f)
            (hnone3 hb3f)
            (not_mem_keys_of_none hdelnone)
            (by omega)
            (by
              have hp := h.ple
              have hq := h.ppos
              omega)
        · rename_i hb4f
          simp only [Bool.not_eq_true] at hb4f
          have hd3 := discard_ok lru (Cache.Contains lru a.b1 now key).1
            lru_lawful hr3.inv
          have hd4 := discard_ok lru (Cache.Contains lru a.b2 now key).1
            lru_lawful hr4.inv
          have hnb1 : key ∉ (Cache.Contains lru a.b1 now key).1.Keys :=
            hnone3 hb3f
          have hnb2 : key ∉ (Cache.Contains lru a.b2 now key).1.Keys :=
            hnone4 hb4f
          have hnb1d : key ∉
              (Cache.Discard lru (Cache.Contains lru a.b1 now key).1).1.Keys :=
            fun hk => hnb1 (hd3.1.keys_sub key hk)
          have hnb2d : key ∉
              (Cache.Discard lru (Cache.Contains lru a.b2 now key).1).1.Keys :=
            fun hk => hnb2 (hd4.1.keys_sub key hk)
          split
          · split
            · exact storeBody_defaultArc a now key val ttl h hnow _ _ _ _
                hr1 hr2 (rok_trans hr3 hd3.1) (rok_trans hr4 hd4.1)
                (hnone2 hb2f) hnb1d hnb2d
            · exact storeBody_defaultArc a now key val ttl h hnow _ _ _ _
                hr1 hr2 (rok_trans hr3 hd3.1) hr4
                (hnone2 hb2f) hnb1d hnb2
          · split
            · exact storeBody_defaultArc a now key val ttl h hnow _ _ _ _
                hr1 hr2 hr3 (rok_trans hr4 hd4.1)
                (hnone2 hb2f) hnb1 hnb2d
            · exact storeBody_defaultArc a now key val ttl h hnow _ _ _ _
                hr1 hr2 hr3 hr4 (hnone2 hb2f) hnb1 hnb2

/-- `arc.Set` preserves the ARC invariant. -/
theorem arcStore_inv (a : Arc) (now : Int) (key : GoKey) (val : GoVal)
    (ttl : Int) (h : ArcInv a) (hnow : 0 ≤ now) :
    ArcInv (Arc.StoreWithTTL a now key val ttl) := by
  have hpre := storeBody_pre a now key val ttl h hnow
  rw [arcStore_split a now key val ttl]
  have hlen : (arcStoreBody a now key val ttl).Len =
      (arcStoreBody a now key val ttl).t1.Len +
      (arcStoreBody a now key val ttl).t2.Len := rfl
  have hcap : (arcStoreBody a now key val ttl).Cap =
      (arcStoreBody a now key val ttl).t1.capacity := rfl
  by_cases hg : (arcStoreBody a now key val ttl).Cap ≠ 0 ∧
      ((arcStoreBody a now key val ttl).Len : Int) >
        (arcStoreBody a now key val ttl).Cap
  · rw [if_pos hg]
    apply replace_ok _ now key hpre hnow
    have h2 := hg.2
    rw [hlen, hcap] at h2
    push_cast at h2
    omega
  · rw [if_neg hg]
    apply arcInv_of_pre hpre
    push_neg at hg
    have hcpos := hpre.cpos
    have hne : (arcStoreBody a now key val ttl).Cap ≠ 0 := by
      rw [hcap]
      omega
    have hnl := hg hne
    rw [hlen, hcap] at hnl
    push_cast at hnl
    omega

/-- Every reachable ARC state satisfies the ARC invariant. -/
theorem reachArc_inv : ∀ {a : Arc}, ReachArc a → ArcInv a := by
  intro a h
  induction h with
  | new cap hc => exact arc_new cap hc
  | load now key hnow hr ih => exact arc_load _ now key ih hnow
  | store now key value hnow hr ih =>
    exact arcStore_inv _ now key value _ ih hnow
  | storeTTL now key value ttl hnow hr ih =>
    exact arcStore_inv _ now key value ttl ih hnow
  | update now key value hnow hr ih => exact arc_update _ now key value ih
  | del key hr ih => exact arc_delete _ key ih
  | purge hr ih => exact arc_purge _ ih

/-! ## The eviction-order skeleton (for the frame properties of `Peek` and
`Update`) -/

/-- Everything about one id-entry binding that the discard path can observe
(the stored value is invisible to it). -/
def entrySkel (q : Nat × Entry) : Nat × GoKey × Int × Nat :=
  (q.1, q.2.key, q.2.exp, q.2.index)

/-- Two engine states that the eviction machinery cannot tell apart. -/
structure SameSkel (a b : Cache) : Prop where
  coll : a.coll = b.coll
  heap : a.heap = b.heap
  entries : a.entries = b.entries
  es : a.estore.map entrySkel = b.estore.map entrySkel

theorem skel_refl (a : Cache) : SameSkel a a := ⟨rfl, rfl, rfl, rfl⟩

theorem skel_symm {a b : Cache} (h : SameSkel a b) : SameSkel b a :=
  ⟨h.coll.symm, h.heap.symm, h.entries.symm, h.es.symm⟩

theorem skel_trans {a b c : Cache} (h1 : SameSkel a b) (h2 : SameSkel b c) :
    SameSkel a c :=
  ⟨h1.coll.trans h2.coll, h1.heap.trans h2.heap,
   h1.entries.trans h2.entries, h1.es.trans h2.es⟩

theorem skel_emit (c : Cache) (op : Op) (k : GoKey) (v : GoVal) (e : Int)
    (ok : Bool) : SameSkel (emit c op k v e ok) c := ⟨rfl, rfl, rfl, rfl⟩

theorem alookup_skelmap : ∀ {l1 l2 : List (Nat × Entry)},
    l1.map entrySkel = l2.map entrySkel → ∀ k : Nat,
    (alookup l1 k).map (fun e => (e.key, e.exp, e.index)) =
    (alookup l2 k).map (fun e => (e.key, e.exp, e.index)) := by
  intro l1
  induction l1 with
  | nil =>
    intro l2 h k
    cases l2 with
    | nil => rfl
    | cons q qs => simp [entrySkel] at h
  | cons p ps ih =>
    intro l2 h k
    cases l2 with
    | nil => simp [entrySkel] at h
    | cons q qs =>
      simp only [List.map_cons, List.cons.injEq] at h
      obtain ⟨h1, h2⟩ := h
      have hcomp : (p.1, p.2.key, p.2.exp, p.2.index) =
          (q.1, q.2.key, q.2.exp, q.2.index) := h1
      simp only [Prod.mk.injEq] at hcomp
      have hfst : p.1 = q.1 := hcomp.1
      have hsnd : (p.2.key, p.2.exp, p.2.index) =
          (q.2.key, q.2.exp, q.2.index) := by
        rw [hcomp.2.1, hcomp.2.2.1, hcomp.2.2.2]
      show (if p.1 = k then some p.2 else alookup ps k).map
          (fun e => (e.key, e.exp, e.index)) =
        (if q.1 = k then some q.2 else alookup qs k).map
          (fun e => (e.key, e.exp, e.index))
      by_cases hk : p.1 = k
      · rw [if_pos hk, if_pos (hfst ▸ hk)]
        simpa using hsnd
      · rw [if_neg hk, if_neg (fun hq => hk (hfst.symm ▸ hq))]
        exact ih h2 k

theorem skel_ent {a b : Cache} (h : SameSkel a b) (id : Nat) :
    (a.ent id).key = (b.ent id).key ∧ (a.ent id).exp = (b.ent id).exp ∧
    (a.ent id).index = (b.ent id).index := by
  have hl := alookup_skelmap h.es id
  unfold Cache.ent
  cases ha : alookup a.estore id with
  | none =>
    cases hb : alookup b.estore id with
    | none => exact ⟨rfl, rfl, rfl⟩
    | some e2 =>
      rw [ha, hb] at hl
      simp at hl
  | some e1 =>
    cases hb : alookup b.estore id with
    | none =>
      rw [ha, hb] at hl
      simp at hl
    | some e2 =>
      rw [ha, hb] at hl
      have hl2 : (e1.key, e1.exp, e1.index) = (e2.key, e2.exp, e2.index) :=
        Option.some.inj hl
      simp only [Prod.mk.injEq] at hl2
      simp only [Option.getD_some]
      exact ⟨hl2.1, hl2.2.1, hl2.2.2⟩

theorem skel_hid {a b : Cache} (h : SameSkel a b) (i : Nat) :
    a.hid i = b.hid i := by
  unfold Cache.hid
  rw [h.heap]

theorem skel_expAt {a b : Cache} (h : SameSkel a b) (i : Nat) :
    a.expAt i = b.expAt i := by
  unfold Cache.expAt
  rw [skel_hid h i]
  exact (skel_ent h (b.hid i)).2.1

theorem aupd_skelmap (g g2 : Entry → Entry)
    (hg : ∀ e1 e2 : Entry, e1.key = e2.key → e1.exp = e2.exp →
      e1.index = e2.index → (g e1).key = (g2 e2).key ∧
      (g e1).exp = (g2 e2).exp ∧ (g e1).index = (g2 e2).index) :
    ∀ {l1 l2 : List (Nat × Entry)},
    l1.map entrySkel = l2.map entrySkel → ∀ k : Nat,
    (aupd l1 k g).map entrySkel = (aupd l2 k g2).map entrySkel := by
  intro l1
  induction l1 with
  | nil =>
    intro l2 h k
    cases l2 with
    | nil => rfl
    | cons q qs => simp [entrySkel] at h
  | cons p ps ih =>
    intro l2 h k
    cases l2 with
    | nil => simp [entrySkel] at h
    | cons q qs =>
      simp only [List.map_cons, List.cons.injEq] at h
      obtain ⟨h1, h2⟩ := h
      have hcomp : (p.1, p.2.key, p.2.exp, p.2.index) =
          (q.1, q.2.key, q.2.exp, q.2.index) := h1
      simp only [Prod.mk.injEq] at hcomp
      have hfst : p.1 = q.1 := hcomp.1
      have hsnd : p.2.key = q.2.key ∧ p.2.exp = q.2.exp ∧
          p.2.index = q.2.index := hcomp.2
      show (if p.1 = k then (p.1, g p.2) :: ps else p :: aupd ps k g).map
          entrySkel =
        (if q.1 = k then (q.1, g2 q.2) :: qs else q :: aupd qs k g2).map
          entrySkel
      by_cases hk : p.1 = k
      · rw [if_pos hk, if_pos (hfst ▸ hk)]
        obtain ⟨e1, e2, e3⟩ := hg p.2 q.2 hsnd.1 hsnd.2.1 hsnd.2.2
        simp only [List.map_cons]
        rw [h2]
        show (p.1, (g p.2).key, (g p.2).exp, (g p.2).index) :: qs.map entrySkel
          = (q.1, (g2 q.2).key, (g2 q.2).exp, (g2 q.2).index) ::
            qs.map entrySkel
        rw [hfst, e1, e2, e3]
      · rw [if_neg hk, if_neg (fun hq => hk (hfst.symm ▸ hq))]
        simp only [List.map_cons]
        rw [ih h2 k]
        show (p.1, p.2.key, p.2.exp, p.2.index) :: (aupd qs k g2).map entrySkel
          = (q.1, q.2.key, q.2.exp, q.2.index) :: (aupd qs k g2).map entrySkel
        rw [hfst, hsnd.1, hsnd.2.1, hsnd.2.2]

theorem skel_hSwap {a b : Cache} (h : SameSkel a b) (i j : Nat) :
    SameSkel (hSwap a i j) (hSwap b i j) := by
  have hA := skel_hid h i
  have hB := skel_hid h j
  have hia := (skel_ent h (a.hid i)).2.2
  have hib := (skel_ent h (a.hid j)).2.2
  refine ⟨h.coll, ?_, h.entries, ?_⟩
  · show (a.heap.set i (a.hid j)).set j (a.hid i) =
      (b.heap.set i (b.hid j)).set j (b.hid i)
    rw [h.heap, hA, hB]
  · show (aupd (aupd a.estore (a.hid i)
        (fun e => { e with index := (a.ent (a.hid j)).index })) (a.hid j)
        (fun e => { e with index := (a.ent (a.hid i)).index })).map entrySkel =
      (aupd (aupd b.estore (b.hid i)
        (fun e => { e with index := (b.ent (b.hid j)).index })) (b.hid j)
        (fun e => { e with index := (b.ent (b.hid i)).index })).map entrySkel
    rw [← hA, ← hB]
    exact aupd_skelmap
      (fun e => { e with index := (a.ent (a.hid i)).index })
      (fun e => { e with index := (b.ent (a.hid i)).index })
      (fun e1 e2 k1 k2 k3 => ⟨k1, k2, hia⟩)
      (aupd_skelmap
        (fun e => { e with index := (a.ent (a.hid j)).index })
        (fun e => { e with index := (b.ent (a.hid j)).index })
        (fun e1 e2 k1 k2 k3 => ⟨k1, k2, hib⟩) h.es (a.hid i))
      (a.hid j)

theorem skel_upFuel : ∀ (fuel : Nat) {a b : Cache} (j : Nat),
    SameSkel a b → SameSkel (upFuel a j fuel) (upFuel b j fuel) := by
  intro fuel
  induction fuel with
  | zero => intro a b j h; exact h
  | succ fuel ih =>
    intro a b j h
    have hca : upFuel a j (fuel + 1) =
        (if (j - 1) / 2 = j ∨ ¬(a.expAt j < a.expAt ((j - 1) / 2)) then a
         else upFuel (hSwap a ((j - 1) / 2) j) ((j - 1) / 2) fuel) := rfl
    have hcb : upFuel b j (fuel + 1) =
        (if (j - 1) / 2 = j ∨ ¬(b.expAt j < b.expAt ((j - 1) / 2)) then b
         else upFuel (hSwap b ((j - 1) / 2) j) ((j - 1) / 2) fuel) := rfl
    by_cases hc : (j - 1) / 2 = j ∨ ¬(a.expAt j < a.expAt ((j - 1) / 2))
    · have hc2 : (j - 1) / 2 = j ∨ ¬(b.expAt j < b.expAt ((j - 1) / 2)) := by
        rwa [skel_expAt h j, skel_expAt h ((j - 1) / 2)] at hc
      rw [hca, if_pos hc, hcb, if_pos hc2]
      exact h
    · have hc2 : ¬((j - 1) / 2 = j ∨
          ¬(b.expAt j < b.expAt ((j - 1) / 2))) := by
        rwa [skel_expAt h j, skel_expAt h ((j - 1) / 2)] at hc
      rw [hca, if_neg hc, hcb, if_neg hc2]
      exact ih ((j - 1) / 2) (skel_hSwap h ((j - 1) / 2) j)

theorem skel_djSel {a b : Cache} (h : SameSkel a b) (i n : Nat) :
    djSel a i n = djSel b i n := by
  unfold djSel
  rw [skel_expAt h (2 * i + 1 + 1), skel_expAt h (2 * i + 1)]

theorem skel_downFuel : ∀ (fuel : Nat) {a b : Cache} (i n : Nat),
    SameSkel a b →
    SameSkel (downFuel a i n fuel).1 (downFuel b i n fuel).1 ∧
    (downFuel a i n fuel).2 = (downFuel b i n fuel).2 := by
  intro fuel
  induction fuel with
  | zero => intro a b i n h; exact ⟨h, rfl⟩
  | succ fuel ih =>
    intro a b i n h
    have hca : downFuel a i n (fuel + 1) =
        (if 2 * i + 1 ≥ n then (a, i)
         else if ¬(a.expAt (djSel a i n) < a.expAt i) then (a, i)
         else downFuel (hSwap a i (djSel a i n)) (djSel a i n) n fuel) := rfl
    have hcb : downFuel b i n (fuel + 1) =
        (if 2 * i + 1 ≥ n then (b, i)
         else if ¬(b.expAt (djSel b i n) < b.expAt i) then (b, i)
         else downFuel (hSwap b i (djSel b i n)) (djSel b i n) n fuel) := rfl
    by_cases hc1 : 2 * i + 1 ≥ n
    · rw [hca, if_pos hc1, hcb, if_pos hc1]
      exact ⟨h, rfl⟩
    · by_cases hc2 : ¬(a.expAt (djSel a i n) < a.expAt i)
      · have hc2b : ¬(b.expAt (djSel b i n) < b.expAt i) := by
          rwa [skel_expAt h (djSel a i n), skel_expAt h i, skel_djSel h i n]
            at hc2
        rw [hca, if_neg hc1, if_pos hc2, hcb, if_neg hc1, if_pos hc2b]
        exact ⟨h, rfl⟩
      · have hc2b : ¬¬(b.expAt (djSel b i n) < b.expAt i) := by
          rwa [skel_expAt h (djSel a i n), skel_expAt h i, skel_djSel h i n]
            at hc2
        rw [hca, if_neg hc1, if_neg hc2, hcb, if_neg hc1, if_neg hc2b]
        rw [← skel_djSel h i n]
        exact ih (djSel a i n) n (skel_hSwap h i (djSel a i n))

theorem skel_upH {a b : Cache} (h : SameSkel a b) (j : Nat) :
    SameSkel (upH a j) (upH b j) :=
  skel_upFuel (j + 1) j h

theorem skel_downH {a b : Cache} (h : SameSkel a b) (i n : Nat) :
    SameSkel (downH a i n).1 (downH b i n).1 ∧
    (downH a i n).2 = (downH b i n).2 :=
  skel_downFuel n i n h

theorem skel_heapRemoveAux {a b : Cache} (h : SameSkel a b) (i n : Nat) :
    SameSkel (heapRemoveAux a i n) (heapRemoveAux b i n) := by
  have hs := skel_hSwap h i n
  have hd := skel_downH hs i n
  unfold heapRemoveAux
  by_cases hc : i < (downH (hSwap a i n) i n).2
  · rw [if_pos hc, if_pos (hd.2 ▸ hc)]
    exact hd.1
  · rw [if_neg hc, if_neg (fun hx => hc (hd.2.symm ▸ hx))]
    exact skel_upH hd.1 i

theorem skel_heapRemoveGo {a b : Cache} (h : SameSkel a b) (i : Nat) :
    SameSkel (heapRemoveGo a i) (heapRemoveGo b i) := by
  have hca : heapRemoveGo a i =
      (if a.heap.length = 0 then a
       else if a.heap.length - 1 ≠ i then
        { heapRemoveAux a i (a.heap.length - 1) with
          heap := (heapRemoveAux a i (a.heap.length - 1)).heap.dropLast }
       else { a with heap := a.heap.dropLast }) := rfl
  have hcb : heapRemoveGo b i =
      (if b.heap.length = 0 then b
       else if b.heap.length - 1 ≠ i then
        { heapRemoveAux b i (b.heap.length - 1) with
          heap := (heapRemoveAux b i (b.heap.length - 1)).heap.dropLast }
       else { b with heap := b.heap.dropLast }) := rfl
  have hlen : b.heap.length = a.heap.length := by rw [h.heap]
  by_cases hc1 : a.heap.length = 0
  · have hc1b : b.heap.length = 0 := by rw [hlen]; exact hc1
    rw [hca, if_pos hc1, hcb, if_pos hc1b]
    exact h
  · have hc1b : ¬b.heap.length = 0 := by rw [hlen]; exact hc1
    rw [hca, if_neg hc1, hcb, if_neg hc1b]
    by_cases hc2 : a.heap.length - 1 ≠ i
    · have hc2b : b.heap.length - 1 ≠ i := by rw [hlen]; exact hc2
      rw [if_pos hc2, if_pos hc2b, hlen]
      have ha2 := skel_heapRemoveAux h i (a.heap.length - 1)
      refine ⟨?_, ?_, ?_, ?_⟩
      · show (heapRemoveAux a i (a.heap.length - 1)).coll =
          (heapRemoveAux b i (a.heap.length - 1)).coll
        exact ha2.coll
      · show (heapRemoveAux a i (a.heap.length - 1)).heap.dropLast =
          (heapRemoveAux b i (a.heap.length - 1)).heap.dropLast
        rw [ha2.heap]
      · show (heapRemoveAux a i (a.heap.length - 1)).entries =
          (heapRemoveAux b i (a.heap.length - 1)).entries
        exact ha2.entries
      · show (heapRemoveAux a i (a.heap.length - 1)).estore.map entrySkel =
          (heapRemoveAux b i (a.heap.length - 1)).estore.map entrySkel
        exact ha2.es
    · have hc2b : ¬b.heap.length - 1 ≠ i := by rw [hlen]; exact hc2
      rw [if_neg hc2, if_neg hc2b]
      refine ⟨h.coll, ?_, h.entries, h.es⟩
      show a.heap.dropLast = b.heap.dropLast
      rw [h.heap]

theorem skel_heapHas {a b : Cache} (h : SameSkel a b) {e1 e2 : Entry}
    (hk : e1.key = e2.key) (hi : e1.index = e2.index) :
    heapHasEntry a e1 ↔ heapHasEntry b e2 := by
  unfold heapHasEntry
  rw [h.heap, hk, hi, skel_hid h e2.index,
    (skel_ent h (b.hid e2.index)).1]

theorem skel_removeEntryC (L : Collection) {a b : Cache} (h : SameSkel a b)
    (id : Nat) : SameSkel (removeEntryC L a id) (removeEntryC L b id) := by
  obtain ⟨hek, hee, hei⟩ := skel_ent h id
  have h1 : SameSkel
      { a with
        coll := L.Remove a.coll id,
        entries := aerase a.entries (a.ent id).key }
      { b with
        coll := L.Remove b.coll id,
        entries := aerase b.entries (b.ent id).key } := by
    refine ⟨?_, h.heap, ?_, h.es⟩
    · show L.Remove a.coll id = L.Remove b.coll id
      rw [h.coll]
    · show aerase a.entries (a.ent id).key = aerase b.entries (b.ent id).key
      rw [h.entries, hek]
  have hguard := skel_heapHas h1 hek hei
  have hcla : removeEntryC L a id =
      (if heapHasEntry
          { a with
            coll := L.Remove a.coll id,
            entries := aerase a.entries (a.ent id).key } (a.ent id) then
        heapRemoveGo
          { a with
            coll := L.Remove a.coll id,
            entries := aerase a.entries (a.ent id).key } (a.ent id).index
       else
        { a with
          coll := L.Remove a.coll id,
          entries := aerase a.entries (a.ent id).key }) := rfl
  have hclb : removeEntryC L b id =
      (if heapHasEntry
          { b with
            coll := L.Remove b.coll id,
            entries := aerase b.entries (b.ent id).key } (b.ent id) then
        heapRemoveGo
          { b with
            coll := L.Remove b.coll id,
            entries := aerase b.entries (b.ent id).key } (b.ent id).index
       else
        { b with
          coll := L.Remove b.coll id,
          entries := aerase b.entries (b.ent id).key }) := rfl
  by_cases hc : heapHasEntry
      { a with
        coll := L.Remove a.coll id,
        entries := aerase a.entries (a.ent id).key } (a.ent id)
  · rw [hcla, if_pos hc, hclb, if_pos (hguard.1 hc), ← hei]
    exact skel_heapRemoveGo h1 (a.ent id).index
  · rw [hcla, if_neg hc, hclb, if_neg (fun hx => hc (hguard.2 hx))]
    exact h1

theorem skel_evictC (L : Collection) {a b : Cache} (h : SameSkel a b)
    (id : Nat) : SameSkel (evictC L a id) (evictC L b id) := by
  have h1 := skel_removeEntryC L h id
  exact skel_trans (skel_emit _ _ _ _ _ _)
    (skel_trans h1 (skel_symm (skel_emit _ _ _ _ _ _)))

theorem skel_discard (L : Collection) {a b : Cache} (h : SameSkel a b) :
    (Cache.Discard L a).2.1 = (Cache.Discard L b).2.1 ∧
    SameSkel (Cache.Discard L a).1 (Cache.Discard L b).1 := by
  have hc : L.Discard a.coll = L.Discard b.coll := by rw [h.coll]
  have hcla : Cache.Discard L a =
      (match L.Discard a.coll with
       | (some id, s) =>
         (evictC L { a with coll := s } id,
          ((({ a with coll := s } : Cache).ent id).key,
           (({ a with coll := s } : Cache).ent id).value))
       | (none, s) => ({ a with coll := s }, (none, none))) := rfl
  have hclb : Cache.Discard L b =
      (match L.Discard b.coll with
       | (some id, s) =>
         (evictC L { b with coll := s } id,
          ((({ b with coll := s } : Cache).ent id).key,
           (({ b with coll := s } : Cache).ent id).value))
       | (none, s) => ({ b with coll := s }, (none, none))) := rfl
  rw [hcla, hclb, hc]
  have hpair : L.Discard b.coll = ((L.Discard b.coll).1,
      (L.Discard b.coll).2) := rfl
  rw [hpair]
  cases ho : (L.Discard b.coll).1 with
  | none => exact ⟨rfl, ⟨rfl, h.heap, h.entries, h.es⟩⟩
  | some id =>
    have hsk : SameSkel ({ a with coll := (L.Discard b.coll).2 } : Cache)
        ({ b with coll := (L.Discard b.coll).2 } : Cache) :=
      ⟨rfl, h.heap, h.entries, h.es⟩
    constructor
    · show (({ a with coll := (L.Discard b.coll).2 } : Cache).ent id).key =
        (({ b with coll := (L.Discard b.coll).2 } : Cache).ent id).key
      exact (skel_ent hsk id).1
    · exact skel_evictC L hsk id

theorem discardKeys_congr (L : Collection) :
    ∀ (n : Nat) {a b : Cache}, SameSkel a b →
    discardKeys L a n = discardKeys L b n := by
  intro n
  induction n with
  | zero => intro a b h; rfl
  | succ n ih =>
    intro a b h
    have hd := skel_discard L h
    show (Cache.Discard L a).2.1 :: discardKeys L (Cache.Discard L a).1 n =
      (Cache.Discard L b).2.1 :: discardKeys L (Cache.Discard L b).1 n
    rw [hd.1, ih hd.2]

/-! ## Frame facts for `Peek` and `Update` (C9 support) -/

theorem aupd_value_skel : ∀ (l : List (Nat × Entry)) (id : Nat) (v : GoVal),
    (aupd l id (fun e => { e with value := v })).map entrySkel =
      l.map entrySkel := by
  intro l id v
  induction l with
  | nil => rfl
  | cons p ps ih =>
    show (if p.1 = id then (p.1, { p.2 with value := v }) :: ps
        else p :: aupd ps id (fun e => { e with value := v })).map entrySkel =
      (p :: ps).map entrySkel
    by_cases hk : p.1 = id
    · rw [if_pos hk]
      rfl
    · rw [if_neg hk]
      simp only [List.map_cons]
      rw [ih]

theorem peek_skel (L : Collection) (c : Cache) (now : Int) (key : GoKey)
    (hL : LawfulColl L) (hc : EngineInv c) (hne : noExpired c now) :
    SameSkel (Cache.Peek L c now key).1 c := by
  obtain ⟨-, -, hent, hes, hheap, -, -, hcoll⟩ := getC_ok L c now key true hL hc
  have hid : (Cache.GC L c now).1 = c := (gc_ok L c now hL hc).id_noexp hne
  refine ⟨?_, ?_, ?_, ?_⟩
  · rw [show (Cache.Peek L c now key).1.coll = (Cache.GC L c now).1.coll
      from hcoll rfl, hid]
  · rw [show (Cache.Peek L c now key).1.heap = (Cache.GC L c now).1.heap
      from hheap, hid]
  · rw [show (Cache.Peek L c now key).1.entries = (Cache.GC L c now).1.entries
      from hent, hid]
  · rw [show (Cache.Peek L c now key).1.estore = (Cache.GC L c now).1.estore
      from hes, hid]

theorem update_skel (L : Collection) (c : Cache) (now : Int) (key : GoKey)
    (value : GoVal) (hL : LawfulColl L) (hc : EngineInv c)
    (hne : noExpired c now) :
    SameSkel (Cache.Update L c now key value) c ∧
    (∀ id, alookup c.entries key = some id →
      ((Cache.Update L c now key value).ent id).value = value) := by
  have hgcid : (Cache.GC L c now).1 = c := (gc_ok L c now hL hc).id_noexp hne
  have hcg : EngineInv (Cache.GC L c now).1 := by
    rw [hgcid]
    exact hc
  have hneg : noExpired (Cache.GC L c now).1 now := by
    rw [hgcid]
    exact hne
  have hsk1 : SameSkel (Cache.Contains L (Cache.GC L c now).1 now key).1 c := by
    rw [hgcid]
    exact peek_skel L c now key hL hc hne
  obtain ⟨hr1, -, hent1, hes1, -, hiff1, -, hcoll1⟩ :=
    getC_ok L (Cache.GC L c now).1 now key true hL hcg
  have hgcid2 : (Cache.GC L (Cache.GC L c now).1 now).1 =
      (Cache.GC L c now).1 :=
    (gc_ok L (Cache.GC L c now).1 now hL hcg).id_noexp hneg
  have hentC : (Cache.Contains L (Cache.GC L c now).1 now key).1.entries =
      c.entries := by
    rw [show (Cache.Contains L (Cache.GC L c now).1 now key).1.entries =
      (Cache.GC L (Cache.GC L c now).1 now).1.entries from hent1, hgcid2,
      hgcid]
  have hesC : (Cache.Contains L (Cache.GC L c now).1 now key).1.estore =
      c.estore := by
    rw [show (Cache.Contains L (Cache.GC L c now).1 now key).1.estore =
      (Cache.GC L (Cache.GC L c now).1 now).1.estore from hes1, hgcid2, hgcid]
  have hcl : Cache.Update L c now key value =
      (if (Cache.Contains L (Cache.GC L c now).1 now key).2 = true then
        match alookup (Cache.Contains L (Cache.GC L c now).1 now key).1.entries
            key with
        | some id =>
          emit { (Cache.Contains L (Cache.GC L c now).1 now key).1 with
                 estore := aupd
                   (Cache.Contains L (Cache.GC L c now).1 now key).1.estore
                   id fun e => { e with value := value } }
            .Write key value
            (({ (Cache.Contains L (Cache.GC L c now).1 now key).1 with
                estore := aupd
                  (Cache.Contains L (Cache.GC L c now).1 now key).1.estore
                  id fun e => { e with value := value } } : Cache).ent id).exp
            false
        | none => (Cache.Contains L (Cache.GC L c now).1 now key).1
       else (Cache.Contains L (Cache.GC L c now).1 now key).1) := rfl
  by_cases hb : (Cache.Contains L (Cache.GC L c now).1 now key).2 = true
  · rw [hcl, if_pos hb]
    cases hlook : alookup
        (Cache.Contains L (Cache.GC L c now).1 now key).1.entries key with
    | none =>
      constructor
      · exact hsk1
      · intro id hid2
        rw [hentC] at hlook
        rw [hid2] at hlook
        exact absurd hlook (by simp)
    | some id =>
      constructor
      · refine skel_trans (skel_emit _ _ _ _ _ _) ?_
        refine ⟨hsk1.coll, hsk1.heap, hsk1.entries, ?_⟩
        show (aupd (Cache.Contains L (Cache.GC L c now).1 now key).1.estore id
          fun e => { e with value := value }).map entrySkel =
          c.estore.map entrySkel
        rw [hesC, aupd_value_skel]
      · intro id2 hid2
        have hid3 : id2 = id := by
          rw [hentC] at hlook
          exact Option.some.inj (hid2.symm.trans hlook)
        rw [hid3]
        show ((({ (Cache.Contains L (Cache.GC L c now).1 now key).1 with
          estore := aupd
            (Cache.Contains L (Cache.GC L c now).1 now key).1.estore
            id fun e => { e with value := value } } : Cache)).ent id).value =
          value
        unfold Cache.ent
        show ((alookup (aupd
          (Cache.Contains L (Cache.GC L c now).1 now key).1.estore
          id fun e => { e with value := value }) id).getD dummyEntry).value =
          value
        rw [alookup_aupd_self]
        rw [hesC]
        have hid2b : alookup c.entries key = some id := by
          rw [← hid3]
          exact hid2
        have hdom := hc.dom (key, id) (alookup_mem hid2b)
        cases hes : alookup c.estore id with
        | none =>
          rw [hes] at hdom
          exact absurd hdom (by simp)
        | some e => rfl
  · rw [hcl, if_neg hb]
    constructor
    · exact hsk1
    · intro id hid2
      have : (Cache.Contains L (Cache.GC L c now).1 now key).2 = true := by
        show (getC L (Cache.GC L c now).1 now key true).2.2 = true
        rw [hiff1]
        rw [show (Cache.GC L (Cache.GC L c now).1 now).1.entries =
          c.entries from by rw [hgcid2, hgcid]]
        rw [hid2]
        rfl
      exact absurd this hb

/-! ## Event-delivery facts (C10 support) -/

theorem find?_subs_map (f : Sub → Sub) (hch : ∀ s, (f s).ch = s.ch)
    (l : List Sub) (ch : Nat) :
    (l.map f).find? (fun s => s.ch = ch) =
      (l.find? (fun s => s.ch = ch)).map f := by
  induction l with
  | nil => rfl
  | cons s ss ih =>
    by_cases hs : s.ch = ch
    · rw [List.map_cons, List.find?_cons_of_pos, List.find?_cons_of_pos]
      · rfl
      · simp [hs]
      · simp [hch s, hs]
    · rw [List.map_cons, List.find?_cons_of_neg, List.find?_cons_of_neg]
      · exact ih
      · simp [hs]
      · simp [hch s, hs]

theorem emit_find (c : Cache) (op : Op) (k : GoKey) (v : GoVal) (e : Int)
    (ok : Bool) (ch : Nat) :
    (emit c op k v e ok).subs.find? (fun s => s.ch = ch) =
      (c.subs.find? (fun s => s.ch = ch)).map
        (fun s => if s.h.want op then
          { s with inbox := s.inbox ++
            [{ op := op, key := k, value := v, expiry := e, ok := ok }] }
         else s) := by
  apply find?_subs_map
  intro s
  by_cases hw : s.h.want op = true
  · rw [if_pos hw]
  · rw [if_neg hw]

theorem emit_inbox_want {c : Cache} {ch : Nat} {s : Sub} (op : Op) (k : GoKey)
    (v : GoVal) (e : Int) (ok : Bool)
    (hf : c.subs.find? (fun s => s.ch = ch) = some s)
    (hw : s.h.want op = true) :
    inboxOf (emit c op k v e ok) ch = inboxOf c ch ++
      [{ op := op, key := k, value := v, expiry := e, ok := ok }] := by
  unfold inboxOf
  rw [emit_find, hf]
  show ((some (if s.h.want op then
      { s with inbox := s.inbox ++
        [{ op := op, key := k, value := v, expiry := e, ok := ok }] }
     else s)).map Sub.inbox).getD [] =
    ((some s).map Sub.inbox).getD [] ++
      [{ op := op, key := k, value := v, expiry := e, ok := ok }]
  rw [if_pos hw]
  rfl

/-- On a state free of expired entries, `Contains` only appends one `READ`
event to the state. -/
theorem contains_emit (L : Collection) (c : Cache) (now : Int) (key : GoKey)
    (hL : LawfulColl L) (hc : EngineInv c) (hne : noExpired c now) :
    ∃ v e2 ok, (Cache.Contains L c now key).1 = emit c .Read key v e2 ok := by
  have hgcid : (Cache.GC L c now).1 = c := (gc_ok L c now hL hc).id_noexp hne
  cases hlook : alookup (Cache.GC L c now).1.entries key with
  | none =>
    refine ⟨none, 0, false, ?_⟩
    have h1 := getC_none L c now key true hlook
    show (getC L c now key true).1 = emit c .Read key none 0 false
    rw [h1, hgcid]
  | some id =>
    refine ⟨((Cache.GC L c now).1.ent id).value,
      ((Cache.GC L c now).1.ent id).exp, true, ?_⟩
    have h1 := getC_some L c now key true id hlook
    have hgm : getMoved L (Cache.GC L c now).1 id true =
        (Cache.GC L c now).1 := rfl
    show (getC L c now key true).1 = _
    rw [h1, hgm, hgcid]

/-! ## The `removeEntry` heap behaviour (C3 support) -/

theorem removeEntry_heap_frame (L : Collection) (c : Cache) (id : Nat)
    (h : ¬heapHasEntry c (c.ent id)) :
    (removeEntryC L c id).heap = c.heap := by
  have hcl : removeEntryC L c id =
      (if heapHasEntry
          { c with
            coll := L.Remove c.coll id,
            entries := aerase c.entries (c.ent id).key } (c.ent id) then
        heapRemoveGo
          { c with
            coll := L.Remove c.coll id,
            entries := aerase c.entries (c.ent id).key } (c.ent id).index
       else
        { c with
          coll := L.Remove c.coll id,
          entries := aerase c.entries (c.ent id).key }) := rfl
  rw [hcl, if_neg (show ¬heapHasEntry
    { c with
      coll := L.Remove c.coll id,
      entries := aerase c.entries (c.ent id).key } (c.ent id) from h)]

/-! ## The `GC` no-op cases (C6 support) -/

theorem gc_empty (L : Collection) (c : Cache) (now : Int)
    (h : c.heap = []) : Cache.GC L c now = (c, 0) := by
  show gcFuel L c now c.heap.length = (c, 0)
  rw [h]
  rfl

theorem gc_wait (L : Collection) (c : Cache) (now : Int) (h : c.heap ≠ [])
    (h2 : now < c.expAt 0) : Cache.GC L c now = (c, c.expAt 0 - now) := by
  have hpos : 0 < c.heap.length := List.length_pos.2 h
  show gcFuel L c now c.heap.length = (c, c.expAt 0 - now)
  cases hl : c.heap.length with
  | zero => omega
  | succ n =>
    have hcl : gcFuel L c now (n + 1) =
        (if c.heap.length = 0 then (c, 0)
         else if now < c.expAt 0 then (c, c.expAt 0 - now)
         else
           match heapPopGo c with
           | (c1, some id) => gcFuel L (evictC L c1 id) now n
           | (c1, none) => (c1, 0)) := rfl
    rw [hcl, if_neg (by omega), if_pos h2]

/-! ## Hits on an unexpired resident key (C7 support) -/

theorem getC_hit (L : Collection) (c : Cache) (now : Int) (key : GoKey)
    (peek : Bool) (id : Nat) (hL : LawfulColl L) (hc : EngineInv c)
    (hlook : alookup c.entries key = some id)
    (hexp : (c.ent id).exp = 0 ∨ now < (c.ent id).exp) :
    (getC L c now key peek).2.2 = true ∧
    (getC L c now key peek).2.1 = (c.ent id).value ∧
    alookup (getC L c now key peek).1.entries key = some id ∧
    (∀ x, ((getC L c now key peek).1.ent x).key = (c.ent x).key ∧
      ((getC L c now key peek).1.ent x).value = (c.ent x).value ∧
      ((getC L c now key peek).1.ent x).exp = (c.ent x).exp) := by
  have hg := gc_ok L c now hL hc
  have hlookg : alookup (Cache.GC L c now).1.entries key = some id :=
    alookup_of_mem_nodup hg.inv.keysND
      (hg.keep (key, id) (alookup_mem hlook) hexp)
  obtain ⟨-, -, hent, hes, -, hiff, hval, -⟩ := getC_ok L c now key peek hL hc
  refine ⟨?_, ?_, ?_, ?_⟩
  · rw [hiff, hlookg]
    rfl
  · rw [hval id hlookg]
    exact (hg.proj id).2.1
  · rw [hent]
    exact hlookg
  · intro x
    have hee : (getC L c now key peek).1.ent x = (Cache.GC L c now).1.ent x := by
      unfold Cache.ent
      rw [hes]
    rw [hee]
    exact hg.proj x

theorem expiry_hit (L : Collection) (c : Cache) (now : Int) (key : GoKey)
    (id : Nat) (hL : LawfulColl L) (hc : EngineInv c)
    (hlook : alookup c.entries key = some id)
    (hexp : (c.ent id).exp = 0 ∨ now < (c.ent id).exp) :
    (Cache.Expiry L c now key).2.1 = (c.ent id).exp ∧
    (Cache.Expiry L c now key).2.2 = true := by
  have hhit := getC_hit L c now key true id hL hc hlook hexp
  have hb : (Cache.Contains L c now key).2 = true := hhit.1
  have hcl : Cache.Expiry L c now key =
      (if (Cache.Contains L c now key).2 = true then
        ((Cache.Contains L c now key).1,
         (((alookup (Cache.Contains L c now key).1.entries key).map
             fun id => ((Cache.Contains L c now key).1.ent id).exp).getD 0,
          true))
       else ((Cache.Contains L c now key).1, (0, false))) := rfl
  rw [hcl, if_pos hb]
  constructor
  · show (((alookup (Cache.Contains L c now key).1.entries key).map
        fun id => ((Cache.Contains L c now key).1.ent id).exp).getD 0) =
      (c.ent id).exp
    rw [show alookup (Cache.Contains L c now key).1.entries key = some id
      from hhit.2.2.1]
    show ((Cache.Contains L c now key).1.ent id).exp = (c.ent id).exp
    exact (hhit.2.2.2 id).2.2
  · rfl

/-! ## `Update`'s event deliveries (C10 support) -/

theorem update_inbox (L : Collection) (c : Cache) (now : Int) (key : GoKey)
    (value : GoVal) (ch : Nat) (s : Sub) (hL : LawfulColl L)
    (hc : EngineInv c) (hne : noExpired c now) (id : Nat)
    (hlook : alookup c.entries key = some id)
    (hf : c.subs.find? (fun s => s.ch = ch) = some s)
    (hwR : s.h.want Op.Read = true) (hwW : s.h.want Op.Write = true) :
    ∃ ev1 ev2, inboxOf (Cache.Update L c now key value) ch =
      inboxOf c ch ++ [ev1, ev2] ∧ ev1.op = Op.Read ∧ ev2.op = Op.Write := by
  have hgcid : (Cache.GC L c now).1 = c := (gc_ok L c now hL hc).id_noexp hne
  have hCSeq : Cache.Contains L (Cache.GC L c now).1 now key =
      Cache.Contains L c now key := by rw [hgcid]
  have hhit := getC_hit L c now key true id hL hc hlook
    (hne (key, id) (alookup_mem hlook))
  have hb : (Cache.Contains L (Cache.GC L c now).1 now key).2 = true := by
    rw [hCSeq]
    exact hhit.1
  have hlook2 : alookup
      (Cache.Contains L (Cache.GC L c now).1 now key).1.entries key =
      some id := by
    rw [hCSeq]
    exact hhit.2.2.1
  obtain ⟨v0, e0, ok0, hemit⟩ := contains_emit L c now key hL hc hne
  have hemit2 : (Cache.Contains L (Cache.GC L c now).1 now key).1 =
      emit c .Read key v0 e0 ok0 := by
    rw [hCSeq]
    exact hemit
  have hcl : Cache.Update L c now key value =
      (if (Cache.Contains L (Cache.GC L c now).1 now key).2 = true then
        match alookup (Cache.Contains L (Cache.GC L c now).1 now key).1.entries
            key with
        | some id =>
          emit { (Cache.Contains L (Cache.GC L c now).1 now key).1 with
                 estore := aupd
                   (Cache.Contains L (Cache.GC L c now).1 now key).1.estore
                   id fun e => { e with value := value } }
            .Write key value
            (({ (Cache.Contains L (Cache.GC L c now).1 now key).1 with
                estore := aupd
                  (Cache.Contains L (Cache.GC L c now).1 now key).1.estore
                  id fun e => { e with value := value } } : Cache).ent id).exp
            false
        | none => (Cache.Contains L (Cache.GC L c now).1 now key).1
       else (Cache.Contains L (Cache.GC L c now).1 now key).1) := rfl
  rw [hcl, if_pos hb, hlook2]
  have hfC2 : (({ (Cache.Contains L (Cache.GC L c now).1 now key).1 with
      estore := aupd
        (Cache.Contains L (Cache.GC L c now).1 now key).1.estore
        id fun e => { e with value := value } } : Cache)).subs.find?
      (fun s => s.ch = ch) = some { s with inbox := s.inbox ++
        [(⟨Op.Read, key, v0, e0, ok0⟩ : Event)] } := by
    show (Cache.Contains L (Cache.GC L c now).1 now key).1.subs.find?
      (fun s => s.ch = ch) = _
    rw [hemit2, emit_find, hf]
    show some (if s.h.want .Read then
      { s with inbox := s.inbox ++
        [(⟨Op.Read, key, v0, e0, ok0⟩ : Event)] } else s) = _
    rw [if_pos hwR]
  refine ⟨⟨Op.Read, key, v0, e0, ok0⟩,
    ⟨Op.Write, key, value,
      (({ (Cache.Contains L (Cache.GC L c now).1 now key).1 with
        estore := aupd
          (Cache.Contains L (Cache.GC L c now).1 now key).1.estore
          id fun e => { e with value := value } } : Cache).ent id).exp,
      false⟩, ?_, rfl, rfl⟩
  rw [emit_inbox_want _ _ _ _ _ hfC2 hwW]
  have hic : inboxOf ({ (Cache.Contains L (Cache.GC L c now).1 now key).1 with
      estore := aupd
        (Cache.Contains L (Cache.GC L c now).1 now key).1.estore
        id fun e => { e with value := value } } : Cache) ch =
      inboxOf c ch ++ [(⟨Op.Read, key, v0, e0, ok0⟩ : Event)] := by
    show inboxOf (Cache.Contains L (Cache.GC L c now).1 now key).1 ch = _
    rw [hemit2]
    exact emit_inbox_want _ _ _ _ _ hf hwR
  rw [hic, List.append_assoc]
  rfl

/-! ## The claims -/

/-- C1 (corrected):  in `StoreWithTTL` the admission check
`c.capacity != 0 && c.Len() >= c.capacity` reads the *collection's* length,
which at that point does not yet include the new entry, while the entry
index already does.  So with a nonzero capacity the `Discard()` call happens
iff `|index| ≥ capacity + 1` at that point — not iff `|index| ≥ capacity` as
the spec says — and the newly stored key always survives. -/
theorem C1_admission_guard (L : Collection) (c : Cache) (now : Int)
    (key : GoKey) (value : GoVal) (ttl : Int) (hL : LawfulColl L)
    (hc : EngineInv c) (hnow : 0 ≤ now) :
    (storeAdmits (storeMid L c now key value ttl).1 ↔
      (c.capacity ≠ 0 ∧
        ((storeMid L c now key value ttl).1.entries.length : Int) ≥
          c.capacity + 1)) ∧
    key ∈ (Cache.StoreWithTTL L c now key value ttl).Keys := by
  have hm := storeMid_ok L c now key value ttl hL hc hnow
  obtain ⟨-, -, -, hkey, -, -, -, -, -, -, -, -⟩ :=
    store_ok L c now key value ttl hL hc hnow
  refine ⟨?_, hkey⟩
  have hl : ((storeMid L c now key value ttl).1.entries.length : Int) =
      ((storeMid L c now key value ttl).1.coll.length : Int) + 1 := by
    exact_mod_cast hm.len_coll
  unfold storeAdmits
  rw [hm.cap_eq]
  constructor
  · rintro ⟨h1, h2⟩
    exact ⟨h1, by omega⟩
  · rintro ⟨h1, h2⟩
    exact ⟨h1, by omega⟩

/-- C1, the counterexample to the spec's wording: storing a fresh key into a
capacity-2 engine holding one resident entry reaches the admission point
with `|index| = 2 ≥ capacity`, yet the code's guard is false — no entry is
discarded, no `REMOVE` is emitted, and both keys remain resident. -/
theorem C1_counterexample :
    (storeMid lru (Cache.StoreWithTTL lru (Cache.New 2) 0 (some 1) (some 1) 0)
        0 (some 2) (some 2) 0).1.capacity ≠ 0 ∧
    ((storeMid lru (Cache.StoreWithTTL lru (Cache.New 2) 0 (some 1) (some 1)
        0) 0 (some 2) (some 2) 0).1.entries.length : Int) ≥
      (storeMid lru (Cache.StoreWithTTL lru (Cache.New 2) 0 (some 1) (some 1)
        0) 0 (some 2) (some 2) 0).1.capacity ∧
    ¬storeAdmits (storeMid lru (Cache.StoreWithTTL lru (Cache.New 2) 0
      (some 1) (some 1) 0) 0 (some 2) (some 2) 0).1 ∧
    (Cache.StoreWithTTL lru (Cache.StoreWithTTL lru (Cache.New 2) 0 (some 1)
      (some 1) 0) 0 (some 2) (some 2) 0).trace.map Event.op =
      [Op.Write, Op.Write] ∧
    (Cache.StoreWithTTL lru (Cache.StoreWithTTL lru (Cache.New 2) 0 (some 1)
      (some 1) 0) 0 (some 2) (some 2) 0).Keys = [some 1, some 2] := by
  decide

/-- C2 (corrected): only the entry points that run the lazy GC — the read
path, `Front`/`Back`, `GC` itself, the store path and `Update` — observe a
state purged of expired entries.  (`Keys`, `Len`, `Delete`, `Discard` do
not run GC; see the counterexample.) -/
theorem C2_gc_observation (L : Collection) (hL : LawfulColl L) {c : Cache}
    (hr : Reach L c) (now : Int) (key : GoKey) (value : GoVal) (ttl : Int)
    (hnow : 0 ≤ now) :
    noExpired (Cache.Load L c now key).1 now ∧
    noExpired (Cache.Peek L c now key).1 now ∧
    noExpired (Cache.Contains L c now key).1 now ∧
    noExpired (Cache.Expiry L c now key).1 now ∧
    noExpired (Cache.Front L c now).1 now ∧
    noExpired (Cache.Back L c now).1 now ∧
    noExpired (Cache.GC L c now).1 now ∧
    noExpired (Cache.StoreWithTTL L c now key value ttl) now ∧
    noExpired (Cache.Update L c now key value) now := by
  have hc := (reach_inv L hL hr).1
  obtain ⟨-, h1, -⟩ := getC_ok L c now key false hL hc
  obtain ⟨-, h2, -⟩ := getC_ok L c now key true hL hc
  obtain ⟨-, h3, -, -, -⟩ := contains_ok L c now key hL hc
  obtain ⟨-, h5⟩ := front_ok L c now hL hc
  obtain ⟨-, h6⟩ := back_ok L c now hL hc
  have h7 := (gc_ok L c now hL hc).ne
  obtain ⟨-, h8, -⟩ := store_ok L c now key value ttl hL hc hnow
  obtain ⟨-, h9⟩ := update_ok L c now key value hL hc
  refine ⟨h1, h2, h3, ?_, h5, h6, h7, h8, h9⟩
  rw [expiry_state]
  exact h3

/-- C2, the counterexample: a reachable engine holding an entry that expired
at instant 5 still enumerates it through `Keys` and counts it through `Len`
at instant 10 — neither operation runs GC, so the expired entry is
observed. -/
theorem C2_counterexample :
    Reach lru (Cache.StoreWithTTL lru (Cache.New 0) 0 (some 1) (some 1) 5) ∧
    (Cache.StoreWithTTL lru (Cache.New 0) 0 (some 1) (some 1) 5).Keys =
      [some 1] ∧
    (Cache.StoreWithTTL lru (Cache.New 0) 0 (some 1) (some 1) 5).Len = 1 ∧
    ¬noExpired (Cache.StoreWithTTL lru (Cache.New 0) 0 (some 1) (some 1) 5)
      10 :=
  ⟨Reach.storeTTL 0 (some 1) (some 1) 5 (le_refl 0) (Reach.new 0),
   by decide, by decide, by
    intro h
    exact absurd (h (some 1, 0) (by decide)) (by decide)⟩

/-- C3 (confirmed): in every reachable state each heap-resident entry's
`index` back pointer equals its slot; the interior-removal helper's guard is
exactly "heap non-empty, `index` in range, and the slot at `index` holds the
same key"; with the guard false the heap is untouched, and on a resident
entry the removal takes the slot at the stored index out of the heap (the
removed id is no longer in the heap, which is the old heap minus that id up
to the re-sift ordering). -/
theorem C3_heap_index (L : Collection) (hL : LawfulColl L) {c : Cache}
    (hr : Reach L c) :
    (∀ t, t < c.heap.length → (c.ent (c.hid t)).index = t) ∧
    (∀ e : Entry, heapHasEntry c e ↔
      (0 < c.heap.length ∧ e.index < c.heap.length ∧
        e.key = (c.ent (c.hid e.index)).key)) ∧
    (∀ id, ¬heapHasEntry c (c.ent id) →
      (removeEntryC L c id).heap = c.heap) ∧
    (∀ key id, alookup c.entries key = some id →
      List.Perm (removeEntryC L c id).heap (c.heap.erase id) ∧
      id ∉ (removeEntryC L c id).heap) := by
  have hc := (reach_inv L hL hr).1
  refine ⟨hc.idx, fun e => Iff.rfl,
    fun id h => removeEntry_heap_frame L c id h, ?_⟩
  intro key id hlook
  have hrem := removeEntryC_ok L c key id (engineInv_core hc id) hlook
  refine ⟨hrem.heap_perm, ?_⟩
  intro hmem
  have h1 : id ∈ c.heap.erase id := hrem.heap_perm.mem_iff.1 hmem
  have h2 := (List.Nodup.mem_erase_iff hc.heapND).1 h1
  exact h2.1 rfl

/-- C4 (corrected): over `Load`, `Store`, `StoreWithTTL`, `Update`, `Delete`
and `Purge` from a positive-capacity `New`, the four ARC lists have pairwise
disjoint key sets, `|T1| + |T2| ≤ C`, `|B1| ≤ C` and `|B2| ≤ C`.  `Resize`
breaks the resident bound (see the counterexample), so the spec's "any
operation" must exclude it. -/
theorem C4_arc_bounds {a : Arc} (hr : ReachArc a) :
    (∀ k ∈ a.t1.Keys, k ∉ a.t2.Keys) ∧
    (∀ k ∈ a.t1.Keys, k ∉ a.b1.Keys) ∧
    (∀ k ∈ a.t1.Keys, k ∉ a.b2.Keys) ∧
    (∀ k ∈ a.t2.Keys, k ∉ a.b1.Keys) ∧
    (∀ k ∈ a.t2.Keys, k ∉ a.b2.Keys) ∧
    (∀ k ∈ a.b1.Keys, k ∉ a.b2.Keys) ∧
    (a.t1.Len : Int) + a.t2.Len ≤ Arc.Cap a ∧
    (a.b1.Len : Int) ≤ Arc.Cap a ∧
    (a.b2.Len : Int) ≤ Arc.Cap a := by
  have h := reachArc_inv hr
  refine ⟨h.d12, h.d13, h.d14, h.d23, h.d24, h.d34, h.sumle, ?_, ?_⟩
  · have hb := h.a3 (by rw [h.ceq3]; exact h.cpos)
    rw [h.ceq3] at hb
    exact hb
  · have hb := h.a4 (by rw [h.ceq4]; exact h.cpos)
    rw [h.ceq4] at hb
    exact hb

/-- C4, the counterexample for `Resize`: shrinking the shared capacity to 1
resizes each sub-cache separately, so a state with `|T1| = |T2| = 1`
keeps both entries and ends with `|T1| + |T2| = 2 > 1 = C`. -/
theorem C4_counterexample :
    ReachArc (Arc.Load (Arc.Store (Arc.Store (Arc.New 2) 0 (some 1) (some 1))
      0 (some 2) (some 2)) 0 (some 1)).1 ∧
    ((Arc.Resize (Arc.Load (Arc.Store (Arc.Store (Arc.New 2) 0 (some 1)
        (some 1)) 0 (some 2) (some 2)) 0 (some 1)).1 1).1.t1.Len : Int) +
      ((Arc.Resize (Arc.Load (Arc.Store (Arc.Store (Arc.New 2) 0 (some 1)
        (some 1)) 0 (some 2) (some 2)) 0 (some 1)).1 1).1.t2.Len : Int) >
      Arc.Cap (Arc.Resize (Arc.Load (Arc.Store (Arc.Store (Arc.New 2) 0
        (some 1) (some 1)) 0 (some 2) (some 2)) 0 (some 1)).1 1).1 :=
  ⟨ReachArc.load 0 (some 1) (le_refl 0)
    (ReachArc.store 0 (some 2) (some 2) (le_refl 0)
      (ReachArc.store 0 (some 1) (some 1) (le_refl 0)
        (ReachArc.new 2 (by omega)))),
   by decide⟩

/-- C5 (confirmed): in every reachable state with a positive capacity the
entry index is bounded by the capacity, and with capacity 0 the admission
guard of the store path can never fire, so a store never discards. -/
theorem C5_capacity_bound (L : Collection) (hL : LawfulColl L) {c : Cache}
    (hr : Reach L c) :
    (0 < c.capacity → (c.entries.length : Int) ≤ c.capacity) ∧
    (∀ now key value ttl, 0 ≤ now → c.capacity = 0 →
      ¬storeAdmits (storeMid L c now key value ttl).1) := by
  obtain ⟨hc, hat⟩ := reach_inv L hL hr
  constructor
  · intro hpos
    have h1 := hat hpos
    have h2 : c.coll.length = c.entries.length := inv_len_eq hc.collP
    have h3 : (c.Len : Int) = (c.entries.length : Int) := by
      unfold Cache.Len
      exact_mod_cast h2
    omega
  · intro now key value ttl hnow hcap0
    have hm := storeMid_ok L c now key value ttl hL hc hnow
    intro hadm
    have h1 := hadm.1
    rw [hm.cap_eq, hcap0] at h1
    exact h1 rfl

/-- C6 (confirmed): `GC` pops and evicts, emitting one `REMOVE` per evicted
entry, exactly the entries whose expiration is not after `now`; it returns 0
iff the heap ends empty, and otherwise the time to the earliest remaining
expiration; a second `GC` before that duration elapses changes nothing. -/
theorem C6_gc_spec (L : Collection) (c : Cache) (now : Int)
    (hL : LawfulColl L) (hc : EngineInv c) :
    noExpired (Cache.GC L c now).1 now ∧
    (∀ p ∈ (Cache.GC L c now).1.entries, p ∈ c.entries) ∧
    (∀ p ∈ c.entries, ((c.ent p.2).exp = 0 ∨ now < (c.ent p.2).exp) →
      p ∈ (Cache.GC L c now).1.entries) ∧
    (∃ t, (Cache.GC L c now).1.trace = c.trace ++ t ∧
      (∀ ev ∈ t, ev.op = Op.Remove) ∧
      t.length + (Cache.GC L c now).1.entries.length = c.entries.length) ∧
    ((Cache.GC L c now).1.heap = [] ↔ (Cache.GC L c now).2 = 0) ∧
    ((Cache.GC L c now).1.heap ≠ [] →
      (Cache.GC L c now).2 = (Cache.GC L c now).1.expAt 0 - now ∧
      now < (Cache.GC L c now).1.expAt 0) ∧
    (∀ now2, now2 < now + (Cache.GC L c now).2 →
      (Cache.GC L (Cache.GC L c now).1 now2).1 = (Cache.GC L c now).1) := by
  have hg := gc_ok L c now hL hc
  refine ⟨hg.ne, hg.entries_sub, hg.keep, hg.trace_ext,
    ⟨hg.empty_ret, hg.ret_empty⟩, hg.ret_pos, ?_⟩
  intro now2 h2
  by_cases hheap : (Cache.GC L c now).1.heap = []
  · rw [gc_empty L (Cache.GC L c now).1 now2 hheap]
  · obtain ⟨hret, hlt⟩ := hg.ret_pos hheap
    have hlt2 : now2 < (Cache.GC L c now).1.expAt 0 := by omega
    rw [gc_wait L (Cache.GC L c now).1 now2 hheap hlt2]

/-- C7 (confirmed): for an unexpired key resident in T1, `Load` deletes it
from T1 silently and re-inserts it into T2 with the same value and the same
expiration instant (the same remaining TTL), returning the value with a hit;
for an unexpired key resident in T2, `Load` delegates to T2 and the key
stays there. -/
theorem C7_load_promotion {a : Arc} (hr : ReachArc a) (now : Int)
    (hnow : 0 ≤ now) (key : GoKey) :
    (∀ id, alookup a.t1.entries key = some id →
      ((a.t1.ent id).exp = 0 ∨ now < (a.t1.ent id).exp) →
      (Arc.Load a now key).2 = ((a.t1.ent id).value, true) ∧
      key ∉ (Arc.Load a now key).1.t1.Keys ∧
      key ∈ (Arc.Load a now key).1.t2.Keys ∧
      (∃ id2, alookup (Arc.Load a now key).1.t2.entries key = some id2 ∧
        ((Arc.Load a now key).1.t2.ent id2).value = (a.t1.ent id).value ∧
        ((Arc.Load a now key).1.t2.ent id2).exp = (a.t1.ent id).exp)) ∧
    (∀ id, alookup a.t2.entries key = some id →
      ((a.t2.ent id).exp = 0 ∨ now < (a.t2.ent id).exp) →
      (Arc.Load a now key).2 = ((a.t2.ent id).value, true) ∧
      key ∉ (Arc.Load a now key).1.t1.Keys ∧
      key ∈ (Arc.Load a now key).1.t2.Keys) := by
  have h := reachArc_inv hr
  have h0 : Arc.Load a now key =
      (if (Cache.Peek lru a.t1 now key).2.2 = true then
        (({ a with
            t1 := (Cache.DelSilently lru
              (Cache.Expiry lru (Cache.Peek lru a.t1 now key).1 now key).1 key),
            t2 := (Cache.StoreWithTTL lru a.t2 now key
              (Cache.Peek lru a.t1 now key).2.1
              ((Cache.Expiry lru (Cache.Peek lru a.t1 now key).1 now
                key).2.1 - now)) } : Arc),
         ((Cache.Peek lru a.t1 now key).2.1, true))
       else
        (({ a with
            t1 := (Cache.Peek lru a.t1 now key).1,
            t2 := (Cache.Load lru a.t2 now key).1 } : Arc),
         (Cache.Load lru a.t2 now key).2)) := rfl
  obtain ⟨hrok1, hne1, hsome1, hnone1, -⟩ :=
    peek_ok lru a.t1 now key lru_lawful h.i1
  constructor
  · intro id hlook hexp
    have hhit := getC_hit lru a.t1 now key true id lru_lawful h.i1 hlook hexp
    have hb : (Cache.Peek lru a.t1 now key).2.2 = true := hhit.1
    have hvP : (Cache.Peek lru a.t1 now key).2.1 = (a.t1.ent id).value :=
      hhit.2.1
    have hlookP : alookup (Cache.Peek lru a.t1 now key).1.entries key =
        some id := hhit.2.2.1
    have hprjP : ∀ x,
        ((Cache.Peek lru a.t1 now key).1.ent x).key = (a.t1.ent x).key ∧
        ((Cache.Peek lru a.t1 now key).1.ent x).value = (a.t1.ent x).value ∧
        ((Cache.Peek lru a.t1 now key).1.ent x).exp = (a.t1.ent x).exp :=
      hhit.2.2.2
    have h1 : (Arc.Load a now key).1 =
        { a with
          t1 := (Cache.DelSilently lru
            (Cache.Expiry lru (Cache.Peek lru a.t1 now key).1 now key).1 key),
          t2 := (Cache.StoreWithTTL lru a.t2 now key
            (Cache.Peek lru a.t1 now key).2.1
            ((Cache.Expiry lru (Cache.Peek lru a.t1 now key).1 now
              key).2.1 - now)) } := by
      rw [h0, if_pos hb]
    have h2 : (Arc.Load a now key).2 =
        ((Cache.Peek lru a.t1 now key).2.1, true) := by
      rw [h0, if_pos hb]
    have hexpP : ((Cache.Peek lru a.t1 now key).1.ent id).exp = 0 ∨
        now < ((Cache.Peek lru a.t1 now key).1.ent id).exp := by
      rw [(hprjP id).2.2]
      exact hexp
    have hex := expiry_hit lru (Cache.Peek lru a.t1 now key).1 now key id
      lru_lawful hrok1.inv hlookP hexpP
    have hexval : (Cache.Expiry lru (Cache.Peek lru a.t1 now key).1 now
        key).2.1 = (a.t1.ent id).exp := hex.1.trans (hprjP id).2.2
    obtain ⟨hrok2, -, -, -, -⟩ :=
      contains_ok lru (Cache.Peek lru a.t1 now key).1 now key lru_lawful
        hrok1.inv
    have hcE : EngineInv
        (Cache.Expiry lru (Cache.Peek lru a.t1 now key).1 now key).1 := by
      rw [expiry_state]
      exact hrok2.inv
    obtain ⟨-, hdsnone, -, -, -, -⟩ :=
      delS_ok lru (Cache.Expiry lru (Cache.Peek lru a.t1 now key).1 now key).1
        key lru_lawful hcE
    obtain ⟨-, -, hid3, hkeym, -, -, -, -, -, -, -, -⟩ :=
      store_ok lru a.t2 now key (Cache.Peek lru a.t1 now key).2.1
        ((Cache.Expiry lru (Cache.Peek lru a.t1 now key).1 now key).2.1 - now)
        lru_lawful h.i2 hnow
    obtain ⟨id2, hl2, hv2, hep, hez⟩ := hid3
    refine ⟨?_, ?_, ?_, ⟨id2, ?_, ?_, ?_⟩⟩
    · rw [h2, hvP]
    · rw [h1]
      exact not_mem_keys_of_none hdsnone
    · rw [h1]
      exact hkeym
    · rw [h1]
      exact hl2
    · rw [h1, hv2, hvP]
    · rw [h1]
      cases hexp with
      | inl hz =>
        rw [hz]
        apply hez
        rw [hexval, hz]
        omega
      | inr hlt =>
        have he := hep (by rw [hexval]; omega)
        rw [he, hexval]
        ring
  · intro id hlook hexp
    have hk2mem : key ∈ a.t2.Keys := mem_fst_of_alookup hlook
    have hkt1 : key ∉ a.t1.Keys := fun hk => h.d12 key hk hk2mem
    have hb : (Cache.Peek lru a.t1 now key).2.2 = false := by
      cases hbv : (Cache.Peek lru a.t1 now key).2.2 with
      | false => rfl
      | true =>
        exact absurd (hrok1.keys_sub key (mem_keys_of_isSome (hsome1 hbv)))
          hkt1
    have hbn : ¬((Cache.Peek lru a.t1 now key).2.2 = true) := by
      rw [hb]
      exact Bool.false_ne_true
    have h1 : (Arc.Load a now key).1 =
        { a with
          t1 := (Cache.Peek lru a.t1 now key).1,
          t2 := (Cache.Load lru a.t2 now key).1 } := by
      rw [h0, if_neg hbn]
    have h2 : (Arc.Load a now key).2 = (Cache.Load lru a.t2 now key).2 := by
      rw [h0, if_neg hbn]
    have hhit2 := getC_hit lru a.t2 now key false id lru_lawful h.i2 hlook
      hexp
    have hbl : (Cache.Load lru a.t2 now key).2.2 = true := hhit2.1
    have hvl : (Cache.Load lru a.t2 now key).2.1 = (a.t2.ent id).value :=
      hhit2.2.1
    have hll : alookup (Cache.Load lru a.t2 now key).1.entries key =
        some id := hhit2.2.2.1
    refine ⟨?_, ?_, ?_⟩
    · rw [h2]
      have hpair : (Cache.Load lru a.t2 now key).2 =
          ((Cache.Load lru a.t2 now key).2.1,
           (Cache.Load lru a.t2 now key).2.2) := rfl
      rw [hpair, hvl, hbl]
    · rw [h1]
      exact hnone1 hb
    · rw [h1]
      apply mem_keys_of_isSome
      rw [hll]
      rfl

/-- C8 (confirmed): re-storing a key replaces its entry silently — after
`Store(k, v1); Store(k, v2)` exactly one entry for `k` remains, holding
`v2`; the collection length matches the single-store length, and the second
store appends exactly one `WRITE` event (no `REMOVE`). -/
theorem C8_restore (L : Collection) (hL : LawfulColl L) {c : Cache}
    (hr : Reach L c) (now : Int) (hnow : 0 ≤ now) (hcap : 0 ≤ c.capacity)
    (key : GoKey) (v1 v2 : GoVal) :
    (∃ id, alookup (Cache.Store L (Cache.Store L c now key v1) now key
        v2).entries key = some id ∧
      ((Cache.Store L (Cache.Store L c now key v1) now key v2).ent id).value =
        v2 ∧
      (∀ p ∈ (Cache.Store L (Cache.Store L c now key v1) now key v2).entries,
        p.1 = key → p = (key, id))) ∧
    (Cache.Store L (Cache.Store L c now key v1) now key v2).Len =
      (Cache.Store L c now key v1).Len ∧
    (∃ ev, (Cache.Store L (Cache.Store L c now key v1) now key v2).trace =
      (Cache.Store L c now key v1).trace ++ [ev] ∧ ev.op = Op.Write) := by
  obtain ⟨hc, hat⟩ := reach_inv L hL hr
  obtain ⟨hinv1, hne1, hid1, -, -, -, hcap1, -, -, hat1p, -, -⟩ :=
    store_ok L c now key v1 c.ttl hL hc hnow
  have hinv1c : EngineInv (Cache.Store L c now key v1) := hinv1
  have hne1c : noExpired (Cache.Store L c now key v1) now := hne1
  have hat1c : AtCap (Cache.Store L c now key v1) := hat1p hat
  have hcap1c : 0 ≤ (Cache.Store L c now key v1).capacity := by
    have hce : (Cache.Store L c now key v1).capacity = c.capacity := hcap1
    rw [hce]
    exact hcap
  have hpres : (alookup (Cache.Store L c now key v1).entries key).isSome := by
    obtain ⟨i1, hl1, -⟩ := hid1
    have hl1c : alookup (Cache.Store L c now key v1).entries key = some i1 :=
      hl1
    rw [hl1c]
    rfl
  obtain ⟨hinv2, -, hid2, hkey2, -, -, -, -, -, -, -, hfin2⟩ :=
    store_ok L (Cache.Store L c now key v1) now key v2
      (Cache.Store L c now key v1).ttl hL hinv1c hnow
  obtain ⟨htr, hlen⟩ := hfin2 hne1c hat1c hcap1c hpres
  obtain ⟨i2, hl2, hv2, -, -⟩ := hid2
  refine ⟨⟨i2, hl2, hv2, ?_⟩, hlen, htr⟩
  intro p hp hpk
  have hpe : p = (key, p.2) := by
    rw [← hpk]
  have hp2 : (key, p.2) ∈
      (Cache.Store L (Cache.Store L c now key v1) now key v2).entries :=
    hpe ▸ hp
  have := alookup_of_mem_nodup hinv2.keysND hp2
  have hji : p.2 = i2 := Option.some.inj (this.symm.trans hl2)
  rw [hji] at hpe
  exact hpe

/-- C9 (confirmed): on a state with no expired entries, `Peek` and `Update`
leave every future `Discard` sequence unchanged; `Update` keeps the entry
index, collection and heap identical and changes only the stored value of a
present key. -/
theorem C9_peek_update_frame (L : Collection) (hL : LawfulColl L) {c : Cache}
    (hr : Reach L c) (now : Int) (hne : noExpired c now) (key : GoKey)
    (value : GoVal) :
    (∀ n, discardKeys L (Cache.Peek L c now key).1 n = discardKeys L c n) ∧
    (∀ n, discardKeys L (Cache.Update L c now key value) n =
      discardKeys L c n) ∧
    (Cache.Update L c now key value).entries = c.entries ∧
    (Cache.Update L c now key value).coll = c.coll ∧
    (Cache.Update L c now key value).heap = c.heap ∧
    (∀ id, ((Cache.Update L c now key value).ent id).key = (c.ent id).key ∧
      ((Cache.Update L c now key value).ent id).exp = (c.ent id).exp) ∧
    (∀ id, alookup c.entries key = some id →
      ((Cache.Update L c now key value).ent id).value = value) := by
  have hc := (reach_inv L hL hr).1
  have hps := peek_skel L c now key hL hc hne
  obtain ⟨hus, huv⟩ := update_skel L c now key value hL hc hne
  exact ⟨fun n => discardKeys_congr L n hps,
    fun n => discardKeys_congr L n hus, hus.entries, hus.coll, hus.heap,
    fun id => ⟨(skel_ent hus id).1, (skel_ent hus id).2.1⟩, huv⟩

/-- C10 (implicit, confirmed): `Contains` and `Expiry` go through the peek
path and so offer one `READ` event to every subscriber whose mask includes
`READ`; `Update` on a present key delivers a `READ` (from its `Contains`)
followed by a `WRITE` to a subscriber wanting both. -/
theorem C10_query_events (L : Collection) (hL : LawfulColl L) {c : Cache}
    (hr : Reach L c) (now : Int) (hne : noExpired c now) (key : GoKey)
    (value : GoVal) (ch : Nat) (s : Sub)
    (hf : c.subs.find? (fun s => s.ch = ch) = some s)
    (hwR : s.h.want Op.Read = true) :
    (∃ ev, inboxOf (Cache.Contains L c now key).1 ch =
      inboxOf c ch ++ [ev] ∧ ev.op = Op.Read) ∧
    (∃ ev, inboxOf (Cache.Expiry L c now key).1 ch =
      inboxOf c ch ++ [ev] ∧ ev.op = Op.Read) ∧
    (∀ id, alookup c.entries key = some id → s.h.want Op.Write = true →
      ∃ ev1 ev2, inboxOf (Cache.Update L c now key value) ch =
        inboxOf c ch ++ [ev1, ev2] ∧ ev1.op = Op.Read ∧
        ev2.op = Op.Write) := by
  have hc := (reach_inv L hL hr).1
  obtain ⟨v0, e0, ok0, hemit⟩ := contains_emit L c now key hL hc hne
  refine ⟨⟨⟨Op.Read, key, v0, e0, ok0⟩, ?_, rfl⟩,
    ⟨⟨Op.Read, key, v0, e0, ok0⟩, ?_, rfl⟩, ?_⟩
  · rw [hemit]
    exact emit_inbox_want _ _ _ _ _ hf hwR
  · rw [expiry_state, hemit]
    exact emit_inbox_want _ _ _ _ _ hf hwR
  · intro id hlook hwW
    exact update_inbox L c now key value ch s hL hc hne id hlook hf hwR hwW

/-! ## Concrete instances of the claims -/

/-- C1 at a concrete input. -/
theorem C1_admission_guard_witness :
    (storeAdmits (storeMid lru (Cache.New 2) 0 (some 1) (some 1) 0).1 ↔
      ((Cache.New 2).capacity ≠ 0 ∧
        ((storeMid lru (Cache.New 2) 0 (some 1) (some 1) 0).1.entries.length :
          Int) ≥ (Cache.New 2).capacity + 1)) ∧
    some 1 ∈ (Cache.StoreWithTTL lru (Cache.New 2) 0 (some 1) (some 1)
      0).Keys :=
  C1_admission_guard lru (Cache.New 2) 0 (some 1) (some 1) 0 lru_lawful
    (reach_inv lru lru_lawful (Reach.new 2)).1 (le_refl 0)

/-- C2 at a concrete input. -/
theorem C2_gc_observation_witness :
    noExpired (Cache.Load lru (Cache.New 0) 0 none).1 0 ∧
    noExpired (Cache.Peek lru (Cache.New 0) 0 none).1 0 ∧
    noExpired (Cache.Contains lru (Cache.New 0) 0 none).1 0 ∧
    noExpired (Cache.Expiry lru (Cache.New 0) 0 none).1 0 ∧
    noExpired (Cache.Front lru (Cache.New 0) 0).1 0 ∧
    noExpired (Cache.Back lru (Cache.New 0) 0).1 0 ∧
    noExpired (Cache.GC lru (Cache.New 0) 0).1 0 ∧
    noExpired (Cache.StoreWithTTL lru (Cache.New 0) 0 none none 0) 0 ∧
    noExpired (Cache.Update lru (Cache.New 0) 0 none none) 0 :=
  C2_gc_observation lru lru_lawful (Reach.new 0) 0 none none 0 (le_refl 0)

/-- C3 at a concrete input. -/
theorem C3_heap_index_witness :
    (∀ t, t < (Cache.New 0).heap.length →
      ((Cache.New 0).ent ((Cache.New 0).hid t)).index = t) ∧
    (∀ e : Entry, heapHasEntry (Cache.New 0) e ↔
      (0 < (Cache.New 0).heap.length ∧
        e.index < (Cache.New 0).heap.length ∧
        e.key = ((Cache.New 0).ent ((Cache.New 0).hid e.index)).key)) ∧
    (∀ id, ¬heapHasEntry (Cache.New 0) ((Cache.New 0).ent id) →
      (removeEntryC lru (Cache.New 0) id).heap = (Cache.New 0).heap) ∧
    (∀ key id, alookup (Cache.New 0).entries key = some id →
      List.Perm (removeEntryC lru (Cache.New 0) id).heap
        ((Cache.New 0).heap.erase id) ∧
      id ∉ (removeEntryC lru (Cache.New 0) id).heap) :=
  C3_heap_index lru lru_lawful (Reach.new 0)

/-- C4 at a concrete input. -/
theorem C4_arc_bounds_witness :
    (∀ k ∈ (Arc.New 1).t1.Keys, k ∉ (Arc.New 1).t2.Keys) ∧
    (∀ k ∈ (Arc.New 1).t1.Keys, k ∉ (Arc.New 1).b1.Keys) ∧
    (∀ k ∈ (Arc.New 1).t1.Keys, k ∉ (Arc.New 1).b2.Keys) ∧
    (∀ k ∈ (Arc.New 1).t2.Keys, k ∉ (Arc.New 1).b1.Keys) ∧
    (∀ k ∈ (Arc.New 1).t2.Keys, k ∉ (Arc.New 1).b2.Keys) ∧
    (∀ k ∈ (Arc.New 1).b1.Keys, k ∉ (Arc.New 1).b2.Keys) ∧
    ((Arc.New 1).t1.Len : Int) + (Arc.New 1).t2.Len ≤ Arc.Cap (Arc.New 1) ∧
    ((Arc.New 1).b1.Len : Int) ≤ Arc.Cap (Arc.New 1) ∧
    ((Arc.New 1).b2.Len : Int) ≤ Arc.Cap (Arc.New 1) :=
  C4_arc_bounds (ReachArc.new 1 (by omega))

/-- C5 at a concrete input. -/
theorem C5_capacity_bound_witness :
    (0 < (Cache.New 1).capacity →
      ((Cache.New 1).entries.length : Int) ≤ (Cache.New 1).capacity) ∧
    (∀ now key value ttl, 0 ≤ now → (Cache.New 1).capacity = 0 →
      ¬storeAdmits (storeMid lru (Cache.New 1) now key value ttl).1) :=
  C5_capacity_bound lru lru_lawful (Reach.new 1)

/-- C6 at a concrete input. -/
theorem C6_gc_spec_witness :
    noExpired (Cache.GC lru (Cache.New 0) 0).1 0 ∧
    (∀ p ∈ (Cache.GC lru (Cache.New 0) 0).1.entries,
      p ∈ (Cache.New 0).entries) ∧
    (∀ p ∈ (Cache.New 0).entries,
      (((Cache.New 0).ent p.2).exp = 0 ∨ 0 < ((Cache.New 0).ent p.2).exp) →
      p ∈ (Cache.GC lru (Cache.New 0) 0).1.entries) ∧
    (∃ t, (Cache.GC lru (Cache.New 0) 0).1.trace =
        (Cache.New 0).trace ++ t ∧
      (∀ ev ∈ t, ev.op = Op.Remove) ∧
      t.length + (Cache.GC lru (Cache.New 0) 0).1.entries.length =
        (Cache.New 0).entries.length) ∧
    ((Cache.GC lru (Cache.New 0) 0).1.heap = [] ↔
      (Cache.GC lru (Cache.New 0) 0).2 = 0) ∧
    ((Cache.GC lru (Cache.New 0) 0).1.heap ≠ [] →
      (Cache.GC lru (Cache.New 0) 0).2 =
        (Cache.GC lru (Cache.New 0) 0).1.expAt 0 - 0 ∧
      0 < (Cache.GC lru (Cache.New 0) 0).1.expAt 0) ∧
    (∀ now2, now2 < 0 + (Cache.GC lru (Cache.New 0) 0).2 →
      (Cache.GC lru (Cache.GC lru (Cache.New 0) 0).1 now2).1 =
        (Cache.GC lru (Cache.New 0) 0).1) :=
  C6_gc_spec lru (Cache.New 0) 0 lru_lawful
    (reach_inv lru lru_lawful (Reach.new 0)).1

/-- C7 at a concrete input: key 1 sits in T1 of a capacity-2 ARC; loading it
promotes it to T2 and returns its value with a hit. -/
theorem C7_load_promotion_witness :
    (Arc.Load (Arc.Store (Arc.New 2) 0 (some 1) (some 1)) 0 (some 1)).2 =
      (some 1, true) ∧
    some 1 ∉ (Arc.Load (Arc.Store (Arc.New 2) 0 (some 1) (some 1)) 0
      (some 1)).1.t1.Keys ∧
    some 1 ∈ (Arc.Load (Arc.Store (Arc.New 2) 0 (some 1) (some 1)) 0
      (some 1)).1.t2.Keys := by
  have h := (C7_load_promotion
    (ReachArc.store 0 (some 1) (some 1) (le_refl 0)
      (ReachArc.new 2 (by omega))) 0 (le_refl 0) (some 1)).1
  obtain ⟨h1, h2, h3, -⟩ := h 0 (by decide) (by decide)
  refine ⟨?_, h2, h3⟩
  rw [h1]
  decide

/-- C8 at a concrete input. -/
theorem C8_restore_witness :
    (∃ id, alookup (Cache.Store lru (Cache.Store lru (Cache.New 0) 0 (some 1)
        (some 1)) 0 (some 1) (some 2)).entries (some 1) = some id ∧
      ((Cache.Store lru (Cache.Store lru (Cache.New 0) 0 (some 1) (some 1)) 0
        (some 1) (some 2)).ent id).value = some 2 ∧
      (∀ p ∈ (Cache.Store lru (Cache.Store lru (Cache.New 0) 0 (some 1)
          (some 1)) 0 (some 1) (some 2)).entries,
        p.1 = some 1 → p = (some 1, id))) ∧
    (Cache.Store lru (Cache.Store lru (Cache.New 0) 0 (some 1) (some 1)) 0
      (some 1) (some 2)).Len =
      (Cache.Store lru (Cache.New 0) 0 (some 1) (some 1)).Len ∧
    (∃ ev, (Cache.Store lru (Cache.Store lru (Cache.New 0) 0 (some 1)
        (some 1)) 0 (some 1) (some 2)).trace =
      (Cache.Store lru (Cache.New 0) 0 (some 1) (some 1)).trace ++ [ev] ∧
      ev.op = Op.Write) :=
  C8_restore lru lru_lawful (Reach.new 0) 0 (le_refl 0) (by decide) (some 1)
    (some 1) (some 2)

/-- C9 at a concrete input. -/
theorem C9_peek_update_frame_witness :
    (∀ n, discardKeys lru (Cache.Peek lru (Cache.New 0) 0 none).1 n =
      discardKeys lru (Cache.New 0) n) ∧
    (∀ n, discardKeys lru (Cache.Update lru (Cache.New 0) 0 none none) n =
      discardKeys lru (Cache.New 0) n) ∧
    (Cache.Update lru (Cache.New 0) 0 none none).entries =
      (Cache.New 0).entries ∧
    (Cache.Update lru (Cache.New 0) 0 none none).coll = (Cache.New 0).coll ∧
    (Cache.Update lru (Cache.New 0) 0 none none).heap = (Cache.New 0).heap ∧
    (∀ id, ((Cache.Update lru (Cache.New 0) 0 none none).ent id).key =
        ((Cache.New 0).ent id).key ∧
      ((Cache.Update lru (Cache.New 0) 0 none none).ent id).exp =
        ((Cache.New 0).ent id).exp) ∧
    (∀ id, alookup (Cache.New 0).entries none = some id →
      ((Cache.Update lru (Cache.New 0) 0 none none).ent id).value = none) :=
  C9_peek_update_frame lru lru_lawful (Reach.new 0) 0
    (fun p hp => absurd hp (List.not_mem_nil p)) none none

/-- C10 at a concrete input: one subscriber on channel 5 wanting every
operation. -/
theorem C10_query_events_witness :
    (∃ ev, inboxOf (Cache.Contains lru (Cache.Notify (Cache.New 0) 5 []) 0
        none).1 5 =
      inboxOf (Cache.Notify (Cache.New 0) 5 []) 5 ++ [ev] ∧
      ev.op = Op.Read) ∧
    (∃ ev, inboxOf (Cache.Expiry lru (Cache.Notify (Cache.New 0) 5 []) 0
        none).1 5 =
      inboxOf (Cache.Notify (Cache.New 0) 5 []) 5 ++ [ev] ∧
      ev.op = Op.Read) ∧
    (∀ id, alookup (Cache.Notify (Cache.New 0) 5 []).entries none = some id →
      (⟨5, ⟨30⟩, []⟩ : Sub).h.want Op.Write = true →
      ∃ ev1 ev2, inboxOf (Cache.Update lru (Cache.Notify (Cache.New 0) 5 [])
          0 none none) 5 =
        inboxOf (Cache.Notify (Cache.New 0) 5 []) 5 ++ [ev1, ev2] ∧
        ev1.op = Op.Read ∧ ev2.op = Op.Write) :=
  C10_query_events lru lru_lawful (Reach.notify 5 [] (Reach.new 0)) 0
    (fun p hp => absurd hp (List.not_mem_nil p)) none none 5 ⟨5, ⟨30⟩, []⟩
    (by decide) (by decide)

end Libcache
